import Mathlib

/-!
Verification of the interval abstract-interpretation engine and the
BDD-backed query engine facade of the XLS mid-end analysis core.

Bit vectors (`Bits`) are represented as natural numbers together with an
ambient bit width `w`; all arithmetic is performed modulo `2 ^ w` where the
source wraps.  Ternary vectors are lists of `TernaryValue`, least-significant
bit first, matching the indexing convention of the source.
-/

set_option maxHeartbeats 1000000
set_option maxRecDepth 8000

namespace xls

/-- Ternary value: per-bit three-valued logic (known-0, known-1, unknown). -/
inductive TernaryValue where
  | kKnownZero
  | kKnownOne
  | kUnknown
deriving DecidableEq, Repr

/-- A closed interval of bit-vector values of some ambient width.  The
interval is proper when `lowerBound ≤ upperBound`; an improper interval
denotes the wraparound set `[lowerBound, 2^w-1] ∪ [0, upperBound]`. -/
structure Interval where
  lowerBound : Nat
  upperBound : Nat
deriving DecidableEq, Repr

/-- Membership of a concrete value in an interval, with improper
(wraparound) intervals denoting `[lo, max] ∪ [0, hi]`. -/
def Interval.Covers (i : Interval) (v : Nat) : Bool :=
  if i.lowerBound ≤ i.upperBound then
    decide (i.lowerBound ≤ v) && decide (v ≤ i.upperBound)
  else
    decide (i.lowerBound ≤ v) || decide (v ≤ i.upperBound)

/-- An interval is precise when it contains exactly one value. -/
def Interval.IsPrecise (i : Interval) : Bool :=
  i.lowerBound == i.upperBound

/-- A set of intervals over a fixed bit width. -/
structure IntervalSet where
  bitCount : Nat
  intervals : List Interval
deriving DecidableEq, Repr

/-- Membership of a concrete value in an interval set. -/
def IntervalSet.Covers (s : IntervalSet) (v : Nat) : Bool :=
  s.intervals.any (fun i => i.Covers v)

/-- Well-formedness: every interval bound fits in the ambient width. -/
def IntervalSet.WF (s : IntervalSet) : Prop :=
  ∀ i ∈ s.intervals, i.lowerBound < 2 ^ s.bitCount ∧ i.upperBound < 2 ^ s.bitCount

/-- Modelled from the spec: normalized form has intervals sorted ascending,
non-adjacent and non-overlapping (so each interval is proper and successive
intervals are separated by a gap of at least one value). -/
def chainNormalized : List Interval → Bool
  | [] => true
  | [_] => true
  | a :: b :: rest =>
      decide (a.upperBound + 1 < b.lowerBound) && chainNormalized (b :: rest)

/-- Modelled from the spec: an interval set is normalized when each interval
is proper and the intervals are sorted, non-overlapping and non-adjacent. -/
def IntervalSet.IsNormalized (s : IntervalSet) : Bool :=
  s.intervals.all (fun i => decide (i.lowerBound ≤ i.upperBound)) &&
    chainNormalized s.intervals

/-- Split an improper (wraparound) interval into its two proper halves. -/
def splitImproper (w : Nat) (i : Interval) : List Interval :=
  if i.lowerBound ≤ i.upperBound then [i]
  else [⟨i.lowerBound, 2 ^ w - 1⟩, ⟨0, i.upperBound⟩]

/-- Lexicographic order used to sort intervals (by lower bound, then upper). -/
def intervalLexLe (a b : Interval) : Bool :=
  decide (a.lowerBound < b.lowerBound) ||
    (decide (a.lowerBound = b.lowerBound) && decide (a.upperBound ≤ b.upperBound))

/-- Insertion step of the interval sort. -/
def insertInterval (i : Interval) : List Interval → List Interval
  | [] => [i]
  | j :: rest =>
      if intervalLexLe i j then i :: j :: rest else j :: insertInterval i rest

/-- Insertion sort of intervals by the lexicographic bound order. -/
def sortIntervals (l : List Interval) : List Interval :=
  l.foldr insertInterval []

/-- Merge a sorted list of proper intervals, fusing overlapping or abutting
neighbours. -/
def mergeSorted : List Interval → List Interval
  | [] => []
  | [i] => [i]
  | a :: b :: rest =>
      if b.lowerBound ≤ a.upperBound + 1 then
        mergeSorted (⟨a.lowerBound, max a.upperBound b.upperBound⟩ :: rest)
      else
        a :: mergeSorted (b :: rest)
termination_by l => l.length

/-- Modelled from the spec: `IntervalSet::Normalize` splits improper
intervals, sorts, and fuses overlapping or adjacent intervals, preserving the
covered set of values. -/
def IntervalSet.Normalize (s : IntervalSet) : IntervalSet :=
  ⟨s.bitCount, mergeSorted (sortIntervals (s.intervals.flatMap (splitImproper s.bitCount)))⟩

/-- The interval set containing exactly one value. -/
def IntervalSet.PreciseIS (w v : Nat) : IntervalSet := ⟨w, [⟨v, v⟩]⟩

/-- The interval set containing every `w`-bit value. -/
def IntervalSet.Maximal (w : Nat) : IntervalSet := ⟨w, [⟨0, 2 ^ w - 1⟩]⟩

/-- An interval set is precise when it consists of a single one-point
interval. -/
def IntervalSet.IsPrecise (s : IntervalSet) : Bool :=
  match s.intervals with
  | [i] => i.lowerBound == i.upperBound
  | _ => false

/-- The single value of a precise interval set. -/
def IntervalSet.GetPreciseValue (s : IntervalSet) : Option Nat :=
  match s.intervals with
  | [i] => if i.lowerBound = i.upperBound then some i.lowerBound else none
  | _ => none

/-- Number of intervals in the set. -/
def IntervalSet.NumberOfIntervals (s : IntervalSet) : Nat := s.intervals.length

/-- Append an interval to the set (normalization is performed separately,
as in the source). -/
def IntervalSet.AddInterval (s : IntervalSet) (i : Interval) : IntervalSet :=
  ⟨s.bitCount, s.intervals ++ [i]⟩

/-- Adjacent-pair ordering of interval lower bounds. -/
def chainLoLe : List Interval → Bool
  | [] => true
  | [_] => true
  | a :: b :: rest => decide (a.lowerBound ≤ b.lowerBound) && chainLoLe (b :: rest)

theorem Interval.covers_true_iff (i : Interval) (v : Nat) :
    i.Covers v = true ↔
      (if i.lowerBound ≤ i.upperBound then i.lowerBound ≤ v ∧ v ≤ i.upperBound
       else i.lowerBound ≤ v ∨ v ≤ i.upperBound) := by
  unfold Interval.Covers
  split <;> simp

theorem Interval.covers_proper_iff (i : Interval) (v : Nat)
    (h : i.lowerBound ≤ i.upperBound) :
    i.Covers v = true ↔ i.lowerBound ≤ v ∧ v ≤ i.upperBound := by
  rw [Interval.covers_true_iff, if_pos h]

theorem IntervalSet.covers_iff (s : IntervalSet) (v : Nat) :
    s.Covers v = true ↔ ∃ i ∈ s.intervals, i.Covers v = true := by
  unfold IntervalSet.Covers
  simp [List.any_eq_true]

theorem splitImproper_covers (w : Nat) (i : Interval) (v : Nat)
    (hv : v < 2 ^ w) (hl : i.lowerBound < 2 ^ w) :
    (splitImproper w i).any (fun j => j.Covers v) = i.Covers v := by
  unfold splitImproper
  split
  · simp
  · rename_i h
    simp only [List.any_cons, List.any_nil, Bool.or_false]
    simp only [Interval.Covers]
    rw [if_pos (by omega), if_pos (by omega), if_neg h]
    rw [Bool.eq_iff_iff]
    simp only [Bool.or_eq_true, Bool.and_eq_true, decide_eq_true_eq]
    omega

theorem flatMap_splitImproper_covers (w : Nat) (l : List Interval) (v : Nat)
    (hv : v < 2 ^ w) (hwf : ∀ i ∈ l, i.lowerBound < 2 ^ w) :
    (l.flatMap (splitImproper w)).any (fun j => j.Covers v) =
      l.any (fun j => j.Covers v) := by
  induction l with
  | nil => simp
  | cons a l ih =>
      simp only [List.flatMap_cons, List.any_append, List.any_cons]
      rw [splitImproper_covers w a v hv (hwf a (List.mem_cons_self a l)),
        ih (fun i hi => hwf i (List.mem_cons_of_mem a hi))]

theorem insertInterval_any (i : Interval) (l : List Interval) (p : Interval → Bool) :
    (insertInterval i l).any p = (p i || l.any p) := by
  induction l with
  | nil => simp [insertInterval]
  | cons a l ih =>
      unfold insertInterval
      split
      · simp
      · simp only [List.any_cons, ih]
        cases p i <;> cases p a <;> simp

theorem sortIntervals_any (l : List Interval) (p : Interval → Bool) :
    (sortIntervals l).any p = l.any p := by
  induction l with
  | nil => rfl
  | cons a l ih =>
      simp only [sortIntervals, List.foldr_cons]
      rw [insertInterval_any]
      simp only [List.any_cons]
      rw [show (List.foldr insertInterval [] l).any p = l.any p from ih]

/-- Ordering of intervals by lower bound, used to state sortedness. -/
def RleLo (a b : Interval) : Prop := a.lowerBound ≤ b.lowerBound

theorem mergeSorted_covers (l : List Interval) (v : Nat)
    (hp : ∀ i ∈ l, i.lowerBound ≤ i.upperBound) (hs : l.Pairwise RleLo) :
    (mergeSorted l).any (fun j => j.Covers v) = l.any (fun j => j.Covers v) := by
  induction l using mergeSorted.induct with
  | case1 => simp [mergeSorted]
  | case2 i => simp [mergeSorted]
  | case3 a b rest h ih =>
      rw [mergeSorted]
      simp only [if_pos h]
      have ha := hp a (by simp)
      have hb := hp b (by simp)
      have hab : a.lowerBound ≤ b.lowerBound := by
        have := List.pairwise_cons.mp hs
        exact this.1 b (by simp)
      have hp2 : ∀ i ∈ (Interval.mk a.lowerBound (max a.upperBound b.upperBound)) :: rest,
          i.lowerBound ≤ i.upperBound := by
        intro i hi
        rcases List.mem_cons.mp hi with rfl | h1
        · simp; omega
        · exact hp i (by simp [h1])
      have hs2 : ((Interval.mk a.lowerBound (max a.upperBound b.upperBound)) :: rest).Pairwise
          RleLo := by
        rw [List.pairwise_cons]
        refine ⟨?_, (List.pairwise_cons.mp (List.pairwise_cons.mp hs).2).2⟩
        intro x hx
        have := (List.pairwise_cons.mp hs).1 x (by simp [hx])
        exact this
      rw [ih hp2 hs2]
      simp only [List.any_cons]
      have hmerge : (Interval.mk a.lowerBound (max a.upperBound b.upperBound)).Covers v =
          (a.Covers v || b.Covers v) := by
        simp only [Interval.Covers]
        rw [if_pos (by simp; omega), if_pos ha, if_pos hb]
        rw [Bool.eq_iff_iff]
        simp only [Bool.or_eq_true, Bool.and_eq_true, decide_eq_true_eq]
        omega
      rw [hmerge, Bool.or_assoc]
  | case4 a b rest h ih =>
      rw [mergeSorted]
      simp only [if_neg h, List.any_cons]
      rw [ih (fun i hi => hp i (List.mem_cons_of_mem a hi)) (List.pairwise_cons.mp hs).2]
      simp [List.any_cons]

theorem mergeSorted_proper (l : List Interval)
    (hp : ∀ i ∈ l, i.lowerBound ≤ i.upperBound) :
    ∀ i ∈ mergeSorted l, i.lowerBound ≤ i.upperBound := by
  induction l using mergeSorted.induct with
  | case1 => simp [mergeSorted]
  | case2 i => simpa [mergeSorted] using hp
  | case3 a b rest h ih =>
      rw [mergeSorted]
      simp only [if_pos h]
      refine ih ?_
      intro i hi
      rcases List.mem_cons.mp hi with rfl | h1
      · have := hp a (by simp)
        simp
        omega
      · exact hp i (by simp [h1])
  | case4 a b rest h ih =>
      rw [mergeSorted]
      simp only [if_neg h]
      intro i hi
      rcases List.mem_cons.mp hi with rfl | h1
      · exact hp i (by simp)
      · exact ih (fun j hj => hp j (List.mem_cons_of_mem _ hj)) i h1

theorem mem_insertInterval (x i : Interval) (l : List Interval) :
    x ∈ insertInterval i l ↔ x = i ∨ x ∈ l := by
  induction l with
  | nil => simp [insertInterval]
  | cons j rest ih =>
      unfold insertInterval
      split
      · simp [List.mem_cons]
      · simp only [List.mem_cons, ih]
        tauto

theorem intervalLexLe_total (a b : Interval) (h : ¬ intervalLexLe a b = true) :
    b.lowerBound ≤ a.lowerBound := by
  unfold intervalLexLe at h
  simp only [Bool.or_eq_true, Bool.and_eq_true, decide_eq_true_eq] at h
  omega

theorem insertInterval_pairwise (i : Interval) (l : List Interval)
    (h : l.Pairwise RleLo) : (insertInterval i l).Pairwise RleLo := by
  induction l with
  | nil => simp [insertInterval, RleLo]
  | cons j rest ih =>
      unfold insertInterval
      split
      · rename_i hle
        rw [List.pairwise_cons]
        constructor
        · intro x hx
          have hij : i.lowerBound ≤ j.lowerBound := by
            unfold intervalLexLe at hle
            simp only [Bool.or_eq_true, Bool.and_eq_true, decide_eq_true_eq] at hle
            omega
          rcases List.mem_cons.mp hx with rfl | h1
          · exact hij
          · have := (List.pairwise_cons.mp h).1 x h1
            unfold RleLo at this ⊢
            omega
        · exact h
      · rename_i hle
        rw [List.pairwise_cons]
        constructor
        · intro x hx
          rcases (mem_insertInterval x i rest).mp hx with rfl | h1
          · exact intervalLexLe_total _ _ hle
          · exact (List.pairwise_cons.mp h).1 x h1
        · exact ih (List.pairwise_cons.mp h).2

theorem sortIntervals_pairwise (l : List Interval) :
    (sortIntervals l).Pairwise RleLo := by
  induction l with
  | nil => simp [sortIntervals]
  | cons a rest ih => exact insertInterval_pairwise a _ ih

theorem mem_sortIntervals (x : Interval) (l : List Interval) :
    x ∈ sortIntervals l ↔ x ∈ l := by
  induction l with
  | nil => simp [sortIntervals]
  | cons a rest ih =>
      simp only [sortIntervals, List.foldr_cons] at *
      rw [mem_insertInterval]
      simp [ih]

theorem mergeSorted_shape (l : List Interval) :
    ∀ a rest, l = a :: rest → mergeSorted l ≠ [] ∧
      ((mergeSorted l).headD ⟨0, 0⟩).lowerBound = a.lowerBound := by
  induction l using mergeSorted.induct with
  | case1 =>
      intro a rest h
      simp at h
  | case2 i =>
      intro a rest h
      cases h
      simp [mergeSorted]
  | case3 x y rest2 hxy ih =>
      intro a rest h
      cases h
      rw [mergeSorted]
      simp only [if_pos hxy]
      exact ih (Interval.mk x.lowerBound (max x.upperBound y.upperBound)) rest2 rfl
  | case4 x y rest2 hxy ih =>
      intro a rest h
      cases h
      rw [mergeSorted]
      simp [if_neg hxy]

theorem mergeSorted_ne_nil_head (a : Interval) (l : List Interval) :
    mergeSorted (a :: l) ≠ [] ∧
      ((mergeSorted (a :: l)).headD ⟨0, 0⟩).lowerBound = a.lowerBound :=
  mergeSorted_shape (a :: l) a l rfl

theorem mergeSorted_chain (l : List Interval)
    (hp : ∀ i ∈ l, i.lowerBound ≤ i.upperBound) (hs : l.Pairwise RleLo) :
    chainNormalized (mergeSorted l) = true := by
  induction l using mergeSorted.induct with
  | case1 => simp [mergeSorted, chainNormalized]
  | case2 i => simp [mergeSorted, chainNormalized]
  | case3 a b rest h ih =>
      rw [mergeSorted]
      simp only [if_pos h]
      refine ih ?_ ?_
      · intro i hi
        rcases List.mem_cons.mp hi with rfl | h1
        · have := hp a (by simp)
          simp; omega
        · exact hp i (by simp [h1])
      · rw [List.pairwise_cons]
        exact ⟨fun x hx => (List.pairwise_cons.mp hs).1 x (by simp [hx]),
          (List.pairwise_cons.mp (List.pairwise_cons.mp hs).2).2⟩
  | case4 a b rest h ih =>
      rw [mergeSorted]
      simp only [if_neg h]
      obtain ⟨hne, hhead⟩ := mergeSorted_ne_nil_head b rest
      have hchain := ih (fun i hi => hp i (List.mem_cons_of_mem a hi))
        (List.pairwise_cons.mp hs).2
      cases hM : mergeSorted (b :: rest) with
      | nil => exact absurd hM hne
      | cons c r =>
          rw [hM] at hchain hhead
          simp only [List.headD_cons] at hhead
          unfold chainNormalized
          rw [Bool.and_eq_true, decide_eq_true_eq]
          exact ⟨by omega, hchain⟩

theorem mergeSorted_bounds (l : List Interval) (B : Nat)
    (hb : ∀ i ∈ l, i.lowerBound < B ∧ i.upperBound < B) :
    ∀ i ∈ mergeSorted l, i.lowerBound < B ∧ i.upperBound < B := by
  induction l using mergeSorted.induct with
  | case1 => simp [mergeSorted]
  | case2 i => simpa [mergeSorted] using hb
  | case3 a b rest h ih =>
      rw [mergeSorted]
      simp only [if_pos h]
      refine ih ?_
      intro i hi
      rcases List.mem_cons.mp hi with rfl | h1
      · have h1 := hb a (by simp)
        have h2 := hb b (by simp)
        simp
        omega
      · exact hb i (by simp [h1])
  | case4 a b rest h ih =>
      rw [mergeSorted]
      simp only [if_neg h]
      intro i hi
      rcases List.mem_cons.mp hi with rfl | h1
      · exact hb i (by simp)
      · exact ih (fun j hj => hb j (List.mem_cons_of_mem _ hj)) i h1

theorem splitImproper_facts (w : Nat) (i : Interval)
    (hwf : i.lowerBound < 2 ^ w ∧ i.upperBound < 2 ^ w) :
    ∀ j ∈ splitImproper w i, j.lowerBound ≤ j.upperBound ∧
      j.lowerBound < 2 ^ w ∧ j.upperBound < 2 ^ w := by
  have hpow : 1 ≤ 2 ^ w := Nat.one_le_two_pow
  unfold splitImproper
  split
  · intro j hj
    simp at hj
    subst hj
    omega
  · intro j hj
    rename_i hprop
    rcases List.mem_cons.mp hj with rfl | hj2
    · simp; omega
    · simp at hj2
      subst hj2
      simp; omega

theorem IntervalSet.Normalize_covers (s : IntervalSet) (v : Nat)
    (hv : v < 2 ^ s.bitCount) (hwf : s.WF) :
    (s.Normalize).Covers v = s.Covers v := by
  unfold IntervalSet.Normalize IntervalSet.Covers
  simp only
  have hsplit : ∀ j ∈ s.intervals.flatMap (splitImproper s.bitCount),
      j.lowerBound ≤ j.upperBound ∧ j.lowerBound < 2 ^ s.bitCount ∧
        j.upperBound < 2 ^ s.bitCount := by
    intro j hj
    obtain ⟨i, hi, hji⟩ := List.mem_flatMap.mp hj
    exact splitImproper_facts s.bitCount i (hwf i hi) j hji
  rw [mergeSorted_covers _ v
    (fun i hi => (hsplit i ((mem_sortIntervals i _).mp hi)).1)
    (sortIntervals_pairwise _)]
  rw [sortIntervals_any]
  exact flatMap_splitImproper_covers s.bitCount s.intervals v hv
    (fun i hi => (hwf i hi).1)

theorem IntervalSet.Normalize_isNormalized (s : IntervalSet) (hwf : s.WF) :
    (s.Normalize).IsNormalized = true := by
  unfold IntervalSet.Normalize IntervalSet.IsNormalized
  simp only [Bool.and_eq_true, List.all_eq_true, decide_eq_true_eq]
  have hsplit : ∀ j ∈ s.intervals.flatMap (splitImproper s.bitCount),
      j.lowerBound ≤ j.upperBound ∧ j.lowerBound < 2 ^ s.bitCount ∧
        j.upperBound < 2 ^ s.bitCount := by
    intro j hj
    obtain ⟨i, hi, hji⟩ := List.mem_flatMap.mp hj
    exact splitImproper_facts s.bitCount i (hwf i hi) j hji
  constructor
  · intro i hi
    exact (mergeSorted_proper _
      (fun j hj => (hsplit j ((mem_sortIntervals j _).mp hj)).1) i hi)
  · exact mergeSorted_chain _
      (fun j hj => (hsplit j ((mem_sortIntervals j _).mp hj)).1)
      (sortIntervals_pairwise _)

theorem IntervalSet.Normalize_WF (s : IntervalSet) (hwf : s.WF) :
    (s.Normalize).WF := by
  unfold IntervalSet.Normalize IntervalSet.WF
  simp only
  have hsplit : ∀ j ∈ s.intervals.flatMap (splitImproper s.bitCount),
      j.lowerBound ≤ j.upperBound ∧ j.lowerBound < 2 ^ s.bitCount ∧
        j.upperBound < 2 ^ s.bitCount := by
    intro j hj
    obtain ⟨i, hi, hji⟩ := List.mem_flatMap.mp hj
    exact splitImproper_facts s.bitCount i (hwf i hi) j hji
  exact mergeSorted_bounds _ _
    (fun j hj => ((hsplit j ((mem_sortIntervals j _).mp hj)).2))

theorem chainNormalized_tail (a : Interval) (l : List Interval)
    (h : chainNormalized (a :: l) = true) : chainNormalized l = true := by
  cases l with
  | nil => rfl
  | cons b rest =>
      unfold chainNormalized at h
      rw [Bool.and_eq_true] at h
      exact h.2

theorem chainNormalized_head_le (a : Interval) (l : List Interval)
    (hp : ∀ i ∈ a :: l, i.lowerBound ≤ i.upperBound)
    (h : chainNormalized (a :: l) = true) :
    ∀ x ∈ l, a.upperBound + 1 < x.lowerBound := by
  induction l generalizing a with
  | nil => simp
  | cons b rest ih =>
      unfold chainNormalized at h
      rw [Bool.and_eq_true, decide_eq_true_eq] at h
      intro x hx
      rcases List.mem_cons.mp hx with rfl | hx2
      · exact h.1
      · have hb := ih b (fun i hi => hp i (List.mem_cons_of_mem a hi)) h.2 x hx2
        have hbp := hp b (by simp)
        omega

theorem chainNormalized_pairwise (l : List Interval)
    (hp : ∀ i ∈ l, i.lowerBound ≤ i.upperBound)
    (h : chainNormalized l = true) : l.Pairwise RleLo := by
  induction l with
  | nil => simp
  | cons a rest ih =>
      rw [List.pairwise_cons]
      refine ⟨?_, ih (fun i hi => hp i (List.mem_cons_of_mem a hi))
        (chainNormalized_tail a rest h)⟩
      intro x hx
      have := chainNormalized_head_le a rest hp h x hx
      have hap := hp a (by simp)
      unfold RleLo
      omega

theorem IntervalSet.isNormalized_facts (s : IntervalSet)
    (h : s.IsNormalized = true) :
    (∀ i ∈ s.intervals, i.lowerBound ≤ i.upperBound) ∧
      chainNormalized s.intervals = true := by
  unfold IntervalSet.IsNormalized at h
  rw [Bool.and_eq_true, List.all_eq_true] at h
  exact ⟨fun i hi => by simpa using h.1 i hi, h.2⟩

theorem flatMap_splitImproper_of_proper (w : Nat) (l : List Interval)
    (hp : ∀ i ∈ l, i.lowerBound ≤ i.upperBound) :
    l.flatMap (splitImproper w) = l := by
  induction l with
  | nil => rfl
  | cons a rest ih =>
      simp only [List.flatMap_cons]
      rw [splitImproper, if_pos (hp a (by simp))]
      rw [ih (fun i hi => hp i (List.mem_cons_of_mem a hi))]
      rfl

theorem sortIntervals_of_chain (l : List Interval)
    (hp : ∀ i ∈ l, i.lowerBound ≤ i.upperBound)
    (hc : chainNormalized l = true) : sortIntervals l = l := by
  induction l with
  | nil => rfl
  | cons a rest ih =>
      have htail := ih (fun i hi => hp i (List.mem_cons_of_mem a hi))
        (chainNormalized_tail a rest hc)
      simp only [sortIntervals, List.foldr_cons]
      rw [show List.foldr insertInterval [] rest = rest from htail]
      cases rest with
      | nil => rfl
      | cons b rest2 =>
          unfold chainNormalized at hc
          rw [Bool.and_eq_true, decide_eq_true_eq] at hc
          have hap := hp a (by simp)
          unfold insertInterval intervalLexLe
          rw [if_pos]
          simp only [Bool.or_eq_true, Bool.and_eq_true, decide_eq_true_eq]
          omega

theorem mergeSorted_of_chain (l : List Interval)
    (hc : chainNormalized l = true) : mergeSorted l = l := by
  induction l using mergeSorted.induct with
  | case1 => simp [mergeSorted]
  | case2 i => simp [mergeSorted]
  | case3 a b rest h ih =>
      unfold chainNormalized at hc
      rw [Bool.and_eq_true, decide_eq_true_eq] at hc
      omega
  | case4 a b rest h ih =>
      rw [mergeSorted]
      simp only [if_neg h]
      rw [ih (chainNormalized_tail a _ hc)]

theorem IntervalSet.Normalize_of_normalized (s : IntervalSet)
    (h : s.IsNormalized = true) : s.Normalize = s := by
  obtain ⟨hp, hc⟩ := s.isNormalized_facts h
  unfold IntervalSet.Normalize
  rw [flatMap_splitImproper_of_proper _ _ hp, sortIntervals_of_chain _ hp hc,
    mergeSorted_of_chain _ hc]

theorem mergeSorted_length_le (l : List Interval) :
    (mergeSorted l).length ≤ l.length := by
  induction l using mergeSorted.induct with
  | case1 => simp [mergeSorted]
  | case2 i => simp [mergeSorted]
  | case3 a b rest h ih =>
      rw [mergeSorted]
      simp only [if_pos h]
      simp only [List.length_cons] at *
      omega
  | case4 a b rest h ih =>
      rw [mergeSorted]
      simp only [if_neg h]
      simp only [List.length_cons] at *
      omega

theorem insertInterval_length (i : Interval) (l : List Interval) :
    (insertInterval i l).length = l.length + 1 := by
  induction l with
  | nil => rfl
  | cons a rest ih =>
      unfold insertInterval
      split
      · simp
      · simp [ih]

theorem sortIntervals_length (l : List Interval) :
    (sortIntervals l).length = l.length := by
  induction l with
  | nil => rfl
  | cons a rest ih =>
      simp only [sortIntervals, List.foldr_cons] at *
      rw [insertInterval_length, ih]
      rfl

theorem Normalize_length_le_of_proper (s : IntervalSet)
    (hp : ∀ i ∈ s.intervals, i.lowerBound ≤ i.upperBound) :
    (s.Normalize).intervals.length ≤ s.intervals.length := by
  unfold IntervalSet.Normalize
  simp only
  calc (mergeSorted (sortIntervals (s.intervals.flatMap (splitImproper s.bitCount)))).length
      ≤ (sortIntervals (s.intervals.flatMap (splitImproper s.bitCount))).length :=
        mergeSorted_length_le _
    _ = (s.intervals.flatMap (splitImproper s.bitCount)).length := sortIntervals_length _
    _ = s.intervals.length := by
        rw [flatMap_splitImproper_of_proper _ _ hp]

/-- Convex hull of an interval set: the single interval from the smallest
lower bound to the largest upper bound, or none when the set is empty. -/
def IntervalSet.ConvexHull (s : IntervalSet) : Option Interval :=
  match s.intervals with
  | [] => none
  | a :: rest =>
      some (rest.foldl
        (fun acc i => ⟨min acc.lowerBound i.lowerBound, max acc.upperBound i.upperBound⟩) a)

theorem foldl_hull_eq (a : Interval) (rest : List Interval)
    (hp : ∀ i ∈ a :: rest, i.lowerBound ≤ i.upperBound)
    (hc : chainNormalized (a :: rest) = true) :
    rest.foldl
        (fun acc i => ⟨min acc.lowerBound i.lowerBound, max acc.upperBound i.upperBound⟩) a =
      ⟨a.lowerBound, ((a :: rest).getLast (by simp)).upperBound⟩ := by
  induction rest generalizing a with
  | nil => simp
  | cons b rest2 ih =>
      unfold chainNormalized at hc
      rw [Bool.and_eq_true, decide_eq_true_eq] at hc
      have hap := hp a (by simp)
      have hbp := hp b (by simp)
      simp only [List.foldl_cons]
      have hstep : (Interval.mk (min a.lowerBound b.lowerBound)
          (max a.upperBound b.upperBound)) = Interval.mk a.lowerBound b.upperBound := by
        have h1 : min a.lowerBound b.lowerBound = a.lowerBound := by omega
        have h2 : max a.upperBound b.upperBound = b.upperBound := by omega
        rw [h1, h2]
      rw [hstep]
      have := ih (Interval.mk a.lowerBound b.upperBound)
        (fun i hi => by
          rcases List.mem_cons.mp hi with rfl | h2
          · simp; omega
          · exact hp i (by simp [h2]))
        (by
          cases rest2 with
          | nil => rfl
          | cons c r =>
              unfold chainNormalized at hc ⊢
              rw [Bool.and_eq_true, decide_eq_true_eq] at hc
              rw [Bool.and_eq_true, decide_eq_true_eq]
              exact ⟨hc.2.1, hc.2.2⟩)
      rw [this]
      cases rest2 with
      | nil => simp
      | cons c r => simp [List.getLast_cons]

/-- Gap of each lexicographically-adjacent interval pair: numeric distance
from the previous interval's upper bound to this interval's lower bound,
together with this interval's lower bound (the tie-break key). -/
def gapsOf : List Interval → List (Nat × Nat)
  | a :: b :: rest =>
      (b.lowerBound - a.upperBound, b.lowerBound) :: gapsOf (b :: rest)
  | _ => []

/-- Strict lexicographic comparison on (gap, lower-bound) pairs. -/
def pairLexLt (p q : Nat × Nat) : Bool :=
  decide (p.1 < q.1) || (decide (p.1 = q.1) && decide (p.2 < q.2))

/-- Scan for the index of the minimal (gap, lower-bound) pair; on ties the
earliest (smallest lower bound) candidate wins. -/
def argminGo (best : Nat) (bestVal : Nat × Nat) (j : Nat) :
    List (Nat × Nat) → Nat
  | [] => best
  | p :: rest =>
      if pairLexLt p bestVal then argminGo j p (j + 1) rest
      else argminGo best bestVal (j + 1) rest

/-- Index of the minimal (gap, lower-bound) pair in a list. -/
def argminPair : List (Nat × Nat) → Nat
  | [] => 0
  | p :: rest => argminGo 0 p 1 rest

/-- Fuse the adjacent pair at position `k` (0-based over pairs) into a single
interval spanning from the earlier interval's lower bound to the later
interval's upper bound. -/
def mergeAtL : Nat → List Interval → List Interval
  | _, [] => []
  | 0, [a] => [a]
  | 0, a :: b :: rest => ⟨a.lowerBound, b.upperBound⟩ :: rest
  | k + 1, a :: rest => a :: mergeAtL k rest

/-- One greedy merge step: fuse the adjacent pair with the smallest gap
(ties broken towards the pair whose later interval has the smaller lower
bound, i.e. the earliest such pair). -/
def mergeOnce (l : List Interval) : List Interval :=
  mergeAtL (argminPair (gapsOf l)) l

/-- Iterate `k` greedy merge steps. -/
def mergeDown : Nat → List Interval → List Interval
  | 0, l => l
  | k + 1, l => mergeDown k (mergeOnce l)

/-- Minimize an interval set to at most `size` intervals by repeatedly
merging the adjacent pair with the smallest numeric gap (ties broken in
favor of the pair with the smaller lower bound), following
`interval_ops::MinimizeIntervals`: the input is normalized first; sets that
are already small enough are returned unchanged; a target of one interval is
served by the convex hull. -/
def MinimizeIntervals (s : IntervalSet) (size : Nat) : IntervalSet :=
  let sn := s.Normalize
  if sn.NumberOfIntervals ≤ size then sn
  else if size = 1 then
    (IntervalSet.mk sn.bitCount [sn.ConvexHull.getD ⟨0, 0⟩]).Normalize
  else
    (IntervalSet.mk sn.bitCount
      (mergeDown (sn.NumberOfIntervals - size) sn.intervals)).Normalize

theorem argminGo_lt (rest : List (Nat × Nat)) :
    ∀ (best : Nat) (v : Nat × Nat) (j n : Nat), best < n → j + rest.length ≤ n →
      argminGo best v j rest < n := by
  induction rest with
  | nil =>
      intro best v j n h1 h2
      simpa [argminGo] using h1
  | cons p r ih =>
      intro best v j n h1 h2
      simp only [List.length_cons] at h2
      unfold argminGo
      split
      · exact ih j p (j + 1) n (by omega) (by omega)
      · exact ih best v (j + 1) n h1 (by omega)

theorem argminPair_lt (ps : List (Nat × Nat)) (h : ps ≠ []) :
    argminPair ps < ps.length := by
  cases ps with
  | nil => exact absurd rfl h
  | cons p rest =>
      unfold argminPair
      exact argminGo_lt rest 0 p 1 (rest.length + 1) (by omega) (by omega)

theorem gapsOf_length (l : List Interval) : (gapsOf l).length + 1 = max l.length 1 := by
  induction l with
  | nil => simp [gapsOf]
  | cons a rest ih =>
      cases rest with
      | nil => simp [gapsOf]
      | cons b r =>
          unfold gapsOf
          simp only [List.length_cons] at *
          omega

theorem mergeAtL_length (k : Nat) (l : List Interval) (h : k + 2 ≤ l.length) :
    (mergeAtL k l).length + 1 = l.length := by
  induction k generalizing l with
  | zero =>
      match l with
      | [] => simp at h
      | [a] => simp at h
      | a :: b :: rest => simp [mergeAtL]
  | succ k ih =>
      match l with
      | [] => simp at h
      | a :: rest =>
          simp only [List.length_cons] at h ⊢
          rw [mergeAtL]
          simp only [List.length_cons]
          rw [ih rest (by omega)]

theorem mergeAtL_mem_bounds (P Q : Nat → Prop) (k : Nat) (l : List Interval)
    (h1 : ∀ i ∈ l, P i.lowerBound) (h2 : ∀ i ∈ l, Q i.upperBound) :
    ∀ i ∈ mergeAtL k l, P i.lowerBound ∧ Q i.upperBound := by
  induction k generalizing l with
  | zero =>
      match l with
      | [] => simp [mergeAtL]
      | [a] =>
          simp only [mergeAtL]
          intro i hi
          simp at hi
          subst hi
          exact ⟨h1 _ (by simp), h2 _ (by simp)⟩
      | a :: b :: rest =>
          simp only [mergeAtL]
          intro i hi
          rcases List.mem_cons.mp hi with rfl | hmem
          · exact ⟨h1 a (by simp), h2 b (by simp)⟩
          · exact ⟨h1 i (by simp [hmem]), h2 i (by simp [hmem])⟩
  | succ k ih =>
      match l with
      | [] => simp [mergeAtL]
      | a :: rest =>
          simp only [mergeAtL]
          intro i hi
          rcases List.mem_cons.mp hi with rfl | hmem
          · exact ⟨h1 i (by simp), h2 i (by simp)⟩
          · exact ih rest (fun j hj => h1 j (by simp [hj]))
              (fun j hj => h2 j (by simp [hj])) i hmem

theorem mergeAtL_head_lo (k : Nat) (l : List Interval) (h : l ≠ []) :
    ((mergeAtL k l).headD ⟨0, 0⟩).lowerBound = (l.headD ⟨0, 0⟩).lowerBound ∧
      mergeAtL k l ≠ [] := by
  match k, l with
  | _, [] => exact absurd rfl h
  | 0, [a] => simp [mergeAtL]
  | 0, a :: b :: rest => simp [mergeAtL]
  | k + 1, a :: rest => simp [mergeAtL]

theorem mergeAtL_normalized (k : Nat) (l : List Interval)
    (hp : ∀ i ∈ l, i.lowerBound ≤ i.upperBound)
    (hc : chainNormalized l = true) :
    (∀ i ∈ mergeAtL k l, i.lowerBound ≤ i.upperBound) ∧
      chainNormalized (mergeAtL k l) = true := by
  induction k generalizing l with
  | zero =>
      match l with
      | [] => simp [mergeAtL, chainNormalized]
      | [a] =>
          simp only [mergeAtL]
          exact ⟨hp, hc⟩
      | a :: b :: rest =>
          unfold chainNormalized at hc
          rw [Bool.and_eq_true, decide_eq_true_eq] at hc
          have hap := hp a (by simp)
          have hbp := hp b (by simp)
          simp only [mergeAtL]
          constructor
          · intro i hi
            rcases List.mem_cons.mp hi with rfl | hmem
            · simp; omega
            · exact hp i (by simp [hmem])
          · cases rest with
            | nil => rfl
            | cons c r =>
                unfold chainNormalized at hc ⊢
                rw [Bool.and_eq_true, decide_eq_true_eq] at hc ⊢
                exact ⟨hc.2.1, hc.2.2⟩
  | succ k ih =>
      match l with
      | [] => simp [mergeAtL, chainNormalized]
      | a :: rest =>
          simp only [mergeAtL]
          have htail := ih rest (fun i hi => hp i (by simp [hi]))
            (chainNormalized_tail a rest hc)
          constructor
          · intro i hi
            rcases List.mem_cons.mp hi with rfl | hmem
            · exact hp i (by simp)
            · exact htail.1 i hmem
          · cases rest with
            | nil => simp [mergeAtL, chainNormalized]
            | cons b r =>
                obtain ⟨hhead, hne⟩ := mergeAtL_head_lo k (b :: r) (by simp)
                cases hM : mergeAtL k (b :: r) with
                | nil => exact absurd hM hne
                | cons c r2 =>
                    rw [hM] at hhead htail
                    simp only [List.headD_cons] at hhead
                    unfold chainNormalized at hc ⊢
                    rw [Bool.and_eq_true, decide_eq_true_eq] at hc
                    rw [Bool.and_eq_true, decide_eq_true_eq]
                    exact ⟨by omega, htail.2⟩

theorem mergeAtL_covers (k : Nat) (l : List Interval) (v : Nat)
    (hp : ∀ i ∈ l, i.lowerBound ≤ i.upperBound)
    (hc : chainNormalized l = true)
    (h : l.any (fun i => i.Covers v) = true) :
    (mergeAtL k l).any (fun i => i.Covers v) = true := by
  induction k generalizing l with
  | zero =>
      match l with
      | [] => simpa using h
      | [a] => simpa [mergeAtL] using h
      | a :: b :: rest =>
          unfold chainNormalized at hc
          rw [Bool.and_eq_true, decide_eq_true_eq] at hc
          have hap := hp a (by simp)
          have hbp := hp b (by simp)
          simp only [mergeAtL, List.any_cons, Bool.or_eq_true] at h ⊢
          have hmerge : a.Covers v = true ∨ b.Covers v = true →
              (Interval.mk a.lowerBound b.upperBound).Covers v = true := by
            intro hab
            rw [Interval.covers_proper_iff _ _ (by simp; omega)]
            simp only
            rcases hab with hcv | hcv
            · rw [Interval.covers_proper_iff _ _ hap] at hcv
              omega
            · rw [Interval.covers_proper_iff _ _ hbp] at hcv
              omega
          tauto
  | succ k ih =>
      match l with
      | [] => simpa using h
      | a :: rest =>
          simp only [mergeAtL, List.any_cons, Bool.or_eq_true] at h ⊢
          rcases h with hcv | hcv
          · exact Or.inl hcv
          · exact Or.inr (ih rest (fun i hi => hp i (by simp [hi]))
              (chainNormalized_tail a rest hc) hcv)

theorem mergeOnce_length (l : List Interval) (h : 2 ≤ l.length) :
    (mergeOnce l).length + 1 = l.length := by
  unfold mergeOnce
  refine mergeAtL_length _ _ ?_
  have hg := gapsOf_length l
  have hne : gapsOf l ≠ [] := by
    intro hnil
    rw [hnil] at hg
    simp at hg
    omega
  have := argminPair_lt (gapsOf l) hne
  omega

theorem mergeOnce_normalized (l : List Interval)
    (hp : ∀ i ∈ l, i.lowerBound ≤ i.upperBound)
    (hc : chainNormalized l = true) :
    (∀ i ∈ mergeOnce l, i.lowerBound ≤ i.upperBound) ∧
      chainNormalized (mergeOnce l) = true :=
  mergeAtL_normalized _ l hp hc

theorem mergeOnce_covers (l : List Interval) (v : Nat)
    (hp : ∀ i ∈ l, i.lowerBound ≤ i.upperBound)
    (hc : chainNormalized l = true)
    (h : l.any (fun i => i.Covers v) = true) :
    (mergeOnce l).any (fun i => i.Covers v) = true :=
  mergeAtL_covers _ l v hp hc h

theorem mergeOnce_mem_bounds (P Q : Nat → Prop) (l : List Interval)
    (h1 : ∀ i ∈ l, P i.lowerBound) (h2 : ∀ i ∈ l, Q i.upperBound) :
    ∀ i ∈ mergeOnce l, P i.lowerBound ∧ Q i.upperBound :=
  mergeAtL_mem_bounds P Q _ l h1 h2

theorem mergeDown_length (k : Nat) (l : List Interval) (h : k < l.length) :
    (mergeDown k l).length = l.length - k := by
  induction k generalizing l with
  | zero => simp [mergeDown]
  | succ k ih =>
      unfold mergeDown
      have hlen := mergeOnce_length l (by omega)
      rw [ih (mergeOnce l) (by omega)]
      omega

theorem mergeDown_normalized (k : Nat) (l : List Interval)
    (hp : ∀ i ∈ l, i.lowerBound ≤ i.upperBound)
    (hc : chainNormalized l = true) :
    (∀ i ∈ mergeDown k l, i.lowerBound ≤ i.upperBound) ∧
      chainNormalized (mergeDown k l) = true := by
  induction k generalizing l with
  | zero => exact ⟨hp, hc⟩
  | succ k ih =>
      unfold mergeDown
      obtain ⟨hp2, hc2⟩ := mergeOnce_normalized l hp hc
      exact ih (mergeOnce l) hp2 hc2

theorem mergeDown_covers (k : Nat) (l : List Interval) (v : Nat)
    (hp : ∀ i ∈ l, i.lowerBound ≤ i.upperBound)
    (hc : chainNormalized l = true)
    (h : l.any (fun i => i.Covers v) = true) :
    (mergeDown k l).any (fun i => i.Covers v) = true := by
  induction k generalizing l with
  | zero => exact h
  | succ k ih =>
      unfold mergeDown
      obtain ⟨hp2, hc2⟩ := mergeOnce_normalized l hp hc
      exact ih (mergeOnce l) hp2 hc2 (mergeOnce_covers l v hp hc h)

theorem mergeDown_mem_bounds (P Q : Nat → Prop) (k : Nat) (l : List Interval)
    (h1 : ∀ i ∈ l, P i.lowerBound) (h2 : ∀ i ∈ l, Q i.upperBound) :
    ∀ i ∈ mergeDown k l, P i.lowerBound ∧ Q i.upperBound := by
  induction k generalizing l with
  | zero =>
      intro i hi
      exact ⟨h1 i hi, h2 i hi⟩
  | succ k ih =>
      unfold mergeDown
      exact ih (mergeOnce l)
        (fun i hi => (mergeOnce_mem_bounds P Q l h1 h2 i hi).1)
        (fun i hi => (mergeOnce_mem_bounds P Q l h1 h2 i hi).2)

theorem IntervalSet.covers_lt_pow (s : IntervalSet) (v : Nat)
    (hn : s.IsNormalized = true) (hwf : s.WF) (h : s.Covers v = true) :
    v < 2 ^ s.bitCount := by
  obtain ⟨hp, _⟩ := s.isNormalized_facts hn
  obtain ⟨i, hi, hcov⟩ := (s.covers_iff v).mp h
  rw [Interval.covers_proper_iff _ _ (hp i hi)] at hcov
  have := (hwf i hi).2
  omega

theorem IntervalSet.Normalize_ne_nil (s : IntervalSet)
    (h : s.intervals ≠ []) : (s.Normalize).intervals ≠ [] := by
  unfold IntervalSet.Normalize
  simp only
  cases hl : sortIntervals (s.intervals.flatMap (splitImproper s.bitCount)) with
  | nil =>
      exfalso
      have hlen := sortIntervals_length (s.intervals.flatMap (splitImproper s.bitCount))
      rw [hl] at hlen
      cases hs : s.intervals with
      | nil => exact h hs
      | cons a rest =>
          rw [hs, List.flatMap_cons] at hlen
          simp only [List.length_nil, List.length_append] at hlen
          unfold splitImproper at hlen
          split at hlen <;>
            (simp only [List.length_cons, List.length_nil] at hlen; omega)
  | cons a rest =>
      exact (mergeSorted_shape _ a rest rfl).1

/-- Lower bound of every interval in a normalized list is at least the head
interval's lower bound, and every upper bound is at most the last
interval's upper bound. -/
theorem normalized_bounds_within (a : Interval) (rest : List Interval)
    (hp : ∀ i ∈ a :: rest, i.lowerBound ≤ i.upperBound)
    (hc : chainNormalized (a :: rest) = true) :
    ∀ i ∈ a :: rest, a.lowerBound ≤ i.lowerBound ∧
      i.upperBound ≤ (((a :: rest)).getLast (by simp)).upperBound := by
  induction rest generalizing a with
  | nil =>
      intro i hi
      simp at hi
      subst hi
      simp
  | cons b rest2 ih =>
      intro i hi
      unfold chainNormalized at hc
      rw [Bool.and_eq_true, decide_eq_true_eq] at hc
      have hap := hp a (by simp)
      have hbp := hp b (by simp)
      have htail := ih b (fun j hj => hp j (by simp [List.mem_cons] at hj ⊢; tauto)) hc.2
      rcases List.mem_cons.mp hi with rfl | hmem
      · constructor
        · omega
        · have hb := htail b (by simp)
          rw [List.getLast_cons (by simp)]
          omega
      · have := htail i hmem
        rw [List.getLast_cons (by simp)]
        constructor
        · omega
        · exact this.2

theorem MinimizeIntervals_facts (s : IntervalSet) (size : Nat) (hwf : s.WF)
    (hsize : 1 ≤ size) :
    (MinimizeIntervals s size).IsNormalized = true ∧
      (MinimizeIntervals s size).WF ∧
      (MinimizeIntervals s size).bitCount = s.bitCount ∧
      (MinimizeIntervals s size).NumberOfIntervals ≤ size ∧
      (∀ v, v < 2 ^ s.bitCount → s.Covers v = true →
        (MinimizeIntervals s size).Covers v = true) ∧
      (s.intervals ≠ [] → (MinimizeIntervals s size).intervals ≠ []) ∧
      (∀ L U, (∀ u, s.Covers u = true → L ≤ u ∧ u ≤ U) →
        ∀ v, (MinimizeIntervals s size).Covers v = true → L ≤ v ∧ v ≤ U) := by
  have hnwf := s.Normalize_WF hwf
  have hnorm := s.Normalize_isNormalized hwf
  obtain ⟨hp, hc⟩ := (s.Normalize).isNormalized_facts hnorm
  have hbit : (s.Normalize).bitCount = s.bitCount := rfl
  simp only [MinimizeIntervals]
  split
  · rename_i hle
    refine ⟨hnorm, hnwf, rfl, hle, ?_, ?_, ?_⟩
    · intro v hv hcov
      rw [s.Normalize_covers v hv hwf]
      exact hcov
    · exact s.Normalize_ne_nil
    · intro L U hLU v hcov
      have hvlt := (s.Normalize).covers_lt_pow v hnorm hnwf hcov
      rw [hbit] at hvlt
      rw [s.Normalize_covers v hvlt hwf] at hcov
      exact hLU v hcov
  · rename_i hgt
    have hlen2 : 2 ≤ (s.Normalize).intervals.length := by
      unfold IntervalSet.NumberOfIntervals at hgt
      omega
    obtain ⟨a, rest, hs⟩ : ∃ a rest, (s.Normalize).intervals = a :: rest := by
      cases hI : (s.Normalize).intervals with
      | nil =>
          rw [hI] at hlen2
          simp at hlen2
      | cons x xs => exact ⟨x, xs, rfl⟩
    rw [hs] at hp hc
    have hwithin := normalized_bounds_within a rest hp hc
    have hmemwf : ∀ i ∈ a :: rest,
        i.lowerBound < 2 ^ s.bitCount ∧ i.upperBound < 2 ^ s.bitCount := by
      intro i hi
      have := hnwf i (by rw [hs]; exact hi)
      rwa [hbit] at this
    have hlast_mem : (a :: rest).getLast (by simp) ∈ a :: rest :=
      List.getLast_mem _
    have hcov_of_s : ∀ u, u < 2 ^ s.bitCount →
        ((s.Normalize).Covers u = true ↔ s.Covers u = true) := by
      intro u hu
      rw [s.Normalize_covers u hu hwf]
    have hcov_sn_mem : ∀ i ∈ a :: rest, (s.Normalize).Covers i.lowerBound = true ∧
        (s.Normalize).Covers i.upperBound = true := by
      intro i hi
      have hip := hp i hi
      constructor
      · rw [IntervalSet.covers_iff]
        exact ⟨i, by rw [hs]; exact hi, by
          rw [Interval.covers_proper_iff _ _ hip]; omega⟩
      · rw [IntervalSet.covers_iff]
        exact ⟨i, by rw [hs]; exact hi, by
          rw [Interval.covers_proper_iff _ _ hip]; omega⟩
    split
    · rename_i hone
      -- size = 1: convex hull
      have hhull : (s.Normalize).ConvexHull =
          some ⟨a.lowerBound, ((a :: rest).getLast (by simp)).upperBound⟩ := by
        unfold IntervalSet.ConvexHull
        rw [hs]
        exact congrArg some (foldl_hull_eq a rest hp hc)
      rw [hhull]
      simp only [Option.getD_some]
      set hullI : Interval :=
        ⟨a.lowerBound, ((a :: rest).getLast (by simp)).upperBound⟩ with hhid
      have hhp : hullI.lowerBound ≤ hullI.upperBound := by
        have := hwithin a (by simp)
        have hap := hp a (by simp)
        simp only [hhid]
        omega
      have hhwf : (IntervalSet.mk (s.Normalize).bitCount [hullI]).WF := by
        intro i hi
        simp at hi
        subst hi
        have h1 := hmemwf a (by simp)
        have h2 := hmemwf _ hlast_mem
        simp only [hhid]
        rw [hbit]
        exact ⟨h1.1, h2.2⟩
      refine ⟨IntervalSet.Normalize_isNormalized _ hhwf,
        IntervalSet.Normalize_WF _ hhwf, rfl, ?_, ?_, ?_, ?_⟩
      · have := Normalize_length_le_of_proper
          (IntervalSet.mk (s.Normalize).bitCount [hullI])
          (by intro i hi; simp at hi; subst hi; exact hhp)
        unfold IntervalSet.NumberOfIntervals
        simp at this
        omega
      · intro v hv hcov
        rw [IntervalSet.Normalize_covers _ v (by rw [hbit]; exact hv) hhwf]
        rw [IntervalSet.covers_iff]
        refine ⟨hullI, by simp, ?_⟩
        rw [Interval.covers_proper_iff _ _ hhp]
        rw [← hcov_of_s v hv] at hcov
        obtain ⟨i, hi, hicov⟩ := ((s.Normalize).covers_iff v).mp hcov
        rw [hs] at hi
        have hw := hwithin i hi
        rw [Interval.covers_proper_iff _ _ (hp i hi)] at hicov
        simp only [hhid]
        omega
      · intro _
        exact IntervalSet.Normalize_ne_nil _ (by simp)
      · intro L U hLU v hcov
        have hvlt : v < 2 ^ s.bitCount := by
          have := (IntervalSet.Normalize _).covers_lt_pow v
            (IntervalSet.Normalize_isNormalized _ hhwf)
            (IntervalSet.Normalize_WF _ hhwf) hcov
          rwa [hbit] at this
        rw [IntervalSet.Normalize_covers _ v (by rw [hbit]; exact hvlt) hhwf] at hcov
        obtain ⟨i, hi, hicov⟩ := (IntervalSet.covers_iff _ v).mp hcov
        simp at hi
        subst hi
        rw [Interval.covers_proper_iff _ _ hhp] at hicov
        have h1 : L ≤ a.lowerBound := by
          have := (hcov_sn_mem a (by simp)).1
          have halo := hmemwf a (by simp)
          exact (hLU a.lowerBound ((hcov_of_s _ halo.1).mp this)).1
        have h2 : ((a :: rest).getLast (by simp)).upperBound ≤ U := by
          have := (hcov_sn_mem _ hlast_mem).2
          have hup := hmemwf _ hlast_mem
          exact (hLU _ ((hcov_of_s _ hup.2).mp this)).2
        simp only [hhid] at hicov
        omega
    · rename_i hne1
      -- general case: iterated greedy merging
      have hk : (s.Normalize).NumberOfIntervals - size <
          (s.Normalize).intervals.length := by
        unfold IntervalSet.NumberOfIntervals at hgt ⊢
        omega
      have hmd := mergeDown_normalized ((s.Normalize).NumberOfIntervals - size)
        ((s.Normalize).intervals) (by rw [hs]; exact hp) (by rw [hs]; exact hc)
      have hmdwf : (IntervalSet.mk (s.Normalize).bitCount
          (mergeDown ((s.Normalize).NumberOfIntervals - size)
            (s.Normalize).intervals)).WF := by
        intro i hi
        have := mergeDown_mem_bounds (fun x => x < 2 ^ s.bitCount)
          (fun x => x < 2 ^ s.bitCount) _ (s.Normalize).intervals
          (fun j hj => (hnwf j hj).1) (fun j hj => (hnwf j hj).2) i hi
        simp only
        rw [hbit]
        exact this
      have hmdnorm : (IntervalSet.mk (s.Normalize).bitCount
          (mergeDown ((s.Normalize).NumberOfIntervals - size)
            (s.Normalize).intervals)).IsNormalized = true := by
        unfold IntervalSet.IsNormalized
        rw [Bool.and_eq_true, List.all_eq_true]
        exact ⟨fun i hi => by simpa using hmd.1 i hi, hmd.2⟩
      have hid := IntervalSet.Normalize_of_normalized _ hmdnorm
      rw [hid]
      have hmdlen : (mergeDown ((s.Normalize).NumberOfIntervals - size)
          (s.Normalize).intervals).length = size := by
        rw [mergeDown_length _ _ hk]
        unfold IntervalSet.NumberOfIntervals at hgt ⊢
        omega
      refine ⟨hmdnorm, hmdwf, rfl, ?_, ?_, ?_, ?_⟩
      · show (mergeDown ((s.Normalize).NumberOfIntervals - size)
          (s.Normalize).intervals).length ≤ size
        omega
      · intro v hv hcov
        unfold IntervalSet.Covers
        simp only
        refine mergeDown_covers _ _ v (by rw [hs]; exact hp)
          (by rw [hs]; exact hc) ?_
        have : (s.Normalize).Covers v = true := by
          rw [s.Normalize_covers v hv hwf]
          exact hcov
        exact this
      · intro _
        intro hnil
        simp only at hnil
        rw [hnil] at hmdlen
        simp at hmdlen
        omega
      · intro L U hLU v hcov
        obtain ⟨i, hi, hicov⟩ := (IntervalSet.covers_iff _ v).mp hcov
        simp only at hi
        have hbounds := mergeDown_mem_bounds (fun x => L ≤ x) (fun x => x ≤ U)
          _ (s.Normalize).intervals
          (fun j hj => by
            have hcj := (hcov_sn_mem j (by rw [← hs]; exact hj)).1
            have hjwf := hnwf j hj
            rw [hbit] at hjwf
            exact (hLU _ ((hcov_of_s _ hjwf.1).mp hcj)).1)
          (fun j hj => by
            have hcj := (hcov_sn_mem j (by rw [← hs]; exact hj)).2
            have hjwf := hnwf j hj
            rw [hbit] at hjwf
            exact (hLU _ ((hcov_of_s _ hjwf.2).mp hcj)).2)
          i hi
        rw [Interval.covers_proper_iff _ _ (hmd.1 i hi)] at hicov
        simp only at hbounds
        omega

/-- C3: for every interval set and every target size ≥ 1,
`MinimizeIntervals(set, size)` — which repeatedly merges the
lexicographically-adjacent pair of intervals with the smallest numeric gap,
ties broken in favor of the pair whose earlier interval has the smaller
lower bound — returns a normalized interval set with at most `size`
intervals whose union is a superset of the input's union. -/
theorem MinimizeIntervals_correct (s : IntervalSet) (size : Nat) (hwf : s.WF)
    (hsize : 1 ≤ size) :
    (MinimizeIntervals s size).IsNormalized = true ∧
      (MinimizeIntervals s size).NumberOfIntervals ≤ size ∧
      (∀ v, v < 2 ^ s.bitCount → s.Covers v = true →
        (MinimizeIntervals s size).Covers v = true) := by
  obtain ⟨h1, _, _, h4, h5, _, _⟩ := MinimizeIntervals_facts s size hwf hsize
  exact ⟨h1, h4, h5⟩

/-- Witness for C3 at a concrete input: a three-interval 2-bit set
minimized to two intervals. -/
theorem MinimizeIntervals_correct_witness :
    (MinimizeIntervals ⟨2, [⟨0, 0⟩, ⟨2, 2⟩, ⟨3, 3⟩]⟩ 2).IsNormalized = true ∧
      (MinimizeIntervals ⟨2, [⟨0, 0⟩, ⟨2, 2⟩, ⟨3, 3⟩]⟩ 2).NumberOfIntervals ≤ 2 ∧
      (MinimizeIntervals ⟨2, [⟨0, 0⟩, ⟨2, 2⟩, ⟨3, 3⟩]⟩ 2).Covers 2 = true := by
  obtain ⟨h1, h2, h3⟩ := MinimizeIntervals_correct ⟨2, [⟨0, 0⟩, ⟨2, 2⟩, ⟨3, 3⟩]⟩ 2
    (by unfold IntervalSet.WF; decide) (by decide)
  exact ⟨h1, h2, h3 2 (by decide) (by decide)⟩

/-! Ternary vectors.  A `TernaryVector` is a list of ternary values,
least-significant bit first, mirroring the indexing of the source. -/

/-- Whether a ternary value is known. -/
def ternaryIsKnown (tv : TernaryValue) : Bool :=
  match tv with
  | TernaryValue.kUnknown => false
  | _ => true

/-- Modelled from the spec: `ternary_ops::IsFullyKnown`. -/
def ternaryIsFullyKnown (t : List TernaryValue) : Bool :=
  t.all ternaryIsKnown

/-- Modelled from the spec: `ternary_ops::ToKnownBitsValues` — the value of
the known bits, with unknown bits read as zero. -/
def ternaryToKnownBitsValues (t : List TernaryValue) : Nat :=
  t.foldr (fun tv acc => 2 * acc + (if tv = TernaryValue.kKnownOne then 1 else 0)) 0

/-- Modelled from the spec: `ternary_ops::IsCompatible` — a concrete value
agrees with every known bit of the ternary pattern (and fits in its
width). -/
def ternaryIsCompatible : List TernaryValue → Nat → Bool
  | [], v => decide (v = 0)
  | tv :: rest, v =>
      (match tv with
        | TernaryValue.kKnownZero => decide (v % 2 = 0)
        | TernaryValue.kKnownOne => decide (v % 2 = 1)
        | TernaryValue.kUnknown => true) &&
        ternaryIsCompatible rest (v / 2)

/-- Modelled from the spec: `ternary_ops::AllBitsValues` enumerates every
concrete value compatible with the ternary vector. -/
def ternaryAllBitsValues : List TernaryValue → List Nat
  | [] => [0]
  | tv :: rest =>
      (ternaryAllBitsValues rest).flatMap (fun r =>
        match tv with
        | TernaryValue.kKnownZero => [2 * r]
        | TernaryValue.kKnownOne => [2 * r + 1]
        | TernaryValue.kUnknown => [2 * r, 2 * r + 1])

/-- Modelled from the spec: `ternary_ops::UpdateWithIntersection` keeps a
bit known only when both vectors agree on it. -/
def ternaryIntersect (a b : List TernaryValue) : List TernaryValue :=
  List.zipWith (fun x y => if x = y then x else TernaryValue.kUnknown) a b

/-- Length of the longest common most-significant-bit prefix of two `w`-bit
values, as computed by `bits_ops::LongestCommonPrefixMSB`. -/
def lcpLen (w a b : Nat) : Nat :=
  match w with
  | 0 => 0
  | k + 1 => if a.testBit k = b.testBit k then lcpLen k a b + 1 else 0

/-- Ternary extraction from one interval: the bits of the longest common
MSB-aligned prefix of the bounds are known, the rest unknown. -/
def ExtractTernaryInterval (w : Nat) (i : Interval) : List TernaryValue :=
  (List.range w).map (fun idx =>
    if w - lcpLen w i.lowerBound i.upperBound ≤ idx then
      (if i.lowerBound.testBit idx then TernaryValue.kKnownOne
       else TernaryValue.kKnownZero)
    else TernaryValue.kUnknown)

/-- `interval_ops::ExtractTernaryVector`: extract each interval's ternary
and intersect across the (normalized, non-empty) set. -/
def ExtractTernaryVector (s : IntervalSet) : List TernaryValue :=
  match s.intervals with
  | [] => List.replicate s.bitCount TernaryValue.kUnknown
  | a :: rest =>
      rest.foldl
        (fun acc i => ternaryIntersect acc (ExtractTernaryInterval s.bitCount i))
        (ExtractTernaryInterval s.bitCount a)

/-- Number of trailing (low-order) unknown bits of a ternary vector,
matching the `lsb_xs` initialisation in `interval_ops::FromTernary`. -/
def fromTernaryLsbXs0 (tern : List TernaryValue) : Nat :=
  (tern.takeWhile (fun tv => ! ternaryIsKnown tv)).length

/-- Positions of the unknown bits at or above the trailing unknown run,
matching the `x_locations` collection loop of `interval_ops::FromTernary`
(before the deque is trimmed). -/
def fromTernaryXsAll (tern : List TernaryValue) : List Nat :=
  (List.range tern.length).filter
    (fun i => fromTernaryLsbXs0 tern ≤ i &&
      ! ternaryIsKnown (tern.getD i TernaryValue.kUnknown))

/-- The final `lsb_xs` of `interval_ops::FromTernary`: when there are more
than `maxIntervalBits` unknown positions the unknown low region is extended
past the excess unknown bit. -/
def fromTernaryLsbXs (tern : List TernaryValue) (maxIntervalBits : Nat) : Nat :=
  if maxIntervalBits < (fromTernaryXsAll tern).length then
    (fromTernaryXsAll tern).getD
      ((fromTernaryXsAll tern).length - (maxIntervalBits + 1)) 0 + 1
  else fromTernaryLsbXs0 tern

/-- The final trimmed `x_locations` of `interval_ops::FromTernary`. -/
def fromTernaryXLocs (tern : List TernaryValue) (maxIntervalBits : Nat) :
    List Nat :=
  if maxIntervalBits < (fromTernaryXsAll tern).length then
    (fromTernaryXsAll tern).drop ((fromTernaryXsAll tern).length - maxIntervalBits)
  else fromTernaryXsAll tern

/-- `interval_ops::FromTernary`: rebuild an interval set from a ternary
vector, enumerating at most the `maxIntervalBits` most significant unknown
positions and folding all lower unknown bits into contiguous ranges.  The
default bound models the declaration's default argument. -/
def FromTernary (tern : List TernaryValue) (maxIntervalBits : Nat := 4) :
    IntervalSet :=
  if ternaryIsFullyKnown tern then
    IntervalSet.PreciseIS tern.length (ternaryToKnownBitsValues tern)
  else if (fromTernaryXLocs tern maxIntervalBits).isEmpty then
    (IntervalSet.mk tern.length
      [⟨ternaryToKnownBitsValues (tern.drop (fromTernaryLsbXs tern maxIntervalBits)) *
          2 ^ fromTernaryLsbXs tern maxIntervalBits,
        ternaryToKnownBitsValues (tern.drop (fromTernaryLsbXs tern maxIntervalBits)) *
          2 ^ fromTernaryLsbXs tern maxIntervalBits +
          (2 ^ fromTernaryLsbXs tern maxIntervalBits - 1)⟩]).Normalize
  else
    (IntervalSet.mk tern.length
      ((ternaryAllBitsValues (tern.drop (fromTernaryLsbXs tern maxIntervalBits))).map
        (fun v => ⟨v * 2 ^ fromTernaryLsbXs tern maxIntervalBits,
          v * 2 ^ fromTernaryLsbXs tern maxIntervalBits +
            (2 ^ fromTernaryLsbXs tern maxIntervalBits - 1)⟩))).Normalize

theorem ternaryIsCompatible_lt (t : List TernaryValue) (v : Nat)
    (h : ternaryIsCompatible t v = true) : v < 2 ^ t.length := by
  induction t generalizing v with
  | nil =>
      simp [ternaryIsCompatible] at h
      subst h
      simp
  | cons tv rest ih =>
      unfold ternaryIsCompatible at h
      rw [Bool.and_eq_true] at h
      have := ih (v / 2) h.2
      simp only [List.length_cons, pow_succ]
      omega

theorem ternaryToKnownBitsValues_lt (t : List TernaryValue) :
    ternaryToKnownBitsValues t < 2 ^ t.length := by
  induction t with
  | nil => simp [ternaryToKnownBitsValues]
  | cons tv rest ih =>
      unfold ternaryToKnownBitsValues at *
      simp only [List.foldr_cons, List.length_cons, pow_succ]
      split <;> omega

theorem compat_fullyKnown_eq (t : List TernaryValue) (v : Nat)
    (hk : ternaryIsFullyKnown t = true) (h : ternaryIsCompatible t v = true) :
    v = ternaryToKnownBitsValues t := by
  induction t generalizing v with
  | nil =>
      simp [ternaryIsCompatible] at h
      simp [ternaryToKnownBitsValues, h]
  | cons tv rest ih =>
      unfold ternaryIsCompatible at h
      rw [Bool.and_eq_true] at h
      unfold ternaryIsFullyKnown at hk
      simp only [List.all_cons, Bool.and_eq_true] at hk
      have hrest : ternaryIsFullyKnown rest = true := hk.2
      have hv2 := ih (v / 2) hrest h.2
      unfold ternaryToKnownBitsValues at *
      simp only [List.foldr_cons]
      cases tv with
      | kKnownZero =>
          simp only [decide_eq_true_eq] at h
          have h1 := h.1
          have h2 : (if (TernaryValue.kKnownZero = TernaryValue.kKnownOne) then 1 else 0) = 0 := by
            simp
          rw [h2]
          omega
      | kKnownOne =>
          simp only [decide_eq_true_eq] at h
          have h1 := h.1
          have h2 : (if (TernaryValue.kKnownOne = TernaryValue.kKnownOne) then 1 else 0) = 1 := by
            simp
          rw [h2]
          omega
      | kUnknown => simp [ternaryIsKnown] at hk

theorem mem_ternaryAllBitsValues (t : List TernaryValue) (v : Nat) :
    v ∈ ternaryAllBitsValues t ↔ ternaryIsCompatible t v = true := by
  induction t generalizing v with
  | nil => simp [ternaryAllBitsValues, ternaryIsCompatible]
  | cons tv rest ih =>
      unfold ternaryAllBitsValues ternaryIsCompatible
      rw [List.mem_flatMap, Bool.and_eq_true]
      constructor
      · rintro ⟨r, hr, hv⟩
        have hr2 := (ih r).mp hr
        cases tv with
        | kKnownZero =>
            simp at hv
            subst hv
            refine ⟨by simp, ?_⟩
            rw [show 2 * r / 2 = r by omega]
            exact hr2
        | kKnownOne =>
            simp at hv
            subst hv
            refine ⟨by simp; omega, ?_⟩
            rw [show (2 * r + 1) / 2 = r by omega]
            exact hr2
        | kUnknown =>
            simp at hv
            rcases hv with hv | hv <;> subst hv
            · refine ⟨by simp, ?_⟩
              rw [show 2 * r / 2 = r by omega]
              exact hr2
            · refine ⟨by simp, ?_⟩
              rw [show (2 * r + 1) / 2 = r by omega]
              exact hr2
      · rintro ⟨h1, h2⟩
        refine ⟨v / 2, (ih (v / 2)).mpr h2, ?_⟩
        cases tv <;> simp at h1 ⊢ <;> omega

theorem ternaryIsCompatible_drop (t : List TernaryValue) (k : Nat) (v : Nat)
    (h : ternaryIsCompatible t v = true) :
    ternaryIsCompatible (t.drop k) (v / 2 ^ k) = true := by
  induction k generalizing t v with
  | zero => simpa using h
  | succ k ih =>
      cases t with
      | nil =>
          simp only [ternaryIsCompatible, decide_eq_true_eq] at h
          subst h
          simpa [ternaryIsCompatible] using by simp [Nat.zero_div]
      | cons tv rest =>
          unfold ternaryIsCompatible at h
          rw [Bool.and_eq_true] at h
          simp only [List.drop_succ_cons]
          have := ih rest (v / 2) h.2
          rwa [show v / 2 / 2 ^ k = v / 2 ^ (k + 1) by
            rw [Nat.div_div_eq_div_mul]
            congr 1
            rw [pow_succ]
            ring] at this

theorem ternaryIsCompatible_testBit (t : List TernaryValue) (v : Nat)
    (h : ternaryIsCompatible t v = true) :
    ∀ idx, idx < t.length →
      ((t.getD idx TernaryValue.kUnknown = TernaryValue.kKnownOne →
          v.testBit idx = true) ∧
        (t.getD idx TernaryValue.kUnknown = TernaryValue.kKnownZero →
          v.testBit idx = false)) := by
  induction t generalizing v with
  | nil => simp
  | cons tv rest ih =>
      unfold ternaryIsCompatible at h
      rw [Bool.and_eq_true] at h
      intro idx hidx
      cases idx with
      | zero =>
          simp only [List.getD_cons_zero]
          cases tv with
          | kKnownZero =>
              simp only [decide_eq_true_eq] at h
              refine ⟨fun heq => by simp at heq, fun _ => ?_⟩
              rw [Nat.testBit_zero]
              simp
              omega
          | kKnownOne =>
              simp only [decide_eq_true_eq] at h
              refine ⟨fun _ => ?_, fun heq => by simp at heq⟩
              rw [Nat.testBit_zero]
              simp
              omega
          | kUnknown =>
              exact ⟨fun heq => by simp at heq, fun heq => by simp at heq⟩
      | succ idx =>
          simp only [List.getD_cons_succ, Nat.testBit_succ]
          exact ih (v / 2) h.2 idx (by simpa using hidx)

theorem ternaryIsCompatible_of_testBit (t : List TernaryValue) (v : Nat)
    (hlt : v < 2 ^ t.length)
    (h : ∀ idx, idx < t.length →
      ((t.getD idx TernaryValue.kUnknown = TernaryValue.kKnownOne →
          v.testBit idx = true) ∧
        (t.getD idx TernaryValue.kUnknown = TernaryValue.kKnownZero →
          v.testBit idx = false))) :
    ternaryIsCompatible t v = true := by
  induction t generalizing v with
  | nil =>
      simp only [List.length_nil, pow_zero] at hlt
      interval_cases v
      simp [ternaryIsCompatible]
  | cons tv rest ih =>
      unfold ternaryIsCompatible
      rw [Bool.and_eq_true]
      constructor
      · have h0 := h 0 (by simp)
        simp only [List.getD_cons_zero] at h0
        cases tv <;> simp
        · have := h0.2 rfl
          rw [Nat.testBit_zero] at this
          simp at this
          omega
        · have := h0.1 rfl
          rw [Nat.testBit_zero] at this
          simp at this
          omega
      · refine ih (v / 2) ?_ ?_
        · simp only [List.length_cons, pow_succ] at hlt
          omega
        · intro idx hidx
          have := h (idx + 1) (by simpa using hidx)
          simpa only [List.getD_cons_succ, Nat.testBit_succ] using this

theorem lcpLen_le (w a b : Nat) : lcpLen w a b ≤ w := by
  induction w with
  | zero => simp [lcpLen]
  | succ k ih =>
      unfold lcpLen
      split <;> omega

theorem lcpLen_testBit_eq (w a b : Nat) :
    ∀ j, w - lcpLen w a b ≤ j → j < w → a.testBit j = b.testBit j := by
  induction w with
  | zero => omega
  | succ k ih =>
      intro j h1 h2
      unfold lcpLen at h1
      split at h1
      · rename_i heq
        rcases Nat.lt_succ_iff_lt_or_eq.mp h2 with hlt | rfl
        · have := lcpLen_le k a b
          exact ih j (by omega) hlt
        · exact heq
      · omega

theorem lcpLen_self (w a : Nat) : lcpLen w a a = w := by
  induction w with
  | zero => rfl
  | succ k ih => simp [lcpLen, ih]

theorem testBit_div_pow (a p j : Nat) :
    (a / 2 ^ p).testBit j = a.testBit (p + j) := by
  rw [← Nat.shiftRight_eq_div_pow, Nat.testBit_shiftRight]

theorem div_pow_eq_of_testBit (a b w p : Nat) (ha : a < 2 ^ w) (hb : b < 2 ^ w)
    (h : ∀ j, p ≤ j → j < w → a.testBit j = b.testBit j) :
    a / 2 ^ p = b / 2 ^ p := by
  refine Nat.eq_of_testBit_eq (fun j => ?_)
  rw [testBit_div_pow, testBit_div_pow]
  by_cases hj : p + j < w
  · exact h (p + j) (by omega) hj
  · rw [Nat.testBit_lt_two_pow (by
        calc a < 2 ^ w := ha
          _ ≤ 2 ^ (p + j) := Nat.pow_le_pow_right (by omega) (by omega)),
      Nat.testBit_lt_two_pow (by
        calc b < 2 ^ w := hb
          _ ≤ 2 ^ (p + j) := Nat.pow_le_pow_right (by omega) (by omega))]

theorem prefix_testBit_eq_of_between (w lo hi v : Nat) (hlo : lo < 2 ^ w)
    (hhi : hi < 2 ^ w) (h1 : lo ≤ v) (h2 : v ≤ hi) :
    ∀ j, w - lcpLen w lo hi ≤ j → v.testBit j = lo.testBit j := by
  intro j hj
  set p := w - lcpLen w lo hi with hp
  have hdiv : lo / 2 ^ p = hi / 2 ^ p :=
    div_pow_eq_of_testBit lo hi w p hlo hhi
      (fun j h1 h2 => lcpLen_testBit_eq w lo hi j h1 h2)
  have hv : v / 2 ^ p = lo / 2 ^ p := by
    have ha := Nat.div_le_div_right (c := 2 ^ p) h1
    have hb := Nat.div_le_div_right (c := 2 ^ p) h2
    omega
  have := congrArg (fun x => Nat.testBit x (j - p)) hv
  simp only at this
  rwa [testBit_div_pow, testBit_div_pow, Nat.add_sub_cancel' hj] at this

theorem getD_range_map {α : Type} (f : Nat → α) (w idx : Nat) (d : α)
    (h : idx < w) : (((List.range w).map f).getD idx d) = f idx := by
  rw [List.getD_eq_getElem?_getD]
  rw [List.getElem?_map]
  rw [List.getElem?_range h]
  rfl

theorem ExtractTernaryInterval_length (w : Nat) (i : Interval) :
    (ExtractTernaryInterval w i).length = w := by
  simp [ExtractTernaryInterval]

theorem ExtractTernaryInterval_compat (w : Nat) (i : Interval) (v : Nat)
    (hp : i.lowerBound ≤ i.upperBound)
    (hwf : i.lowerBound < 2 ^ w ∧ i.upperBound < 2 ^ w)
    (hv : v < 2 ^ w) (hcov : i.Covers v = true) :
    ternaryIsCompatible (ExtractTernaryInterval w i) v = true := by
  rw [Interval.covers_proper_iff _ _ hp] at hcov
  refine ternaryIsCompatible_of_testBit _ v ?_ ?_
  · rw [ExtractTernaryInterval_length]
    exact hv
  · intro idx hidx
    rw [ExtractTernaryInterval_length] at hidx
    unfold ExtractTernaryInterval
    rw [getD_range_map _ _ _ _ hidx]
    have hpref := prefix_testBit_eq_of_between w i.lowerBound i.upperBound v
      hwf.1 hwf.2 hcov.1 hcov.2 idx
    split
    · rename_i hge
      have hbit := hpref hge
      constructor
      · intro hone
        split at hone
        · rename_i htb
          rw [hbit, htb]
        · simp at hone
      · intro hzero
        split at hzero
        · simp at hzero
        · rename_i htb
          rw [hbit]
          simpa using htb
    · constructor
      · intro hone
        simp at hone
      · intro hzero
        simp at hzero

theorem ternaryIntersect_compat_left (a b : List TernaryValue) (v : Nat)
    (hlen : a.length = b.length) (h : ternaryIsCompatible a v = true) :
    ternaryIsCompatible (ternaryIntersect a b) v = true := by
  induction a generalizing b v with
  | nil =>
      cases b with
      | nil => simpa [ternaryIntersect] using h
      | cons y ys => simp at hlen
  | cons x xs ih =>
      cases b with
      | nil => simp at hlen
      | cons y ys =>
          unfold ternaryIsCompatible at h
          rw [Bool.and_eq_true] at h
          unfold ternaryIntersect
          simp only [List.zipWith_cons_cons]
          unfold ternaryIsCompatible
          rw [Bool.and_eq_true]
          refine ⟨?_, ih ys (v / 2) (by simpa using hlen) h.2⟩
          by_cases hxy : x = y
          · rw [if_pos hxy]
            exact h.1
          · rw [if_neg hxy]

theorem ternaryIntersect_compat_right (a b : List TernaryValue) (v : Nat)
    (hlen : a.length = b.length) (h : ternaryIsCompatible b v = true) :
    ternaryIsCompatible (ternaryIntersect a b) v = true := by
  induction a generalizing b v with
  | nil =>
      cases b with
      | nil => simpa [ternaryIntersect] using h
      | cons y ys => simp at hlen
  | cons x xs ih =>
      cases b with
      | nil => simp at hlen
      | cons y ys =>
          unfold ternaryIsCompatible at h
          rw [Bool.and_eq_true] at h
          unfold ternaryIntersect
          simp only [List.zipWith_cons_cons]
          unfold ternaryIsCompatible
          rw [Bool.and_eq_true]
          refine ⟨?_, ih ys (v / 2) (by simpa using hlen) h.2⟩
          by_cases hxy : x = y
          · rw [if_pos hxy, hxy]
            exact h.1
          · rw [if_neg hxy]

theorem ternaryIntersect_length (a b : List TernaryValue) :
    (ternaryIntersect a b).length = min a.length b.length := by
  simp [ternaryIntersect]

theorem foldl_intersect_compat (w : Nat) (E : Interval → List TernaryValue)
    (hElen : ∀ i, (E i).length = w) (v : Nat) :
    ∀ (rest : List Interval) (acc : List TernaryValue), acc.length = w →
      (ternaryIsCompatible acc v = true ∨
        ∃ i ∈ rest, ternaryIsCompatible (E i) v = true) →
      ternaryIsCompatible (rest.foldl (fun acc i => ternaryIntersect acc (E i)) acc)
        v = true := by
  intro rest
  induction rest with
  | nil =>
      intro acc hlen h
      rcases h with h | ⟨i, hi, _⟩
      · simpa using h
      · simp at hi
  | cons i0 rest2 ih =>
      intro acc hlen h
      simp only [List.foldl_cons]
      refine ih (ternaryIntersect acc (E i0)) ?_ ?_
      · rw [ternaryIntersect_length, hlen, hElen]
        simp
      · rcases h with h | ⟨i, hi, hci⟩
        · exact Or.inl (ternaryIntersect_compat_left acc (E i0) v
            (by rw [hlen, hElen]) h)
        · rcases List.mem_cons.mp hi with rfl | hmem
          · exact Or.inl (ternaryIntersect_compat_right acc (E i) v
              (by rw [hlen, hElen]) hci)
          · exact Or.inr ⟨i, hmem, hci⟩

theorem ExtractTernaryVector_compat (s : IntervalSet) (v : Nat)
    (hn : s.IsNormalized = true) (hwf : s.WF)
    (hcov : s.Covers v = true) :
    ternaryIsCompatible (ExtractTernaryVector s) v = true := by
  obtain ⟨hp, _⟩ := s.isNormalized_facts hn
  have hv := s.covers_lt_pow v hn hwf hcov
  obtain ⟨istar, histar, hicov⟩ := (s.covers_iff v).mp hcov
  unfold ExtractTernaryVector
  cases hs : s.intervals with
  | nil =>
      rw [hs] at histar
      simp at histar
  | cons a rest =>
      rw [hs] at histar hp
      have hwf2 : ∀ i ∈ a :: rest,
          i.lowerBound < 2 ^ s.bitCount ∧ i.upperBound < 2 ^ s.bitCount :=
        fun i hi => hwf i (by rw [hs]; exact hi)
      have hstar : ternaryIsCompatible (ExtractTernaryInterval s.bitCount istar)
          v = true :=
        ExtractTernaryInterval_compat s.bitCount istar v (hp istar histar)
          (hwf2 istar histar) hv hicov
      refine foldl_intersect_compat s.bitCount _
        (fun i => ExtractTernaryInterval_length s.bitCount i) v rest
        (ExtractTernaryInterval s.bitCount a)
        (ExtractTernaryInterval_length s.bitCount a) ?_
      rcases List.mem_cons.mp histar with rfl | hmem
      · exact Or.inl hstar
      · exact Or.inr ⟨istar, hmem, hstar⟩

theorem mem_fromTernaryXsAll (tern : List TernaryValue) (i : Nat) :
    i ∈ fromTernaryXsAll tern ↔ i < tern.length ∧ fromTernaryLsbXs0 tern ≤ i ∧
      ternaryIsKnown (tern.getD i TernaryValue.kUnknown) = false := by
  unfold fromTernaryXsAll
  rw [List.mem_filter, List.mem_range]
  simp only [Bool.and_eq_true, decide_eq_true_eq, Bool.not_eq_true']

theorem fromTernaryXsAll_sorted (tern : List TernaryValue) :
    (fromTernaryXsAll tern).Pairwise (· < ·) := by
  unfold fromTernaryXsAll
  exact (List.pairwise_lt_range tern.length).filter _

theorem fromTernaryLsbXs0_le_lsbXs (tern : List TernaryValue) (m : Nat) :
    fromTernaryLsbXs0 tern ≤ fromTernaryLsbXs tern m := by
  unfold fromTernaryLsbXs
  split
  · rename_i hlt
    have hidx : (fromTernaryXsAll tern).length - (m + 1) <
        (fromTernaryXsAll tern).length := by omega
    have hmem : (fromTernaryXsAll tern).getD
        ((fromTernaryXsAll tern).length - (m + 1)) 0 ∈ fromTernaryXsAll tern := by
      rw [List.getD_eq_getElem?_getD, List.getElem?_eq_getElem hidx]
      exact List.getElem_mem hidx
    have := (mem_fromTernaryXsAll tern _).mp hmem
    omega
  · exact Nat.le_refl _

theorem fromTernaryLsbXs_le_length (tern : List TernaryValue) (m : Nat) :
    fromTernaryLsbXs tern m ≤ tern.length := by
  unfold fromTernaryLsbXs
  split
  · rename_i hlt
    have hidx : (fromTernaryXsAll tern).length - (m + 1) <
        (fromTernaryXsAll tern).length := by omega
    have hmem : (fromTernaryXsAll tern).getD
        ((fromTernaryXsAll tern).length - (m + 1)) 0 ∈ fromTernaryXsAll tern := by
      rw [List.getD_eq_getElem?_getD, List.getElem?_eq_getElem hidx]
      exact List.getElem_mem hidx
    have := (mem_fromTernaryXsAll tern _).mp hmem
    omega
  · exact (List.takeWhile_prefix _).length_le

theorem unknown_mem_xLocs (tern : List TernaryValue) (m : Nat) (i : Nat)
    (hge : fromTernaryLsbXs tern m ≤ i) (hlt : i < tern.length)
    (hu : ternaryIsKnown (tern.getD i TernaryValue.kUnknown) = false) :
    i ∈ fromTernaryXLocs tern m := by
  have hmem : i ∈ fromTernaryXsAll tern := by
    rw [mem_fromTernaryXsAll]
    have := fromTernaryLsbXs0_le_lsbXs tern m
    exact ⟨hlt, by omega, hu⟩
  unfold fromTernaryXLocs
  unfold fromTernaryLsbXs at hge
  split
  · rename_i hcase
    rw [if_pos hcase] at hge
    obtain ⟨r, hr, hri⟩ := List.mem_iff_getElem.mp hmem
    set q := (fromTernaryXsAll tern).length - (m + 1) with hq
    have hqlt : q < (fromTernaryXsAll tern).length := by omega
    have hgetq : (fromTernaryXsAll tern).getD q 0 = (fromTernaryXsAll tern)[q] := by
      rw [List.getD_eq_getElem?_getD, List.getElem?_eq_getElem hqlt]
      rfl
    rw [hgetq] at hge
    have hrq : q < r := by
      by_contra hcon
      push_neg at hcon
      rcases Nat.lt_or_ge r q with hlt2 | hge2
      · have := (List.pairwise_iff_getElem.mp (fromTernaryXsAll_sorted tern))
          r q hr hqlt hlt2
        omega
      · have hrq : r = q := by omega
        subst hrq
        omega
    have hrge : (fromTernaryXsAll tern).length - m ≤ r := by omega
    have hr2 : r - ((fromTernaryXsAll tern).length - m) <
        ((fromTernaryXsAll tern).drop
          ((fromTernaryXsAll tern).length - m)).length := by
      rw [List.length_drop]
      omega
    rw [List.mem_iff_getElem?]
    refine ⟨r - ((fromTernaryXsAll tern).length - m), ?_⟩
    rw [List.getElem?_drop]
    rw [show (fromTernaryXsAll tern).length - m +
      (r - ((fromTernaryXsAll tern).length - m)) = r by omega]
    rw [List.getElem?_eq_getElem hr, hri]
  · exact hmem

theorem fullyKnown_drop_of_xLocs_empty (tern : List TernaryValue) (m : Nat)
    (hemp : (fromTernaryXLocs tern m).isEmpty = true) :
    ternaryIsFullyKnown (tern.drop (fromTernaryLsbXs tern m)) = true := by
  rw [List.isEmpty_iff] at hemp
  unfold ternaryIsFullyKnown
  rw [List.all_eq_true]
  intro tv htv
  obtain ⟨j, hj, hji⟩ := List.mem_iff_getElem.mp htv
  by_contra hcon
  rw [Bool.not_eq_true] at hcon
  have hjlen : fromTernaryLsbXs tern m + j < tern.length := by
    rw [List.length_drop] at hj
    omega
  have hmem := unknown_mem_xLocs tern m (fromTernaryLsbXs tern m + j)
    (by omega) hjlen
    (by
      rw [List.getD_eq_getElem?_getD, List.getElem?_eq_getElem hjlen]
      have : tern[fromTernaryLsbXs tern m + j] = tv := by
        rw [← List.getElem_drop tern]
        exact hji
      rw [this]
      exact hcon)
  rw [hemp] at hmem
  simp at hmem

theorem ternaryToKnownBitsValues_testBit (t : List TernaryValue) (j : Nat) :
    (ternaryToKnownBitsValues t).testBit j =
      decide (t.getD j TernaryValue.kUnknown = TernaryValue.kKnownOne) := by
  induction t generalizing j with
  | nil => simp [ternaryToKnownBitsValues]
  | cons tv rest ih =>
      unfold ternaryToKnownBitsValues
      simp only [List.foldr_cons]
      cases j with
      | zero =>
          rw [Nat.testBit_zero, List.getD_cons_zero]
          cases tv <;> simp <;> omega
      | succ j =>
          rw [Nat.testBit_succ, List.getD_cons_succ]
          rw [show (2 * List.foldr (fun tv acc =>
            2 * acc + if tv = TernaryValue.kKnownOne then 1 else 0) 0 rest +
              (if tv = TernaryValue.kKnownOne then 1 else 0)) / 2 =
            List.foldr (fun tv acc =>
              2 * acc + if tv = TernaryValue.kKnownOne then 1 else 0) 0 rest by
            split <;> omega]
          exact ih j

theorem fromTernary_single_covers (t : List TernaryValue) (l : Nat) (v : Nat)
    (h : ternaryIsCompatible t v = true) (hl : l ≤ t.length)
    (hk : ternaryIsFullyKnown (t.drop l) = true) :
    ((IntervalSet.mk t.length
      [⟨ternaryToKnownBitsValues (t.drop l) * 2 ^ l,
        ternaryToKnownBitsValues (t.drop l) * 2 ^ l +
          (2 ^ l - 1)⟩]).Normalize).Covers v = true := by
  have hvlt := ternaryIsCompatible_lt t v h
  have hdrop := ternaryIsCompatible_drop t l v h
  have hveq := compat_fullyKnown_eq _ _ hk hdrop
  have hHlt := ternaryToKnownBitsValues_lt (t.drop l)
  rw [List.length_drop] at hHlt
  have hpow : 2 ^ (t.length - l) * 2 ^ l = 2 ^ t.length := by
    rw [← pow_add]
    congr 1
    omega
  have hpos : 0 < 2 ^ l := Nat.pos_pow_of_pos l (by omega)
  have hub : ternaryToKnownBitsValues (t.drop l) * 2 ^ l + (2 ^ l - 1) <
      2 ^ t.length := by
    have h1 : (ternaryToKnownBitsValues (t.drop l) + 1) * 2 ^ l ≤
        2 ^ (t.length - l) * 2 ^ l :=
      Nat.mul_le_mul_right _ (by omega)
    rw [hpow] at h1
    have h2 : (ternaryToKnownBitsValues (t.drop l) + 1) * 2 ^ l =
        ternaryToKnownBitsValues (t.drop l) * 2 ^ l + 2 ^ l := by ring
    omega
  have hwfS : (IntervalSet.mk t.length
      [⟨ternaryToKnownBitsValues (t.drop l) * 2 ^ l,
        ternaryToKnownBitsValues (t.drop l) * 2 ^ l + (2 ^ l - 1)⟩]).WF := by
    intro i hi
    simp at hi
    subst hi
    simp only
    omega
  rw [IntervalSet.Normalize_covers _ v hvlt hwfS]
  rw [IntervalSet.covers_iff]
  refine ⟨⟨ternaryToKnownBitsValues (t.drop l) * 2 ^ l,
    ternaryToKnownBitsValues (t.drop l) * 2 ^ l + (2 ^ l - 1)⟩, by simp, ?_⟩
  rw [Interval.covers_proper_iff _ _ (by simp)]
  simp only
  have hdm := Nat.div_add_mod v (2 ^ l)
  have hmlt : v % 2 ^ l < 2 ^ l := Nat.mod_lt v hpos
  rw [hveq] at hdm
  have hcomm : ternaryToKnownBitsValues (t.drop l) * 2 ^ l =
      2 ^ l * ternaryToKnownBitsValues (t.drop l) := Nat.mul_comm _ _
  omega

theorem fromTernary_enum_covers (t : List TernaryValue) (l : Nat) (v : Nat)
    (h : ternaryIsCompatible t v = true) (hl : l ≤ t.length) :
    ((IntervalSet.mk t.length
      ((ternaryAllBitsValues (t.drop l)).map
        (fun u => ⟨u * 2 ^ l, u * 2 ^ l + (2 ^ l - 1)⟩))).Normalize).Covers
      v = true := by
  have hvlt := ternaryIsCompatible_lt t v h
  have hdrop := ternaryIsCompatible_drop t l v h
  have hpow : 2 ^ (t.length - l) * 2 ^ l = 2 ^ t.length := by
    rw [← pow_add]
    congr 1
    omega
  have hpos : 0 < 2 ^ l := Nat.pos_pow_of_pos l (by omega)
  have hub : ∀ u : Nat, u < 2 ^ (t.length - l) →
      u * 2 ^ l + (2 ^ l - 1) < 2 ^ t.length := by
    intro u hu
    have h1 : (u + 1) * 2 ^ l ≤ 2 ^ (t.length - l) * 2 ^ l :=
      Nat.mul_le_mul_right _ (by omega)
    rw [hpow] at h1
    have h2 : (u + 1) * 2 ^ l = u * 2 ^ l + 2 ^ l := by ring
    omega
  have hwfS : (IntervalSet.mk t.length
      ((ternaryAllBitsValues (t.drop l)).map
        (fun u => ⟨u * 2 ^ l, u * 2 ^ l + (2 ^ l - 1)⟩))).WF := by
    intro i hi
    obtain ⟨u, hu, hui⟩ := List.mem_map.mp hi
    have hcu := (mem_ternaryAllBitsValues _ u).mp hu
    have hult := ternaryIsCompatible_lt _ u hcu
    rw [List.length_drop] at hult
    subst hui
    simp only
    have := hub u hult
    omega
  rw [IntervalSet.Normalize_covers _ v hvlt hwfS]
  rw [IntervalSet.covers_iff]
  refine ⟨⟨(v / 2 ^ l) * 2 ^ l, (v / 2 ^ l) * 2 ^ l + (2 ^ l - 1)⟩, ?_, ?_⟩
  · exact List.mem_map.mpr ⟨v / 2 ^ l,
      (mem_ternaryAllBitsValues _ _).mpr hdrop, rfl⟩
  · rw [Interval.covers_proper_iff _ _ (by simp)]
    simp only
    have hdm := Nat.div_add_mod v (2 ^ l)
    have hmlt : v % 2 ^ l < 2 ^ l := Nat.mod_lt v hpos
    have hcomm : (v / 2 ^ l) * 2 ^ l = 2 ^ l * (v / 2 ^ l) := Nat.mul_comm _ _
    omega

theorem FromTernary_covers (t : List TernaryValue) (m : Nat) (v : Nat)
    (h : ternaryIsCompatible t v = true) :
    (FromTernary t m).Covers v = true := by
  unfold FromTernary
  split
  · rename_i hk
    have hveq := compat_fullyKnown_eq t v hk h
    simp [IntervalSet.PreciseIS, IntervalSet.Covers, Interval.Covers, hveq]
  · split
    · rename_i hnk hemp
      exact fromTernary_single_covers t (fromTernaryLsbXs t m) v h
        (fromTernaryLsbXs_le_length t m)
        (fullyKnown_drop_of_xLocs_empty t m hemp)
    · exact fromTernary_enum_covers t (fromTernaryLsbXs t m) v h
        (fromTernaryLsbXs_le_length t m)

theorem ExtractTernaryInterval_fullyKnown_of_precise (w : Nat) (i : Interval)
    (hlo : i.lowerBound = i.upperBound) :
    ternaryIsFullyKnown (ExtractTernaryInterval w i) = true := by
  unfold ternaryIsFullyKnown ExtractTernaryInterval
  rw [List.all_eq_true]
  intro x hx
  obtain ⟨idx, hidx, hxi⟩ := List.mem_map.mp hx
  subst hxi
  rw [← hlo, lcpLen_self]
  simp only [Nat.sub_self, Nat.zero_le, if_true]
  split <;> rfl

theorem ExtractTernaryInterval_value_of_precise (w : Nat) (i : Interval)
    (hlo : i.lowerBound = i.upperBound) (hlt : i.lowerBound < 2 ^ w) :
    ternaryToKnownBitsValues (ExtractTernaryInterval w i) = i.lowerBound := by
  refine Nat.eq_of_testBit_eq (fun j => ?_)
  rw [ternaryToKnownBitsValues_testBit]
  by_cases hj : j < w
  · unfold ExtractTernaryInterval
    rw [getD_range_map _ _ _ _ hj]
    rw [← hlo, lcpLen_self]
    simp only [Nat.sub_self, Nat.zero_le, if_true]
    cases htb : i.lowerBound.testBit j <;> simp
  · have h1 : i.lowerBound.testBit j = false :=
      Nat.testBit_lt_two_pow (by
        calc i.lowerBound < 2 ^ w := hlt
          _ ≤ 2 ^ j := Nat.pow_le_pow_right (by omega) (by omega))
    rw [h1]
    have h2 : (ExtractTernaryInterval w i).getD j TernaryValue.kUnknown =
        TernaryValue.kUnknown := by
      apply List.getD_eq_default
      rw [ExtractTernaryInterval_length]
      omega
    rw [h2]
    simp

/-- C4: for every normalized non-empty interval set `S`, the round trip
`FromTernary(ExtractTernaryVector(S))` is a superset cover of `S` — every
concrete value in `S` is covered by the round-tripped set — and equals `S`
exactly whenever `S` is precise. -/
theorem FromTernary_ExtractTernaryVector_roundTrip (s : IntervalSet) (m : Nat)
    (hn : s.IsNormalized = true) (hwf : s.WF) (hne : s.intervals ≠ []) :
    (∀ v, s.Covers v = true →
      (FromTernary (ExtractTernaryVector s) m).Covers v = true) ∧
      (s.IsPrecise = true → FromTernary (ExtractTernaryVector s) m = s) := by
  constructor
  · intro v hcov
    exact FromTernary_covers _ m v (ExtractTernaryVector_compat s v hn hwf hcov)
  · intro hprec
    unfold IntervalSet.IsPrecise at hprec
    obtain ⟨i, hI, hlo⟩ : ∃ i, s.intervals = [i] ∧
        i.lowerBound = i.upperBound := by
      cases hI : s.intervals with
      | nil =>
          rw [hI] at hprec
          simp at hprec
      | cons i rest =>
          cases rest with
          | nil =>
              rw [hI] at hprec
              simp only at hprec
              exact ⟨i, rfl, by simpa using hprec⟩
          | cons j rest2 =>
              rw [hI] at hprec
              simp at hprec
    have hplt : i.lowerBound < 2 ^ s.bitCount := (hwf i (by rw [hI]; simp)).1
    have hE : ExtractTernaryVector s = ExtractTernaryInterval s.bitCount i := by
      unfold ExtractTernaryVector
      rw [hI]
      rfl
    have hEfk := ExtractTernaryInterval_fullyKnown_of_precise s.bitCount i hlo
    have hval := ExtractTernaryInterval_value_of_precise s.bitCount i hlo hplt
    rw [hE]
    unfold FromTernary
    rw [if_pos hEfk, hval, ExtractTernaryInterval_length]
    unfold IntervalSet.PreciseIS
    cases s with
    | mk w ivals =>
        simp only at hI ⊢
        rw [hI]
        have : i = ⟨i.lowerBound, i.lowerBound⟩ := by
          cases i
          simp only at hlo ⊢
          rw [hlo]
        rw [← this]

/-- Witness for C4 at a concrete input: the normalized 4-bit set
covering 2, 3, 10 and 11. -/
theorem FromTernary_ExtractTernaryVector_roundTrip_witness :
    ((FromTernary (ExtractTernaryVector ⟨4, [⟨2, 3⟩, ⟨10, 11⟩]⟩) 4).Covers 10 = true) ∧
      ((IntervalSet.mk 4 [⟨2, 3⟩, ⟨10, 11⟩]).IsPrecise = true →
        FromTernary (ExtractTernaryVector ⟨4, [⟨2, 3⟩, ⟨10, 11⟩]⟩) 4 =
          ⟨4, [⟨2, 3⟩, ⟨10, 11⟩]⟩) := by
  obtain ⟨h1, h2⟩ := FromTernary_ExtractTernaryVector_roundTrip
    ⟨4, [⟨2, 3⟩, ⟨10, 11⟩]⟩ 4 (by decide) (by unfold IntervalSet.WF; decide)
    (by decide)
  exact ⟨h1 10 (by decide), h2⟩

namespace interval_ops

/-- Tonicity of an argument: whether increasing it increases (monotone) or
decreases (antitone) the output, ignoring overflow. -/
inductive Tonicity where
  | Monotone
  | Antitone
deriving DecidableEq, Repr

/-- What sort of behavior an argument exhibits. -/
structure ArgumentBehavior where
  tonicity : Tonicity
  size_preserving : Bool
deriving DecidableEq, Repr

/-- Monotone, size-preserving argument. -/
def kMonotoneSizePreserving : ArgumentBehavior := ⟨Tonicity.Monotone, true⟩

/-- Monotone, non-size-preserving argument. -/
def kMonotoneNonSizePreserving : ArgumentBehavior := ⟨Tonicity.Monotone, false⟩

/-- Antitone, size-preserving argument. -/
def kAntitoneSizePreserving : ArgumentBehavior := ⟨Tonicity.Antitone, true⟩

/-- Antitone, non-size-preserving argument. -/
def kAntitoneNonSizePreserving : ArgumentBehavior := ⟨Tonicity.Antitone, false⟩

/-- Result of a corner evaluation with overflow classification. -/
structure OverflowResult where
  result : Nat
  first_overflow_bit : Bool := false
  second_overflow_bit : Bool := false
deriving DecidableEq, Repr

/-- Modelled from the spec: `MixedRadixIterate` enumerates every choice of
one index per radix digit (one interval per operand); the enumeration stops
early when the callback requests it (handled by `processCombos`). -/
def mixedRadixCombos : List Nat → List (List Nat)
  | [] => [[]]
  | r :: rs =>
      (List.range r).flatMap (fun i => (mixedRadixCombos rs).map (fun c => i :: c))

/-- Corner selection: for each operand, the chosen interval's bound picked
by the operand's tonicity (lower bound for monotone, upper bound for
antitone — and vice versa for the upper corner). -/
def cornersFor : List ArgumentBehavior → List IntervalSet → List Nat →
    (List Nat × List Nat)
  | b :: bs, s :: ss, i :: is =>
      let rest := cornersFor bs ss is
      let itv := s.intervals.getD i ⟨0, 0⟩
      match b.tonicity with
      | Tonicity.Monotone =>
          (itv.lowerBound :: rest.1, itv.upperBound :: rest.2)
      | Tonicity.Antitone =>
          (itv.upperBound :: rest.1, itv.lowerBound :: rest.2)
  | _, _, _ => ([], [])

/-- Per-combination interval emission of `PerformVariadicOp`: the list of
result intervals contributed by one choice of corner evaluations, and
whether the enumeration should stop early. -/
def emitStep (overflowSp : Bool) (resultBitSize : Nat)
    (lower upper : OverflowResult) : List Interval × Bool :=
  if !lower.first_overflow_bit && !upper.first_overflow_bit then
    ([⟨lower.result, upper.result⟩], false)
  else if overflowSp then
    ([⟨lower.result, upper.result⟩], false)
  else if (lower.first_overflow_bit && upper.first_overflow_bit) ||
      lower.second_overflow_bit || upper.second_overflow_bit ||
      decide (lower.result < upper.result) then
    ([⟨0, 2 ^ resultBitSize - 1⟩], true)
  else
    ([⟨lower.result, 2 ^ resultBitSize - 1⟩, ⟨0, upper.result⟩], false)

/-- Sequential processing of combinations with early stop. -/
def processCombos (f : List Nat → List Interval × Bool) :
    List (List Nat) → List Interval
  | [] => []
  | c :: cs =>
      match f c with
      | (ivs, true) => ivs
      | (ivs, false) => ivs ++ processCombos f cs

/-- Cardinality minimization applied to each operand before the corner
enumeration: five segments for the first twelve operands, one for the
rest. -/
def minimizedOperands (inputOperands : List IntervalSet) : List IntervalSet :=
  inputOperands.enum.map
    (fun p => MinimizeIntervals p.2 (if p.1 < 12 then 5 else 1))

/-- The `overflow_is_size_preserving` computation: every non-precise operand
is size-preserving and exactly one operand is non-precise. -/
def overflowSizePreservingFlag (behaviors : List ArgumentBehavior)
    (operands : List IntervalSet) : Bool :=
  ((behaviors.zip operands).all
    (fun p => p.1.size_preserving || p.2.IsPrecise)) &&
    (operands.countP (fun s => ! s.IsPrecise) == 1)

/-- The generic variadic interval algorithm `PerformVariadicOp`. -/
def PerformVariadicOp (calcFn : List Nat → OverflowResult)
    (behaviors : List ArgumentBehavior) (inputOperands : List IntervalSet)
    (resultBitSize : Nat) : IntervalSet :=
  let operands := minimizedOperands inputOperands
  if operands.all IntervalSet.IsPrecise then
    IntervalSet.PreciseIS resultBitSize
      (calcFn (operands.map (fun s => s.GetPreciseValue.getD 0))).result
  else
    MinimizeIntervals
      ((IntervalSet.mk resultBitSize
        (processCombos
          (fun idxs =>
            emitStep (overflowSizePreservingFlag behaviors operands)
              resultBitSize
              (calcFn (cornersFor behaviors operands idxs).1)
              (calcFn (cornersFor behaviors operands idxs).2))
          (mixedRadixCombos
            (operands.map IntervalSet.NumberOfIntervals)))).Normalize) 16

/-- The per-combination case analysis exactly as the claim words it: no
overflow on either corner emits the single interval from the two corner
results; a size-preserving single-varying-operand overflow still emits that
single (possibly wraparound) interval; overflow on both corners, or a
double-width overflow on either corner, or the upper-corner result
exceeding the lower-corner result, emits the maximal all-values interval
and stops the enumeration early; every remaining overflow emits the two
complementary tail intervals. -/
def specEmitStep (singleVaryingSp : Bool) (w : Nat)
    (lower upper : OverflowResult) : List Interval × Bool :=
  if lower.first_overflow_bit = false ∧ upper.first_overflow_bit = false then
    ([⟨lower.result, upper.result⟩], false)
  else if singleVaryingSp = true then
    ([⟨lower.result, upper.result⟩], false)
  else if (lower.first_overflow_bit = true ∧ upper.first_overflow_bit = true) ∨
      lower.second_overflow_bit = true ∨ upper.second_overflow_bit = true ∨
      lower.result < upper.result then
    ((IntervalSet.Maximal w).intervals, true)
  else
    ([⟨lower.result, 2 ^ w - 1⟩, ⟨0, upper.result⟩], false)

/-- The claim's wording of the wraparound-tolerant case: exactly one operand
is non-precise, and every non-precise operand is size-preserving. -/
def specSizePreservingCondition (behaviors : List ArgumentBehavior)
    (operands : List IntervalSet) : Bool :=
  (operands.countP (fun s => ! s.IsPrecise) == 1) &&
    ((behaviors.zip operands).all
      (fun p => if p.2.IsPrecise then true else p.1.size_preserving))

/-- C2: the generic variadic interval algorithm emits intervals by exactly
the claim's case analysis: its per-combination emission agrees with
`specEmitStep`, its wraparound-tolerance flag agrees with the claim's
single-non-precise/size-preserving condition, and a combination that emits
the maximal interval stops the enumeration early. -/
theorem PerformVariadicOp_emit_cases :
    (∀ (sp : Bool) (w : Nat) (lower upper : OverflowResult),
      emitStep sp w lower upper = specEmitStep sp w lower upper) ∧
      (∀ (behaviors : List ArgumentBehavior) (operands : List IntervalSet),
        overflowSizePreservingFlag behaviors operands =
          specSizePreservingCondition behaviors operands) ∧
      (∀ (f : List Nat → List Interval × Bool) (ivs : List Interval)
        (c : List Nat) (cs : List (List Nat)), f c = (ivs, true) →
        processCombos f (c :: cs) = ivs) := by
  refine ⟨?_, ?_, ?_⟩
  · intro sp w lower upper
    rcases lower with ⟨lr, lf, ls⟩
    rcases upper with ⟨ur, uf, us⟩
    cases lf <;> cases uf <;> cases ls <;> cases us <;> cases sp <;>
      by_cases hcmp : lr < ur <;>
      simp [emitStep, specEmitStep, IntervalSet.Maximal, hcmp]
  · intro behaviors operands
    unfold overflowSizePreservingFlag specSizePreservingCondition
    have hall : (behaviors.zip operands).all
        (fun p => p.1.size_preserving || p.2.IsPrecise) =
        (behaviors.zip operands).all
          (fun p => if p.2.IsPrecise then true else p.1.size_preserving) := by
      induction behaviors.zip operands with
      | nil => rfl
      | cons p rest ih =>
          simp only [List.all_cons, ih]
          congr 1
          cases hpre : p.2.IsPrecise <;> cases hsp : p.1.size_preserving <;>
            simp [hpre, hsp]
    rw [hall, Bool.and_comm]
  · intro f ivs c cs h
    simp [processCombos, h]

/-- Witness for C2 at concrete inputs. -/
theorem PerformVariadicOp_emit_cases_witness :
    emitStep true 2 ⟨1, true, false⟩ ⟨2, false, false⟩ =
        specEmitStep true 2 ⟨1, true, false⟩ ⟨2, false, false⟩ ∧
      overflowSizePreservingFlag [kMonotoneSizePreserving]
          [⟨2, [⟨0, 1⟩]⟩] =
        specSizePreservingCondition [kMonotoneSizePreserving]
          [⟨2, [⟨0, 1⟩]⟩] ∧
      processCombos (fun _ => ([⟨0, 3⟩], true)) [[0]] = [⟨0, 3⟩] :=
  ⟨PerformVariadicOp_emit_cases.1 true 2 ⟨1, true, false⟩ ⟨2, false, false⟩,
    PerformVariadicOp_emit_cases.2.1 [kMonotoneSizePreserving] [⟨2, [⟨0, 1⟩]⟩],
    PerformVariadicOp_emit_cases.2.2 (fun _ => ([⟨0, 3⟩], true)) [⟨0, 3⟩]
      [0] [] rfl⟩

theorem minimizedOperands_length (inputs : List IntervalSet) :
    (minimizedOperands inputs).length = inputs.length := by
  simp [minimizedOperands]

theorem minimizedOperands_getD (inputs : List IntervalSet) (i : Nat)
    (h : i < inputs.length) (d : IntervalSet) :
    (minimizedOperands inputs).getD i d =
      MinimizeIntervals (inputs.getD i ⟨0, []⟩) (if i < 12 then 5 else 1) := by
  have hlen : i < (minimizedOperands inputs).length := by
    rw [minimizedOperands_length]
    exact h
  rw [List.getD_eq_getElem?_getD, List.getElem?_eq_getElem hlen]
  unfold minimizedOperands
  rw [List.getElem_map, List.getElem_enum]
  rw [List.getD_eq_getElem?_getD, List.getElem?_eq_getElem h]
  rfl

theorem emitStep_mem_bounds (sp : Bool) (rsize : Nat)
    (lower upper : OverflowResult) (hl : lower.result < 2 ^ rsize)
    (hu : upper.result < 2 ^ rsize) :
    ∀ iv ∈ (emitStep sp rsize lower upper).1,
      iv.lowerBound < 2 ^ rsize ∧ iv.upperBound < 2 ^ rsize := by
  have hpos : 0 < 2 ^ rsize := Nat.pos_pow_of_pos rsize (by omega)
  unfold emitStep
  split
  · intro iv hiv
    simp at hiv
    subst hiv
    exact ⟨hl, hu⟩
  · split
    · intro iv hiv
      simp at hiv
      subst hiv
      exact ⟨hl, hu⟩
    · split
      · intro iv hiv
        simp at hiv
        subst hiv
        simp only
        omega
      · intro iv hiv
        rcases List.mem_cons.mp hiv with rfl | hiv2
        · simp only
          omega
        · simp at hiv2
          subst hiv2
          simp only
          omega

theorem processCombos_mem (f : List Nat → List Interval × Bool)
    (cs : List (List Nat)) :
    ∀ iv ∈ processCombos f cs, ∃ c ∈ cs, iv ∈ (f c).1 := by
  induction cs with
  | nil => simp [processCombos]
  | cons c cs2 ih =>
      unfold processCombos
      intro iv hiv
      rcases hfc : f c with ⟨ivs, stop⟩
      rw [hfc] at hiv
      cases stop with
      | true =>
          simp only at hiv
          exact ⟨c, by simp, by rw [hfc]; exact hiv⟩
      | false =>
          simp only at hiv
          rcases List.mem_append.mp hiv with h1 | h1
          · exact ⟨c, by simp, by rw [hfc]; exact h1⟩
          · obtain ⟨c2, hc2, hivc2⟩ := ih iv h1
            exact ⟨c2, by simp [hc2], hivc2⟩

/-- C10: every interval set returned by the generic variadic interval
algorithm is normalized and contains at most 16 intervals, and before the
corner enumeration each operand interval set is minimized to at most 5
intervals (at most 1 interval for operands beyond the twelfth). -/
theorem PerformVariadicOp_bounded (calcFn : List Nat → OverflowResult)
    (behaviors : List ArgumentBehavior) (inputs : List IntervalSet)
    (rsize : Nat) (hwf : ∀ s ∈ inputs, s.WF)
    (hcalc : ∀ args, (calcFn args).result < 2 ^ rsize) :
    (PerformVariadicOp calcFn behaviors inputs rsize).IsNormalized = true ∧
      (PerformVariadicOp calcFn behaviors inputs rsize).NumberOfIntervals ≤ 16 ∧
      (∀ i, i < inputs.length →
        ((minimizedOperands inputs).getD i ⟨0, []⟩).NumberOfIntervals ≤
          (if i < 12 then 5 else 1)) := by
  have hthird : ∀ i, i < inputs.length →
      ((minimizedOperands inputs).getD i ⟨0, []⟩).NumberOfIntervals ≤
        (if i < 12 then 5 else 1) := by
    intro i hi
    rw [minimizedOperands_getD inputs i hi]
    have hmem : inputs.getD i ⟨0, []⟩ ∈ inputs := by
      rw [List.getD_eq_getElem?_getD, List.getElem?_eq_getElem hi]
      exact List.getElem_mem hi
    obtain ⟨_, _, _, hcount, _, _, _⟩ :=
      MinimizeIntervals_facts (inputs.getD i ⟨0, []⟩) (if i < 12 then 5 else 1)
        (hwf _ hmem) (by split <;> omega)
    exact hcount
  have hwfe : (IntervalSet.mk rsize
      (processCombos
        (fun idxs =>
          emitStep (overflowSizePreservingFlag behaviors
              (minimizedOperands inputs)) rsize
            (calcFn (cornersFor behaviors (minimizedOperands inputs) idxs).1)
            (calcFn (cornersFor behaviors (minimizedOperands inputs) idxs).2))
        (mixedRadixCombos
          ((minimizedOperands inputs).map IntervalSet.NumberOfIntervals)))).WF := by
    intro iv hiv
    obtain ⟨c, _, hivc⟩ := processCombos_mem _ _ iv hiv
    exact emitStep_mem_bounds _ rsize _ _ (hcalc _) (hcalc _) iv hivc
  obtain ⟨hn, _, _, hcount, _, _, _⟩ :=
    MinimizeIntervals_facts _ 16 (IntervalSet.Normalize_WF _ hwfe) (by omega)
  refine ⟨?_, ?_, hthird⟩
  · simp only [PerformVariadicOp]
    split
    · simp [IntervalSet.PreciseIS, IntervalSet.IsNormalized, chainNormalized]
    · exact hn
  · simp only [PerformVariadicOp]
    split
    · simp only [IntervalSet.NumberOfIntervals, IntervalSet.PreciseIS,
        List.length_cons, List.length_nil]
      omega
    · exact hcount

/-- Witness for C10 at a concrete instance: a two-operand addition-shaped
calculation over 2-bit interval sets. -/
theorem PerformVariadicOp_bounded_witness :
    (PerformVariadicOp
        (fun args => ⟨(args.foldr (· + ·) 0) % 4, decide (4 ≤ args.foldr (· + ·) 0), false⟩)
        [kMonotoneSizePreserving, kMonotoneSizePreserving]
        [⟨2, [⟨0, 1⟩]⟩, ⟨2, [⟨1, 3⟩]⟩] 2).IsNormalized = true ∧
      (PerformVariadicOp
        (fun args => ⟨(args.foldr (· + ·) 0) % 4, decide (4 ≤ args.foldr (· + ·) 0), false⟩)
        [kMonotoneSizePreserving, kMonotoneSizePreserving]
        [⟨2, [⟨0, 1⟩]⟩, ⟨2, [⟨1, 3⟩]⟩] 2).NumberOfIntervals ≤ 16 ∧
      (∀ i, i < ([⟨2, [⟨0, 1⟩]⟩, ⟨2, [⟨1, 3⟩]⟩] :
          List IntervalSet).length →
        ((minimizedOperands [⟨2, [⟨0, 1⟩]⟩, ⟨2, [⟨1, 3⟩]⟩]).getD i
          ⟨0, []⟩).NumberOfIntervals ≤ (if i < 12 then 5 else 1)) :=
  PerformVariadicOp_bounded _ _ _ 2
    (by intro s hs; fin_cases hs <;> (unfold IntervalSet.WF; decide))
    (by intro args; exact Nat.mod_lt _ (by decide))

/-- The behavior vector built by `interval_ops::Concat`: every operand is
monotone and non-size-preserving except the last (`behaviors.back()`),
which is marked size-preserving. -/
def concatBehaviors (n : Nat) : List ArgumentBehavior :=
  if n = 0 then []
  else List.replicate (n - 1) kMonotoneNonSizePreserving ++ [kMonotoneSizePreserving]

/-- Value of `bits_ops::Concat` on (width, value) pairs given
most-significant first: the first operand is scaled by the total width of
all later operands. -/
def concatValue : List (Nat × Nat) → Nat
  | [] => 0
  | p :: rest => p.2 * 2 ^ ((rest.map Prod.fst).sum) + concatValue rest

/-- `interval_ops::Concat`: the variadic algorithm applied to the
concatenation calculation, most-significant operand first. -/
def Concat (sets : List IntervalSet) : IntervalSet :=
  PerformVariadicOp
    (fun args => ⟨concatValue ((sets.map IntervalSet.bitCount).zip args), false, false⟩)
    (concatBehaviors sets.length) sets ((sets.map IntervalSet.bitCount).sum)

/-- C8 (counterexample): with two one-bit operands, a unit change in
operand 0 — the most-significant operand, whose contribution is scaled by
`2 ^ 1` — moves the concatenation by two, yet `Concat` marks operand 0 as
NOT size-preserving and marks operand 1 (the least-significant, unit-weight
operand) as size-preserving; so it is not the most-significant operand that
is treated as size-preserving. -/
theorem Concat_msb_size_preserving_counterexample :
    (concatValue [(1, 1), (1, 0)] = 2 ∧ concatValue [(1, 0), (1, 0)] = 0 ∧
      concatValue [(1, 0), (1, 1)] = 1) ∧
      ¬ (((concatBehaviors 2).getD 0 kMonotoneSizePreserving).size_preserving = true ∧
        ((concatBehaviors 2).getD 1 kMonotoneSizePreserving).size_preserving = false) := by
  constructor
  · refine ⟨?_, ?_, ?_⟩ <;> rfl
  · intro ⟨h1, h2⟩
    have : ((concatBehaviors 2).getD 0
        kMonotoneSizePreserving).size_preserving = false := by rfl
    rw [this] at h1
    exact absurd h1 (by simp)

/-- C8 (amended): in interval-set concatenation only the least-significant
operand — the last one, since operands are given most-significant first —
is treated as size-preserving; every other operand is treated as monotone
but not size-preserving, because its contribution to the result is scaled
by the power of two given by the total width of the operands after it. -/
theorem Concat_behaviors_correct (n : Nat) (hn : 1 ≤ n) :
    (concatBehaviors n).getD (n - 1) kMonotoneNonSizePreserving =
        kMonotoneSizePreserving ∧
      (∀ i, i < n - 1 →
        (concatBehaviors n).getD i kMonotoneSizePreserving =
          kMonotoneNonSizePreserving) ∧
      (∀ (pre : List (Nat × Nat)) (w a : Nat),
        concatValue (pre ++ [(w, a)]) = concatValue (pre ++ [(w, 0)]) + a) ∧
      (∀ (w a : Nat) (rest : List (Nat × Nat)),
        concatValue ((w, a + 1) :: rest) =
          concatValue ((w, a) :: rest) + 2 ^ ((rest.map Prod.fst).sum)) := by
  refine ⟨?_, ?_, ?_, ?_⟩
  · unfold concatBehaviors
    rw [if_neg (by omega)]
    rw [List.getD_eq_getElem?_getD, List.getElem?_append_right
      (by simp [List.length_replicate])]
    simp [List.length_replicate]
  · intro i hi
    unfold concatBehaviors
    rw [if_neg (by omega)]
    rw [List.getD_eq_getElem?_getD, List.getElem?_append_left
      (by simp [List.length_replicate]; omega)]
    rw [List.getElem?_replicate]
    rw [if_pos (by omega)]
    rfl
  · intro pre w a
    induction pre with
    | nil => simp [concatValue]
    | cons p rest ih =>
        unfold concatValue
        simp only [List.cons_append] at *
        rw [ih]
        have hw : ((rest ++ [(w, a)]).map Prod.fst).sum =
            ((rest ++ [(w, 0)]).map Prod.fst).sum := by
          simp
        rw [hw]
        ring
  · intro w a rest
    unfold concatValue
    ring

/-- Witness for the amended C8 at `n = 3`. -/
theorem Concat_behaviors_correct_witness :
    (concatBehaviors 3).getD 2 kMonotoneNonSizePreserving =
        kMonotoneSizePreserving ∧
      (concatBehaviors 3).getD 0 kMonotoneSizePreserving =
        kMonotoneNonSizePreserving ∧
      concatValue [(2, 3), (1, 1)] = concatValue [(2, 3), (1, 0)] + 1 ∧
      concatValue [(1, 1), (2, 2)] = concatValue [(1, 0), (2, 2)] + 2 ^ 2 := by
  obtain ⟨h1, h2, h3, h4⟩ := Concat_behaviors_correct 3 (by omega)
  exact ⟨h1, h2 0 (by omega), h3 [(2, 3)] 1 1, h4 1 0 [(2, 2)]⟩

theorem choose_list (n : Nat) (P : Nat → Nat → Prop)
    (h : ∀ i, i < n → ∃ x, P i x) :
    ∃ l : List Nat, l.length = n ∧ ∀ i, i < n → P i (l.getD i 0) := by
  induction n with
  | zero => exact ⟨[], rfl, by omega⟩
  | succ n ih =>
      obtain ⟨l, hl, hP⟩ := ih (fun i hi => h i (by omega))
      obtain ⟨x, hx⟩ := h n (by omega)
      refine ⟨l ++ [x], by simp [hl], ?_⟩
      intro i hi
      rcases Nat.lt_or_ge i n with hin | hin
      · rw [List.getD_eq_getElem?_getD,
          List.getElem?_append_left (by rw [hl]; omega),
          ← List.getD_eq_getElem?_getD]
        exact hP i hin
      · have hieq : i = n := by omega
        subst hieq
        rw [List.getD_eq_getElem?_getD,
          List.getElem?_append_right (by rw [hl]), hl, Nat.sub_self]
        simpa using hx

theorem mixedRadixCombos_mem (radix : List Nat) :
    ∀ idxs : List Nat, idxs.length = radix.length →
      (∀ i, i < radix.length → idxs.getD i 0 < radix.getD i 0) →
      idxs ∈ mixedRadixCombos radix := by
  induction radix with
  | nil =>
      intro idxs hlen _
      cases idxs with
      | nil => simp [mixedRadixCombos]
      | cons a as => simp at hlen
  | cons r rs ih =>
      intro idxs hlen hlt
      cases idxs with
      | nil => simp at hlen
      | cons j js =>
          unfold mixedRadixCombos
          rw [List.mem_flatMap]
          refine ⟨j, ?_, ?_⟩
          · rw [List.mem_range]
            simpa using hlt 0 (by simp)
          · rw [List.mem_map]
            refine ⟨js, ?_, rfl⟩
            refine ih js (by simpa using hlen) ?_
            intro i hi
            simpa using hlt (i + 1) (by simpa using Nat.succ_lt_succ hi)

theorem mem_mixedRadixCombos_length (radix : List Nat) :
    ∀ c ∈ mixedRadixCombos radix, c.length = radix.length := by
  induction radix with
  | nil =>
      intro c hc
      simp [mixedRadixCombos] at hc
      simp [hc]
  | cons r rs ih =>
      intro c hc
      unfold mixedRadixCombos at hc
      rw [List.mem_flatMap] at hc
      obtain ⟨j, _, hc2⟩ := hc
      rw [List.mem_map] at hc2
      obtain ⟨c', hc', rfl⟩ := hc2
      simp [ih c' hc']

theorem cornersFor_length (bs : List ArgumentBehavior) :
    ∀ (ss : List IntervalSet) (is' : List Nat),
      ss.length = bs.length → is'.length = bs.length →
      (cornersFor bs ss is').1.length = bs.length ∧
        (cornersFor bs ss is').2.length = bs.length := by
  induction bs with
  | nil =>
      intro ss is' h1 h2
      cases ss with
      | nil =>
          cases is' with
          | nil => simp [cornersFor]
          | cons a as => simp at h2
      | cons a as => simp at h1
  | cons b bs ih =>
      intro ss is' h1 h2
      cases ss with
      | nil => simp at h1
      | cons s ss' =>
          cases is' with
          | nil => simp at h2
          | cons j js =>
              have := ih ss' js (by simpa using h1) (by simpa using h2)
              unfold cornersFor
              cases b.tonicity <;> simp [this.1, this.2]

theorem cornersFor_getD (bs : List ArgumentBehavior) :
    ∀ (ss : List IntervalSet) (is' : List Nat),
      ss.length = bs.length → is'.length = bs.length →
      ∀ i, i < bs.length →
        (((bs.getD i kMonotoneSizePreserving).tonicity = Tonicity.Monotone →
          (cornersFor bs ss is').1.getD i 0 =
            ((ss.getD i ⟨0, []⟩).intervals.getD (is'.getD i 0) ⟨0, 0⟩).lowerBound ∧
          (cornersFor bs ss is').2.getD i 0 =
            ((ss.getD i ⟨0, []⟩).intervals.getD (is'.getD i 0) ⟨0, 0⟩).upperBound) ∧
        ((bs.getD i kMonotoneSizePreserving).tonicity = Tonicity.Antitone →
          (cornersFor bs ss is').1.getD i 0 =
            ((ss.getD i ⟨0, []⟩).intervals.getD (is'.getD i 0) ⟨0, 0⟩).upperBound ∧
          (cornersFor bs ss is').2.getD i 0 =
            ((ss.getD i ⟨0, []⟩).intervals.getD (is'.getD i 0) ⟨0, 0⟩).lowerBound)) := by
  induction bs with
  | nil => intro ss is' _ _ i hi; simp at hi
  | cons b bs ih =>
      intro ss is' h1 h2 i hi
      cases ss with
      | nil => simp at h1
      | cons s ss' =>
          cases is' with
          | nil => simp at h2
          | cons j js =>
              cases i with
              | zero =>
                  unfold cornersFor
                  cases hb : b.tonicity <;>
                    simp [hb]
              | succ i =>
                  have := ih ss' js (by simpa using h1) (by simpa using h2) i
                    (by simpa using hi)
                  unfold cornersFor
                  cases hb : b.tonicity <;>
                    simpa using this

theorem processCombos_exists (f : List Nat → List Interval × Bool)
    (value : Nat)
    (hstop : ∀ c', (f c').2 = true → ∃ iv ∈ (f c').1, iv.Covers value = true) :
    ∀ (combos : List (List Nat)) (c : List Nat), c ∈ combos →
      (∃ iv ∈ (f c).1, iv.Covers value = true) →
      ∃ iv ∈ processCombos f combos, iv.Covers value = true := by
  intro combos
  induction combos with
  | nil => intro c hc; simp at hc
  | cons c0 cs ih =>
      intro c hc hcov
      unfold processCombos
      rcases hfc : f c0 with ⟨ivs, stop⟩
      cases stop with
      | true =>
          simp only
          rcases List.mem_cons.mp hc with rfl | hc2
          · rw [hfc] at hcov
            exact hcov
          · have := hstop c0 (by rw [hfc])
            rw [hfc] at this
            exact this
      | false =>
          simp only
          rcases List.mem_cons.mp hc with rfl | hc2
          · rw [hfc] at hcov
            obtain ⟨iv, hiv, hivc⟩ := hcov
            exact ⟨iv, List.mem_append.mpr (Or.inl hiv), hivc⟩
          · obtain ⟨iv, hiv, hivc⟩ := ih c hc2 hcov
            exact ⟨iv, List.mem_append.mpr (Or.inr hiv), hivc⟩

theorem emitStep_stop (sp : Bool) (r : Nat) (lo up : OverflowResult)
    (h : (emitStep sp r lo up).2 = true) :
    (emitStep sp r lo up).1 = [⟨0, 2 ^ r - 1⟩] := by
  rcases lo with ⟨lr, lf, ls⟩
  rcases up with ⟨ur, uf, us⟩
  cases lf <;> cases uf <;> cases ls <;> cases us <;> cases sp <;>
    by_cases hc : lr < ur <;> simp_all [emitStep]

theorem maximal_interval_covers (r v : Nat) (hv : v < 2 ^ r) :
    (Interval.mk 0 (2 ^ r - 1)).Covers v = true := by
  rw [Interval.covers_proper_iff _ _ (Nat.zero_le _)]
  exact ⟨Nat.zero_le _, (by omega : v ≤ 2 ^ r - 1)⟩

theorem countP_eq_one_exists {α : Type} (p : α → Bool) (d : α) :
    ∀ l : List α, l.countP p = 1 →
      ∃ j, j < l.length ∧ p (l.getD j d) = true ∧
        ∀ i, i < l.length → i ≠ j → p (l.getD i d) = false := by
  intro l
  induction l with
  | nil =>
      intro h
      rw [List.countP_nil] at h
      exact absurd h (by omega)
  | cons a rest ih =>
      intro h
      rw [List.countP_cons] at h
      by_cases ha : p a = true
      · have hrest : rest.countP p = 0 := by
          rw [if_pos ha] at h; omega
        refine ⟨0, by simp, by simpa using ha, ?_⟩
        intro i hi hne
        cases i with
        | zero => exact absurd rfl hne
        | succ i =>
            simp only [List.getD_cons_succ]
            have hmem : rest.getD i d ∈ rest := by
              rw [List.getD_eq_getElem?_getD,
                List.getElem?_eq_getElem (by simpa using hi)]
              exact List.getElem_mem _
            have := List.countP_eq_zero.mp hrest _ hmem
            simpa using this
      · have haf : p a = false := by simpa using ha
        rw [if_neg ha] at h
        have h1 : rest.countP p = 1 := by omega
        obtain ⟨j, hj, hpj, hothers⟩ := ih h1
        refine ⟨j + 1, by simpa using Nat.succ_lt_succ hj, by simpa using hpj, ?_⟩
        intro i hi hne
        cases i with
        | zero => simpa using haf
        | succ i =>
            simp only [List.getD_cons_succ]
            exact hothers i (by simpa using hi) (by omega)

theorem getD_mem {α : Type} (l : List α) (i : Nat) (d : α) (h : i < l.length) :
    l.getD i d ∈ l := by
  rw [List.getD_eq_getElem?_getD, List.getElem?_eq_getElem h]
  exact List.getElem_mem _

theorem getD_map {α β : Type} (f : α → β) (l : List α) (i : Nat) (d : α)
    (h : i < l.length) : (l.map f).getD i (f d) = f (l.getD i d) := by
  rw [List.getD_eq_getElem?_getD, List.getElem?_map,
    List.getD_eq_getElem?_getD, List.getElem?_eq_getElem h]
  simp

theorem getD_zip {α β : Type} (l1 : List α) :
    ∀ (l2 : List β) (i : Nat) (d1 : α) (d2 : β), i < l1.length →
      i < l2.length →
      (l1.zip l2).getD i (d1, d2) = (l1.getD i d1, l2.getD i d2) := by
  induction l1 with
  | nil => intro l2 i d1 d2 h1 _; simp at h1
  | cons a l1' ih =>
      intro l2 i d1 d2 h1 h2
      cases l2 with
      | nil => simp at h2
      | cons b l2' =>
          cases i with
          | zero => simp [List.zip_cons_cons]
          | succ i =>
              simp only [List.zip_cons_cons, List.getD_cons_succ]
              exact ih l2' i d1 d2 (by simpa using h1) (by simpa using h2)

theorem covers_index (s : IntervalSet) (v : Nat) (h : s.Covers v = true) :
    ∃ idx, idx < s.intervals.length ∧
      (s.intervals.getD idx ⟨0, 0⟩).Covers v = true := by
  rw [IntervalSet.covers_iff] at h
  obtain ⟨iv, hiv, hivc⟩ := h
  obtain ⟨idx, hidx, hget⟩ := List.mem_iff_getElem.mp hiv
  refine ⟨idx, hidx, ?_⟩
  rw [List.getD_eq_getElem?_getD, List.getElem?_eq_getElem hidx]
  simpa [hget] using hivc

theorem IsPrecise_facts (s : IntervalSet) (h : s.IsPrecise = true) :
    ∃ a, s.intervals = [⟨a, a⟩] ∧ s.GetPreciseValue = some a ∧
      ∀ v, s.Covers v = true ↔ v = a := by
  unfold IntervalSet.IsPrecise at h
  rcases hs : s.intervals with _ | ⟨⟨ilo, ihi⟩, _ | ⟨i2, rest⟩⟩
  · rw [hs] at h; simp at h
  · rw [hs] at h
    simp only [beq_iff_eq] at h
    subst h
    refine ⟨ilo, rfl, ?_, ?_⟩
    · unfold IntervalSet.GetPreciseValue
      rw [hs]
      simp
    · intro v
      rw [IntervalSet.covers_iff, hs]
      constructor
      · rintro ⟨iv, hiv, hivc⟩
        rw [List.mem_singleton] at hiv
        subst hiv
        rw [Interval.covers_proper_iff _ _ (Nat.le_refl _)] at hivc
        exact Nat.le_antisymm hivc.2 hivc.1
      · intro hv
        subst hv
        refine ⟨⟨v, v⟩, by simp, ?_⟩
        rw [Interval.covers_proper_iff _ _ (Nat.le_refl _)]
        exact ⟨Nat.le_refl _, Nat.le_refl _⟩
  · rw [hs] at h; simp at h

theorem PerformVariadicOp_covers
    (calcFn : List Nat → OverflowResult)
    (behaviors : List ArgumentBehavior)
    (inputs : List IntervalSet)
    (rsize : Nat)
    (hwf : ∀ s ∈ inputs, s.WF)
    (hblen : behaviors.length = inputs.length)
    (hres : ∀ args : List Nat,
      (∀ i, i < inputs.length →
        args.getD i 0 < 2 ^ (inputs.getD i ⟨0, []⟩).bitCount) →
      (calcFn args).result < 2 ^ rsize)
    (vs : List Nat)
    (hvslen : vs.length = inputs.length)
    (hcov : ∀ i, i < inputs.length →
      (inputs.getD i ⟨0, []⟩).Covers (vs.getD i 0) = true ∧
        vs.getD i 0 < 2 ^ (inputs.getD i ⟨0, []⟩).bitCount)
    (Hemit : ∀ lB uB : List Nat,
      lB.length = inputs.length → uB.length = inputs.length →
      (∀ i, i < inputs.length →
        (((behaviors.getD i kMonotoneSizePreserving).tonicity =
            Tonicity.Monotone →
          lB.getD i 0 ≤ vs.getD i 0 ∧ vs.getD i 0 ≤ uB.getD i 0) ∧
        ((behaviors.getD i kMonotoneSizePreserving).tonicity =
            Tonicity.Antitone →
          uB.getD i 0 ≤ vs.getD i 0 ∧ vs.getD i 0 ≤ lB.getD i 0) ∧
        lB.getD i 0 < 2 ^ (inputs.getD i ⟨0, []⟩).bitCount ∧
        uB.getD i 0 < 2 ^ (inputs.getD i ⟨0, []⟩).bitCount)) →
      (overflowSizePreservingFlag behaviors (minimizedOperands inputs) = true →
        ∃ j, j < inputs.length ∧
          (behaviors.getD j kMonotoneSizePreserving).size_preserving = true ∧
          ∀ i, i < inputs.length → i ≠ j →
            lB.getD i 0 = vs.getD i 0 ∧ uB.getD i 0 = vs.getD i 0) →
      ∃ iv ∈ (emitStep
          (overflowSizePreservingFlag behaviors (minimizedOperands inputs))
          rsize (calcFn lB) (calcFn uB)).1,
        iv.Covers ((calcFn vs).result) = true) :
    (PerformVariadicOp calcFn behaviors inputs rsize).Covers
      ((calcFn vs).result) = true := by
  have hvalue : (calcFn vs).result < 2 ^ rsize :=
    hres vs (fun i hi => (hcov i hi).2)
  have hMdef : ∀ i, i < inputs.length → ∀ d,
      (minimizedOperands inputs).getD i d =
        MinimizeIntervals (inputs.getD i ⟨0, []⟩) (if i < 12 then 5 else 1) :=
    fun i hi d => minimizedOperands_getD inputs i hi d
  have hMfacts : ∀ i, i < inputs.length →
      ((minimizedOperands inputs).getD i ⟨0, []⟩).IsNormalized = true ∧
      ((minimizedOperands inputs).getD i ⟨0, []⟩).WF ∧
      ((minimizedOperands inputs).getD i ⟨0, []⟩).bitCount =
        (inputs.getD i ⟨0, []⟩).bitCount ∧
      ((minimizedOperands inputs).getD i ⟨0, []⟩).Covers (vs.getD i 0) = true := by
    intro i hi
    have hmem : inputs.getD i ⟨0, []⟩ ∈ inputs := getD_mem inputs i _ hi
    have hwfi := hwf _ hmem
    have hf := MinimizeIntervals_facts (inputs.getD i ⟨0, []⟩)
      (if i < 12 then 5 else 1) hwfi (by split <;> omega)
    rw [hMdef i hi]
    exact ⟨hf.1, hf.2.1, hf.2.2.1, hf.2.2.2.2.1 _ (hcov i hi).2 (hcov i hi).1⟩
  have hMlen : (minimizedOperands inputs).length = inputs.length :=
    minimizedOperands_length inputs
  simp only [PerformVariadicOp]
  split
  · -- all minimized operands precise: the precise fast path
    rename_i hall
    have hargs_eq : (minimizedOperands inputs).map
        (fun s => s.GetPreciseValue.getD 0) = vs := by
      refine List.ext_getElem (by rw [List.length_map, hMlen, hvslen]) ?_
      intro i h1 h2
      rw [List.length_map, hMlen] at h1
      have hprec : ((minimizedOperands inputs).getD i ⟨0, []⟩).IsPrecise = true := by
        refine List.all_eq_true.mp hall _ ?_
        exact getD_mem _ i _ (by rw [hMlen]; exact h1)
      obtain ⟨a, hsa, hga, hca⟩ := IsPrecise_facts _ hprec
      have hvsa : vs.getD i 0 = a := (hca _).mp (hMfacts i h1).2.2.2
      have hib : i < (minimizedOperands inputs).length := by
        rw [hMlen]
        exact h1
      have hMi : (minimizedOperands inputs)[i] =
          (minimizedOperands inputs).getD i ⟨0, []⟩ := by
        rw [List.getD_eq_getElem?_getD,
          List.getElem?_eq_getElem (by rw [hMlen]; exact h1)]
        rfl
      have hgetm : ((minimizedOperands inputs).map
          (fun s => s.GetPreciseValue.getD 0))[i] =
          ((minimizedOperands inputs).getD i ⟨0, []⟩).GetPreciseValue.getD 0 := by
        rw [List.getElem_map, hMi]
      rw [hgetm, hga]
      have hvsi : vs[i] = vs.getD i 0 := by
        rw [List.getD_eq_getElem?_getD, List.getElem?_eq_getElem h2]
        rfl
      rw [hvsi, hvsa]
      rfl
    rw [hargs_eq]
    unfold IntervalSet.PreciseIS
    rw [IntervalSet.covers_iff]
    refine ⟨⟨(calcFn vs).result, (calcFn vs).result⟩, by simp, ?_⟩
    rw [Interval.covers_proper_iff _ _ (Nat.le_refl _)]
    exact ⟨Nat.le_refl _, Nat.le_refl _⟩
  · -- corner enumeration path
    rename_i hnall
    -- choose one covering interval index per operand
    obtain ⟨combo, hclen, hcP⟩ := choose_list inputs.length
      (fun i idx => idx <
          ((minimizedOperands inputs).getD i ⟨0, []⟩).intervals.length ∧
        (((minimizedOperands inputs).getD i ⟨0, []⟩).intervals.getD idx
          ⟨0, 0⟩).Covers (vs.getD i 0) = true)
      (fun i hi => covers_index _ _ (hMfacts i hi).2.2.2)
    have hradix : ∀ i, i < inputs.length →
        ((minimizedOperands inputs).map IntervalSet.NumberOfIntervals).getD i 0 =
          ((minimizedOperands inputs).getD i ⟨0, []⟩).NumberOfIntervals := by
      intro i hi
      exact getD_map IntervalSet.NumberOfIntervals _ i ⟨0, []⟩
        (by rw [hMlen]; exact hi)
    have hcombo_mem : combo ∈ mixedRadixCombos
        ((minimizedOperands inputs).map IntervalSet.NumberOfIntervals) := by
      refine mixedRadixCombos_mem _ combo ?_ ?_
      · rw [List.length_map, hMlen, hclen]
      · intro i hi
        rw [List.length_map, hMlen] at hi
        rw [hradix i hi]
        exact (hcP i hi).1
    -- the chosen interval for operand i
    have hbounds : ∀ i, i < inputs.length →
        (((minimizedOperands inputs).getD i ⟨0, []⟩).intervals.getD
            (combo.getD i 0) ⟨0, 0⟩).lowerBound ≤ vs.getD i 0 ∧
        vs.getD i 0 ≤ (((minimizedOperands inputs).getD i ⟨0, []⟩).intervals.getD
            (combo.getD i 0) ⟨0, 0⟩).upperBound ∧
        (((minimizedOperands inputs).getD i ⟨0, []⟩).intervals.getD
            (combo.getD i 0) ⟨0, 0⟩).lowerBound <
          2 ^ (inputs.getD i ⟨0, []⟩).bitCount ∧
        (((minimizedOperands inputs).getD i ⟨0, []⟩).intervals.getD
            (combo.getD i 0) ⟨0, 0⟩).upperBound <
          2 ^ (inputs.getD i ⟨0, []⟩).bitCount := by
      intro i hi
      have hmemI : ((minimizedOperands inputs).getD i ⟨0, []⟩).intervals.getD
          (combo.getD i 0) ⟨0, 0⟩ ∈
          ((minimizedOperands inputs).getD i ⟨0, []⟩).intervals :=
        getD_mem _ _ _ (hcP i hi).1
      have hproper := ((IntervalSet.isNormalized_facts _
        (hMfacts i hi).1).1) _ hmemI
      have hwfI := (hMfacts i hi).2.1 _ hmemI
      rw [(hMfacts i hi).2.2.1] at hwfI
      have hcovI := (hcP i hi).2
      rw [Interval.covers_proper_iff _ _ hproper] at hcovI
      exact ⟨hcovI.1, hcovI.2, hwfI.1, hwfI.2⟩
    have hoplen : (minimizedOperands inputs).length = behaviors.length := by
      rw [hMlen, hblen]
    have hcorners := cornersFor_getD behaviors (minimizedOperands inputs) combo
      hoplen (by rw [hclen, hblen])
    have hclen1 := (cornersFor_length behaviors (minimizedOperands inputs)
      combo hoplen (by rw [hclen, hblen])).1
    have hclen2 := (cornersFor_length behaviors (minimizedOperands inputs)
      combo hoplen (by rw [hclen, hblen])).2
    -- apply the emission obligation at this combination
    have hemit := Hemit (cornersFor behaviors (minimizedOperands inputs) combo).1
      (cornersFor behaviors (minimizedOperands inputs) combo).2
      (by rw [hclen1, hblen]) (by rw [hclen2, hblen]) ?_ ?_
    · -- fold the covered emission through the combination processing
      obtain ⟨iv, hiv, hivc⟩ := hemit
      have hinP : ∃ iv ∈ processCombos
          (fun idxs =>
            emitStep (overflowSizePreservingFlag behaviors
                (minimizedOperands inputs)) rsize
              (calcFn (cornersFor behaviors (minimizedOperands inputs) idxs).1)
              (calcFn (cornersFor behaviors (minimizedOperands inputs) idxs).2))
          (mixedRadixCombos
            ((minimizedOperands inputs).map IntervalSet.NumberOfIntervals)),
          iv.Covers ((calcFn vs).result) = true := by
        refine processCombos_exists _ _ ?_ _ combo hcombo_mem ⟨iv, hiv, hivc⟩
        intro c' hstop'
        rw [emitStep_stop _ _ _ _ hstop']
        exact ⟨⟨0, 2 ^ rsize - 1⟩, by simp,
          maximal_interval_covers rsize _ hvalue⟩
      obtain ⟨iv2, hiv2, hivc2⟩ := hinP
      have hSwf : (IntervalSet.mk rsize (processCombos
          (fun idxs =>
            emitStep (overflowSizePreservingFlag behaviors
                (minimizedOperands inputs)) rsize
              (calcFn (cornersFor behaviors (minimizedOperands inputs) idxs).1)
              (calcFn (cornersFor behaviors (minimizedOperands inputs) idxs).2))
          (mixedRadixCombos
            ((minimizedOperands inputs).map
              IntervalSet.NumberOfIntervals)))).WF := by
        intro j hj
        obtain ⟨c, hcmem, hjc⟩ := processCombos_mem _ _ j hj
        have hclen' : c.length = inputs.length := by
          have := mem_mixedRadixCombos_length _ _ hcmem
          rwa [List.length_map, hMlen] at this
        have hbnd1 : ∀ i, i < inputs.length →
            (cornersFor behaviors (minimizedOperands inputs) c).1.getD i 0 <
              2 ^ (inputs.getD i ⟨0, []⟩).bitCount ∧
            (cornersFor behaviors (minimizedOperands inputs) c).2.getD i 0 <
              2 ^ (inputs.getD i ⟨0, []⟩).bitCount := by
          intro i hi
          have hcg := cornersFor_getD behaviors (minimizedOperands inputs) c
            (by rw [hMlen, hblen]) (by rw [hclen', hblen]) i
            (by rw [hblen]; exact hi)
          have hWFi : ((minimizedOperands inputs).getD i ⟨0, []⟩).WF :=
            (hMfacts i hi).2.1
          have hbci : ((minimizedOperands inputs).getD i ⟨0, []⟩).bitCount =
              (inputs.getD i ⟨0, []⟩).bitCount := (hMfacts i hi).2.2.1
          have hitv :
              (((minimizedOperands inputs).getD i ⟨0, []⟩).intervals.getD
                (c.getD i 0) ⟨0, 0⟩).lowerBound <
                2 ^ (inputs.getD i ⟨0, []⟩).bitCount ∧
              (((minimizedOperands inputs).getD i ⟨0, []⟩).intervals.getD
                (c.getD i 0) ⟨0, 0⟩).upperBound <
                2 ^ (inputs.getD i ⟨0, []⟩).bitCount := by
            by_cases hlt : c.getD i 0 <
                ((minimizedOperands inputs).getD i ⟨0, []⟩).intervals.length
            · have hmem := getD_mem _ (c.getD i 0) (⟨0, 0⟩ : Interval) hlt
              have := hWFi _ hmem
              rw [hbci] at this
              exact this
            · rw [List.getD_eq_getElem?_getD,
                List.getElem?_eq_none (by omega)]
              exact ⟨by positivity, by positivity⟩
          rcases hton : (behaviors.getD i kMonotoneSizePreserving).tonicity
          · obtain ⟨e1, e2⟩ := hcg.1 hton
            rw [e1, e2]
            exact ⟨hitv.1, hitv.2⟩
          · obtain ⟨e1, e2⟩ := hcg.2 hton
            rw [e1, e2]
            exact ⟨hitv.2, hitv.1⟩
        exact emitStep_mem_bounds _ _ _ _
          (hres _ (fun i hi => (hbnd1 i hi).1))
          (hres _ (fun i hi => (hbnd1 i hi).2)) j hjc
      have hScov : (IntervalSet.mk rsize (processCombos
          (fun idxs =>
            emitStep (overflowSizePreservingFlag behaviors
                (minimizedOperands inputs)) rsize
              (calcFn (cornersFor behaviors (minimizedOperands inputs) idxs).1)
              (calcFn (cornersFor behaviors (minimizedOperands inputs) idxs).2))
          (mixedRadixCombos
            ((minimizedOperands inputs).map
              IntervalSet.NumberOfIntervals)))).Covers
          ((calcFn vs).result) = true := by
        rw [IntervalSet.covers_iff]
        exact ⟨iv2, hiv2, hivc2⟩
      have hNcov := IntervalSet.Normalize_covers _ ((calcFn vs).result)
        hvalue hSwf
      have hNwf := IntervalSet.Normalize_WF _ hSwf
      have hMin := MinimizeIntervals_facts (IntervalSet.Normalize _) 16 hNwf
        (by omega)
      refine hMin.2.2.2.2.1 _ ?_ ?_
      · exact hvalue
      · rw [hNcov]
        exact hScov
    · -- corner ordering and bounds
      intro i hi
      have hc := hcorners i (by rw [hblen]; exact hi)
      have hb := hbounds i hi
      refine ⟨?_, ?_, ?_, ?_⟩
      · intro hmono
        obtain ⟨h1, h2⟩ := hc.1 hmono
        rw [h1, h2]
        exact ⟨hb.1, hb.2.1⟩
      · intro hanti
        obtain ⟨h1, h2⟩ := hc.2 hanti
        rw [h1, h2]
        exact ⟨hb.1, hb.2.1⟩
      · cases htn : (behaviors.getD i kMonotoneSizePreserving).tonicity
        · rw [(hc.1 htn).1]
          exact hb.2.2.1
        · rw [(hc.2 htn).1]
          exact hb.2.2.2
      · cases htn : (behaviors.getD i kMonotoneSizePreserving).tonicity
        · rw [(hc.1 htn).2]
          exact hb.2.2.2
        · rw [(hc.2 htn).2]
          exact hb.2.2.1
    · -- the single-non-precise digest when the flag is set
      intro hflag
      unfold overflowSizePreservingFlag at hflag
      rw [Bool.and_eq_true] at hflag
      obtain ⟨hallsp, hcount⟩ := hflag
      rw [beq_iff_eq] at hcount
      obtain ⟨j, hjlen, hpj, hothers⟩ := countP_eq_one_exists
        (fun s : IntervalSet => ! s.IsPrecise) (⟨0, []⟩ : IntervalSet) _ hcount
      rw [hMlen] at hjlen
      refine ⟨j, hjlen, ?_, ?_⟩
      · -- the non-precise operand is size-preserving
        have hmemz : (behaviors.getD j kMonotoneSizePreserving,
            (minimizedOperands inputs).getD j ⟨0, []⟩) ∈
            behaviors.zip (minimizedOperands inputs) := by
          rw [← getD_zip behaviors (minimizedOperands inputs) j _ _
            (by omega) (by rw [hMlen]; exact hjlen)]
          refine getD_mem _ j _ ?_
          rw [List.length_zip, hMlen, hblen]
          omega
        have := List.all_eq_true.mp hallsp _ hmemz
        simp only [Bool.or_eq_true] at this
        rcases this with h1 | h1
        · exact h1
        · exfalso
          rw [h1] at hpj
          simp at hpj
      · intro i hi hne
        have hpreci : ((minimizedOperands inputs).getD i ⟨0, []⟩).IsPrecise
            = true := by
          have := hothers i (by rw [hMlen]; exact hi) hne
          simpa using this
        obtain ⟨a, hsa, _, hca⟩ := IsPrecise_facts _ hpreci
        have hvsa : vs.getD i 0 = a := (hca _).mp (hMfacts i hi).2.2.2
        have hc := hcorners i (by rw [hblen]; exact hi)
        have hidx : combo.getD i 0 = 0 := by
          have hlt := (hcP i hi).1
          rw [hsa] at hlt
          simp only [List.length_cons, List.length_nil] at hlt
          omega
        have hgetI : ((minimizedOperands inputs).getD i ⟨0, []⟩).intervals.getD
            (combo.getD i 0) ⟨0, 0⟩ = ⟨a, a⟩ := by
          rw [hidx, hsa]
          rfl
        cases htn : (behaviors.getD i kMonotoneSizePreserving).tonicity
        · obtain ⟨h1, h2⟩ := hc.1 htn
          rw [h1, h2, hgetI, hvsa]
          exact ⟨rfl, rfl⟩
        · obtain ⟨h1, h2⟩ := hc.2 htn
          rw [h1, h2, hgetI, hvsa]
          exact ⟨rfl, rfl⟩

theorem wrap_covers_nat (M r t D : Nat) (hr : r < M) (ht : t ≤ D)
    (hD : D < M) :
    (Interval.mk r ((r + D) % M)).Covers ((r + t) % M) = true := by
  by_cases hcase : r + D < M
  · rw [Nat.mod_eq_of_lt hcase, Nat.mod_eq_of_lt (by omega)]
    rw [Interval.covers_proper_iff _ _ (show r ≤ r + D by omega)]
    exact ⟨(show r ≤ r + t by omega), (show r + t ≤ r + D by omega)⟩
  · have h1 : (r + D) % M = r + D - M := by
      rw [Nat.mod_eq_sub_mod (by omega), Nat.mod_eq_of_lt (by omega)]
    rw [h1]
    by_cases h2 : r + t < M
    · rw [Nat.mod_eq_of_lt h2]
      unfold Interval.Covers
      rw [if_neg (show ¬ (r ≤ r + D - M) by omega)]
      simp only [Bool.or_eq_true, decide_eq_true_eq]
      exact Or.inl (show r ≤ r + t by omega)
    · have h3 : (r + t) % M = r + t - M := by
        rw [Nat.mod_eq_sub_mod (by omega), Nat.mod_eq_of_lt (by omega)]
      rw [h3]
      unfold Interval.Covers
      rw [if_neg (show ¬ (r ≤ r + D - M) by omega)]
      simp only [Bool.or_eq_true, decide_eq_true_eq]
      exact Or.inr (show r + t - M ≤ r + D - M by omega)

theorem wrap_covers_int (M : Nat) (hM : 0 < M) (lo x hi : Int)
    (h1 : lo ≤ x) (h2 : x ≤ hi) (hD : hi - lo < (M : Int)) :
    (Interval.mk (lo % (M : Int)).toNat (hi % (M : Int)).toNat).Covers
      ((x % (M : Int)).toNat) = true := by
  have hM0 : (0 : Int) < (M : Int) := by exact_mod_cast hM
  have hrnn : (0 : Int) ≤ lo % (M : Int) := Int.emod_nonneg lo (by omega)
  have hrlt : lo % (M : Int) < (M : Int) := Int.emod_lt_of_pos lo hM0
  set r : Nat := (lo % (M : Int)).toNat with hrdef
  have hrlo : lo % (M : Int) = (r : Int) := (Int.toNat_of_nonneg hrnn).symm
  have hrM : r < M := by
    rw [hrlo] at hrlt
    exact_mod_cast hrlt
  set t : Nat := (x - lo).toNat with htdef
  have hxt : x = lo + (t : Int) := by
    rw [htdef, Int.toNat_of_nonneg (by omega)]
    ring
  set D : Nat := (hi - lo).toNat with hDdef
  have hhiD : hi = lo + (D : Int) := by
    rw [hDdef, Int.toNat_of_nonneg (by omega)]
    ring
  have htD : t ≤ D := by
    have hti : (t : Int) ≤ (D : Int) := by omega
    exact_mod_cast hti
  have hDM : D < M := by
    have hdi : (D : Int) < (M : Int) := by omega
    exact_mod_cast hdi
  have hcast : ∀ s : Nat, (lo + (s : Int)) % (M : Int) =
      (((r + s) % M : Nat) : Int) := by
    intro s
    rw [Int.add_emod, hrlo]
    rw [show ((s : Int) % (M : Int)) = (((s % M : Nat)) : Int) by
      exact_mod_cast rfl]
    rw [show ((r : Int) + (((s % M : Nat)) : Int)) =
      (((r + s % M : Nat)) : Int) by push_cast; ring]
    rw [show ((((r + s % M : Nat)) : Int) % (M : Int)) =
      (((r + s % M) % M : Nat) : Int) by exact_mod_cast rfl]
    have hmm : (r + s % M) % M = (r + s) % M := by
      conv_lhs => rw [Nat.add_mod]
      conv_rhs => rw [Nat.add_mod]
      rw [Nat.mod_mod_of_dvd s (dvd_refl M)]
    rw [hmm]
  have hxmod : (x % (M : Int)).toNat = (r + t) % M := by
    rw [hxt, hcast t, Int.toNat_natCast]
  have hhimod : (hi % (M : Int)).toNat = (r + D) % M := by
    rw [hhiD, hcast D, Int.toNat_natCast]
  rw [hxmod, hhimod]
  exact wrap_covers_nat M r t D hrM htD hDM

theorem inrange_cover (rsize : Nat) (Sl Sv Su : Int) (h1 : Sl ≤ Sv)
    (h2 : Sv ≤ Su) (hl : 0 ≤ Sl) (hu : Su < 2 ^ rsize) :
    (Interval.mk (Sl % (2 ^ rsize : Int)).toNat
        (Su % (2 ^ rsize : Int)).toNat).Covers
      ((Sv % (2 ^ rsize : Int)).toNat) = true := by
  rw [Int.emod_eq_of_lt hl (by omega), Int.emod_eq_of_lt (by omega) (by omega),
    Int.emod_eq_of_lt (by omega) (by omega)]
  rw [Interval.covers_proper_iff _ _
    (show Sl.toNat ≤ Su.toNat by omega)]
  exact ⟨(show Sl.toNat ≤ Sv.toNat by omega), (show Sv.toNat ≤ Su.toNat by omega)⟩

theorem tails_cover_high (rsize : Nat) (Sl Sv Su : Int) (h1 : Sl ≤ Sv)
    (h2 : Sv ≤ Su) (hl : 0 ≤ Sl) (hlb : Sl < 2 ^ rsize)
    (hover : (2 ^ rsize : Int) ≤ Su) (hub : Su < 2 ^ (rsize + 1)) :
    ∃ iv ∈ [Interval.mk (Sl % (2 ^ rsize : Int)).toNat (2 ^ rsize - 1),
        Interval.mk 0 ((Su % (2 ^ rsize : Int)).toNat)],
      iv.Covers ((Sv % (2 ^ rsize : Int)).toNat) = true := by
  have hp2 : ((2 : Int) ^ (rsize + 1)) = 2 ^ rsize * 2 := by ring
  have hpow : ((2 ^ rsize : Nat) : Int) = (2 : Int) ^ rsize := by push_cast; ring
  have hlmod : Sl % (2 ^ rsize : Int) = Sl := Int.emod_eq_of_lt hl (by omega)
  have humod : Su % (2 ^ rsize : Int) = Su - 2 ^ rsize := by
    conv_lhs => rw [show Su = Su - 2 ^ rsize + 2 ^ rsize * 1 by ring,
      Int.add_mul_emod_self_left]
    rw [Int.emod_eq_of_lt (by omega) (by omega)]
  by_cases hsv : Sv < 2 ^ rsize
  · refine ⟨Interval.mk (Sl % (2 ^ rsize : Int)).toNat (2 ^ rsize - 1),
      by simp, ?_⟩
    rw [hlmod, Int.emod_eq_of_lt (by omega) (by omega)]
    rw [Interval.covers_proper_iff _ _
      (show Sl.toNat ≤ 2 ^ rsize - 1 by omega)]
    exact ⟨(show Sl.toNat ≤ Sv.toNat by omega),
      (show Sv.toNat ≤ 2 ^ rsize - 1 by omega)⟩
  · refine ⟨Interval.mk 0 ((Su % (2 ^ rsize : Int)).toNat), by simp, ?_⟩
    have hvmod : Sv % (2 ^ rsize : Int) = Sv - 2 ^ rsize := by
      conv_lhs => rw [show Sv = Sv - 2 ^ rsize + 2 ^ rsize * 1 by ring,
        Int.add_mul_emod_self_left]
      rw [Int.emod_eq_of_lt (by omega) (by omega)]
    rw [humod, hvmod]
    rw [Interval.covers_proper_iff _ _ (Nat.zero_le _)]
    exact ⟨Nat.zero_le _,
      (show (Sv - 2 ^ rsize).toNat ≤ (Su - 2 ^ rsize).toNat by omega)⟩

theorem tails_cover_low (rsize : Nat) (Sl Sv Su : Int) (h1 : Sl ≤ Sv)
    (h2 : Sv ≤ Su) (hneg : Sl < 0) (hlB : -(2 ^ rsize : Int) ≤ Sl)
    (hu : 0 ≤ Su) (hub : Su < 2 ^ rsize) :
    ∃ iv ∈ [Interval.mk (Sl % (2 ^ rsize : Int)).toNat (2 ^ rsize - 1),
        Interval.mk 0 ((Su % (2 ^ rsize : Int)).toNat)],
      iv.Covers ((Sv % (2 ^ rsize : Int)).toNat) = true := by
  have hpow : ((2 ^ rsize : Nat) : Int) = (2 : Int) ^ rsize := by push_cast; ring
  have hlmod : Sl % (2 ^ rsize : Int) = Sl + 2 ^ rsize := by
    have hs := Int.add_mul_emod_self_left (a := Sl) (b := (2 : Int) ^ rsize)
      (c := 1)
    rw [Int.mul_one] at hs
    rw [← hs, Int.emod_eq_of_lt (by omega) (by omega)]
  have humod : Su % (2 ^ rsize : Int) = Su := Int.emod_eq_of_lt hu (by omega)
  by_cases hsv : Sv < 0
  · refine ⟨Interval.mk (Sl % (2 ^ rsize : Int)).toNat (2 ^ rsize - 1),
      by simp, ?_⟩
    have hvmod : Sv % (2 ^ rsize : Int) = Sv + 2 ^ rsize := by
      have hs := Int.add_mul_emod_self_left (a := Sv) (b := (2 : Int) ^ rsize)
        (c := 1)
      rw [Int.mul_one] at hs
      rw [← hs, Int.emod_eq_of_lt (by omega) (by omega)]
    rw [hlmod, hvmod]
    rw [Interval.covers_proper_iff _ _
      (show (Sl + 2 ^ rsize).toNat ≤ 2 ^ rsize - 1 by omega)]
    exact ⟨(show (Sl + 2 ^ rsize).toNat ≤ (Sv + 2 ^ rsize).toNat by omega),
      (show (Sv + 2 ^ rsize).toNat ≤ 2 ^ rsize - 1 by omega)⟩
  · refine ⟨Interval.mk 0 ((Su % (2 ^ rsize : Int)).toNat), by simp, ?_⟩
    have hvmod : Sv % (2 ^ rsize : Int) = Sv := by
      rw [Int.emod_eq_of_lt (by omega) (by omega)]
    rw [humod, hvmod]
    rw [Interval.covers_proper_iff _ _ (Nat.zero_le _)]
    exact ⟨Nat.zero_le _, (show Sv.toNat ≤ Su.toNat by omega)⟩

theorem emit_obligation_noflag (spF : Bool) (rsize : Nat)
    (lower upper value : Nat) (hlow : lower ≤ value) (hup : value ≤ upper) :
    ∃ iv ∈ (emitStep spF rsize ⟨lower, false, false⟩
        ⟨upper, false, false⟩).1,
      iv.Covers value = true := by
  refine ⟨⟨lower, upper⟩, by simp [emitStep], ?_⟩
  rw [Interval.covers_proper_iff _ _ (show lower ≤ upper by omega)]
  exact ⟨hlow, hup⟩

theorem emit_obligation_noflag_wrap (spF : Bool) (rsize : Nat)
    (lower upper value : Nat)
    (h : (Interval.mk lower upper).Covers value = true) :
    ∃ iv ∈ (emitStep spF rsize ⟨lower, false, false⟩
        ⟨upper, false, false⟩).1,
      iv.Covers value = true :=
  ⟨⟨lower, upper⟩, by simp [emitStep], h⟩

theorem wrap_covers_natm (M SL SV SU : Nat) (h1 : SL ≤ SV) (h2 : SV ≤ SU)
    (hD : SU - SL < M) :
    (Interval.mk (SL % M) (SU % M)).Covers (SV % M) = true := by
  have hM : 0 < M := by omega
  have hmodadd : ∀ d : Nat, (SL % M + d) % M = (SL + d) % M := by
    intro d
    conv_lhs => rw [Nat.add_mod]
    conv_rhs => rw [Nat.add_mod]
    rw [Nat.mod_mod_of_dvd SL (dvd_refl M)]
  have hw := wrap_covers_nat M (SL % M) (SV - SL) (SU - SL)
    (Nat.mod_lt _ hM) (by omega) hD
  rw [hmodadd (SV - SL), hmodadd (SU - SL)] at hw
  rw [show SL + (SV - SL) = SV by omega,
    show SL + (SU - SL) = SU by omega] at hw
  exact hw

theorem tails_cover_high_nat (rsize SL SV SU : Nat) (h1 : SL ≤ SV)
    (h2 : SV ≤ SU) (hlb : SL < 2 ^ rsize) (hover : 2 ^ rsize ≤ SU)
    (hub : SU < 2 ^ (rsize + 1)) :
    ∃ iv ∈ [Interval.mk (SL % 2 ^ rsize) (2 ^ rsize - 1),
        Interval.mk 0 (SU % 2 ^ rsize)],
      iv.Covers (SV % 2 ^ rsize) = true := by
  have hp : (2 : Nat) ^ (rsize + 1) = 2 ^ rsize * 2 := pow_succ 2 rsize
  have hum : SU % 2 ^ rsize = SU - 2 ^ rsize := by
    rw [Nat.mod_eq_sub_mod hover, Nat.mod_eq_of_lt (by omega)]
  by_cases hsv : SV < 2 ^ rsize
  · refine ⟨Interval.mk (SL % 2 ^ rsize) (2 ^ rsize - 1), by simp, ?_⟩
    rw [Nat.mod_eq_of_lt hlb, Nat.mod_eq_of_lt hsv]
    rw [Interval.covers_proper_iff _ _ (show SL ≤ 2 ^ rsize - 1 by omega)]
    exact ⟨h1, (show SV ≤ 2 ^ rsize - 1 by omega)⟩
  · refine ⟨Interval.mk 0 (SU % 2 ^ rsize), by simp, ?_⟩
    rw [hum, Nat.mod_eq_sub_mod (by omega), Nat.mod_eq_of_lt (by omega)]
    rw [Interval.covers_proper_iff _ _ (Nat.zero_le _)]
    exact ⟨Nat.zero_le _, (show SV - 2 ^ rsize ≤ SU - 2 ^ rsize by omega)⟩

theorem emit_obligation_exact_nat (spF : Bool) (rsize : Nat)
    (SL SV SU : Nat) (lower upper : OverflowResult)
    (hlres : lower.result = SL % 2 ^ rsize)
    (hlf : lower.first_overflow_bit = decide (2 ^ rsize ≤ SL))
    (hures : upper.result = SU % 2 ^ rsize)
    (huf : upper.first_overflow_bit = decide (2 ^ rsize ≤ SU))
    (hus : upper.second_overflow_bit = false → SU < 2 ^ (rsize + 1))
    (h1 : SL ≤ SV) (h2 : SV ≤ SU)
    (hDsp : spF = true → SU - SL < 2 ^ rsize) :
    ∃ iv ∈ (emitStep spF rsize lower upper).1,
      iv.Covers (SV % 2 ^ rsize) = true := by
  have hM : (0 : Nat) < 2 ^ rsize := by positivity
  have hvm : SV % 2 ^ rsize < 2 ^ rsize := Nat.mod_lt _ hM
  unfold emitStep
  rw [hlf, huf, hlres, hures]
  by_cases hUf : 2 ^ rsize ≤ SU
  · rw [decide_eq_true hUf]
    by_cases hLf : 2 ^ rsize ≤ SL
    · rw [decide_eq_true hLf]
      rw [if_neg (by simp)]
      cases spF with
      | true =>
          rw [if_pos rfl]
          exact ⟨⟨SL % 2 ^ rsize, SU % 2 ^ rsize⟩, by simp,
            wrap_covers_natm (2 ^ rsize) SL SV SU h1 h2 (hDsp rfl)⟩
      | false =>
          rw [if_neg (by simp), if_pos (by simp)]
          exact ⟨⟨0, 2 ^ rsize - 1⟩, by simp, maximal_interval_covers _ _ hvm⟩
    · rw [decide_eq_false hLf]
      rw [if_neg (by simp)]
      cases spF with
      | true =>
          rw [if_pos rfl]
          exact ⟨⟨SL % 2 ^ rsize, SU % 2 ^ rsize⟩, by simp,
            wrap_covers_natm (2 ^ rsize) SL SV SU h1 h2 (hDsp rfl)⟩
      | false =>
          rw [if_neg (by simp)]
          by_cases hls : lower.second_overflow_bit = true
          · rw [if_pos (by simp [hls])]
            exact ⟨⟨0, 2 ^ rsize - 1⟩, by simp, maximal_interval_covers _ _ hvm⟩
          · have hlsf : lower.second_overflow_bit = false := by simpa using hls
            by_cases hus' : upper.second_overflow_bit = true
            · rw [if_pos (by simp [hus'])]
              exact ⟨⟨0, 2 ^ rsize - 1⟩, by simp,
                maximal_interval_covers _ _ hvm⟩
            · have husf : upper.second_overflow_bit = false := by simpa using hus'
              have hub2 := hus husf
              by_cases hcmp : SL % 2 ^ rsize < SU % 2 ^ rsize
              · rw [if_pos (by simp [hlsf, husf, hcmp])]
                exact ⟨⟨0, 2 ^ rsize - 1⟩, by simp,
                  maximal_interval_covers _ _ hvm⟩
              · rw [if_neg (by simp [hlsf, husf, hcmp])]
                exact tails_cover_high_nat rsize SL SV SU h1 h2 (by omega)
                  hUf hub2
  · have hLf : ¬ (2 ^ rsize ≤ SL) := by omega
    rw [decide_eq_false hUf, decide_eq_false hLf]
    rw [if_pos (by simp)]
    refine ⟨⟨SL % 2 ^ rsize, SU % 2 ^ rsize⟩, by simp, ?_⟩
    rw [Nat.mod_eq_of_lt (by omega), Nat.mod_eq_of_lt (by omega),
      Nat.mod_eq_of_lt (by omega)]
    rw [Interval.covers_proper_iff _ _ (show SL ≤ SU by omega)]
    exact ⟨h1, h2⟩

theorem sub_mod_int (w a b : Nat) (hb : b ≤ 2 ^ w) :
    (a + 2 ^ w - b) % 2 ^ w = (((a : Int) - b) % ((2 : Int) ^ w)).toNat := by
  have hpow : ((2 ^ w : Nat) : Int) = (2 : Int) ^ w := by push_cast; ring
  have h1 : ((a + 2 ^ w - b : Nat) : Int) = (a : Int) + (2 : Int) ^ w - b := by
    omega
  rw [show (a : Int) - b = (((a + 2 ^ w - b : Nat)) : Int) + (2 : Int) ^ w * (-1)
    by rw [h1]; ring, Int.add_mul_emod_self_left]
  rw [show ((((a + 2 ^ w - b : Nat)) : Int) % ((2 : Int) ^ w)) =
    ((((a + 2 ^ w - b) % 2 ^ w : Nat)) : Int) by rw [← hpow]; exact_mod_cast rfl]
  rw [Int.toNat_natCast]

theorem neg_mod_int (w a : Nat) (ha : a ≤ 2 ^ w) :
    ((-(a : Int)) % ((2 : Int) ^ w)).toNat = (2 ^ w - a) % 2 ^ w := by
  have hpow : ((2 ^ w : Nat) : Int) = (2 : Int) ^ w := by push_cast; ring
  have h1 : (((2 ^ w - a : Nat)) : Int) = (2 : Int) ^ w - a := by omega
  rw [show (-(a : Int)) = (((2 ^ w - a : Nat)) : Int) + (2 : Int) ^ w * (-1)
    by rw [h1]; ring, Int.add_mul_emod_self_left]
  rw [show ((((2 ^ w - a : Nat)) : Int) % ((2 : Int) ^ w)) =
    ((((2 ^ w - a) % 2 ^ w : Nat)) : Int) by rw [← hpow]; exact_mod_cast rfl]
  rw [Int.toNat_natCast]

/-- `PerformBinOp`: the variadic algorithm at arity two. -/
def PerformBinOp (calcFn : Nat → Nat → OverflowResult) (lhs : IntervalSet)
    (lhsB : ArgumentBehavior) (rhs : IntervalSet) (rhsB : ArgumentBehavior)
    (rsize : Nat) : IntervalSet :=
  PerformVariadicOp (fun args => calcFn (args.getD 0 0) (args.getD 1 0))
    [lhsB, rhsB] [lhs, rhs] rsize

/-- `PerformUnaryOp`: the variadic algorithm at arity one. -/
def PerformUnaryOp (calcFn : Nat → OverflowResult) (arg : IntervalSet)
    (b : ArgumentBehavior) (rsize : Nat) : IntervalSet :=
  PerformVariadicOp (fun args => calcFn (args.getD 0 0)) [b] [arg] rsize

/-- The padded-add corner calculation of `interval_ops::Add`: the result is
the truncated sum, and the overflow bit is the MSB of the padded sum. -/
def addCalc (w : Nat) (a b : Nat) : OverflowResult :=
  ⟨(a + b) % 2 ^ w, decide (2 ^ w ≤ a + b), false⟩

/-- `interval_ops::Add`. -/
def Add (a b : IntervalSet) : IntervalSet :=
  PerformBinOp (addCalc a.bitCount) a kMonotoneSizePreserving b
    kMonotoneSizePreserving a.bitCount

/-- The corner calculation of `interval_ops::Sub`: `x - y` overflows iff
`x < y`. -/
def subCalc (w : Nat) (a b : Nat) : OverflowResult :=
  ⟨(a + 2 ^ w - b) % 2 ^ w, decide (a < b), false⟩

/-- `interval_ops::Sub`. -/
def Sub (a b : IntervalSet) : IntervalSet :=
  PerformBinOp (subCalc a.bitCount) a kMonotoneSizePreserving b
    kAntitoneSizePreserving a.bitCount

/-- `bits_ops::Negate` as a corner calculation (no overflow flags). -/
def negCalc (w : Nat) (a : Nat) : OverflowResult :=
  ⟨(2 ^ w - a) % 2 ^ w, false, false⟩

/-- `interval_ops::Neg`. -/
def Neg (a : IntervalSet) : IntervalSet :=
  PerformUnaryOp (negCalc a.bitCount) a kAntitoneSizePreserving a.bitCount

/-- The corner calculation of `interval_ops::UMul`: the result keeps the
low `w` output bits, and the overflow bits record whether the set MSB of
the full product reaches the output width (or one past it). -/
def umulCalc (w : Nat) (a b : Nat) : OverflowResult :=
  ⟨(a * b) % 2 ^ w, decide (2 ^ w ≤ a * b), decide (2 ^ (w + 1) ≤ a * b)⟩

/-- `interval_ops::UMul`. -/
def UMul (a b : IntervalSet) (outW : Nat) : IntervalSet :=
  PerformBinOp (umulCalc outW) a kMonotoneNonSizePreserving b
    kMonotoneNonSizePreserving outW

theorem emit_obligation_exact_int (spF : Bool) (rsize : Nat)
    (SL SV SU : Int) (lower upper : OverflowResult)
    (hlres : lower.result = (SL % ((2 : Int) ^ rsize)).toNat)
    (hlf : lower.first_overflow_bit =
      decide (SL < 0 ∨ (2 : Int) ^ rsize ≤ SL))
    (hures : upper.result = (SU % ((2 : Int) ^ rsize)).toNat)
    (huf : upper.first_overflow_bit =
      decide (SU < 0 ∨ (2 : Int) ^ rsize ≤ SU))
    (hls : lower.second_overflow_bit = false → -((2 : Int) ^ rsize) ≤ SL)
    (hus : upper.second_overflow_bit = false → SU < (2 : Int) ^ (rsize + 1))
    (h1 : SL ≤ SV) (h2 : SV ≤ SU)
    (hDsp : spF = true → SU - SL < (2 : Int) ^ rsize) :
    ∃ iv ∈ (emitStep spF rsize lower upper).1,
      iv.Covers ((SV % ((2 : Int) ^ rsize)).toNat) = true := by
  have hM0 : (0 : Int) < 2 ^ rsize := by positivity
  have hpow : ((2 ^ rsize : Nat) : Int) = (2 : Int) ^ rsize := by
    push_cast; ring
  have hvm : (SV % ((2 : Int) ^ rsize)).toNat < 2 ^ rsize := by
    have ha := Int.emod_lt_of_pos SV hM0
    have hb := Int.emod_nonneg SV (ne_of_gt hM0)
    rw [← hpow] at ha
    omega
  have hwrap : spF = true →
      (Interval.mk (SL % ((2 : Int) ^ rsize)).toNat
          ((SU % ((2 : Int) ^ rsize)).toNat)).Covers
        ((SV % ((2 : Int) ^ rsize)).toNat) = true := by
    intro hf
    have hD := hDsp hf
    have hw := wrap_covers_int (2 ^ rsize) (by positivity) SL SV SU h1 h2
      (by rw [hpow]; omega)
    rw [hpow] at hw
    exact hw
  unfold emitStep
  rw [hlf, huf, hlres, hures]
  by_cases hLf : SL < 0 ∨ (2 : Int) ^ rsize ≤ SL
  · by_cases hUf : SU < 0 ∨ (2 : Int) ^ rsize ≤ SU
    · rw [decide_eq_true hLf, decide_eq_true hUf]
      rw [if_neg (by simp)]
      cases spF with
      | true =>
          rw [if_pos rfl]
          exact ⟨_, by simp, hwrap rfl⟩
      | false =>
          rw [if_neg (by simp), if_pos (by simp)]
          exact ⟨⟨0, 2 ^ rsize - 1⟩, by simp, maximal_interval_covers _ _ hvm⟩
    · rw [decide_eq_true hLf, decide_eq_false hUf]
      rw [if_neg (by simp)]
      cases spF with
      | true =>
          rw [if_pos rfl]
          exact ⟨_, by simp, hwrap rfl⟩
      | false =>
          rw [if_neg (by simp)]
          by_cases hlsb : lower.second_overflow_bit = true
          · rw [if_pos (by simp [hlsb])]
            exact ⟨⟨0, 2 ^ rsize - 1⟩, by simp, maximal_interval_covers _ _ hvm⟩
          · have hlsf : lower.second_overflow_bit = false := by simpa using hlsb
            by_cases husb : upper.second_overflow_bit = true
            · rw [if_pos (by simp [husb])]
              exact ⟨⟨0, 2 ^ rsize - 1⟩, by simp,
                maximal_interval_covers _ _ hvm⟩
            · have husf : upper.second_overflow_bit = false := by simpa using husb
              have hlneg : SL < 0 := by
                rcases hLf with h | h
                · exact h
                · exact absurd (Or.inr (by omega : (2 : Int) ^ rsize ≤ SU)) hUf
              by_cases hcmp : (SL % ((2 : Int) ^ rsize)).toNat <
                  (SU % ((2 : Int) ^ rsize)).toNat
              · rw [if_pos (by simp [hlsf, husf, hcmp])]
                exact ⟨⟨0, 2 ^ rsize - 1⟩, by simp,
                  maximal_interval_covers _ _ hvm⟩
              · rw [if_neg (by simp [hlsf, husf, hcmp])]
                push_neg at hUf
                exact tails_cover_low rsize SL SV SU h1 h2 hlneg (hls hlsf)
                  (by omega) (by omega)
  · by_cases hUf : SU < 0 ∨ (2 : Int) ^ rsize ≤ SU
    · rw [decide_eq_false hLf, decide_eq_true hUf]
      rw [if_neg (by simp)]
      cases spF with
      | true =>
          rw [if_pos rfl]
          exact ⟨_, by simp, hwrap rfl⟩
      | false =>
          rw [if_neg (by simp)]
          by_cases hlsb : lower.second_overflow_bit = true
          · rw [if_pos (by simp [hlsb])]
            exact ⟨⟨0, 2 ^ rsize - 1⟩, by simp, maximal_interval_covers _ _ hvm⟩
          · have hlsf : lower.second_overflow_bit = false := by simpa using hlsb
            by_cases husb : upper.second_overflow_bit = true
            · rw [if_pos (by simp [husb])]
              exact ⟨⟨0, 2 ^ rsize - 1⟩, by simp,
                maximal_interval_covers _ _ hvm⟩
            · have husf : upper.second_overflow_bit = false := by simpa using husb
              push_neg at hLf
              have hover : (2 : Int) ^ rsize ≤ SU := by
                rcases hUf with h | h
                · exfalso; omega
                · exact h
              by_cases hcmp : (SL % ((2 : Int) ^ rsize)).toNat <
                  (SU % ((2 : Int) ^ rsize)).toNat
              · rw [if_pos (by simp [hlsf, husf, hcmp])]
                exact ⟨⟨0, 2 ^ rsize - 1⟩, by simp,
                  maximal_interval_covers _ _ hvm⟩
              · rw [if_neg (by simp [hlsf, husf, hcmp])]
                exact tails_cover_high rsize SL SV SU h1 h2 hLf.1 (by omega)
                  hover (hus husf)
    · push_neg at hLf hUf
      rw [decide_eq_false (by push_neg; exact hLf),
        decide_eq_false (by push_neg; exact hUf)]
      rw [if_pos (by simp)]
      refine ⟨⟨(SL % ((2 : Int) ^ rsize)).toNat,
        (SU % ((2 : Int) ^ rsize)).toNat⟩, by simp, ?_⟩
      exact inrange_cover rsize SL SV SU h1 h2 hLf.1 hUf.2

theorem Add_covers (a b : IntervalSet) (hwa : a.WF) (hwb : b.WF)
    (hbc : b.bitCount = a.bitCount) (va vb : Nat)
    (hca : a.Covers va = true) (hcb : b.Covers vb = true)
    (hva : va < 2 ^ a.bitCount) (hvb : vb < 2 ^ a.bitCount) :
    (Add a b).Covers ((va + vb) % 2 ^ a.bitCount) = true := by
  have hp : (2 : Nat) ^ (a.bitCount + 1) = 2 ^ a.bitCount * 2 :=
    pow_succ 2 a.bitCount
  unfold Add PerformBinOp
  refine PerformVariadicOp_covers _ _ _ _ ?_ rfl ?_ [va, vb] rfl ?_ ?_
  · intro s hs
    rcases List.mem_cons.mp hs with rfl | hs2
    · exact hwa
    rcases List.mem_cons.mp hs2 with rfl | hs3
    · exact hwb
    · simp at hs3
  · intro args _
    exact Nat.mod_lt _ (by positivity)
  · intro i hi
    have hi2 : i < 2 := by simpa using hi
    interval_cases i
    · exact ⟨hca, hva⟩
    · refine ⟨hcb, ?_⟩
      simp only [List.getD_cons_succ, List.getD_cons_zero]
      rw [hbc]
      exact hvb
  · intro lB uB hlL hlU hord hsp
    have h0 := hord 0 (by simp)
    have h1 := hord 1 (by simp)
    obtain ⟨hl0, hu0⟩ := h0.1 rfl
    obtain ⟨hl1, hu1⟩ := h1.1 rfl
    simp only [List.getD_cons_zero, List.getD_cons_succ] at hl0 hu0 hl1 hu1
    have hb0l : lB.getD 0 0 < 2 ^ a.bitCount := h0.2.2.1
    have hb0u : uB.getD 0 0 < 2 ^ a.bitCount := h0.2.2.2
    have hb1l : lB.getD 1 0 < 2 ^ a.bitCount := by
      have := h1.2.2.1
      simpa [hbc] using this
    have hb1u : uB.getD 1 0 < 2 ^ a.bitCount := by
      have := h1.2.2.2
      simpa [hbc] using this
    refine emit_obligation_exact_nat _ _
      (lB.getD 0 0 + lB.getD 1 0) (va + vb) (uB.getD 0 0 + uB.getD 1 0)
      _ _ rfl rfl rfl rfl ?_ (by omega) (by omega) ?_
    · intro _
      omega
    · intro hflag
      obtain ⟨j, hjlt, _, hothers⟩ := hsp hflag
      have hj2 : j < 2 := by simpa using hjlt
      interval_cases j
      · obtain ⟨he1, he2⟩ := hothers 1 (by simp) (by omega)
        rw [he1, he2]
        omega
      · obtain ⟨he1, he2⟩ := hothers 0 (by simp) (by omega)
        rw [he1, he2]
        omega

theorem UMul_covers (a b : IntervalSet) (outW : Nat)
    (hwa : a.WF) (hwb : b.WF) (va vb : Nat)
    (hca : a.Covers va = true) (hcb : b.Covers vb = true)
    (hva : va < 2 ^ a.bitCount) (hvb : vb < 2 ^ b.bitCount) :
    (UMul a b outW).Covers ((va * vb) % 2 ^ outW) = true := by
  unfold UMul PerformBinOp
  refine PerformVariadicOp_covers _ _ _ _ ?_ rfl ?_ [va, vb] rfl ?_ ?_
  · intro s hs
    rcases List.mem_cons.mp hs with rfl | hs2
    · exact hwa
    rcases List.mem_cons.mp hs2 with rfl | hs3
    · exact hwb
    · simp at hs3
  · intro args _
    exact Nat.mod_lt _ (by positivity)
  · intro i hi
    have hi2 : i < 2 := by simpa using hi
    interval_cases i
    · exact ⟨hca, hva⟩
    · exact ⟨hcb, hvb⟩
  · intro lB uB hlL hlU hord hsp
    have h0 := hord 0 (by simp)
    have h1 := hord 1 (by simp)
    obtain ⟨hl0, hu0⟩ := h0.1 rfl
    obtain ⟨hl1, hu1⟩ := h1.1 rfl
    refine emit_obligation_exact_nat _ _
      (lB.getD 0 0 * lB.getD 1 0) (va * vb) (uB.getD 0 0 * uB.getD 1 0)
      _ _ rfl rfl rfl rfl ?_ ?_ ?_ ?_
    · intro hsec
      have := of_decide_eq_false hsec
      omega
    · exact Nat.mul_le_mul hl0 hl1
    · exact Nat.mul_le_mul hu0 hu1
    · intro hflag
      obtain ⟨j, hjlt, hjsp, _⟩ := hsp hflag
      have hj2 : j < 2 := by simpa using hjlt
      exfalso
      interval_cases j <;>
        simp [kMonotoneNonSizePreserving] at hjsp

theorem Sub_covers (a b : IntervalSet) (hwa : a.WF) (hwb : b.WF)
    (hbc : b.bitCount = a.bitCount) (va vb : Nat)
    (hca : a.Covers va = true) (hcb : b.Covers vb = true)
    (hva : va < 2 ^ a.bitCount) (hvb : vb < 2 ^ a.bitCount) :
    (Sub a b).Covers ((va + 2 ^ a.bitCount - vb) % 2 ^ a.bitCount) = true := by
  have hpow : ((2 ^ a.bitCount : Nat) : Int) = (2 : Int) ^ a.bitCount := by
    push_cast; ring
  unfold Sub PerformBinOp
  refine PerformVariadicOp_covers _ _ _ _ ?_ rfl ?_ [va, vb] rfl ?_ ?_
  · intro s hs
    rcases List.mem_cons.mp hs with rfl | hs2
    · exact hwa
    rcases List.mem_cons.mp hs2 with rfl | hs3
    · exact hwb
    · simp at hs3
  · intro args _
    exact Nat.mod_lt _ (by positivity)
  · intro i hi
    have hi2 : i < 2 := by simpa using hi
    interval_cases i
    · exact ⟨hca, hva⟩
    · refine ⟨hcb, ?_⟩
      simp only [List.getD_cons_succ, List.getD_cons_zero]
      rw [hbc]
      exact hvb
  · intro lB uB hlL hlU hord hsp
    have h0 := hord 0 (by simp)
    have h1 := hord 1 (by simp)
    obtain ⟨hl0, hu0⟩ := h0.1 rfl
    obtain ⟨hu1, hl1⟩ := h1.2.1 rfl
    simp only [List.getD_cons_zero, List.getD_cons_succ] at hl0 hu0 hl1 hu1
    have hb0l : lB.getD 0 0 < 2 ^ a.bitCount := h0.2.2.1
    have hb0u : uB.getD 0 0 < 2 ^ a.bitCount := h0.2.2.2
    have hb1l : lB.getD 1 0 < 2 ^ a.bitCount := by
      have := h1.2.2.1
      simpa [hbc] using this
    have hb1u : uB.getD 1 0 < 2 ^ a.bitCount := by
      have := h1.2.2.2
      simpa [hbc] using this
    have hgoal : ((fun args => subCalc a.bitCount (args.getD 0 0)
        (args.getD 1 0)) [va, vb]).result =
        ((((va : Int) - vb) % ((2 : Int) ^ a.bitCount)).toNat) := by
      exact sub_mod_int a.bitCount va vb (by omega)
    rw [hgoal]
    refine emit_obligation_exact_int _ _
      ((lB.getD 0 0 : Int) - lB.getD 1 0) ((va : Int) - vb)
      ((uB.getD 0 0 : Int) - uB.getD 1 0) _ _ ?_ ?_ ?_ ?_ ?_ ?_
      (by omega) (by omega) ?_
    · exact sub_mod_int a.bitCount _ _ (by omega)
    · show decide (lB.getD 0 0 < lB.getD 1 0) = _
      rw [decide_eq_decide]
      omega
    · exact sub_mod_int a.bitCount _ _ (by omega)
    · show decide (uB.getD 0 0 < uB.getD 1 0) = _
      rw [decide_eq_decide]
      omega
    · intro _
      omega
    · intro _
      have hp1 : ((2 : Int) ^ (a.bitCount + 1)) = 2 ^ a.bitCount * 2 := by ring
      omega
    · intro hflag
      obtain ⟨j, hjlt, _, hothers⟩ := hsp hflag
      have hj2 : j < 2 := by simpa using hjlt
      interval_cases j
      · obtain ⟨he1, he2⟩ := hothers 1 (by simp) (by omega)
        rw [he1, he2]
        omega
      · obtain ⟨he1, he2⟩ := hothers 0 (by simp) (by omega)
        rw [he1, he2]
        omega

theorem Neg_covers (a : IntervalSet) (hwa : a.WF) (va : Nat)
    (hca : a.Covers va = true) (hva : va < 2 ^ a.bitCount) :
    (Neg a).Covers ((2 ^ a.bitCount - va) % 2 ^ a.bitCount) = true := by
  unfold Neg PerformUnaryOp
  refine PerformVariadicOp_covers _ _ _ _ ?_ rfl ?_ [va] rfl ?_ ?_
  · intro s hs
    rcases List.mem_cons.mp hs with rfl | hs2
    · exact hwa
    · simp at hs2
  · intro args _
    exact Nat.mod_lt _ (by positivity)
  · intro i hi
    have hi2 : i < 1 := by simpa using hi
    interval_cases i
    · exact ⟨hca, hva⟩
  · intro lB uB hlL hlU hord hsp
    have h0 := hord 0 (by simp)
    obtain ⟨hu0, hl0⟩ := h0.2.1 rfl
    simp only [List.getD_cons_zero] at hu0 hl0
    have hb0l : lB.getD 0 0 < 2 ^ a.bitCount := h0.2.2.1
    have hb0u : uB.getD 0 0 < 2 ^ a.bitCount := h0.2.2.2
    refine emit_obligation_noflag_wrap _ _ _ _ _ ?_
    have hw := wrap_covers_int (2 ^ a.bitCount) (by positivity)
      (-(lB.getD 0 0 : Int)) (-(va : Int)) (-(uB.getD 0 0 : Int))
      (by omega) (by omega) ?_
    · have e1 := neg_mod_int a.bitCount (lB.getD 0 0) (by omega)
      have e2 := neg_mod_int a.bitCount (uB.getD 0 0) (by omega)
      have e3 := neg_mod_int a.bitCount va (by omega)
      have hpow : ((2 ^ a.bitCount : Nat) : Int) = (2 : Int) ^ a.bitCount := by
        push_cast; ring
      rw [hpow] at hw
      rw [e1, e2, e3] at hw
      exact hw
    · have hpow : ((2 ^ a.bitCount : Nat) : Int) = (2 : Int) ^ a.bitCount := by
        push_cast; ring
      omega

/-- `interval_ops::ZeroExtend`: the variadic algorithm on a single monotone
size-preserving operand; `bits_ops::ZeroExtend` keeps the value unchanged
and the plain-Bits overload sets no overflow flags. -/
def ZeroExtend (a : IntervalSet) (width : Nat) : IntervalSet :=
  PerformUnaryOp (fun b => ⟨b, false, false⟩) a kMonotoneSizePreserving width

/-- Value of `bits_ops::SignExtend` on a `w`-bit value: values with the
sign bit clear are unchanged, values with the sign bit set gain all the
new high bits. -/
def signExtendVal (w width v : Nat) : Nat :=
  if v < 2 ^ (w - 1) then v else v + (2 ^ width - 2 ^ w)

/-- `interval_ops::SignExtend`: the variadic algorithm on a single
monotone size-preserving operand computing `bits_ops::SignExtend`. -/
def SignExtend (a : IntervalSet) (width : Nat) : IntervalSet :=
  PerformUnaryOp (fun b => ⟨signExtendVal a.bitCount width b, false, false⟩)
    a kMonotoneSizePreserving width

/-- `interval_ops::Shrl`: logical shift right through the variadic
algorithm, monotone in the operand and antitone in the shift amount;
over-shifting yields zero, which `/ 2 ^ b` also does. -/
def Shrl (a b : IntervalSet) : IntervalSet :=
  PerformBinOp (fun x y => ⟨x / 2 ^ y, false, false⟩) a
    kMonotoneNonSizePreserving b kAntitoneNonSizePreserving a.bitCount

theorem signExtendVal_mono (w width : Nat) (x y : Nat) (h : x ≤ y) :
    signExtendVal w width x ≤ signExtendVal w width y := by
  unfold signExtendVal
  split <;> split <;> omega

theorem signExtendVal_lt (w width v : Nat) (h : w ≤ width)
    (hv : v < 2 ^ w) :
    signExtendVal w width v < 2 ^ width := by
  have hle : (2 : Nat) ^ w ≤ 2 ^ width := Nat.pow_le_pow_right (by omega) h
  unfold signExtendVal
  split
  · have : (2 : Nat) ^ (w - 1) ≤ 2 ^ w := Nat.pow_le_pow_right (by omega) (by omega)
    omega
  · omega

theorem ZeroExtend_covers (a : IntervalSet) (width : Nat) (hwa : a.WF)
    (hw : a.bitCount ≤ width) (va : Nat)
    (hca : a.Covers va = true) (hva : va < 2 ^ a.bitCount) :
    (ZeroExtend a width).Covers va = true := by
  unfold ZeroExtend PerformUnaryOp
  refine PerformVariadicOp_covers _ _ _ _ ?_ rfl ?_ [va] rfl ?_ ?_
  · intro s hs
    rcases List.mem_cons.mp hs with rfl | hs2
    · exact hwa
    · simp at hs2
  · intro args hargs
    have hb := hargs 0 (by simp)
    simp only [List.getD_cons_zero] at hb
    calc args.getD 0 0 < 2 ^ a.bitCount := hb
      _ ≤ 2 ^ width := Nat.pow_le_pow_right (by omega) hw
  · intro i hi
    have hi1 : i < 1 := by simpa using hi
    interval_cases i
    · exact ⟨hca, hva⟩
  · intro lB uB hlL hlU hord hsp
    have h0 := hord 0 (by simp)
    obtain ⟨hl0, hu0⟩ := h0.1 rfl
    simp only [List.getD_cons_zero] at hl0 hu0
    exact emit_obligation_noflag _ _ (lB.getD 0 0) (uB.getD 0 0) va hl0 hu0

theorem SignExtend_covers (a : IntervalSet) (width : Nat) (hwa : a.WF)
    (hw : a.bitCount ≤ width) (va : Nat)
    (hca : a.Covers va = true) (hva : va < 2 ^ a.bitCount) :
    (SignExtend a width).Covers (signExtendVal a.bitCount width va) = true := by
  unfold SignExtend PerformUnaryOp
  refine PerformVariadicOp_covers _ _ _ _ ?_ rfl ?_ [va] rfl ?_ ?_
  · intro s hs
    rcases List.mem_cons.mp hs with rfl | hs2
    · exact hwa
    · simp at hs2
  · intro args hargs
    have hb := hargs 0 (by simp)
    simp only [List.getD_cons_zero] at hb
    exact signExtendVal_lt _ _ _ hw hb
  · intro i hi
    have hi1 : i < 1 := by simpa using hi
    interval_cases i
    · exact ⟨hca, hva⟩
  · intro lB uB hlL hlU hord hsp
    have h0 := hord 0 (by simp)
    obtain ⟨hl0, hu0⟩ := h0.1 rfl
    simp only [List.getD_cons_zero] at hl0 hu0
    exact emit_obligation_noflag _ _
      (signExtendVal a.bitCount width (lB.getD 0 0))
      (signExtendVal a.bitCount width (uB.getD 0 0))
      (signExtendVal a.bitCount width va)
      (signExtendVal_mono _ _ _ _ hl0) (signExtendVal_mono _ _ _ _ hu0)

theorem Shrl_covers (a b : IntervalSet) (hwa : a.WF) (hwb : b.WF)
    (va vb : Nat) (hca : a.Covers va = true) (hcb : b.Covers vb = true)
    (hva : va < 2 ^ a.bitCount) (hvb : vb < 2 ^ b.bitCount) :
    (Shrl a b).Covers (va / 2 ^ vb) = true := by
  unfold Shrl PerformBinOp
  refine PerformVariadicOp_covers _ _ _ _ ?_ rfl ?_ [va, vb] rfl ?_ ?_
  · intro s hs
    rcases List.mem_cons.mp hs with rfl | hs2
    · exact hwa
    rcases List.mem_cons.mp hs2 with rfl | hs3
    · exact hwb
    · simp at hs3
  · intro args hargs
    have hb := hargs 0 (by simp)
    simp only [List.getD_cons_zero] at hb
    calc args.getD 0 0 / 2 ^ args.getD 1 0 ≤ args.getD 0 0 :=
        Nat.div_le_self _ _
      _ < 2 ^ a.bitCount := hb
  · intro i hi
    have hi2 : i < 2 := by simpa using hi
    interval_cases i
    · exact ⟨hca, hva⟩
    · exact ⟨hcb, hvb⟩
  · intro lB uB hlL hlU hord hsp
    have h0 := hord 0 (by simp)
    have h1 := hord 1 (by simp)
    obtain ⟨hl0, hu0⟩ := h0.1 rfl
    obtain ⟨hu1, hl1⟩ := h1.2.1 rfl
    simp only [List.getD_cons_zero, List.getD_cons_succ] at hl0 hu0 hl1 hu1
    have hmono1 : lB.getD 0 0 / 2 ^ lB.getD 1 0 ≤ va / 2 ^ vb := by
      calc lB.getD 0 0 / 2 ^ lB.getD 1 0 ≤ va / 2 ^ lB.getD 1 0 :=
          Nat.div_le_div_right hl0
        _ ≤ va / 2 ^ vb :=
          Nat.div_le_div_left (Nat.pow_le_pow_right (by omega) hl1)
            (by positivity)
    have hmono2 : va / 2 ^ vb ≤ uB.getD 0 0 / 2 ^ uB.getD 1 0 := by
      calc va / 2 ^ vb ≤ uB.getD 0 0 / 2 ^ vb := Nat.div_le_div_right hu0
        _ ≤ uB.getD 0 0 / 2 ^ uB.getD 1 0 :=
          Nat.div_le_div_left (Nat.pow_le_pow_right (by omega) hu1)
            (by positivity)
    exact emit_obligation_noflag _ _ _ _ _ hmono1 hmono2

theorem concatValue_lt_pairs (l : List (Nat × Nat))
    (h : ∀ p ∈ l, p.2 < 2 ^ p.1) :
    concatValue l < 2 ^ ((l.map Prod.fst).sum) := by
  induction l with
  | nil => simp [concatValue]
  | cons p rest ih =>
      have hp := h p (by simp)
      have hrest := ih (fun q hq => h q (by simp [hq]))
      unfold concatValue
      simp only [List.map_cons, List.sum_cons]
      have hstep : p.2 * 2 ^ ((rest.map Prod.fst).sum) + concatValue rest <
          (p.2 + 1) * 2 ^ ((rest.map Prod.fst).sum) := by
        have := Nat.pos_pow_of_pos ((rest.map Prod.fst).sum) (show 0 < 2 by omega)
        nlinarith
      have hfin : (p.2 + 1) * 2 ^ ((rest.map Prod.fst).sum) ≤
          2 ^ (p.1 + (rest.map Prod.fst).sum) := by
        rw [pow_add]
        exact Nat.mul_le_mul_right _ (by omega)
      omega

theorem map_fst_zip_sum_le (ws : List Nat) :
    ∀ xs : List Nat, ((ws.zip xs).map Prod.fst).sum ≤ ws.sum := by
  induction ws with
  | nil => intro xs; simp
  | cons w ws ih =>
      intro xs
      cases xs with
      | nil => simp
      | cons x xs =>
          simp only [List.zip_cons_cons, List.map_cons, List.sum_cons]
          have := ih xs
          omega

theorem concatValue_zip_mono (ws : List Nat) :
    ∀ xs ys : List Nat, xs.length = ws.length → ys.length = ws.length →
      (∀ i, i < ws.length → xs.getD i 0 ≤ ys.getD i 0) →
      concatValue (ws.zip xs) ≤ concatValue (ws.zip ys) := by
  induction ws with
  | nil => intro xs ys _ _ _; simp [concatValue]
  | cons w ws ih =>
      intro xs ys hx hy hle
      cases xs with
      | nil => simp at hx
      | cons x xs =>
          cases ys with
          | nil => simp at hy
          | cons y ys =>
              have h0 : x ≤ y := by
                have := hle 0 (by simp)
                simpa using this
              have hle' : ∀ i, i < ws.length → xs.getD i 0 ≤ ys.getD i 0 := by
                intro i hi
                have := hle (i + 1) (by simp; omega)
                simpa using this
              have hrest := ih xs ys (by simpa using hx) (by simpa using hy)
                hle'
              have hfst : ((ws.zip xs).map Prod.fst) =
                  ((ws.zip ys).map Prod.fst) := by
                rw [List.map_fst_zip _ _ (by simp at hx; omega),
                  List.map_fst_zip _ _ (by simp at hy; omega)]
              simp only [List.zip_cons_cons]
              rw [show concatValue ((w, x) :: ws.zip xs) =
                  x * 2 ^ (((ws.zip xs).map Prod.fst).sum) +
                    concatValue (ws.zip xs) from rfl,
                show concatValue ((w, y) :: ws.zip ys) =
                  y * 2 ^ (((ws.zip ys).map Prod.fst).sum) +
                    concatValue (ws.zip ys) from rfl, hfst]
              have hmul : x * 2 ^ (((ws.zip ys).map Prod.fst).sum) ≤
                  y * 2 ^ (((ws.zip ys).map Prod.fst).sum) :=
                Nat.mul_le_mul_right _ h0
              omega

theorem concatBehaviors_tonicity (n i : Nat) :
    ((concatBehaviors n).getD i kMonotoneSizePreserving).tonicity =
      Tonicity.Monotone := by
  unfold concatBehaviors
  split
  · simp [kMonotoneSizePreserving]
  · rcases Nat.lt_or_ge i (n - 1) with hlt | hge
    · rw [List.getD_eq_getElem?_getD, List.getElem?_append_left
        (by simp [List.length_replicate]; omega), List.getElem?_replicate,
        if_pos hlt]
      rfl
    · rcases Nat.lt_or_ge i n with hin | hout
      · rw [List.getD_eq_getElem?_getD, List.getElem?_append_right
          (by simp [List.length_replicate]; omega)]
        simp only [List.length_replicate]
        have : i - (n - 1) = 0 := by omega
        rw [this]
        rfl
      · rw [List.getD_eq_getElem?_getD, List.getElem?_eq_none
          (by simp [List.length_replicate]; omega)]
        rfl

theorem zip_pair_bound (sets : List IntervalSet) :
    ∀ args : List Nat,
      (∀ i, i < sets.length →
        args.getD i 0 < 2 ^ (sets.getD i ⟨0, []⟩).bitCount) →
      ∀ p ∈ (sets.map IntervalSet.bitCount).zip args, p.2 < 2 ^ p.1 := by
  induction sets with
  | nil =>
      intro args _ p hp
      simp at hp
  | cons s ss ih =>
      intro args hargs p hp
      cases args with
      | nil => simp at hp
      | cons a as =>
          simp only [List.map_cons, List.zip_cons_cons, List.mem_cons] at hp
          rcases hp with rfl | hp2
          · have := hargs 0 (by simp)
            simpa using this
          · have hrec : ∀ i, i < ss.length →
                as.getD i 0 < 2 ^ (ss.getD i ⟨0, []⟩).bitCount := by
              intro i hi
              have := hargs (i + 1) (by simp; omega)
              simpa using this
            exact ih as hrec p hp2

theorem Concat_covers (sets : List IntervalSet) (vs : List Nat)
    (hwf : ∀ s ∈ sets, s.WF) (hlen : vs.length = sets.length)
    (hcov : ∀ i, i < sets.length →
      (sets.getD i ⟨0, []⟩).Covers (vs.getD i 0) = true ∧
      vs.getD i 0 < 2 ^ (sets.getD i ⟨0, []⟩).bitCount) :
    (Concat sets).Covers
      (concatValue ((sets.map IntervalSet.bitCount).zip vs)) = true := by
  have hwlen : (sets.map IntervalSet.bitCount).length = sets.length := by
    simp
  have hbound : ∀ args : List Nat,
      (∀ i, i < sets.length →
        args.getD i 0 < 2 ^ (sets.getD i ⟨0, []⟩).bitCount) →
      concatValue ((sets.map IntervalSet.bitCount).zip args) <
        2 ^ ((sets.map IntervalSet.bitCount).sum) := by
    intro args hargs
    have hpair : ∀ p ∈ (sets.map IntervalSet.bitCount).zip args,
        p.2 < 2 ^ p.1 := zip_pair_bound sets args hargs
    calc concatValue ((sets.map IntervalSet.bitCount).zip args) <
        2 ^ ((((sets.map IntervalSet.bitCount).zip args).map Prod.fst).sum) :=
          concatValue_lt_pairs _ hpair
      _ ≤ 2 ^ ((sets.map IntervalSet.bitCount).sum) :=
          Nat.pow_le_pow_right (by omega) (map_fst_zip_sum_le _ _)
  unfold Concat
  refine PerformVariadicOp_covers _ _ _ _ hwf ?_ ?_ vs hlen hcov ?_
  · unfold concatBehaviors
    split
    · simp_all
    · simp [List.length_replicate]
      omega
  · intro args hargs
    exact hbound args hargs
  · intro lB uB hlL hlU hord hsp
    have hptwise : ∀ i, i < sets.length →
        lB.getD i 0 ≤ vs.getD i 0 ∧ vs.getD i 0 ≤ uB.getD i 0 := by
      intro i hi
      exact ((hord i hi).1 (concatBehaviors_tonicity _ i))
    have hm1 : concatValue ((sets.map IntervalSet.bitCount).zip lB) ≤
        concatValue ((sets.map IntervalSet.bitCount).zip vs) :=
      concatValue_zip_mono _ _ _ (by rw [hlL, hwlen]) (by rw [hlen, hwlen])
        (fun i hi => (hptwise i (by rwa [hwlen] at hi)).1)
    have hm2 : concatValue ((sets.map IntervalSet.bitCount).zip vs) ≤
        concatValue ((sets.map IntervalSet.bitCount).zip uB) :=
      concatValue_zip_mono _ _ _ (by rw [hlen, hwlen]) (by rw [hlU, hwlen])
        (fun i hi => (hptwise i (by rwa [hwlen] at hi)).2)
    exact emit_obligation_noflag _ _ _ _ _ hm1 hm2

theorem emitStep_ne_nil (sp : Bool) (r : Nat) (lo up : OverflowResult) :
    (emitStep sp r lo up).1 ≠ [] := by
  unfold emitStep
  split
  · simp
  · split
    · simp
    · split <;> simp

theorem processCombos_ne_nil (f : List Nat → List Interval × Bool)
    (hne : ∀ c, (f c).1 ≠ []) :
    ∀ combos : List (List Nat), combos ≠ [] →
      processCombos f combos ≠ [] := by
  intro combos hcne
  cases combos with
  | nil => exact absurd rfl hcne
  | cons c cs =>
      unfold processCombos
      rcases hfc : f c with ⟨ivs, stop⟩
      have hivs : ivs ≠ [] := by
        have := hne c
        rw [hfc] at this
        exact this
      cases stop with
      | true => simpa using hivs
      | false =>
          simp only
          intro happ
          exact hivs (List.append_eq_nil.mp happ).1

theorem mixedRadixCombos_ne_nil : ∀ radix : List Nat,
    (∀ x ∈ radix, 0 < x) → mixedRadixCombos radix ≠ [] := by
  intro radix
  induction radix with
  | nil =>
      intro _
      simp [mixedRadixCombos]
  | cons r rs ih =>
      intro hpos
      unfold mixedRadixCombos
      have hrec := ih (fun x hx => hpos x (by simp [hx]))
      have hr : 0 < r := hpos r (by simp)
      intro hemp
      rw [List.flatMap_eq_nil_iff] at hemp
      have h0 := hemp 0 (by rw [List.mem_range]; omega)
      rw [List.map_eq_nil_iff] at h0
      exact hrec h0

theorem PerformVariadicOp_shape (calcFn : List Nat → OverflowResult)
    (behaviors : List ArgumentBehavior) (inputs : List IntervalSet)
    (rsize : Nat)
    (hwf : ∀ s ∈ inputs, s.WF)
    (hblen : behaviors.length = inputs.length)
    (hres : ∀ args : List Nat,
      (∀ i, i < inputs.length →
        args.getD i 0 < 2 ^ (inputs.getD i ⟨0, []⟩).bitCount) →
      (calcFn args).result < 2 ^ rsize) :
    (PerformVariadicOp calcFn behaviors inputs rsize).bitCount = rsize ∧
    (PerformVariadicOp calcFn behaviors inputs rsize).WF ∧
    (PerformVariadicOp calcFn behaviors inputs rsize).IsNormalized = true ∧
    ((∀ s ∈ inputs, s.intervals ≠ []) →
      (PerformVariadicOp calcFn behaviors inputs rsize).intervals ≠ []) := by
  have hMlen : (minimizedOperands inputs).length = inputs.length :=
    minimizedOperands_length inputs
  have hMdef : ∀ i, i < inputs.length → ∀ d,
      (minimizedOperands inputs).getD i d =
        MinimizeIntervals (inputs.getD i ⟨0, []⟩) (if i < 12 then 5 else 1) :=
    fun i hi d => minimizedOperands_getD inputs i hi d
  have hMfacts : ∀ i, i < inputs.length →
      ((minimizedOperands inputs).getD i ⟨0, []⟩).IsNormalized = true ∧
      ((minimizedOperands inputs).getD i ⟨0, []⟩).WF ∧
      ((minimizedOperands inputs).getD i ⟨0, []⟩).bitCount =
        (inputs.getD i ⟨0, []⟩).bitCount ∧
      ((inputs.getD i ⟨0, []⟩).intervals ≠ [] →
        ((minimizedOperands inputs).getD i ⟨0, []⟩).intervals ≠ []) := by
    intro i hi
    have hmem : inputs.getD i ⟨0, []⟩ ∈ inputs := getD_mem inputs i _ hi
    have hwfi := hwf _ hmem
    have hf := MinimizeIntervals_facts (inputs.getD i ⟨0, []⟩)
      (if i < 12 then 5 else 1) hwfi (by split <;> omega)
    rw [hMdef i hi]
    exact ⟨hf.1, hf.2.1, hf.2.2.1, hf.2.2.2.2.2.1⟩
  simp only [PerformVariadicOp]
  split
  · rename_i hall
    have hargsB : ∀ i, i < inputs.length →
        ((minimizedOperands inputs).map
          (fun s => s.GetPreciseValue.getD 0)).getD i 0 <
          2 ^ (inputs.getD i ⟨0, []⟩).bitCount := by
      intro i hi
      have hprec : ((minimizedOperands inputs).getD i ⟨0, []⟩).IsPrecise =
          true := by
        refine List.all_eq_true.mp hall _ ?_
        exact getD_mem _ i _ (by rw [hMlen]; exact hi)
      obtain ⟨a, hsa, hga, _⟩ := IsPrecise_facts _ hprec
      have hgd : ((minimizedOperands inputs).map
          (fun s => s.GetPreciseValue.getD 0)).getD i 0 =
          ((minimizedOperands inputs).getD i ⟨0, []⟩).GetPreciseValue.getD 0 :=
        getD_map (fun s : IntervalSet => s.GetPreciseValue.getD 0) _ i
          ⟨0, []⟩ (by rw [hMlen]; exact hi)
      rw [hgd, hga]
      have hwfm := (hMfacts i hi).2.1
      have habd := hwfm ⟨a, a⟩ (by rw [hsa]; simp)
      rw [(hMfacts i hi).2.2.1] at habd
      simpa using habd.1
    have hrb := hres _ hargsB
    refine ⟨rfl, ?_, ?_, ?_⟩
    · intro j hj
      unfold IntervalSet.PreciseIS at hj
      simp only [List.mem_singleton] at hj
      subst hj
      exact ⟨hrb, hrb⟩
    · unfold IntervalSet.PreciseIS IntervalSet.IsNormalized chainNormalized
      simp
    · intro _
      unfold IntervalSet.PreciseIS
      simp
  · have hSwf : (IntervalSet.mk rsize (processCombos
        (fun idxs =>
          emitStep (overflowSizePreservingFlag behaviors
              (minimizedOperands inputs)) rsize
            (calcFn (cornersFor behaviors (minimizedOperands inputs) idxs).1)
            (calcFn (cornersFor behaviors (minimizedOperands inputs) idxs).2))
        (mixedRadixCombos
          ((minimizedOperands inputs).map
            IntervalSet.NumberOfIntervals)))).WF := by
      intro j hj
      obtain ⟨c, hcmem, hjc⟩ := processCombos_mem _ _ j hj
      have hclen' : c.length = inputs.length := by
        have := mem_mixedRadixCombos_length _ _ hcmem
        rwa [List.length_map, hMlen] at this
      have hbnd1 : ∀ i, i < inputs.length →
          (cornersFor behaviors (minimizedOperands inputs) c).1.getD i 0 <
            2 ^ (inputs.getD i ⟨0, []⟩).bitCount ∧
          (cornersFor behaviors (minimizedOperands inputs) c).2.getD i 0 <
            2 ^ (inputs.getD i ⟨0, []⟩).bitCount := by
        intro i hi
        have hcg := cornersFor_getD behaviors (minimizedOperands inputs) c
          (by rw [hMlen, hblen]) (by rw [hclen', hblen]) i
          (by rw [hblen]; exact hi)
        have hWFi : ((minimizedOperands inputs).getD i ⟨0, []⟩).WF :=
          (hMfacts i hi).2.1
        have hbci : ((minimizedOperands inputs).getD i ⟨0, []⟩).bitCount =
            (inputs.getD i ⟨0, []⟩).bitCount := (hMfacts i hi).2.2.1
        have hitv :
            (((minimizedOperands inputs).getD i ⟨0, []⟩).intervals.getD
              (c.getD i 0) ⟨0, 0⟩).lowerBound <
              2 ^ (inputs.getD i ⟨0, []⟩).bitCount ∧
            (((minimizedOperands inputs).getD i ⟨0, []⟩).intervals.getD
              (c.getD i 0) ⟨0, 0⟩).upperBound <
              2 ^ (inputs.getD i ⟨0, []⟩).bitCount := by
          by_cases hlt : c.getD i 0 <
              ((minimizedOperands inputs).getD i ⟨0, []⟩).intervals.length
          · have hmem := getD_mem _ (c.getD i 0) (⟨0, 0⟩ : Interval) hlt
            have := hWFi _ hmem
            rw [hbci] at this
            exact this
          · rw [List.getD_eq_getElem?_getD,
              List.getElem?_eq_none (by omega)]
            exact ⟨by positivity, by positivity⟩
        rcases hton : (behaviors.getD i kMonotoneSizePreserving).tonicity
        · obtain ⟨e1, e2⟩ := hcg.1 hton
          rw [e1, e2]
          exact ⟨hitv.1, hitv.2⟩
        · obtain ⟨e1, e2⟩ := hcg.2 hton
          rw [e1, e2]
          exact ⟨hitv.2, hitv.1⟩
      exact emitStep_mem_bounds _ _ _ _
        (hres _ (fun i hi => (hbnd1 i hi).1))
        (hres _ (fun i hi => (hbnd1 i hi).2)) j hjc
    have hNwf := IntervalSet.Normalize_WF _ hSwf
    have hNnorm := IntervalSet.Normalize_isNormalized _ hSwf
    have hMin := MinimizeIntervals_facts (IntervalSet.Normalize _) 16 hNwf
      (by omega)
    refine ⟨hMin.2.2.1, hMin.2.1, hMin.1, ?_⟩
    intro hne
    refine hMin.2.2.2.2.2.1 ?_
    refine IntervalSet.Normalize_ne_nil _ ?_
    refine processCombos_ne_nil _ (fun c => emitStep_ne_nil _ _ _ _) _ ?_
    refine mixedRadixCombos_ne_nil _ ?_
    intro x hx
    rw [List.mem_iff_getElem] at hx
    obtain ⟨i, hilen, hxe⟩ := hx
    rw [List.length_map, hMlen] at hilen
    have hxg : ((minimizedOperands inputs).map
        IntervalSet.NumberOfIntervals).getD i 0 =
        ((minimizedOperands inputs).getD i ⟨0, []⟩).NumberOfIntervals :=
      getD_map IntervalSet.NumberOfIntervals _ i ⟨0, []⟩
        (by rw [hMlen]; exact hilen)
    have hxg2 : ((minimizedOperands inputs).map
        IntervalSet.NumberOfIntervals).getD i 0 = x := by
      rw [List.getD_eq_getElem?_getD, List.getElem?_eq_getElem
        (by rw [List.length_map, hMlen]; exact hilen)]
      simpa using hxe
    have hMne : ((minimizedOperands inputs).getD i ⟨0, []⟩).intervals ≠ [] :=
      (hMfacts i hilen).2.2.2 (hne _ (getD_mem inputs i _ hilen))
    rw [← hxg2, hxg]
    unfold IntervalSet.NumberOfIntervals
    cases hI : ((minimizedOperands inputs).getD i ⟨0, []⟩).intervals with
    | nil => exact absurd hI hMne
    | cons y ys => simp

/-- The interval scan of `interval_ops::Truncate`: an interval whose
wraparound span `Sub(upper, lower)` exceeds the truncated domain aborts
to the maximal set (`none`); otherwise both bounds are sliced to the low
`width` bits. -/
def truncateIntervals (w width : Nat) : List Interval → Option (List Interval)
  | [] => some []
  | i :: rest =>
      if 2 ^ width - 1 < (i.upperBound + 2 ^ w - i.lowerBound) % 2 ^ w then
        none
      else
        match truncateIntervals w width rest with
        | none => none
        | some l =>
            some (⟨i.lowerBound % 2 ^ width, i.upperBound % 2 ^ width⟩ :: l)

/-- `interval_ops::Truncate`. -/
def Truncate (a : IntervalSet) (width : Nat) : IntervalSet :=
  match truncateIntervals a.bitCount width a.intervals with
  | none => IntervalSet.Maximal width
  | some l => (IntervalSet.mk width l).Normalize

theorem truncate_interval_covers (w width : Nat) (hw : width ≤ w)
    (i : Interval) (hlo : i.lowerBound < 2 ^ w) (hhi : i.upperBound < 2 ^ w)
    (hspan : (i.upperBound + 2 ^ w - i.lowerBound) % 2 ^ w ≤ 2 ^ width - 1)
    (v : Nat) (hv : v < 2 ^ w) (hcov : i.Covers v = true) :
    (Interval.mk (i.lowerBound % 2 ^ width) (i.upperBound % 2 ^ width)).Covers
      (v % 2 ^ width) = true := by
  have hMpos : (0 : Nat) < 2 ^ width := by positivity
  have hwpos : (0 : Nat) < 2 ^ w := by positivity
  obtain ⟨k, hk⟩ : (2 ^ width : Nat) ∣ 2 ^ w := pow_dvd_pow 2 hw
  rw [Interval.covers_true_iff] at hcov
  by_cases hpr : i.lowerBound ≤ i.upperBound
  · rw [if_pos hpr] at hcov
    have hspan2 : (i.upperBound + 2 ^ w - i.lowerBound) % 2 ^ w =
        i.upperBound - i.lowerBound := by
      rw [show i.upperBound + 2 ^ w - i.lowerBound =
          (i.upperBound - i.lowerBound) + 2 ^ w by omega]
      rw [Nat.add_mod_right]
      exact Nat.mod_eq_of_lt (by omega)
    rw [hspan2] at hspan
    exact wrap_covers_natm (2 ^ width) i.lowerBound v i.upperBound hcov.1
      hcov.2 (by omega)
  · rw [if_neg hpr] at hcov
    have hpr2 : i.upperBound < i.lowerBound := by omega
    have hspan2 : (i.upperBound + 2 ^ w - i.lowerBound) % 2 ^ w =
        i.upperBound + 2 ^ w - i.lowerBound := Nat.mod_eq_of_lt (by omega)
    rw [hspan2] at hspan
    have hmodhi : (i.upperBound + 2 ^ w) % 2 ^ width =
        i.upperBound % 2 ^ width := by
      rw [hk, Nat.add_mul_mod_self_left]
    rcases hcov with hge | hle
    · have h := wrap_covers_natm (2 ^ width) i.lowerBound v
        (i.upperBound + 2 ^ w) hge (by omega) (by omega)
      rw [hmodhi] at h
      exact h
    · have h := wrap_covers_natm (2 ^ width) i.lowerBound (v + 2 ^ w)
        (i.upperBound + 2 ^ w) (by omega) (by omega) (by omega)
      rw [hmodhi] at h
      have hmodv : (v + 2 ^ w) % 2 ^ width = v % 2 ^ width := by
        rw [hk, Nat.add_mul_mod_self_left]
      rw [hmodv] at h
      exact h

theorem truncateIntervals_some_facts (w width : Nat) (hw : width ≤ w) :
    ∀ l res : List Interval, truncateIntervals w width l = some res →
      (∀ j ∈ res, j.lowerBound < 2 ^ width ∧ j.upperBound < 2 ^ width) ∧
      (∀ v, v < 2 ^ w →
        (∀ i ∈ l, i.lowerBound < 2 ^ w ∧ i.upperBound < 2 ^ w) →
        ∀ i ∈ l, i.Covers v = true →
        ∃ j ∈ res, j.Covers (v % 2 ^ width) = true) := by
  intro l
  induction l with
  | nil =>
      intro res h
      simp only [truncateIntervals, Option.some.injEq] at h
      subst h
      refine ⟨by simp, ?_⟩
      intro v _ _ i hi
      simp at hi
  | cons i0 rest ih =>
      intro res h
      unfold truncateIntervals at h
      split at h
      · simp at h
      · rename_i hspan
        cases hrec : truncateIntervals w width rest with
        | none =>
            rw [hrec] at h
            simp at h
        | some l' =>
            rw [hrec] at h
            simp only [Option.some.injEq] at h
            subst h
            obtain ⟨hb, hc⟩ := ih l' hrec
            constructor
            · intro j hj
              rcases List.mem_cons.mp hj with rfl | hj2
              · exact ⟨Nat.mod_lt _ (by positivity),
                  Nat.mod_lt _ (by positivity)⟩
              · exact hb j hj2
            · intro v hv hbounds i hi hic
              rcases List.mem_cons.mp hi with rfl | hi2
              · have hbi := hbounds i (by simp)
                exact ⟨_, by simp, truncate_interval_covers w width hw i
                  hbi.1 hbi.2 (by omega) v hv hic⟩
              · have hbrest : ∀ i2 ∈ rest,
                    i2.lowerBound < 2 ^ w ∧ i2.upperBound < 2 ^ w := by
                  intro i2 hm
                  exact hbounds i2 (by simp [hm])
                obtain ⟨j, hj, hjc⟩ := hc v hv hbrest i hi2 hic
                exact ⟨j, by simp [hj], hjc⟩

theorem Truncate_covers (a : IntervalSet) (width : Nat) (hwa : a.WF)
    (hwidth : width ≤ a.bitCount) (va : Nat)
    (hca : a.Covers va = true) (hva : va < 2 ^ a.bitCount) :
    (Truncate a width).Covers (va % 2 ^ width) = true := by
  have hMpos : (0 : Nat) < 2 ^ width := by positivity
  unfold Truncate
  cases htr : truncateIntervals a.bitCount width a.intervals with
  | none =>
      rw [IntervalSet.covers_iff]
      exact ⟨⟨0, 2 ^ width - 1⟩, by simp [IntervalSet.Maximal],
        maximal_interval_covers width _ (Nat.mod_lt _ hMpos)⟩
  | some l =>
      obtain ⟨hb, hc⟩ := truncateIntervals_some_facts a.bitCount width hwidth
        a.intervals l htr
      obtain ⟨i, hi, hic⟩ := (IntervalSet.covers_iff a va).mp hca
      obtain ⟨j, hj, hjc⟩ := hc va hva (fun i2 h2 => hwa i2 h2) i hi hic
      have hwfl : (IntervalSet.mk width l).WF := fun j2 hj2 => hb j2 hj2
      rw [IntervalSet.Normalize_covers _ _ (Nat.mod_lt _ hMpos) hwfl]
      rw [IntervalSet.covers_iff]
      exact ⟨j, hj, hjc⟩

/-- Ascending list of the concrete members of an interval set — the
iteration order of `IntervalSet::ForEachElement` on a normalized set. -/
def elementsOf (s : IntervalSet) : List Nat :=
  s.intervals.flatMap
    (fun i => List.range' i.lowerBound (i.upperBound + 1 - i.lowerBound))

/-- The element visitor of `interval_ops::Decode`: each value below
`width` contributes its power of two as a precise interval; the first
value at or above `width` contributes the precise zero interval and stops
the iteration. -/
def decodeGo (width : Nat) : List Nat → List Interval
  | [] => []
  | v :: rest =>
      if width ≤ v then [⟨0, 0⟩]
      else ⟨2 ^ v, 2 ^ v⟩ :: decodeGo width rest

/-- `interval_ops::Decode`. -/
def Decode (a : IntervalSet) (width : Nat) : IntervalSet :=
  (IntervalSet.mk width (decodeGo width (elementsOf a))).Normalize

theorem decodeGo_covers (width : Nat) :
    ∀ l : List Nat, l.Pairwise (· ≤ ·) → ∀ va ∈ l,
      ∃ j ∈ decodeGo width l,
        j.Covers (if va < width then 2 ^ va else 0) = true := by
  intro l
  induction l with
  | nil =>
      intro _ va hva
      simp at hva
  | cons v rest ih =>
      intro hp va hva
      rw [List.pairwise_cons] at hp
      unfold decodeGo
      by_cases hv : width ≤ v
      · rw [if_pos hv]
        have hge : width ≤ va := by
          rcases List.mem_cons.mp hva with rfl | h2
          · exact hv
          · exact le_trans hv (hp.1 va h2)
        rw [if_neg (by omega)]
        refine ⟨⟨0, 0⟩, by simp, ?_⟩
        rw [Interval.covers_proper_iff _ _ (le_refl 0)]
        exact ⟨le_refl 0, le_refl 0⟩
      · rw [if_neg hv]
        rcases List.mem_cons.mp hva with rfl | h2
        · rw [if_pos (by omega)]
          refine ⟨⟨2 ^ va, 2 ^ va⟩, by simp, ?_⟩
          rw [Interval.covers_proper_iff _ _ (le_refl _)]
          exact ⟨le_refl _, le_refl _⟩
        · obtain ⟨j, hj, hjc⟩ := ih hp.2 va h2
          exact ⟨j, by simp [hj], hjc⟩

theorem decodeGo_bounds (width : Nat) :
    ∀ l : List Nat, (∀ v ∈ l, v < width → 2 ^ v < 2 ^ width) →
      ∀ j ∈ decodeGo width l,
        j.lowerBound < 2 ^ width ∧ j.upperBound < 2 ^ width := by
  intro l
  induction l with
  | nil =>
      intro _ j hj
      simp [decodeGo] at hj
  | cons v rest ih =>
      intro hb j hj
      unfold decodeGo at hj
      by_cases hv : width ≤ v
      · rw [if_pos hv] at hj
        simp at hj
        subst hj
        exact ⟨by positivity, by positivity⟩
      · rw [if_neg hv] at hj
        rcases List.mem_cons.mp hj with rfl | hj2
        · have := hb v (by simp) (by omega)
          exact ⟨this, this⟩
        · exact ih (fun v2 h2 hlt => hb v2 (by simp [h2]) hlt) j hj2

theorem chainNormalized_strong : ∀ l : List Interval,
    (∀ i ∈ l, i.lowerBound ≤ i.upperBound) →
    chainNormalized l = true →
    l.Pairwise (fun i j => i.upperBound < j.lowerBound) := by
  intro l
  induction l with
  | nil =>
      intro _ _
      simp
  | cons a rest ih =>
      intro hp hc
      rw [List.pairwise_cons]
      refine ⟨?_, ih (fun i hi => hp i (List.mem_cons_of_mem a hi))
        (chainNormalized_tail a rest hc)⟩
      intro x hx
      have := chainNormalized_head_le a rest hp hc x hx
      omega

theorem elementsOf_sorted (s : IntervalSet) (hn : s.IsNormalized = true) :
    (elementsOf s).Pairwise (· ≤ ·) := by
  obtain ⟨hp, hc⟩ := s.isNormalized_facts hn
  unfold elementsOf
  rw [List.pairwise_flatMap]
  constructor
  · intro i _
    exact List.pairwise_le_range' _ _ _
  · have hstrong : s.intervals.Pairwise
        (fun i j => i.upperBound < j.lowerBound) :=
      chainNormalized_strong s.intervals hp hc
    refine List.Pairwise.imp_of_mem ?_ hstrong
    intro i j _ _ hij x hx y hy
    rw [List.mem_range'_1] at hx hy
    omega

theorem elementsOf_mem (s : IntervalSet) (hn : s.IsNormalized = true)
    (va : Nat) (hca : s.Covers va = true) : va ∈ elementsOf s := by
  obtain ⟨hp, _⟩ := s.isNormalized_facts hn
  obtain ⟨i, hi, hic⟩ := (IntervalSet.covers_iff s va).mp hca
  rw [Interval.covers_proper_iff _ _ (hp i hi)] at hic
  unfold elementsOf
  rw [List.mem_flatMap]
  refine ⟨i, hi, ?_⟩
  rw [List.mem_range'_1]
  constructor
  · exact hic.1
  · have := hp i hi
    omega

theorem Decode_covers (a : IntervalSet) (width : Nat)
    (hn : a.IsNormalized = true) (va : Nat) (hca : a.Covers va = true) :
    (Decode a width).Covers (if va < width then 2 ^ va else 0) = true := by
  have hval : (if va < width then 2 ^ va else 0) < 2 ^ width := by
    split
    · exact Nat.pow_lt_pow_right (by omega) (by omega)
    · positivity
  have hD : ∃ j ∈ decodeGo width (elementsOf a),
      j.Covers (if va < width then 2 ^ va else 0) = true :=
    decodeGo_covers width (elementsOf a) (elementsOf_sorted a hn) va
      (elementsOf_mem a hn va hca)
  have hwf : (IntervalSet.mk width (decodeGo width (elementsOf a))).WF := by
    intro j hj
    exact decodeGo_bounds width (elementsOf a)
      (fun v _ hv => Nat.pow_lt_pow_right (by omega) hv) j hj
  unfold Decode
  rw [IntervalSet.Normalize_covers _ _ hval hwf]
  rw [IntervalSet.covers_iff]
  exact hD

/-- `interval_ops::BitSlice`: composed from shift and truncate,
`Truncate(Shrl(a, Precise(UBits(start, 64))), width)`. -/
def BitSlice (a : IntervalSet) (start width : Nat) : IntervalSet :=
  Truncate (Shrl a (IntervalSet.PreciseIS 64 start)) width

theorem Shrl_shape (a b : IntervalSet) (hwa : a.WF) (hwb : b.WF) :
    (Shrl a b).bitCount = a.bitCount ∧ (Shrl a b).WF := by
  unfold Shrl PerformBinOp
  have h := PerformVariadicOp_shape
    (fun args => (fun x y => (⟨x / 2 ^ y, false, false⟩ : OverflowResult))
      (args.getD 0 0) (args.getD 1 0))
    [kMonotoneNonSizePreserving, kAntitoneNonSizePreserving] [a, b]
    a.bitCount ?_ rfl ?_
  · exact ⟨h.1, h.2.1⟩
  · intro s hs
    rcases List.mem_cons.mp hs with rfl | hs2
    · exact hwa
    rcases List.mem_cons.mp hs2 with rfl | hs3
    · exact hwb
    · simp at hs3
  · intro args hargs
    have hb := hargs 0 (by simp)
    simp only [List.getD_cons_zero] at hb
    calc args.getD 0 0 / 2 ^ args.getD 1 0 ≤ args.getD 0 0 :=
        Nat.div_le_self _ _
      _ < 2 ^ a.bitCount := hb

theorem BitSlice_covers (a : IntervalSet) (start width : Nat) (hwa : a.WF)
    (hstart : start < 2 ^ 64) (hwidth : width ≤ a.bitCount) (va : Nat)
    (hca : a.Covers va = true) (hva : va < 2 ^ a.bitCount) :
    (BitSlice a start width).Covers (va / 2 ^ start % 2 ^ width) = true := by
  unfold BitSlice
  have hofs : (IntervalSet.PreciseIS 64 start).WF := by
    intro i hi
    unfold IntervalSet.PreciseIS at hi
    simp only [List.mem_singleton] at hi
    subst hi
    exact ⟨hstart, hstart⟩
  have hcofs : (IntervalSet.PreciseIS 64 start).Covers start = true := by
    rw [IntervalSet.covers_iff]
    refine ⟨⟨start, start⟩, by simp [IntervalSet.PreciseIS], ?_⟩
    rw [Interval.covers_proper_iff _ _ (le_refl _)]
    exact ⟨le_refl _, le_refl _⟩
  have hshrl := Shrl_covers a (IntervalSet.PreciseIS 64 start) hwa hofs va
    start hca hcofs hva hstart
  obtain ⟨hbc, hwfS⟩ := Shrl_shape a (IntervalSet.PreciseIS 64 start) hwa hofs
  refine Truncate_covers (Shrl a (IntervalSet.PreciseIS 64 start)) width hwfS
    (by rw [hbc]; exact hwidth) (va / 2 ^ start) hshrl ?_
  rw [hbc]
  calc va / 2 ^ start ≤ va := Nat.div_le_self _ _
    _ < 2 ^ a.bitCount := hva

/-- Modelled from the spec: Kleene negation of the ternary evaluator. -/
def ternNot : TernaryValue → TernaryValue
  | TernaryValue.kKnownZero => TernaryValue.kKnownOne
  | TernaryValue.kKnownOne => TernaryValue.kKnownZero
  | TernaryValue.kUnknown => TernaryValue.kUnknown

/-- Modelled from the spec: Kleene conjunction of the ternary evaluator. -/
def ternAnd : TernaryValue → TernaryValue → TernaryValue
  | TernaryValue.kKnownZero, _ => TernaryValue.kKnownZero
  | _, TernaryValue.kKnownZero => TernaryValue.kKnownZero
  | TernaryValue.kKnownOne, TernaryValue.kKnownOne => TernaryValue.kKnownOne
  | _, _ => TernaryValue.kUnknown

/-- Modelled from the spec: Kleene disjunction of the ternary evaluator. -/
def ternOr : TernaryValue → TernaryValue → TernaryValue
  | TernaryValue.kKnownOne, _ => TernaryValue.kKnownOne
  | _, TernaryValue.kKnownOne => TernaryValue.kKnownOne
  | TernaryValue.kKnownZero, TernaryValue.kKnownZero => TernaryValue.kKnownZero
  | _, _ => TernaryValue.kUnknown

/-- Modelled from the spec: Kleene exclusive-or of the ternary evaluator. -/
def ternXor : TernaryValue → TernaryValue → TernaryValue
  | TernaryValue.kUnknown, _ => TernaryValue.kUnknown
  | _, TernaryValue.kUnknown => TernaryValue.kUnknown
  | a, b => if a = b then TernaryValue.kKnownZero else TernaryValue.kKnownOne

/-- Modelled from the spec: the ternary evaluator's bitwise operations are
the Kleene operations applied per bit. -/
def BitwiseNot (t : List TernaryValue) : List TernaryValue := t.map ternNot

/-- Modelled from the spec: per-bit Kleene conjunction. -/
def BitwiseAnd (a b : List TernaryValue) : List TernaryValue :=
  List.zipWith ternAnd a b

/-- Modelled from the spec: per-bit Kleene disjunction. -/
def BitwiseOr (a b : List TernaryValue) : List TernaryValue :=
  List.zipWith ternOr a b

/-- Modelled from the spec: per-bit Kleene exclusive-or. -/
def BitwiseXor (a b : List TernaryValue) : List TernaryValue :=
  List.zipWith ternXor a b

/-- `OneBitRangeToTernary` of `interval_ops.cc`: a precise one-bit set is
its known value, otherwise unknown. -/
def OneBitRangeToTernary (s : IntervalSet) : TernaryValue :=
  if s.IsPrecise then
    if s.Covers 0 then TernaryValue.kKnownZero else TernaryValue.kKnownOne
  else TernaryValue.kUnknown

/-- `TernaryToOneBitRange` of `interval_ops.cc`. -/
def TernaryToOneBitRange : TernaryValue → IntervalSet
  | TernaryValue.kKnownZero => IntervalSet.PreciseIS 1 0
  | TernaryValue.kKnownOne => IntervalSet.PreciseIS 1 1
  | TernaryValue.kUnknown => IntervalSet.Maximal 1

/-- `interval_ops::Not`, with the one-bit special case. -/
def Not (a : IntervalSet) : IntervalSet :=
  if a.bitCount = 1 then
    TernaryToOneBitRange (ternNot (OneBitRangeToTernary a))
  else FromTernary (BitwiseNot (ExtractTernaryVector a))

/-- `interval_ops::And`, with the one-bit special case. -/
def And (a b : IntervalSet) : IntervalSet :=
  if a.bitCount = 1 then
    TernaryToOneBitRange
      (ternAnd (OneBitRangeToTernary a) (OneBitRangeToTernary b))
  else FromTernary (BitwiseAnd (ExtractTernaryVector a) (ExtractTernaryVector b))

/-- `interval_ops::Or`, with the one-bit special case. -/
def Or (a b : IntervalSet) : IntervalSet :=
  if a.bitCount = 1 then
    TernaryToOneBitRange
      (ternOr (OneBitRangeToTernary a) (OneBitRangeToTernary b))
  else FromTernary (BitwiseOr (ExtractTernaryVector a) (ExtractTernaryVector b))

/-- `interval_ops::Xor`, with the one-bit special case. -/
def Xor (a b : IntervalSet) : IntervalSet :=
  if a.bitCount = 1 then
    TernaryToOneBitRange
      (ternXor (OneBitRangeToTernary a) (OneBitRangeToTernary b))
  else FromTernary (BitwiseXor (ExtractTernaryVector a) (ExtractTernaryVector b))

theorem ExtractTernaryVector_length (s : IntervalSet) :
    (ExtractTernaryVector s).length = s.bitCount := by
  unfold ExtractTernaryVector
  cases hs : s.intervals with
  | nil => simp
  | cons a rest =>
      have hgen : ∀ (l : List Interval) (acc : List TernaryValue),
          acc.length = s.bitCount →
          (l.foldl (fun acc i =>
            ternaryIntersect acc (ExtractTernaryInterval s.bitCount i))
            acc).length = s.bitCount := by
        intro l
        induction l with
        | nil =>
            intro acc h
            simpa using h
        | cons b bs ih =>
            intro acc h
            simp only [List.foldl_cons]
            refine ih _ ?_
            rw [ternaryIntersect_length, h, ExtractTernaryInterval_length]
            simp
      exact hgen rest _ (ExtractTernaryInterval_length s.bitCount a)

theorem getD_zipWith {α : Type} (f : α → α → α) :
    ∀ (l1 l2 : List α) (i : Nat) (d : α),
      i < l1.length → i < l2.length →
      (List.zipWith f l1 l2).getD i d = f (l1.getD i d) (l2.getD i d) := by
  intro l1
  induction l1 with
  | nil =>
      intro l2 i d h1 _
      simp at h1
  | cons a l1' ih =>
      intro l2 i d h1 h2
      cases l2 with
      | nil => simp at h2
      | cons b l2' =>
          cases i with
          | zero => simp
          | succ i =>
              simp only [List.zipWith_cons_cons, List.getD_cons_succ]
              exact ih l2' i d (by simpa using h1) (by simpa using h2)

theorem BitwiseNot_compat (t : List TernaryValue) (v : Nat)
    (h : ternaryIsCompatible t v = true) :
    ternaryIsCompatible (BitwiseNot t) ((2 ^ t.length - 1) ^^^ v) = true := by
  have hv := ternaryIsCompatible_lt t v h
  have hb := ternaryIsCompatible_testBit t v h
  have hpos : (0 : Nat) < 2 ^ t.length := Nat.pos_pow_of_pos _ (by omega)
  refine ternaryIsCompatible_of_testBit _ _ ?_ ?_
  · unfold BitwiseNot
    rw [List.length_map]
    exact Nat.xor_lt_two_pow (by omega) hv
  · intro idx hidx
    unfold BitwiseNot at hidx ⊢
    rw [List.length_map] at hidx
    have hget : (t.map ternNot).getD idx TernaryValue.kUnknown =
        ternNot (t.getD idx TernaryValue.kUnknown) :=
      getD_map ternNot t idx TernaryValue.kUnknown hidx
    have hdec : decide (idx < t.length) = true := decide_eq_true hidx
    rw [hget, Nat.testBit_xor, Nat.testBit_two_pow_sub_one, hdec]
    have hb1 := (hb idx hidx).1
    have hb0 := (hb idx hidx).2
    rcases hcase : t.getD idx TernaryValue.kUnknown
    · rw [hb0 hcase]
      simp [ternNot]
    · rw [hb1 hcase]
      simp [ternNot]
    · simp [ternNot]

theorem BitwiseAnd_compat (ta tb : List TernaryValue) (va vb : Nat)
    (hlen : tb.length = ta.length)
    (ha : ternaryIsCompatible ta va = true)
    (hb : ternaryIsCompatible tb vb = true) :
    ternaryIsCompatible (BitwiseAnd ta tb) (va &&& vb) = true := by
  have hvb := ternaryIsCompatible_lt tb vb hb
  rw [hlen] at hvb
  have hta := ternaryIsCompatible_testBit ta va ha
  have htb := ternaryIsCompatible_testBit tb vb hb
  refine ternaryIsCompatible_of_testBit _ _ ?_ ?_
  · unfold BitwiseAnd
    rw [List.length_zipWith, hlen, Nat.min_self]
    exact Nat.and_lt_two_pow _ hvb
  · intro idx hidx
    unfold BitwiseAnd at hidx ⊢
    rw [List.length_zipWith, hlen, Nat.min_self] at hidx
    have hgd : (List.zipWith ternAnd ta tb).getD idx TernaryValue.kUnknown =
        ternAnd (ta.getD idx TernaryValue.kUnknown)
          (tb.getD idx TernaryValue.kUnknown) :=
      getD_zipWith ternAnd ta tb idx TernaryValue.kUnknown hidx
        (by omega)
    have ha1 := hta idx hidx
    have hb1 := htb idx (by omega)
    rw [hgd, Nat.testBit_land]
    rcases hx : ta.getD idx TernaryValue.kUnknown <;>
      rcases hy : tb.getD idx TernaryValue.kUnknown <;>
      simp_all [ternAnd]

theorem BitwiseOr_compat (ta tb : List TernaryValue) (va vb : Nat)
    (hlen : tb.length = ta.length)
    (ha : ternaryIsCompatible ta va = true)
    (hb : ternaryIsCompatible tb vb = true) :
    ternaryIsCompatible (BitwiseOr ta tb) (va ||| vb) = true := by
  have hva := ternaryIsCompatible_lt ta va ha
  have hvb := ternaryIsCompatible_lt tb vb hb
  rw [hlen] at hvb
  have hta := ternaryIsCompatible_testBit ta va ha
  have htb := ternaryIsCompatible_testBit tb vb hb
  refine ternaryIsCompatible_of_testBit _ _ ?_ ?_
  · unfold BitwiseOr
    rw [List.length_zipWith, hlen, Nat.min_self]
    exact Nat.or_lt_two_pow hva hvb
  · intro idx hidx
    unfold BitwiseOr at hidx ⊢
    rw [List.length_zipWith, hlen, Nat.min_self] at hidx
    have hgd : (List.zipWith ternOr ta tb).getD idx TernaryValue.kUnknown =
        ternOr (ta.getD idx TernaryValue.kUnknown)
          (tb.getD idx TernaryValue.kUnknown) :=
      getD_zipWith ternOr ta tb idx TernaryValue.kUnknown hidx (by omega)
    have ha1 := hta idx hidx
    have hb1 := htb idx (by omega)
    rw [hgd, Nat.testBit_lor]
    rcases hx : ta.getD idx TernaryValue.kUnknown <;>
      rcases hy : tb.getD idx TernaryValue.kUnknown <;>
      simp_all [ternOr]

theorem BitwiseXor_compat (ta tb : List TernaryValue) (va vb : Nat)
    (hlen : tb.length = ta.length)
    (ha : ternaryIsCompatible ta va = true)
    (hb : ternaryIsCompatible tb vb = true) :
    ternaryIsCompatible (BitwiseXor ta tb) (va ^^^ vb) = true := by
  have hva := ternaryIsCompatible_lt ta va ha
  have hvb := ternaryIsCompatible_lt tb vb hb
  rw [hlen] at hvb
  have hta := ternaryIsCompatible_testBit ta va ha
  have htb := ternaryIsCompatible_testBit tb vb hb
  refine ternaryIsCompatible_of_testBit _ _ ?_ ?_
  · unfold BitwiseXor
    rw [List.length_zipWith, hlen, Nat.min_self]
    exact Nat.xor_lt_two_pow hva hvb
  · intro idx hidx
    unfold BitwiseXor at hidx ⊢
    rw [List.length_zipWith, hlen, Nat.min_self] at hidx
    have hgd : (List.zipWith ternXor ta tb).getD idx TernaryValue.kUnknown =
        ternXor (ta.getD idx TernaryValue.kUnknown)
          (tb.getD idx TernaryValue.kUnknown) :=
      getD_zipWith ternXor ta tb idx TernaryValue.kUnknown hidx (by omega)
    have ha1 := hta idx hidx
    have hb1 := htb idx (by omega)
    rw [hgd, Nat.testBit_xor]
    rcases hx : ta.getD idx TernaryValue.kUnknown <;>
      rcases hy : tb.getD idx TernaryValue.kUnknown <;>
      simp_all [ternXor]

theorem PreciseIS_covers (w v : Nat) :
    (IntervalSet.PreciseIS w v).Covers v = true := by
  rw [IntervalSet.covers_iff]
  refine ⟨⟨v, v⟩, by simp [IntervalSet.PreciseIS], ?_⟩
  rw [Interval.covers_proper_iff _ _ (le_refl _)]
  exact ⟨le_refl _, le_refl _⟩

theorem Maximal_covers_val (w v : Nat) (h : v < 2 ^ w) :
    (IntervalSet.Maximal w).Covers v = true := by
  rw [IntervalSet.covers_iff]
  exact ⟨⟨0, 2 ^ w - 1⟩, by simp [IntervalSet.Maximal],
    maximal_interval_covers w v h⟩

theorem OneBitRangeToTernary_sound (s : IntervalSet) (v : Nat)
    (hcov : s.Covers v = true) :
    (OneBitRangeToTernary s = TernaryValue.kKnownZero → v = 0) ∧
    (OneBitRangeToTernary s = TernaryValue.kKnownOne → v ≠ 0) := by
  unfold OneBitRangeToTernary
  by_cases hp : s.IsPrecise = true
  · rw [if_pos hp]
    obtain ⟨x, hsx, hgx, hcx⟩ := IsPrecise_facts s hp
    have hvx : v = x := (hcx v).mp hcov
    by_cases h0 : s.Covers 0 = true
    · rw [if_pos h0]
      have hx0 : (0 : Nat) = x := (hcx 0).mp h0
      exact ⟨fun _ => by omega, fun hcontra => by simp at hcontra⟩
    · rw [if_neg h0]
      refine ⟨fun hcontra => by simp at hcontra, fun _ hv0 => ?_⟩
      rw [hv0] at hcov
      exact h0 hcov
  · rw [if_neg hp]
    exact ⟨fun hcontra => by simp at hcontra,
      fun hcontra => by simp at hcontra⟩

theorem TernaryToOneBitRange_covers (tv : TernaryValue) (b : Nat)
    (hb : b < 2)
    (h0 : tv = TernaryValue.kKnownZero → b = 0)
    (h1 : tv = TernaryValue.kKnownOne → b = 1) :
    (TernaryToOneBitRange tv).Covers b = true := by
  rcases tv
  · rw [h0 rfl]
    exact PreciseIS_covers 1 0
  · rw [h1 rfl]
    exact PreciseIS_covers 1 1
  · exact Maximal_covers_val 1 b hb

theorem Not_covers (a : IntervalSet) (hn : a.IsNormalized = true)
    (hwf : a.WF) (va : Nat) (hca : a.Covers va = true) :
    (Not a).Covers ((2 ^ a.bitCount - 1) ^^^ va) = true := by
  have hva := a.covers_lt_pow va hn hwf hca
  unfold Not
  by_cases h1 : a.bitCount = 1
  · rw [if_pos h1]
    rw [h1] at hva ⊢
    have hs := OneBitRangeToTernary_sound a va hca
    refine TernaryToOneBitRange_covers _ _
      (Nat.xor_lt_two_pow (x := 2 ^ 1 - 1) (by omega) hva) ?_ ?_
    · intro htv
      have hX1 : OneBitRangeToTernary a = TernaryValue.kKnownOne := by
        rcases hX : OneBitRangeToTernary a <;> rw [hX] at htv <;>
          simp [ternNot] at htv <;> rfl
      have := hs.2 hX1
      have hva1 : va = 1 := by omega
      rw [hva1]
      decide
    · intro htv
      have hX0 : OneBitRangeToTernary a = TernaryValue.kKnownZero := by
        rcases hX : OneBitRangeToTernary a <;> rw [hX] at htv <;>
          simp [ternNot] at htv <;> rfl
      have hva0 := hs.1 hX0
      rw [hva0]
      decide
  · rw [if_neg h1]
    have hcompat := ExtractTernaryVector_compat a va hn hwf hca
    have hnot := BitwiseNot_compat _ va hcompat
    rw [ExtractTernaryVector_length] at hnot
    exact FromTernary_covers _ 4 _ hnot

theorem ternAnd_one_bit (X Y : TernaryValue) (va vb : Nat)
    (hva : va < 2) (hvb : vb < 2)
    (hX0 : X = TernaryValue.kKnownZero → va = 0)
    (hX1 : X = TernaryValue.kKnownOne → va ≠ 0)
    (hY0 : Y = TernaryValue.kKnownZero → vb = 0)
    (hY1 : Y = TernaryValue.kKnownOne → vb ≠ 0) :
    (TernaryToOneBitRange (ternAnd X Y)).Covers (va &&& vb) = true := by
  have hand : va &&& vb < 2 := Nat.and_lt_two_pow _ (show vb < 2 ^ 1 from hvb)
  refine TernaryToOneBitRange_covers _ _ hand ?_ ?_
  · intro hz
    rcases X <;> rcases Y <;> simp [ternAnd] at hz <;>
      first
      | (rw [hX0 rfl, Nat.zero_and])
      | (rw [hY0 rfl, Nat.and_zero])
  · intro ho
    rcases X <;> rcases Y <;> simp [ternAnd] at ho
    have h1 : va = 1 := by
      have := hX1 rfl
      omega
    have h2 : vb = 1 := by
      have := hY1 rfl
      omega
    rw [h1, h2]
    decide

theorem ternOr_one_bit (X Y : TernaryValue) (va vb : Nat)
    (hva : va < 2) (hvb : vb < 2)
    (hX0 : X = TernaryValue.kKnownZero → va = 0)
    (hX1 : X = TernaryValue.kKnownOne → va ≠ 0)
    (hY0 : Y = TernaryValue.kKnownZero → vb = 0)
    (hY1 : Y = TernaryValue.kKnownOne → vb ≠ 0) :
    (TernaryToOneBitRange (ternOr X Y)).Covers (va ||| vb) = true := by
  have hor : va ||| vb < 2 :=
    Nat.or_lt_two_pow (show va < 2 ^ 1 from hva) (show vb < 2 ^ 1 from hvb)
  refine TernaryToOneBitRange_covers _ _ hor ?_ ?_
  · intro hz
    rcases X <;> rcases Y <;> simp [ternOr] at hz
    rw [hX0 rfl, hY0 rfl]
    decide
  · intro ho
    rcases X <;> rcases Y <;> simp [ternOr] at ho <;>
      first
      | (have h1 : va = 1 := by
           have := hX1 rfl
           omega
         rw [h1]
         interval_cases vb <;> decide)
      | (have h2 : vb = 1 := by
           have := hY1 rfl
           omega
         rw [h2]
         interval_cases va <;> decide)

theorem ternXor_one_bit (X Y : TernaryValue) (va vb : Nat)
    (hva : va < 2) (hvb : vb < 2)
    (hX0 : X = TernaryValue.kKnownZero → va = 0)
    (hX1 : X = TernaryValue.kKnownOne → va ≠ 0)
    (hY0 : Y = TernaryValue.kKnownZero → vb = 0)
    (hY1 : Y = TernaryValue.kKnownOne → vb ≠ 0) :
    (TernaryToOneBitRange (ternXor X Y)).Covers (va ^^^ vb) = true := by
  have hxr : va ^^^ vb < 2 :=
    Nat.xor_lt_two_pow (show va < 2 ^ 1 from hva) (show vb < 2 ^ 1 from hvb)
  refine TernaryToOneBitRange_covers _ _ hxr ?_ ?_
  · intro hz
    rcases X <;> rcases Y <;> simp [ternXor] at hz <;>
      first
      | (rw [hX0 rfl, hY0 rfl]
         decide)
      | (have h1 : va = 1 := by
           have := hX1 rfl
           omega
         have h2 : vb = 1 := by
           have := hY1 rfl
           omega
         rw [h1, h2]
         decide)
  · intro ho
    rcases X <;> rcases Y <;> simp [ternXor] at ho <;>
      first
      | (rw [hX0 rfl]
         have h2 : vb = 1 := by
           have := hY1 rfl
           omega
         rw [h2]
         decide)
      | (rw [hY0 rfl]
         have h1 : va = 1 := by
           have := hX1 rfl
           omega
         rw [h1]
         decide)

theorem And_covers (a b : IntervalSet) (hna : a.IsNormalized = true)
    (hnb : b.IsNormalized = true) (hwa : a.WF) (hwb : b.WF)
    (hbc : b.bitCount = a.bitCount) (va vb : Nat)
    (hca : a.Covers va = true) (hcb : b.Covers vb = true) :
    (And a b).Covers (va &&& vb) = true := by
  have hva := a.covers_lt_pow va hna hwa hca
  have hvb := b.covers_lt_pow vb hnb hwb hcb
  rw [hbc] at hvb
  unfold And
  by_cases h1 : a.bitCount = 1
  · rw [if_pos h1]
    rw [h1] at hva hvb
    have hsa := OneBitRangeToTernary_sound a va hca
    have hsb := OneBitRangeToTernary_sound b vb hcb
    exact ternAnd_one_bit _ _ va vb (by omega) (by omega)
      hsa.1 hsa.2 hsb.1 hsb.2
  · rw [if_neg h1]
    have hta := ExtractTernaryVector_compat a va hna hwa hca
    have htb := ExtractTernaryVector_compat b vb hnb hwb hcb
    have hlen : (ExtractTernaryVector b).length =
        (ExtractTernaryVector a).length := by
      rw [ExtractTernaryVector_length, ExtractTernaryVector_length, hbc]
    exact FromTernary_covers _ 4 _ (BitwiseAnd_compat _ _ va vb hlen hta htb)

theorem Or_covers (a b : IntervalSet) (hna : a.IsNormalized = true)
    (hnb : b.IsNormalized = true) (hwa : a.WF) (hwb : b.WF)
    (hbc : b.bitCount = a.bitCount) (va vb : Nat)
    (hca : a.Covers va = true) (hcb : b.Covers vb = true) :
    (Or a b).Covers (va ||| vb) = true := by
  have hva := a.covers_lt_pow va hna hwa hca
  have hvb := b.covers_lt_pow vb hnb hwb hcb
  rw [hbc] at hvb
  unfold Or
  by_cases h1 : a.bitCount = 1
  · rw [if_pos h1]
    rw [h1] at hva hvb
    have hsa := OneBitRangeToTernary_sound a va hca
    have hsb := OneBitRangeToTernary_sound b vb hcb
    exact ternOr_one_bit _ _ va vb (by omega) (by omega)
      hsa.1 hsa.2 hsb.1 hsb.2
  · rw [if_neg h1]
    have hta := ExtractTernaryVector_compat a va hna hwa hca
    have htb := ExtractTernaryVector_compat b vb hnb hwb hcb
    have hlen : (ExtractTernaryVector b).length =
        (ExtractTernaryVector a).length := by
      rw [ExtractTernaryVector_length, ExtractTernaryVector_length, hbc]
    exact FromTernary_covers _ 4 _ (BitwiseOr_compat _ _ va vb hlen hta htb)

theorem Xor_covers (a b : IntervalSet) (hna : a.IsNormalized = true)
    (hnb : b.IsNormalized = true) (hwa : a.WF) (hwb : b.WF)
    (hbc : b.bitCount = a.bitCount) (va vb : Nat)
    (hca : a.Covers va = true) (hcb : b.Covers vb = true) :
    (Xor a b).Covers (va ^^^ vb) = true := by
  have hva := a.covers_lt_pow va hna hwa hca
  have hvb := b.covers_lt_pow vb hnb hwb hcb
  rw [hbc] at hvb
  unfold Xor
  by_cases h1 : a.bitCount = 1
  · rw [if_pos h1]
    rw [h1] at hva hvb
    have hsa := OneBitRangeToTernary_sound a va hca
    have hsb := OneBitRangeToTernary_sound b vb hcb
    exact ternXor_one_bit _ _ va vb (by omega) (by omega)
      hsa.1 hsa.2 hsb.1 hsb.2
  · rw [if_neg h1]
    have hta := ExtractTernaryVector_compat a va hna hwa hca
    have htb := ExtractTernaryVector_compat b vb hnb hwb hcb
    have hlen : (ExtractTernaryVector b).length =
        (ExtractTernaryVector a).length := by
      rw [ExtractTernaryVector_length, ExtractTernaryVector_length, hbc]
    exact FromTernary_covers _ 4 _ (BitwiseXor_compat _ _ va vb hlen hta htb)

/-- Modelled from the spec: `IntervalSet::CoversZero`. -/
def CoversZero (s : IntervalSet) : Bool := s.Covers 0

/-- Modelled from the spec: `IntervalSet::CoversMax`. -/
def CoversMax (s : IntervalSet) : Bool := s.Covers (2 ^ s.bitCount - 1)

/-- `interval_ops::AndReduce`. -/
def AndReduce (a : IntervalSet) : IntervalSet :=
  if ! CoversMax a then TernaryToOneBitRange TernaryValue.kKnownZero
  else if a.IsPrecise then TernaryToOneBitRange TernaryValue.kKnownOne
  else TernaryToOneBitRange TernaryValue.kUnknown

/-- `interval_ops::OrReduce`. -/
def OrReduce (a : IntervalSet) : IntervalSet :=
  if ! CoversZero a then TernaryToOneBitRange TernaryValue.kKnownOne
  else if a.IsPrecise then TernaryToOneBitRange TernaryValue.kKnownZero
  else TernaryToOneBitRange TernaryValue.kUnknown

/-- Parity of the low `w` bits — the value of `bits_ops::XorReduce` on a
`w`-bit value. -/
def xorReduceVal : Nat → Nat → Nat
  | 0, _ => 0
  | w + 1, v => (v % 2) ^^^ xorReduceVal w (v / 2)

/-- `interval_ops::XorReduce`: unknown unless every interval is precise
with the same bit parity; the early-exit scan is folded into an all-check
with the same result. -/
def XorReduce (a : IntervalSet) : IntervalSet :=
  match a.intervals with
  | [] => TernaryToOneBitRange TernaryValue.kUnknown
  | i :: rest =>
      if ! i.IsPrecise then TernaryToOneBitRange TernaryValue.kUnknown
      else if rest.all (fun j => j.IsPrecise &&
          (xorReduceVal a.bitCount j.lowerBound ==
            xorReduceVal a.bitCount i.lowerBound)) then
        TernaryToOneBitRange
          (if xorReduceVal a.bitCount i.lowerBound = 1 then
            TernaryValue.kKnownOne
          else TernaryValue.kKnownZero)
      else TernaryToOneBitRange TernaryValue.kUnknown

theorem xorReduceVal_lt (w : Nat) : ∀ v, xorReduceVal w v < 2 := by
  induction w with
  | zero =>
      intro v
      simp [xorReduceVal]
  | succ w ih =>
      intro v
      unfold xorReduceVal
      have h1 : v % 2 < 2 ^ 1 := by omega
      have h2 : xorReduceVal w (v / 2) < 2 ^ 1 := ih (v / 2)
      exact Nat.xor_lt_two_pow h1 h2

theorem AndReduce_covers (a : IntervalSet) (va : Nat)
    (hva : va < 2 ^ a.bitCount) (hca : a.Covers va = true) :
    (AndReduce a).Covers (if va = 2 ^ a.bitCount - 1 then 1 else 0) = true := by
  unfold AndReduce
  by_cases hm : CoversMax a = true
  · rw [hm]
    simp only [Bool.not_true, Bool.false_eq_true, if_false]
    by_cases hp : a.IsPrecise = true
    · rw [if_pos hp]
      obtain ⟨x, hsx, hgx, hcx⟩ := IsPrecise_facts a hp
      have h1 : va = x := (hcx va).mp hca
      have h2 : (2 ^ a.bitCount - 1) = x := (hcx _).mp hm
      rw [if_pos (by omega)]
      exact PreciseIS_covers 1 1
    · rw [if_neg hp]
      exact Maximal_covers_val 1 _ (by split <;> omega)
  · have hmb : CoversMax a = false := by
      cases hcm : CoversMax a
      · rfl
      · exact absurd hcm hm
    rw [hmb]
    simp only [Bool.not_false, if_true]
    have hne : va ≠ 2 ^ a.bitCount - 1 := by
      intro he
      apply hm
      unfold CoversMax
      rw [← he]
      exact hca
    rw [if_neg hne]
    exact PreciseIS_covers 1 0

theorem OrReduce_covers (a : IntervalSet) (va : Nat)
    (hva : va < 2 ^ a.bitCount) (hca : a.Covers va = true) :
    (OrReduce a).Covers (if va = 0 then 0 else 1) = true := by
  unfold OrReduce
  by_cases hz : CoversZero a = true
  · rw [hz]
    simp only [Bool.not_true, Bool.false_eq_true, if_false]
    by_cases hp : a.IsPrecise = true
    · rw [if_pos hp]
      obtain ⟨x, hsx, hgx, hcx⟩ := IsPrecise_facts a hp
      have h1 : va = x := (hcx va).mp hca
      have h2 : (0 : Nat) = x := (hcx 0).mp hz
      rw [if_pos (by omega)]
      exact PreciseIS_covers 1 0
    · rw [if_neg hp]
      exact Maximal_covers_val 1 _ (by split <;> omega)
  · have hzb : CoversZero a = false := by
      cases hcz : CoversZero a
      · rfl
      · exact absurd hcz hz
    rw [hzb]
    simp only [Bool.not_false, if_true]
    have hne : va ≠ 0 := by
      intro he
      apply hz
      unfold CoversZero
      rw [← he]
      exact hca
    rw [if_neg hne]
    exact PreciseIS_covers 1 1

theorem XorReduce_covers (a : IntervalSet) (va : Nat)
    (hca : a.Covers va = true) :
    (XorReduce a).Covers (xorReduceVal a.bitCount va) = true := by
  have hvlt := xorReduceVal_lt a.bitCount va
  obtain ⟨i0, hi0, hic0⟩ := (IntervalSet.covers_iff a va).mp hca
  cases hs : a.intervals with
  | nil =>
      rw [hs] at hi0
      simp at hi0
  | cons i rest =>
      have hXR : XorReduce a =
          (if ! i.IsPrecise then TernaryToOneBitRange TernaryValue.kUnknown
           else if rest.all (fun j => j.IsPrecise &&
               (xorReduceVal a.bitCount j.lowerBound ==
                 xorReduceVal a.bitCount i.lowerBound)) then
             TernaryToOneBitRange
               (if xorReduceVal a.bitCount i.lowerBound = 1 then
                 TernaryValue.kKnownOne
               else TernaryValue.kKnownZero)
           else TernaryToOneBitRange TernaryValue.kUnknown) := by
        unfold XorReduce
        rw [hs]
      rw [hXR]
      by_cases hp : i.IsPrecise = true
      · rw [hp]
        simp only [Bool.not_true, Bool.false_eq_true, if_false]
        by_cases hall : rest.all (fun j => j.IsPrecise &&
            (xorReduceVal a.bitCount j.lowerBound ==
              xorReduceVal a.bitCount i.lowerBound)) = true
        · rw [if_pos hall]
          have hpar : xorReduceVal a.bitCount va =
              xorReduceVal a.bitCount i.lowerBound := by
            rw [hs] at hi0
            have hival : ∀ j : Interval, j.IsPrecise = true →
                j.Covers va = true → va = j.lowerBound := by
              intro j hjp hjc
              unfold Interval.IsPrecise at hjp
              rw [beq_iff_eq] at hjp
              rw [Interval.covers_proper_iff _ _ (by omega)] at hjc
              omega
            rcases List.mem_cons.mp hi0 with rfl | hmem
            · rw [hival i0 hp hic0]
            · have hj := List.all_eq_true.mp hall i0 hmem
              rw [Bool.and_eq_true, beq_iff_eq] at hj
              rw [hival i0 hj.1 hic0, hj.2]
          rw [hpar]
          by_cases hout : xorReduceVal a.bitCount i.lowerBound = 1
          · rw [if_pos hout, hout]
            exact PreciseIS_covers 1 1
          · rw [if_neg hout]
            have : xorReduceVal a.bitCount i.lowerBound = 0 := by
              have := xorReduceVal_lt a.bitCount i.lowerBound
              omega
            rw [this]
            exact PreciseIS_covers 1 0
        · rw [if_neg hall]
          exact Maximal_covers_val 1 _ hvlt
      · have hpb : i.IsPrecise = false := by
          cases hcp : i.IsPrecise
          · rfl
          · exact absurd hcp hp
        rw [hpb]
        simp only [Bool.not_false, if_true]
        exact Maximal_covers_val 1 _ hvlt

/-- Modelled from the spec: `IntervalSet::Disjoint` — no value of the
ambient domain lies in both sets. -/
def Disjoint (a b : IntervalSet) : Bool :=
  decide (∀ v, v < 2 ^ a.bitCount → ¬(a.Covers v = true ∧ b.Covers v = true))

/-- `interval_ops::Eq`: exact when both operands are precise, known-false
when the sets are disjoint, unknown otherwise. -/
def Eq (a b : IntervalSet) : IntervalSet :=
  if a.IsPrecise && b.IsPrecise then
    TernaryToOneBitRange
      (if a.GetPreciseValue.getD 0 == b.GetPreciseValue.getD 0 then
        TernaryValue.kKnownOne
      else TernaryValue.kKnownZero)
  else
    TernaryToOneBitRange
      (if Disjoint a b then TernaryValue.kKnownZero
       else TernaryValue.kUnknown)

/-- `interval_ops::Ne`: the negation of `Eq`. -/
def Ne (a b : IntervalSet) : IntervalSet := Not (Eq a b)

/-- Modelled from the spec: `Interval::Disjoint` on proper intervals —
the intervals share no value. -/
def intervalDisjoint (i1 i2 : Interval) : Bool :=
  decide (i1.upperBound < i2.lowerBound ∨ i2.upperBound < i1.lowerBound)

/-- Modelled from the spec: `Interval::operator<` — lexicographic on
(lower bound, upper bound). -/
def intervalLt (i1 i2 : Interval) : Bool :=
  decide (i1.lowerBound < i2.lowerBound ∨
    (i1.lowerBound = i2.lowerBound ∧ i1.upperBound < i2.upperBound))

/-- `interval_ops::ULt`: compare the convex hulls; resolved only when the
hulls are disjoint. -/
def ULt (a b : IntervalSet) : IntervalSet :=
  match a.ConvexHull, b.ConvexHull with
  | some lh, some rh =>
      if intervalDisjoint lh rh then
        TernaryToOneBitRange
          (if intervalLt lh rh then TernaryValue.kKnownOne
           else TernaryValue.kKnownZero)
      else TernaryToOneBitRange TernaryValue.kUnknown
  | _, _ => TernaryToOneBitRange TernaryValue.kUnknown

/-- `interval_ops::UGt`: compare the convex hulls; resolved only when the
hulls are disjoint. -/
def UGt (a b : IntervalSet) : IntervalSet :=
  match a.ConvexHull, b.ConvexHull with
  | some lh, some rh =>
      if intervalDisjoint lh rh then
        TernaryToOneBitRange
          (if intervalLt rh lh then TernaryValue.kKnownOne
           else TernaryValue.kKnownZero)
      else TernaryToOneBitRange TernaryValue.kUnknown
  | _, _ => TernaryToOneBitRange TernaryValue.kUnknown

theorem TernaryToOneBitRange_shape (tv : TernaryValue) :
    (TernaryToOneBitRange tv).bitCount = 1 ∧
    (TernaryToOneBitRange tv).IsNormalized = true ∧
    (TernaryToOneBitRange tv).WF := by
  rcases tv
  · exact ⟨rfl, by decide, by unfold IntervalSet.WF; decide⟩
  · exact ⟨rfl, by decide, by unfold IntervalSet.WF; decide⟩
  · exact ⟨rfl, by decide, by unfold IntervalSet.WF; decide⟩

theorem Eq_shape (a b : IntervalSet) :
    ∃ tv, Eq a b = TernaryToOneBitRange tv := by
  unfold Eq
  split
  · exact ⟨_, rfl⟩
  · exact ⟨_, rfl⟩

theorem Eq_covers (a b : IntervalSet) (va vb : Nat)
    (hva : va < 2 ^ a.bitCount)
    (hca : a.Covers va = true) (hcb : b.Covers vb = true) :
    (Eq a b).Covers (if va = vb then 1 else 0) = true := by
  unfold Eq
  by_cases hp : (a.IsPrecise && b.IsPrecise) = true
  · rw [hp]
    simp only [if_true]
    rw [Bool.and_eq_true] at hp
    obtain ⟨x, hsx, hgx, hcx⟩ := IsPrecise_facts a hp.1
    obtain ⟨y, hsy, hgy, hcy⟩ := IsPrecise_facts b hp.2
    have h1 : va = x := (hcx va).mp hca
    have h2 : vb = y := (hcy vb).mp hcb
    rw [hgx, hgy]
    simp only [Option.getD_some]
    by_cases hxy : x = y
    · rw [if_pos (by rw [beq_iff_eq]; exact hxy), if_pos (by omega)]
      exact PreciseIS_covers 1 1
    · rw [if_neg (by rw [beq_iff_eq]; exact hxy), if_neg (by omega)]
      exact PreciseIS_covers 1 0
  · have hpb : (a.IsPrecise && b.IsPrecise) = false := by
      cases hc : (a.IsPrecise && b.IsPrecise)
      · rfl
      · exact absurd hc hp
    rw [hpb]
    simp only [Bool.false_eq_true, if_false]
    by_cases hd : Disjoint a b = true
    · rw [if_pos hd]
      unfold Disjoint at hd
      rw [decide_eq_true_eq] at hd
      have hne : va ≠ vb := by
        intro he
        exact hd va hva ⟨hca, by rw [he]; exact hcb⟩
      rw [if_neg hne]
      exact PreciseIS_covers 1 0
    · rw [if_neg hd]
      exact Maximal_covers_val 1 _ (by split <;> omega)

theorem Ne_covers (a b : IntervalSet) (va vb : Nat)
    (hva : va < 2 ^ a.bitCount)
    (hca : a.Covers va = true) (hcb : b.Covers vb = true) :
    (Ne a b).Covers (if va = vb then 0 else 1) = true := by
  obtain ⟨tv, htv⟩ := Eq_shape a b
  have hsh := TernaryToOneBitRange_shape tv
  have heq := Eq_covers a b va vb hva hca hcb
  have hnot := Not_covers (Eq a b) (by rw [htv]; exact hsh.2.1)
    (by rw [htv]; exact hsh.2.2) _ heq
  unfold Ne
  have hbc1 : (Eq a b).bitCount = 1 := by
    rw [htv]
    exact hsh.1
  rw [hbc1] at hnot
  have hval : 2 ^ 1 - 1 ^^^ (if va = vb then 1 else 0) =
      (if va = vb then 0 else 1) := by
    split <;> decide
  rw [hval] at hnot
  exact hnot

theorem ConvexHull_eq (s : IntervalSet) (a : Interval) (rest : List Interval)
    (hs : s.intervals = a :: rest) :
    s.ConvexHull = some (rest.foldl
      (fun acc i => ⟨min acc.lowerBound i.lowerBound,
        max acc.upperBound i.upperBound⟩) a) := by
  unfold IntervalSet.ConvexHull
  rw [hs]

theorem ConvexHull_bounds (s : IntervalSet) (hn : s.IsNormalized = true)
    (a : Interval) (rest : List Interval) (hs : s.intervals = a :: rest) :
    ∃ h : Interval, s.ConvexHull = some h ∧
      h.lowerBound ≤ h.upperBound ∧
      ∀ v, s.Covers v = true → h.lowerBound ≤ v ∧ v ≤ h.upperBound := by
  obtain ⟨hp, hc⟩ := s.isNormalized_facts hn
  rw [hs] at hp hc
  rw [ConvexHull_eq s a rest hs, foldl_hull_eq a rest hp hc]
  refine ⟨_, rfl, ?_, ?_⟩
  · have hub := (normalized_bounds_within a rest hp hc a (by simp)).2
    have hap := hp a (by simp)
    simp only
    omega
  · intro v hv
    obtain ⟨i, hi, hic⟩ := (s.covers_iff v).mp hv
    rw [hs] at hi
    have hb := normalized_bounds_within a rest hp hc i hi
    rw [Interval.covers_proper_iff _ _ (hp i hi)] at hic
    simp only
    constructor
    · omega
    · omega

theorem ULt_covers (a b : IntervalSet) (hna : a.IsNormalized = true)
    (hnb : b.IsNormalized = true) (va vb : Nat)
    (hca : a.Covers va = true) (hcb : b.Covers vb = true) :
    (ULt a b).Covers (if va < vb then 1 else 0) = true := by
  obtain ⟨ia, hia, _⟩ := (a.covers_iff va).mp hca
  obtain ⟨ib, hib, _⟩ := (b.covers_iff vb).mp hcb
  obtain ⟨a0, ra, hsa⟩ : ∃ a0 ra, a.intervals = a0 :: ra := by
    cases hsa : a.intervals with
    | nil =>
        rw [hsa] at hia
        simp at hia
    | cons x xs => exact ⟨x, xs, rfl⟩
  obtain ⟨b0, rb, hsb⟩ : ∃ b0 rb, b.intervals = b0 :: rb := by
    cases hsb : b.intervals with
    | nil =>
        rw [hsb] at hib
        simp at hib
    | cons x xs => exact ⟨x, xs, rfl⟩
  obtain ⟨lh, hA, hlhp, hlhb⟩ := ConvexHull_bounds a hna a0 ra hsa
  obtain ⟨rh, hB, hrhp, hrhb⟩ := ConvexHull_bounds b hnb b0 rb hsb
  have hULt : ULt a b =
      (if intervalDisjoint lh rh then
        TernaryToOneBitRange
          (if intervalLt lh rh then TernaryValue.kKnownOne
           else TernaryValue.kKnownZero)
      else TernaryToOneBitRange TernaryValue.kUnknown) := by
    unfold ULt
    rw [hA, hB]
  rw [hULt]
  have hva := hlhb va hca
  have hvb := hrhb vb hcb
  by_cases hd : intervalDisjoint lh rh = true
  · rw [if_pos hd]
    unfold intervalDisjoint at hd
    rw [decide_eq_true_eq] at hd
    by_cases hlt : intervalLt lh rh = true
    · rw [if_pos hlt]
      unfold intervalLt at hlt
      rw [decide_eq_true_eq] at hlt
      have hord : lh.upperBound < rh.lowerBound := by
        rcases hd with h | h
        · exact h
        · omega
      rw [if_pos (by omega)]
      exact PreciseIS_covers 1 1
    · rw [if_neg hlt]
      have hltp : ¬(lh.lowerBound < rh.lowerBound ∨
          (lh.lowerBound = rh.lowerBound ∧ lh.upperBound < rh.upperBound)) := by
        intro hcon
        exact hlt (by unfold intervalLt; rw [decide_eq_true_eq]; exact hcon)
      have hord : rh.upperBound < lh.lowerBound := by
        rcases hd with h | h
        · omega
        · exact h
      rw [if_neg (by omega)]
      exact PreciseIS_covers 1 0
  · rw [if_neg hd]
    exact Maximal_covers_val 1 _ (by split <;> omega)

theorem UGt_covers (a b : IntervalSet) (hna : a.IsNormalized = true)
    (hnb : b.IsNormalized = true) (va vb : Nat)
    (hca : a.Covers va = true) (hcb : b.Covers vb = true) :
    (UGt a b).Covers (if vb < va then 1 else 0) = true := by
  obtain ⟨ia, hia, _⟩ := (a.covers_iff va).mp hca
  obtain ⟨ib, hib, _⟩ := (b.covers_iff vb).mp hcb
  obtain ⟨a0, ra, hsa⟩ : ∃ a0 ra, a.intervals = a0 :: ra := by
    cases hsa : a.intervals with
    | nil =>
        rw [hsa] at hia
        simp at hia
    | cons x xs => exact ⟨x, xs, rfl⟩
  obtain ⟨b0, rb, hsb⟩ : ∃ b0 rb, b.intervals = b0 :: rb := by
    cases hsb : b.intervals with
    | nil =>
        rw [hsb] at hib
        simp at hib
    | cons x xs => exact ⟨x, xs, rfl⟩
  obtain ⟨lh, hA, hlhp, hlhb⟩ := ConvexHull_bounds a hna a0 ra hsa
  obtain ⟨rh, hB, hrhp, hrhb⟩ := ConvexHull_bounds b hnb b0 rb hsb
  have hUGt : UGt a b =
      (if intervalDisjoint lh rh then
        TernaryToOneBitRange
          (if intervalLt rh lh then TernaryValue.kKnownOne
           else TernaryValue.kKnownZero)
      else TernaryToOneBitRange TernaryValue.kUnknown) := by
    unfold UGt
    rw [hA, hB]
  rw [hUGt]
  have hva := hlhb va hca
  have hvb := hrhb vb hcb
  by_cases hd : intervalDisjoint lh rh = true
  · rw [if_pos hd]
    unfold intervalDisjoint at hd
    rw [decide_eq_true_eq] at hd
    by_cases hlt : intervalLt rh lh = true
    · rw [if_pos hlt]
      unfold intervalLt at hlt
      rw [decide_eq_true_eq] at hlt
      have hord : rh.upperBound < lh.lowerBound := by
        rcases hd with h | h
        · omega
        · exact h
      rw [if_pos (by omega)]
      exact PreciseIS_covers 1 1
    · rw [if_neg hlt]
      have hltp : ¬(rh.lowerBound < lh.lowerBound ∨
          (rh.lowerBound = lh.lowerBound ∧ rh.upperBound < lh.upperBound)) := by
        intro hcon
        exact hlt (by unfold intervalLt; rw [decide_eq_true_eq]; exact hcon)
      have hord : lh.upperBound < rh.lowerBound := by
        rcases hd with h | h
        · exact h
        · omega
      rw [if_neg (by omega)]
      exact PreciseIS_covers 1 0
  · rw [if_neg hd]
    exact Maximal_covers_val 1 _ (by split <;> omega)

/-- Modelled from the spec: `IntervalSet::LowerBound` of a normalized set —
the first interval's lower bound. -/
def setLowerBound (s : IntervalSet) : Nat :=
  (s.intervals.headD ⟨0, 0⟩).lowerBound

/-- Modelled from the spec: `IntervalSet::UpperBound` of a normalized set —
the last interval's upper bound. -/
def setUpperBound (s : IntervalSet) : Nat :=
  (s.intervals.getLastD ⟨0, 0⟩).upperBound

/-- The `is_all_negative` test of `interval_ops::SLt`: the sign bit of both
set bounds is set. -/
def isAllNegative (v : IntervalSet) : Bool :=
  (setLowerBound v).testBit (v.bitCount - 1) &&
    (setUpperBound v).testBit (v.bitCount - 1)

/-- The `is_all_positive` test of `interval_ops::SLt`: the sign bit of both
set bounds is clear. -/
def isAllPositive (v : IntervalSet) : Bool :=
  (!(setLowerBound v).testBit (v.bitCount - 1)) &&
    (!(setUpperBound v).testBit (v.bitCount - 1))

/-- Two's-complement reading of a `w`-bit value. -/
def toSigned (w x : Nat) : Int :=
  if x < 2 ^ (w - 1) then (x : Int) else (x : Int) - (2 : Int) ^ w

/-- `interval_ops::SLt`: an unsigned compare when both operands' sign
classes are uniform, otherwise offset both by the sign bit's weight and
reduce to the unsigned case. -/
def SLt (a b : IntervalSet) : IntervalSet :=
  if (isAllPositive a && isAllPositive b) ||
      (isAllNegative a && isAllNegative b) then
    ULt a b
  else
    ULt (Add a (IntervalSet.PreciseIS a.bitCount (2 ^ (a.bitCount - 1))))
      (Add b (IntervalSet.PreciseIS a.bitCount (2 ^ (a.bitCount - 1))))

/-- `interval_ops::SGt`: the mirror of `SLt` through `UGt`. -/
def SGt (a b : IntervalSet) : IntervalSet :=
  if (isAllPositive a && isAllPositive b) ||
      (isAllNegative a && isAllNegative b) then
    UGt a b
  else
    UGt (Add a (IntervalSet.PreciseIS a.bitCount (2 ^ (a.bitCount - 1))))
      (Add b (IntervalSet.PreciseIS a.bitCount (2 ^ (a.bitCount - 1))))

theorem testBit_msb_iff (w x : Nat) (hw : 1 ≤ w) (hx : x < 2 ^ w) :
    x.testBit (w - 1) = true ↔ 2 ^ (w - 1) ≤ x := by
  have hsplit : 2 ^ w = 2 ^ (w - 1) * 2 := by
    rw [← pow_succ]
    congr 1
    omega
  have hpos : (0 : Nat) < 2 ^ (w - 1) := by positivity
  rw [Nat.testBit_to_div_mod, decide_eq_true_eq]
  constructor
  · intro h
    by_contra hlt
    push_neg at hlt
    rw [Nat.div_eq_of_lt hlt] at h
    simp at h
  · intro h
    have hlt2 : x / 2 ^ (w - 1) < 2 :=
      (Nat.div_lt_iff_lt_mul hpos).mpr (by omega)
    have hge : 1 ≤ x / 2 ^ (w - 1) :=
      (Nat.le_div_iff_mul_le hpos).mpr (by omega)
    omega

theorem set_bounds_cover (s : IntervalSet) (hn : s.IsNormalized = true)
    (hwf : s.WF) (v : Nat) (hcov : s.Covers v = true) :
    setLowerBound s ≤ v ∧ v ≤ setUpperBound s ∧
      setLowerBound s < 2 ^ s.bitCount ∧ setUpperBound s < 2 ^ s.bitCount := by
  obtain ⟨i, hi, hic⟩ := (s.covers_iff v).mp hcov
  cases hs : s.intervals with
  | nil =>
      rw [hs] at hi
      simp at hi
  | cons a rest =>
      obtain ⟨hp, hc⟩ := s.isNormalized_facts hn
      rw [hs] at hp hc hi
      have hb := normalized_bounds_within a rest hp hc i hi
      rw [Interval.covers_proper_iff _ _ (hp i hi)] at hic
      have hlast : (a :: rest).getLastD (⟨0, 0⟩ : Interval) =
          (a :: rest).getLast (by simp) := by
        rw [List.getLastD_eq_getLast?, List.getLast?_eq_getLast _ (by simp)]
        rfl
      have hlmem : (a :: rest).getLast (by simp) ∈ a :: rest :=
        List.getLast_mem _
      have hwfh := hwf a (by rw [hs]; simp)
      have hwfl := hwf _ (by rw [hs]; exact hlmem)
      unfold setLowerBound setUpperBound
      rw [hs, hlast]
      simp only [List.headD_cons]
      exact ⟨by omega, by omega, hwfh.1, hwfl.2⟩

theorem toSigned_lt_iff_offset (w va vb : Nat) (hw : 1 ≤ w)
    (hva : va < 2 ^ w) (hvb : vb < 2 ^ w) :
    (toSigned w va < toSigned w vb ↔
      (va + 2 ^ (w - 1)) % 2 ^ w < (vb + 2 ^ (w - 1)) % 2 ^ w) := by
  have hsplit : (2 : Nat) ^ w = 2 ^ (w - 1) * 2 := by
    rw [← pow_succ]
    congr 1
    omega
  have hpow : ((2 ^ w : Nat) : Int) = (2 : Int) ^ w := by push_cast; ring
  have hmod : ∀ x : Nat, x < 2 ^ w →
      (x + 2 ^ (w - 1)) % 2 ^ w =
        if x < 2 ^ (w - 1) then x + 2 ^ (w - 1) else x - 2 ^ (w - 1) := by
    intro x hx
    split
    · exact Nat.mod_eq_of_lt (by omega)
    · rw [show x + 2 ^ (w - 1) = (x - 2 ^ (w - 1)) + 2 ^ w by omega,
        Nat.add_mod_right]
      exact Nat.mod_eq_of_lt (by omega)
  rw [hmod va hva, hmod vb hvb]
  unfold toSigned
  split <;> split <;> omega

theorem Add_shape (a b : IntervalSet) (hwa : a.WF) (hwb : b.WF) :
    (Add a b).bitCount = a.bitCount ∧ (Add a b).WF ∧
      (Add a b).IsNormalized = true := by
  unfold Add PerformBinOp
  have h := PerformVariadicOp_shape
    (fun args => addCalc a.bitCount (args.getD 0 0) (args.getD 1 0))
    [kMonotoneSizePreserving, kMonotoneSizePreserving] [a, b]
    a.bitCount ?_ rfl ?_
  · exact ⟨h.1, h.2.1, h.2.2.1⟩
  · intro s hs
    rcases List.mem_cons.mp hs with rfl | hs2
    · exact hwa
    rcases List.mem_cons.mp hs2 with rfl | hs3
    · exact hwb
    · simp at hs3
  · intro args _
    exact Nat.mod_lt _ (by positivity)

theorem sign_class_pos (s : IntervalSet) (hn : s.IsNormalized = true)
    (hwf : s.WF) (hw : 1 ≤ s.bitCount) (hpos : isAllPositive s = true)
    (v : Nat) (hcov : s.Covers v = true) : v < 2 ^ (s.bitCount - 1) := by
  obtain ⟨h1, h2, h3, h4⟩ := set_bounds_cover s hn hwf v hcov
  unfold isAllPositive at hpos
  rw [Bool.and_eq_true, Bool.not_eq_true', Bool.not_eq_true'] at hpos
  have hub : ¬ 2 ^ (s.bitCount - 1) ≤ setUpperBound s := by
    intro hcon
    have := (testBit_msb_iff s.bitCount (setUpperBound s) hw h4).mpr hcon
    rw [hpos.2] at this
    simp at this
  omega

theorem sign_class_neg (s : IntervalSet) (hn : s.IsNormalized = true)
    (hwf : s.WF) (hw : 1 ≤ s.bitCount) (hneg : isAllNegative s = true)
    (v : Nat) (hcov : s.Covers v = true) : 2 ^ (s.bitCount - 1) ≤ v := by
  obtain ⟨h1, h2, h3, h4⟩ := set_bounds_cover s hn hwf v hcov
  unfold isAllNegative at hneg
  rw [Bool.and_eq_true] at hneg
  have hlb := (testBit_msb_iff s.bitCount (setLowerBound s) hw h3).mp hneg.1
  omega

theorem SLt_covers (a b : IntervalSet) (hna : a.IsNormalized = true)
    (hnb : b.IsNormalized = true) (hwa : a.WF) (hwb : b.WF)
    (hbc : b.bitCount = a.bitCount) (hw : 1 ≤ a.bitCount) (va vb : Nat)
    (hca : a.Covers va = true) (hcb : b.Covers vb = true) :
    (SLt a b).Covers
      (if toSigned a.bitCount va < toSigned a.bitCount vb then 1 else 0) =
      true := by
  have hva := a.covers_lt_pow va hna hwa hca
  have hvb := b.covers_lt_pow vb hnb hwb hcb
  rw [hbc] at hvb
  have hsplit : (2 : Nat) ^ a.bitCount = 2 ^ (a.bitCount - 1) * 2 := by
    rw [← pow_succ]
    congr 1
    omega
  unfold SLt
  by_cases hclass : ((isAllPositive a && isAllPositive b) ||
      (isAllNegative a && isAllNegative b)) = true
  · rw [hclass]
    simp only [if_true]
    have hiff : (toSigned a.bitCount va < toSigned a.bitCount vb) ↔
        va < vb := by
      rw [Bool.or_eq_true, Bool.and_eq_true, Bool.and_eq_true] at hclass
      unfold toSigned
      rcases hclass with ⟨hpa, hpb⟩ | ⟨hga, hgb⟩
      · have h1 := sign_class_pos a hna hwa hw hpa va hca
        have h2 := sign_class_pos b hnb hwb (by omega) hpb vb hcb
        rw [hbc] at h2
        rw [if_pos h1, if_pos h2]
        omega
      · have h1 := sign_class_neg a hna hwa hw hga va hca
        have h2 := sign_class_neg b hnb hwb (by omega) hgb vb hcb
        rw [hbc] at h2
        rw [if_neg (by omega), if_neg (by omega)]
        omega
    have hval : (if toSigned a.bitCount va < toSigned a.bitCount vb
        then (1 : Nat) else 0) = (if va < vb then 1 else 0) := by
      by_cases h : va < vb
      · rw [if_pos (hiff.mpr h), if_pos h]
      · rw [if_neg (fun hc => h (hiff.mp hc)), if_neg h]
    rw [hval]
    exact ULt_covers a b hna hnb va vb hca hcb
  · have hclassb : ((isAllPositive a && isAllPositive b) ||
        (isAllNegative a && isAllNegative b)) = false := by
      cases hcc : ((isAllPositive a && isAllPositive b) ||
          (isAllNegative a && isAllNegative b))
      · rfl
      · exact absurd hcc hclass
    rw [hclassb]
    simp only [Bool.false_eq_true, if_false]
    have hofsWF : (IntervalSet.PreciseIS a.bitCount
        (2 ^ (a.bitCount - 1))).WF := by
      intro i hi
      unfold IntervalSet.PreciseIS at hi
      simp only [List.mem_singleton] at hi
      subst hi
      constructor <;>
        · show 2 ^ (a.bitCount - 1) < 2 ^ a.bitCount
          omega
    have hofsC : (IntervalSet.PreciseIS a.bitCount
        (2 ^ (a.bitCount - 1))).Covers (2 ^ (a.bitCount - 1)) = true :=
      PreciseIS_covers _ _
    have hadd1 := Add_covers a _ hwa hofsWF rfl va (2 ^ (a.bitCount - 1))
      hca hofsC hva (by omega)
    have hadd2 := Add_covers b _ hwb hofsWF (by rw [hbc]; rfl) vb
      (2 ^ (a.bitCount - 1)) hcb hofsC (by rw [hbc]; exact hvb)
      (by rw [hbc]; omega)
    obtain ⟨hbc1, hwf1, hn1⟩ := Add_shape a _ hwa hofsWF
    obtain ⟨hbc2, hwf2, hn2⟩ := Add_shape b _ hwb hofsWF
    have hult := ULt_covers _ _ hn1 hn2 _ _ hadd1 hadd2
    have hIff := toSigned_lt_iff_offset a.bitCount va vb hw hva hvb
    have hval : (if (va + 2 ^ (a.bitCount - 1)) % 2 ^ a.bitCount <
        (vb + 2 ^ (a.bitCount - 1)) % 2 ^ b.bitCount then (1 : Nat) else 0) =
        (if toSigned a.bitCount va < toSigned a.bitCount vb
          then 1 else 0) := by
      rw [hbc]
      by_cases h : toSigned a.bitCount va < toSigned a.bitCount vb
      · rw [if_pos (hIff.mp h), if_pos h]
      · rw [if_neg (fun hc => h (hIff.mpr hc)), if_neg h]
    rw [hval] at hult
    exact hult

theorem SGt_covers (a b : IntervalSet) (hna : a.IsNormalized = true)
    (hnb : b.IsNormalized = true) (hwa : a.WF) (hwb : b.WF)
    (hbc : b.bitCount = a.bitCount) (hw : 1 ≤ a.bitCount) (va vb : Nat)
    (hca : a.Covers va = true) (hcb : b.Covers vb = true) :
    (SGt a b).Covers
      (if toSigned a.bitCount vb < toSigned a.bitCount va then 1 else 0) =
      true := by
  have hva := a.covers_lt_pow va hna hwa hca
  have hvb := b.covers_lt_pow vb hnb hwb hcb
  rw [hbc] at hvb
  have hsplit : (2 : Nat) ^ a.bitCount = 2 ^ (a.bitCount - 1) * 2 := by
    rw [← pow_succ]
    congr 1
    omega
  unfold SGt
  by_cases hclass : ((isAllPositive a && isAllPositive b) ||
      (isAllNegative a && isAllNegative b)) = true
  · rw [hclass]
    simp only [if_true]
    have hiff : (toSigned a.bitCount vb < toSigned a.bitCount va) ↔
        vb < va := by
      rw [Bool.or_eq_true, Bool.and_eq_true, Bool.and_eq_true] at hclass
      unfold toSigned
      rcases hclass with ⟨hpa, hpb⟩ | ⟨hga, hgb⟩
      · have h1 := sign_class_pos a hna hwa hw hpa va hca
        have h2 := sign_class_pos b hnb hwb (by omega) hpb vb hcb
        rw [hbc] at h2
        rw [if_pos h1, if_pos h2]
        omega
      · have h1 := sign_class_neg a hna hwa hw hga va hca
        have h2 := sign_class_neg b hnb hwb (by omega) hgb vb hcb
        rw [hbc] at h2
        rw [if_neg (by omega), if_neg (by omega)]
        omega
    have hval : (if toSigned a.bitCount vb < toSigned a.bitCount va
        then (1 : Nat) else 0) = (if vb < va then 1 else 0) := by
      by_cases h : vb < va
      · rw [if_pos (hiff.mpr h), if_pos h]
      · rw [if_neg (fun hc => h (hiff.mp hc)), if_neg h]
    rw [hval]
    exact UGt_covers a b hna hnb va vb hca hcb
  · have hclassb : ((isAllPositive a && isAllPositive b) ||
        (isAllNegative a && isAllNegative b)) = false := by
      cases hcc : ((isAllPositive a && isAllPositive b) ||
          (isAllNegative a && isAllNegative b))
      · rfl
      · exact absurd hcc hclass
    rw [hclassb]
    simp only [Bool.false_eq_true, if_false]
    have hofsWF : (IntervalSet.PreciseIS a.bitCount
        (2 ^ (a.bitCount - 1))).WF := by
      intro i hi
      unfold IntervalSet.PreciseIS at hi
      simp only [List.mem_singleton] at hi
      subst hi
      constructor <;>
        · show 2 ^ (a.bitCount - 1) < 2 ^ a.bitCount
          omega
    have hofsC : (IntervalSet.PreciseIS a.bitCount
        (2 ^ (a.bitCount - 1))).Covers (2 ^ (a.bitCount - 1)) = true :=
      PreciseIS_covers _ _
    have hadd1 := Add_covers a _ hwa hofsWF rfl va (2 ^ (a.bitCount - 1))
      hca hofsC hva (by omega)
    have hadd2 := Add_covers b _ hwb hofsWF (by rw [hbc]; rfl) vb
      (2 ^ (a.bitCount - 1)) hcb hofsC (by rw [hbc]; exact hvb)
      (by rw [hbc]; omega)
    obtain ⟨hbc1, hwf1, hn1⟩ := Add_shape a _ hwa hofsWF
    obtain ⟨hbc2, hwf2, hn2⟩ := Add_shape b _ hwb hofsWF
    have hugt := UGt_covers _ _ hn1 hn2 _ _ hadd1 hadd2
    have hIff := toSigned_lt_iff_offset a.bitCount vb va hw hvb hva
    have hval : (if (vb + 2 ^ (a.bitCount - 1)) % 2 ^ b.bitCount <
        (va + 2 ^ (a.bitCount - 1)) % 2 ^ a.bitCount then (1 : Nat) else 0) =
        (if toSigned a.bitCount vb < toSigned a.bitCount va
          then 1 else 0) := by
      rw [hbc]
      by_cases h : toSigned a.bitCount vb < toSigned a.bitCount va
      · rw [if_pos (hIff.mp h), if_pos h]
      · rw [if_neg (fun hc => h (hIff.mpr hc)), if_neg h]
    rw [hval] at hugt
    exact hugt

/-- Modelled from the spec: `IntervalSet::Combine` — the union of the two
sets, normalized. -/
def Combine (x y : IntervalSet) : IntervalSet :=
  (IntervalSet.mk x.bitCount (x.intervals ++ y.intervals)).Normalize

/-- `interval_ops::Gate`: a precise zero condition gives precise zero; an
imprecise possibly-zero condition mixes zero into the value's set;
otherwise the value passes through. -/
def Gate (cond val : IntervalSet) : IntervalSet :=
  if cond.IsPrecise then
    if CoversZero cond then IntervalSet.PreciseIS val.bitCount 0
    else val
  else if CoversZero cond then
    Combine val (IntervalSet.PreciseIS val.bitCount 0)
  else val

theorem Gate_covers (cond val : IntervalSet) (hwv : val.WF)
    (vc vv : Nat) (hcc : cond.Covers vc = true) (hcv : val.Covers vv = true)
    (hvv : vv < 2 ^ val.bitCount) :
    (Gate cond val).Covers (if vc = 0 then 0 else vv) = true := by
  unfold Gate
  by_cases hp : cond.IsPrecise = true
  · rw [if_pos hp]
    obtain ⟨x, hsx, hgx, hcx⟩ := IsPrecise_facts cond hp
    have hvcx : vc = x := (hcx vc).mp hcc
    by_cases h0 : CoversZero cond = true
    · rw [if_pos h0]
      have hx0 : (0 : Nat) = x := (hcx 0).mp h0
      rw [if_pos (by omega)]
      exact PreciseIS_covers _ 0
    · rw [if_neg h0]
      have hne : vc ≠ 0 := by
        intro he
        apply h0
        unfold CoversZero
        rw [← he]
        exact hcc
      rw [if_neg hne]
      exact hcv
  · rw [if_neg hp]
    by_cases h0 : CoversZero cond = true
    · rw [if_pos h0]
      unfold Combine
      have hwfu : (IntervalSet.mk val.bitCount (val.intervals ++
          (IntervalSet.PreciseIS val.bitCount 0).intervals)).WF := by
        intro i hi
        rcases List.mem_append.mp hi with h | h
        · exact hwv i h
        · unfold IntervalSet.PreciseIS at h
          simp only [List.mem_singleton] at h
          subst h
          exact ⟨by positivity, by positivity⟩
      rw [IntervalSet.Normalize_covers _ _
        (by
          split
          · positivity
          · exact hvv) hwfu]
      rw [IntervalSet.covers_iff]
      by_cases hz : vc = 0
      · rw [if_pos hz]
        refine ⟨⟨0, 0⟩, ?_, ?_⟩
        · simp [IntervalSet.PreciseIS]
        · rw [Interval.covers_proper_iff _ _ (le_refl 0)]
          exact ⟨le_refl 0, le_refl 0⟩
      · rw [if_neg hz]
        obtain ⟨i, hi, hic⟩ := (val.covers_iff vv).mp hcv
        exact ⟨i, by simp [hi], hic⟩
    · rw [if_neg h0]
      have hne : vc ≠ 0 := by
        intro he
        apply h0
        unfold CoversZero
        rw [← he]
        exact hcc
      rw [if_neg hne]
      exact hcv

/-- Modelled from the spec: `IntervalSet::Intersect`, built from pairwise
intersections of proper intervals. -/
def Intersect (x y : IntervalSet) : IntervalSet :=
  ⟨x.bitCount, x.intervals.flatMap (fun i =>
    y.intervals.filterMap (fun j =>
      if max i.lowerBound j.lowerBound ≤ min i.upperBound j.upperBound then
        some ⟨max i.lowerBound j.lowerBound, min i.upperBound j.upperBound⟩
      else none))⟩

/-- Modelled from the spec: `IntervalSet::NonZero` — every value except
zero. -/
def NonZero (w : Nat) : IntervalSet := ⟨w, [⟨1, 2 ^ w - 1⟩]⟩

/-- Modelled from the spec: `IntervalSet::IsEmpty`. -/
def IsEmpty (s : IntervalSet) : Bool := s.intervals.isEmpty

/-- Value of `bits_ops::UDiv` on `w`-bit values: division by zero yields
all ones. -/
def udivFn (w a b : Nat) : Nat := if b = 0 then 2 ^ w - 1 else a / b

/-- `interval_ops::UDiv`: straight variadic evaluation when the divisor
cannot be zero; otherwise evaluate on the nonzero divisor values and mix
in the all-ones division-by-zero result. -/
def UDiv (a b : IntervalSet) : IntervalSet :=
  if ! CoversZero b then
    PerformBinOp (fun x y => ⟨udivFn a.bitCount x y, false, false⟩) a
      kMonotoneNonSizePreserving b kAntitoneNonSizePreserving a.bitCount
  else
    (((if ! IsEmpty (Intersect b (NonZero b.bitCount)) then
        PerformBinOp (fun x y => ⟨udivFn a.bitCount x y, false, false⟩) a
          kMonotoneNonSizePreserving (Intersect b (NonZero b.bitCount))
          kAntitoneNonSizePreserving a.bitCount
      else IntervalSet.mk a.bitCount []).AddInterval
        ⟨2 ^ a.bitCount - 1, 2 ^ a.bitCount - 1⟩)).Normalize

theorem udivFn_mono (w x1 x2 y1 y2 : Nat) (hx : x1 ≤ x2) (hy : y2 ≤ y1)
    (hx2 : x2 < 2 ^ w) : udivFn w x1 y1 ≤ udivFn w x2 y2 := by
  unfold udivFn
  by_cases h2 : y2 = 0
  · rw [if_pos h2]
    by_cases h1 : y1 = 0
    · rw [if_pos h1]
    · rw [if_neg h1]
      have := Nat.div_le_self x1 y1
      omega
  · rw [if_neg h2]
    have h1 : y1 ≠ 0 := by omega
    rw [if_neg h1]
    calc x1 / y1 ≤ x2 / y1 := Nat.div_le_div_right hx
      _ ≤ x2 / y2 := Nat.div_le_div_left hy (by omega)

theorem udivFn_lt (w x y : Nat) (hx : x < 2 ^ w) : udivFn w x y < 2 ^ w := by
  have hpos : (0 : Nat) < 2 ^ w := by positivity
  unfold udivFn
  split
  · omega
  · have := Nat.div_le_self x y
    omega

theorem udiv_bin_covers (a d : IntervalSet) (hwa : a.WF) (hwd : d.WF)
    (hdc : d.bitCount = a.bitCount) (va vb : Nat)
    (hca : a.Covers va = true) (hcd : d.Covers vb = true)
    (hva : va < 2 ^ a.bitCount) (hvb : vb < 2 ^ a.bitCount) :
    (PerformBinOp (fun x y => ⟨udivFn a.bitCount x y, false, false⟩) a
      kMonotoneNonSizePreserving d kAntitoneNonSizePreserving
      a.bitCount).Covers (udivFn a.bitCount va vb) = true := by
  unfold PerformBinOp
  refine PerformVariadicOp_covers _ _ _ _ ?_ rfl ?_ [va, vb] rfl ?_ ?_
  · intro s hs
    rcases List.mem_cons.mp hs with rfl | hs2
    · exact hwa
    rcases List.mem_cons.mp hs2 with rfl | hs3
    · exact hwd
    · simp at hs3
  · intro args hargs
    have hb := hargs 0 (by simp)
    simp only [List.getD_cons_zero] at hb
    exact udivFn_lt _ _ _ hb
  · intro i hi
    have hi2 : i < 2 := by simpa using hi
    interval_cases i
    · exact ⟨hca, hva⟩
    · refine ⟨hcd, ?_⟩
      simp only [List.getD_cons_succ, List.getD_cons_zero]
      rw [hdc]
      exact hvb
  · intro lB uB hlL hlU hord hsp
    have h0 := hord 0 (by simp)
    have h1 := hord 1 (by simp)
    obtain ⟨hl0, hu0⟩ := h0.1 rfl
    obtain ⟨hu1, hl1⟩ := h1.2.1 rfl
    simp only [List.getD_cons_zero, List.getD_cons_succ] at hl0 hu0 hl1 hu1
    have hb0u : uB.getD 0 0 < 2 ^ a.bitCount := h0.2.2.2
    have hm1 : udivFn a.bitCount (lB.getD 0 0) (lB.getD 1 0) ≤
        udivFn a.bitCount va vb :=
      udivFn_mono _ _ _ _ _ hl0 hl1 hva
    have hm2 : udivFn a.bitCount va vb ≤
        udivFn a.bitCount (uB.getD 0 0) (uB.getD 1 0) :=
      udivFn_mono _ _ _ _ _ hu0 hu1 hb0u
    exact emit_obligation_noflag _ _ _ _ _ hm1 hm2

theorem udiv_bin_WF (a d : IntervalSet) (hwa : a.WF) (hwd : d.WF) :
    (PerformBinOp (fun x y => ⟨udivFn a.bitCount x y, false, false⟩) a
      kMonotoneNonSizePreserving d kAntitoneNonSizePreserving
      a.bitCount).WF := by
  unfold PerformBinOp
  have h := PerformVariadicOp_shape
    (fun args => (fun x y => (⟨udivFn a.bitCount x y, false, false⟩ :
      OverflowResult)) (args.getD 0 0) (args.getD 1 0))
    [kMonotoneNonSizePreserving, kAntitoneNonSizePreserving] [a, d]
    a.bitCount ?_ rfl ?_
  · exact h.2.1
  · intro s hs
    rcases List.mem_cons.mp hs with rfl | hs2
    · exact hwa
    rcases List.mem_cons.mp hs2 with rfl | hs3
    · exact hwd
    · simp at hs3
  · intro args hargs
    have hb := hargs 0 (by simp)
    simp only [List.getD_cons_zero] at hb
    exact udivFn_lt _ _ _ hb

theorem Intersect_NonZero_WF (b : IntervalSet) :
    (Intersect b (NonZero b.bitCount)).WF := by
  intro i hi
  unfold Intersect at hi
  simp only at hi
  rw [List.mem_flatMap] at hi
  obtain ⟨j, _, hj2⟩ := hi
  rw [List.mem_filterMap] at hj2
  obtain ⟨k, hk, hk2⟩ := hj2
  unfold NonZero at hk
  simp only [List.mem_singleton] at hk
  subst hk
  split at hk2
  · rename_i hcond
    simp only [Option.some.injEq] at hk2
    subst hk2
    have hpos : (0 : Nat) < 2 ^ b.bitCount := by positivity
    simp only at hcond ⊢
    constructor
    · show max j.lowerBound 1 < 2 ^ (Intersect b (NonZero b.bitCount)).bitCount
      have : (Intersect b (NonZero b.bitCount)).bitCount = b.bitCount := rfl
      rw [this]
      omega
    · show min j.upperBound (2 ^ b.bitCount - 1) <
        2 ^ (Intersect b (NonZero b.bitCount)).bitCount
      have : (Intersect b (NonZero b.bitCount)).bitCount = b.bitCount := rfl
      rw [this]
      omega
  · simp at hk2

theorem Intersect_NonZero_covers (b : IntervalSet)
    (hnb : b.IsNormalized = true) (hwb : b.WF) (vb : Nat)
    (hcb : b.Covers vb = true) (hvb : vb ≠ 0) :
    (Intersect b (NonZero b.bitCount)).Covers vb = true := by
  obtain ⟨hp, _⟩ := b.isNormalized_facts hnb
  have hvblt := b.covers_lt_pow vb hnb hwb hcb
  obtain ⟨j, hj, hjc⟩ := (b.covers_iff vb).mp hcb
  rw [Interval.covers_proper_iff _ _ (hp j hj)] at hjc
  have hcond : max j.lowerBound 1 ≤ min j.upperBound (2 ^ b.bitCount - 1) := by
    omega
  rw [IntervalSet.covers_iff]
  refine ⟨⟨max j.lowerBound 1, min j.upperBound (2 ^ b.bitCount - 1)⟩, ?_, ?_⟩
  · unfold Intersect NonZero
    simp only
    rw [List.mem_flatMap]
    refine ⟨j, hj, ?_⟩
    rw [List.mem_filterMap]
    refine ⟨⟨1, 2 ^ b.bitCount - 1⟩, by simp, ?_⟩
    rw [if_pos hcond]
  · rw [Interval.covers_proper_iff _ _ hcond]
    constructor
    · show max j.lowerBound 1 ≤ vb
      omega
    · show vb ≤ min j.upperBound (2 ^ b.bitCount - 1)
      omega

theorem UDiv_covers (a b : IntervalSet) (hwa : a.WF) (hwb : b.WF)
    (hnb : b.IsNormalized = true) (hbc : b.bitCount = a.bitCount)
    (va vb : Nat) (hca : a.Covers va = true) (hcb : b.Covers vb = true)
    (hva : va < 2 ^ a.bitCount) :
    (UDiv a b).Covers (udivFn a.bitCount va vb) = true := by
  have hvb : vb < 2 ^ a.bitCount := by
    have := b.covers_lt_pow vb hnb hwb hcb
    rwa [hbc] at this
  have hudlt : udivFn a.bitCount va vb < 2 ^ a.bitCount := udivFn_lt _ _ _ hva
  have hpos : (0 : Nat) < 2 ^ a.bitCount := by positivity
  unfold UDiv
  by_cases h0 : CoversZero b = true
  · rw [h0]
    simp only [Bool.not_true, Bool.false_eq_true, if_false]
    have hIWF := Intersect_NonZero_WF b
    set R := (if ! IsEmpty (Intersect b (NonZero b.bitCount)) then
        PerformBinOp (fun x y => ⟨udivFn a.bitCount x y, false, false⟩) a
          kMonotoneNonSizePreserving (Intersect b (NonZero b.bitCount))
          kAntitoneNonSizePreserving a.bitCount
      else IntervalSet.mk a.bitCount []) with hR
    have hRWF : R.WF := by
      rw [hR]
      split
      · exact udiv_bin_WF a _ hwa hIWF
      · intro i hi
        simp at hi
    have hRBC : R.bitCount = a.bitCount := by
      rw [hR]
      split
      · unfold PerformBinOp
        refine (PerformVariadicOp_shape _ _ _ _ ?_ rfl ?_).1
        · intro s hs
          rcases List.mem_cons.mp hs with rfl | hs2
          · exact hwa
          rcases List.mem_cons.mp hs2 with rfl | hs3
          · exact hIWF
          · simp at hs3
        · intro args hargs
          have hb := hargs 0 (by simp)
          simp only [List.getD_cons_zero] at hb
          exact udivFn_lt _ _ _ hb
      · rfl
    have hAWF : (R.AddInterval
        ⟨2 ^ a.bitCount - 1, 2 ^ a.bitCount - 1⟩).WF := by
      intro i hi
      have hi2 : i ∈ R.intervals ++
          [(⟨2 ^ a.bitCount - 1, 2 ^ a.bitCount - 1⟩ : Interval)] := hi
      show i.lowerBound < 2 ^ R.bitCount ∧ i.upperBound < 2 ^ R.bitCount
      rw [hRBC]
      rcases List.mem_append.mp hi2 with h | h
      · have := hRWF i h
        rw [hRBC] at this
        exact this
      · simp only [List.mem_singleton] at h
        subst h
        constructor
        · show 2 ^ a.bitCount - 1 < 2 ^ a.bitCount
          omega
        · show 2 ^ a.bitCount - 1 < 2 ^ a.bitCount
          omega
    have hbceq : (R.AddInterval
        ⟨2 ^ a.bitCount - 1, 2 ^ a.bitCount - 1⟩).bitCount = a.bitCount :=
      hRBC
    rw [IntervalSet.Normalize_covers _ _ (by rw [hbceq]; exact hudlt) hAWF]
    by_cases hz : vb = 0
    · have hval0 : udivFn a.bitCount va vb = 2 ^ a.bitCount - 1 := by
        unfold udivFn
        rw [if_pos hz]
      rw [hval0, IntervalSet.covers_iff]
      refine ⟨⟨2 ^ a.bitCount - 1, 2 ^ a.bitCount - 1⟩, ?_, ?_⟩
      · show _ ∈ R.intervals ++
          [(⟨2 ^ a.bitCount - 1, 2 ^ a.bitCount - 1⟩ : Interval)]
        simp
      · rw [Interval.covers_proper_iff _ _ (le_refl _)]
        exact ⟨le_refl _, le_refl _⟩
    · have hIcov := Intersect_NonZero_covers b hnb hwb vb hcb hz
      have hne : IsEmpty (Intersect b (NonZero b.bitCount)) = false := by
        obtain ⟨i, hi, _⟩ := (IntervalSet.covers_iff _ _).mp hIcov
        unfold IsEmpty
        cases his : (Intersect b (NonZero b.bitCount)).intervals with
        | nil =>
            rw [his] at hi
            simp at hi
        | cons x xs => rfl
      have hRdef : R = PerformBinOp
          (fun x y => ⟨udivFn a.bitCount x y, false, false⟩) a
          kMonotoneNonSizePreserving (Intersect b (NonZero b.bitCount))
          kAntitoneNonSizePreserving a.bitCount := by
        rw [hR, hne]
        rfl
      have hud := udiv_bin_covers a (Intersect b (NonZero b.bitCount)) hwa
        hIWF hbc va vb hca hIcov hva hvb
      rw [← hRdef] at hud
      obtain ⟨i, hi, hic⟩ := (IntervalSet.covers_iff _ _).mp hud
      rw [IntervalSet.covers_iff]
      refine ⟨i, ?_, hic⟩
      show i ∈ R.intervals ++
          [(⟨2 ^ a.bitCount - 1, 2 ^ a.bitCount - 1⟩ : Interval)]
      simp [hi]
  · have h0b : CoversZero b = false := by
      cases hc : CoversZero b
      · rfl
      · exact absurd hc h0
    rw [h0b]
    simp only [Bool.not_false, if_true]
    exact udiv_bin_covers a b hwa hwb hbc va vb hca hcb hva hvb

/-- Index of the lowest set bit of a nonzero value. -/
def lowBit : Nat → Nat
  | 0 => 0
  | n + 1 =>
      if (n + 1) % 2 = 1 then 0 else lowBit ((n + 1) / 2) + 1
decreasing_by
  simp_wf
  omega

/-- Value of one-hot low-to-high priority encoding of a `w`-bit value:
the lowest set bit's power of two, or bit `w` when the input is zero. -/
def oneHotLsbVal (w v : Nat) : Nat := if v = 0 then 2 ^ w else 2 ^ lowBit v

/-- Value of one-hot high-to-low priority encoding of a `w`-bit value:
the highest set bit's power of two, or bit `w` when the input is zero. -/
def oneHotMsbVal (w v : Nat) : Nat := if v = 0 then 2 ^ w else 2 ^ Nat.log2 v

/-- Kleene conjunction of a list of ternary values. -/
def ternAndList : List TernaryValue → TernaryValue
  | [] => TernaryValue.kKnownOne
  | t :: rest => ternAnd t (ternAndList rest)

/-- Modelled from the spec: the ternary evaluator's one-hot low-to-high
encoding — result bit `i` is the Kleene conjunction of input bit `i` with
the negations of all lower bits; the final bit is the conjunction of all
negations. -/
def OneHotLsbToMsb (src : List TernaryValue) : List TernaryValue :=
  ((List.range src.length).map (fun i =>
    ternAnd (src.getD i TernaryValue.kUnknown)
      (ternAndList ((src.take i).map ternNot)))) ++
  [ternAndList (src.map ternNot)]

/-- Modelled from the spec: the ternary evaluator's one-hot high-to-low
encoding — result bit `i` is the Kleene conjunction of input bit `i` with
the negations of all higher bits; the final bit is the conjunction of all
negations. -/
def OneHotMsbToLsb (src : List TernaryValue) : List TernaryValue :=
  ((List.range src.length).map (fun i =>
    ternAnd (src.getD i TernaryValue.kUnknown)
      (ternAndList ((src.drop (i + 1)).map ternNot)))) ++
  [ternAndList (src.map ternNot)]

/-- The priority direction of `OneHot`. -/
inductive LsbOrMsb where
  | kLsb
  | kMsb

/-- `interval_ops::OneHot`: delegated to the ternary evaluator and rebuilt
with the caller's interval budget. -/
def OneHot (val : IntervalSet) (lsbOrMsb : LsbOrMsb)
    (maxIntervalBits : Nat) : IntervalSet :=
  match lsbOrMsb with
  | LsbOrMsb.kLsb =>
      FromTernary (OneHotLsbToMsb (ExtractTernaryVector val)) maxIntervalBits
  | LsbOrMsb.kMsb =>
      FromTernary (OneHotMsbToLsb (ExtractTernaryVector val)) maxIntervalBits

theorem lowBit_spec : ∀ v : Nat, v ≠ 0 →
    v.testBit (lowBit v) = true ∧
      ∀ k, k < lowBit v → v.testBit k = false := by
  intro v
  induction v using Nat.strong_induction_on with
  | _ v ih =>
      intro hv
      cases v with
      | zero => exact absurd rfl hv
      | succ n =>
          by_cases hpar : (n + 1) % 2 = 1
          · have hlb : lowBit (n + 1) = 0 := by
              conv_lhs => rw [lowBit]
              rw [if_pos hpar]
            rw [hlb]
            constructor
            · rw [Nat.testBit_zero]
              exact decide_eq_true hpar
            · intro k hk
              omega
          · have hlb : lowBit (n + 1) = lowBit ((n + 1) / 2) + 1 := by
              conv_lhs => rw [lowBit]
              rw [if_neg hpar]
            have hhalf : (n + 1) / 2 ≠ 0 := by omega
            have hrec := ih ((n + 1) / 2) (by omega) hhalf
            rw [hlb]
            constructor
            · rw [Nat.testBit_succ]
              exact hrec.1
            · intro k hk
              cases k with
              | zero =>
                  rw [Nat.testBit_zero]
                  exact decide_eq_false hpar
              | succ k2 =>
                  rw [Nat.testBit_succ]
                  exact hrec.2 k2 (by omega)

theorem lowBit_lt (v w : Nat) (hv : v ≠ 0) (hlt : v < 2 ^ w) :
    lowBit v < w := by
  by_contra hge
  push_neg at hge
  have h1 := (lowBit_spec v hv).1
  have h2 : v < 2 ^ lowBit v :=
    lt_of_lt_of_le hlt (Nat.pow_le_pow_right (by omega) hge)
  rw [Nat.testBit_lt_two_pow h2] at h1
  simp at h1

theorem log2_spec (v w : Nat) (hv : v ≠ 0) (hlt : v < 2 ^ w) :
    v.testBit (Nat.log2 v) = true ∧
      (∀ k, Nat.log2 v < k → v.testBit k = false) ∧ Nat.log2 v < w := by
  have hle := Nat.log2_self_le hv
  have hlt2 : v < 2 ^ (Nat.log2 v + 1) := Nat.lt_log2_self
  have hsplit : (2 : Nat) ^ (Nat.log2 v + 1) = 2 ^ Nat.log2 v * 2 :=
    pow_succ 2 _
  refine ⟨?_, ?_, ?_⟩
  · rw [Nat.testBit_to_div_mod, decide_eq_true_eq]
    have hpos : (0 : Nat) < 2 ^ Nat.log2 v := by positivity
    have hx1 : 1 ≤ v / 2 ^ Nat.log2 v :=
      (Nat.le_div_iff_mul_le hpos).mpr (by omega)
    have hx2 : v / 2 ^ Nat.log2 v < 2 :=
      (Nat.div_lt_iff_lt_mul hpos).mpr (by omega)
    omega
  · intro k hk
    refine Nat.testBit_lt_two_pow ?_
    calc v < 2 ^ (Nat.log2 v + 1) := hlt2
      _ ≤ 2 ^ k := Nat.pow_le_pow_right (by omega) (by omega)
  · by_contra hge
    push_neg at hge
    have : (2 : Nat) ^ w ≤ 2 ^ Nat.log2 v :=
      Nat.pow_le_pow_right (by omega) hge
    omega

theorem ternAnd_eq_one (x y : TernaryValue)
    (h : ternAnd x y = TernaryValue.kKnownOne) :
    x = TernaryValue.kKnownOne ∧ y = TernaryValue.kKnownOne := by
  rcases x <;> rcases y <;> simp [ternAnd] at h <;> exact ⟨rfl, rfl⟩

theorem ternAnd_eq_zero (x y : TernaryValue)
    (h : ternAnd x y = TernaryValue.kKnownZero) :
    x = TernaryValue.kKnownZero ∨ y = TernaryValue.kKnownZero := by
  rcases x <;> rcases y <;> simp [ternAnd] at h <;>
    first
    | exact Or.inl rfl
    | exact Or.inr rfl

theorem ternAndList_eq_one (ts : List TernaryValue)
    (h : ternAndList ts = TernaryValue.kKnownOne) :
    ∀ t ∈ ts, t = TernaryValue.kKnownOne := by
  induction ts with
  | nil =>
      intro t ht
      simp at ht
  | cons x rest ih =>
      unfold ternAndList at h
      obtain ⟨h1, h2⟩ := ternAnd_eq_one _ _ h
      intro t ht
      rcases List.mem_cons.mp ht with rfl | hm
      · exact h1
      · exact ih h2 t hm

theorem ternAndList_eq_zero (ts : List TernaryValue)
    (h : ternAndList ts = TernaryValue.kKnownZero) :
    ∃ t ∈ ts, t = TernaryValue.kKnownZero := by
  induction ts with
  | nil => simp [ternAndList] at h
  | cons x rest ih =>
      unfold ternAndList at h
      rcases ternAnd_eq_zero _ _ h with h1 | h2
      · exact ⟨x, by simp, h1⟩
      · obtain ⟨t, ht, he⟩ := ih h2
        exact ⟨t, by simp [ht], he⟩

theorem ternNot_eq_one (x : TernaryValue)
    (h : ternNot x = TernaryValue.kKnownOne) :
    x = TernaryValue.kKnownZero := by
  rcases x <;> simp [ternNot] at h <;> rfl

theorem ternNot_eq_zero (x : TernaryValue)
    (h : ternNot x = TernaryValue.kKnownZero) :
    x = TernaryValue.kKnownOne := by
  rcases x <;> simp [ternNot] at h <;> rfl

theorem OneHotLsbToMsb_compat (src : List TernaryValue) (v : Nat)
    (h : ternaryIsCompatible src v = true) :
    ternaryIsCompatible (OneHotLsbToMsb src)
      (oneHotLsbVal src.length v) = true := by
  have hv := ternaryIsCompatible_lt src v h
  have hb := ternaryIsCompatible_testBit src v h
  have hlen : (OneHotLsbToMsb src).length = src.length + 1 := by
    unfold OneHotLsbToMsb
    simp
  refine ternaryIsCompatible_of_testBit _ _ ?_ ?_
  · rw [hlen]
    unfold oneHotLsbVal
    split
    · exact Nat.pow_lt_pow_right (by omega) (by omega)
    · rename_i hvne
      have := lowBit_lt v src.length hvne hv
      exact Nat.pow_lt_pow_right (by omega) (by omega)
  · intro idx hidx
    rw [hlen] at hidx
    by_cases hiw : idx < src.length
    · have hgd : (OneHotLsbToMsb src).getD idx TernaryValue.kUnknown =
          ternAnd (src.getD idx TernaryValue.kUnknown)
            (ternAndList ((src.take idx).map ternNot)) := by
        unfold OneHotLsbToMsb
        rw [List.getD_append _ _ _ _ (by simpa using hiw)]
        exact getD_range_map _ _ _ _ hiw
      rw [hgd]
      constructor
      · intro hone
        obtain ⟨h1, h2⟩ := ternAnd_eq_one _ _ hone
        have hbit : v.testBit idx = true := (hb idx hiw).1 h1
        have hlow : ∀ k, k < idx → v.testBit k = false := by
          intro k hk
          have hkm := getD_mem (src.take idx) k TernaryValue.kUnknown
            (by rw [List.length_take]; omega)
          have he : (src.take idx).getD k TernaryValue.kUnknown =
              src.getD k TernaryValue.kUnknown := by
            rw [List.getD_eq_getElem?_getD, List.getD_eq_getElem?_getD,
              List.getElem?_take, if_pos hk]
          rw [he] at hkm
          have h0 := ternAndList_eq_one _ h2 _
            (List.mem_map_of_mem ternNot hkm)
          exact (hb k (by omega)).2 (ternNot_eq_one _ h0)
        have hvne : v ≠ 0 := by
          intro h0
          rw [h0, Nat.zero_testBit] at hbit
          simp at hbit
        have hlbe : lowBit v = idx := by
          obtain ⟨hs1, hs2⟩ := lowBit_spec v hvne
          by_contra hne
          rcases Nat.lt_or_ge (lowBit v) idx with hlt | hgt
          · have hf := hlow (lowBit v) hlt
            rw [hf] at hs1
            simp at hs1
          · have hgt2 : idx < lowBit v := by omega
            have hf := hs2 idx hgt2
            rw [hf] at hbit
            simp at hbit
        unfold oneHotLsbVal
        rw [if_neg hvne, hlbe, Nat.testBit_two_pow]
        simp
      · intro hzero
        unfold oneHotLsbVal
        rcases ternAnd_eq_zero _ _ hzero with h1 | h2
        · have hbit := (hb idx hiw).2 h1
          split
          · rw [Nat.testBit_two_pow]
            exact decide_eq_false (by omega)
          · rename_i hvne
            rw [Nat.testBit_two_pow]
            refine decide_eq_false ?_
            intro he
            obtain ⟨hs1, _⟩ := lowBit_spec v hvne
            rw [he] at hs1
            rw [hs1] at hbit
            simp at hbit
        · obtain ⟨t, htm, hte⟩ := ternAndList_eq_zero _ h2
          subst hte
          rw [List.mem_map] at htm
          obtain ⟨s2, hsm, hse⟩ := htm
          have hs1 : s2 = TernaryValue.kKnownOne := ternNot_eq_zero _ hse
          obtain ⟨k, hk, hke⟩ := List.mem_iff_getElem.mp hsm
          rw [List.length_take] at hk
          have hkidx : k < idx := by omega
          have hkl : k < src.length := by omega
          have hsrck : src.getD k TernaryValue.kUnknown =
              TernaryValue.kKnownOne := by
            rw [List.getD_eq_getElem?_getD, List.getElem?_eq_getElem hkl]
            have hk2 : k < (src.take idx).length := by
              rw [List.length_take]
              omega
            have hteq : (src.take idx)[k] = src[k] := List.getElem_take src
            rw [hteq] at hke
            simp only [Option.getD_some]
            rw [hke]
            exact hs1
          have hbitk : v.testBit k = true := (hb k hkl).1 hsrck
          have hvne : v ≠ 0 := by
            intro h0
            rw [h0, Nat.zero_testBit] at hbitk
            simp at hbitk
          rw [if_neg hvne, Nat.testBit_two_pow]
          refine decide_eq_false ?_
          intro he
          obtain ⟨_, hs2⟩ := lowBit_spec v hvne
          have hf := hs2 k (by omega)
          rw [hf] at hbitk
          simp at hbitk
    · have hidxe : idx = src.length := by omega
      subst hidxe
      have hgd : (OneHotLsbToMsb src).getD src.length
          TernaryValue.kUnknown = ternAndList (src.map ternNot) := by
        unfold OneHotLsbToMsb
        rw [List.getD_append_right _ _ _ _ (by simp)]
        simp
      rw [hgd]
      constructor
      · intro hone
        have hall := ternAndList_eq_one _ hone
        have hv0 : v = 0 := by
          by_contra hvne
          obtain ⟨hs1, _⟩ := lowBit_spec v hvne
          have hlbl := lowBit_lt v src.length hvne hv
          have hsk : src.getD (lowBit v) TernaryValue.kUnknown =
              TernaryValue.kKnownZero := by
            have hmem := List.mem_map_of_mem ternNot
              (getD_mem src (lowBit v) TernaryValue.kUnknown hlbl)
            exact ternNot_eq_one _ (hall _ hmem)
          have hf := (hb (lowBit v) hlbl).2 hsk
          rw [hf] at hs1
          simp at hs1
        unfold oneHotLsbVal
        rw [if_pos hv0, Nat.testBit_two_pow]
        simp
      · intro hzero
        obtain ⟨t, htm, hte⟩ := ternAndList_eq_zero _ hzero
        subst hte
        rw [List.mem_map] at htm
        obtain ⟨s2, hsm, hse⟩ := htm
        have hs1 : s2 = TernaryValue.kKnownOne := ternNot_eq_zero _ hse
        obtain ⟨k, hk, hke⟩ := List.mem_iff_getElem.mp hsm
        have hsrck : src.getD k TernaryValue.kUnknown =
            TernaryValue.kKnownOne := by
          rw [List.getD_eq_getElem?_getD, List.getElem?_eq_getElem hk]
          simp only [Option.getD_some]
          rw [hke]
          exact hs1
        have hbitk : v.testBit k = true := (hb k hk).1 hsrck
        have hvne : v ≠ 0 := by
          intro h0
          rw [h0, Nat.zero_testBit] at hbitk
          simp at hbitk
        unfold oneHotLsbVal
        rw [if_neg hvne, Nat.testBit_two_pow]
        refine decide_eq_false ?_
        intro he
        have := lowBit_lt v src.length hvne hv
        omega

theorem OneHotMsbToLsb_compat (src : List TernaryValue) (v : Nat)
    (h : ternaryIsCompatible src v = true) :
    ternaryIsCompatible (OneHotMsbToLsb src)
      (oneHotMsbVal src.length v) = true := by
  have hv := ternaryIsCompatible_lt src v h
  have hb := ternaryIsCompatible_testBit src v h
  have hlen : (OneHotMsbToLsb src).length = src.length + 1 := by
    unfold OneHotMsbToLsb
    simp
  refine ternaryIsCompatible_of_testBit _ _ ?_ ?_
  · rw [hlen]
    unfold oneHotMsbVal
    split
    · exact Nat.pow_lt_pow_right (by omega) (by omega)
    · rename_i hvne
      have := (log2_spec v src.length hvne hv).2.2
      exact Nat.pow_lt_pow_right (by omega) (by omega)
  · intro idx hidx
    rw [hlen] at hidx
    by_cases hiw : idx < src.length
    · have hgd : (OneHotMsbToLsb src).getD idx TernaryValue.kUnknown =
          ternAnd (src.getD idx TernaryValue.kUnknown)
            (ternAndList ((src.drop (idx + 1)).map ternNot)) := by
        unfold OneHotMsbToLsb
        rw [List.getD_append _ _ _ _ (by simpa using hiw)]
        exact getD_range_map _ _ _ _ hiw
      rw [hgd]
      constructor
      · intro hone
        obtain ⟨h1, h2⟩ := ternAnd_eq_one _ _ hone
        have hbit : v.testBit idx = true := (hb idx hiw).1 h1
        have hhigh : ∀ k, idx < k → k < src.length → v.testBit k = false := by
          intro k hk1 hk2
          have hkm := getD_mem (src.drop (idx + 1)) (k - (idx + 1))
            TernaryValue.kUnknown (by rw [List.length_drop]; omega)
          have he : (src.drop (idx + 1)).getD (k - (idx + 1))
              TernaryValue.kUnknown = src.getD k TernaryValue.kUnknown := by
            rw [List.getD_eq_getElem?_getD, List.getD_eq_getElem?_getD,
              List.getElem?_drop,
              show idx + 1 + (k - (idx + 1)) = k by omega]
          rw [he] at hkm
          have h0 := ternAndList_eq_one _ h2 _
            (List.mem_map_of_mem ternNot hkm)
          exact (hb k hk2).2 (ternNot_eq_one _ h0)
        have hvne : v ≠ 0 := by
          intro h0
          rw [h0, Nat.zero_testBit] at hbit
          simp at hbit
        obtain ⟨hs1, hs2, hs3⟩ := log2_spec v src.length hvne hv
        have hlbe : Nat.log2 v = idx := by
          by_contra hne
          rcases Nat.lt_or_ge (Nat.log2 v) idx with hlt | hgt
          · have hf := hs2 idx hlt
            rw [hf] at hbit
            simp at hbit
          · have hgt2 : idx < Nat.log2 v := by omega
            have hf := hhigh (Nat.log2 v) hgt2 hs3
            rw [hf] at hs1
            simp at hs1
        unfold oneHotMsbVal
        rw [if_neg hvne, hlbe, Nat.testBit_two_pow]
        simp
      · intro hzero
        unfold oneHotMsbVal
        rcases ternAnd_eq_zero _ _ hzero with h1 | h2
        · have hbit := (hb idx hiw).2 h1
          split
          · rw [Nat.testBit_two_pow]
            exact decide_eq_false (by omega)
          · rename_i hvne
            rw [Nat.testBit_two_pow]
            refine decide_eq_false ?_
            intro he
            obtain ⟨hs1, _, _⟩ := log2_spec v src.length hvne hv
            rw [he] at hs1
            rw [hs1] at hbit
            simp at hbit
        · obtain ⟨t, htm, hte⟩ := ternAndList_eq_zero _ h2
          subst hte
          rw [List.mem_map] at htm
          obtain ⟨s2, hsm, hse⟩ := htm
          have hs1 : s2 = TernaryValue.kKnownOne := ternNot_eq_zero _ hse
          obtain ⟨k, hk, hke⟩ := List.mem_iff_getElem.mp hsm
          rw [List.length_drop] at hk
          have hkl : idx + 1 + k < src.length := by omega
          have hsrck : src.getD (idx + 1 + k) TernaryValue.kUnknown =
              TernaryValue.kKnownOne := by
            rw [List.getD_eq_getElem?_getD, List.getElem?_eq_getElem hkl]
            have hk3 : k < (src.drop (idx + 1)).length := by
              rw [List.length_drop]
              omega
            have hteq : (src.drop (idx + 1))[k] = src[idx + 1 + k] :=
              List.getElem_drop src
            rw [hteq] at hke
            simp only [Option.getD_some]
            rw [hke]
            exact hs1
          have hbitk : v.testBit (idx + 1 + k) = true := (hb _ hkl).1 hsrck
          have hvne : v ≠ 0 := by
            intro h0
            rw [h0, Nat.zero_testBit] at hbitk
            simp at hbitk
          rw [if_neg hvne, Nat.testBit_two_pow]
          refine decide_eq_false ?_
          intro he
          obtain ⟨_, hs2, _⟩ := log2_spec v src.length hvne hv
          have hf := hs2 (idx + 1 + k) (by omega)
          rw [hf] at hbitk
          simp at hbitk
    · have hidxe : idx = src.length := by omega
      subst hidxe
      have hgd : (OneHotMsbToLsb src).getD src.length
          TernaryValue.kUnknown = ternAndList (src.map ternNot) := by
        unfold OneHotMsbToLsb
        rw [List.getD_append_right _ _ _ _ (by simp)]
        simp
      rw [hgd]
      constructor
      · intro hone
        have hall := ternAndList_eq_one _ hone
        have hv0 : v = 0 := by
          by_contra hvne
          obtain ⟨hs1, _, hs3⟩ := log2_spec v src.length hvne hv
          have hsk : src.getD (Nat.log2 v) TernaryValue.kUnknown =
              TernaryValue.kKnownZero := by
            have hmem := List.mem_map_of_mem ternNot
              (getD_mem src (Nat.log2 v) TernaryValue.kUnknown hs3)
            exact ternNot_eq_one _ (hall _ hmem)
          have hf := (hb (Nat.log2 v) hs3).2 hsk
          rw [hf] at hs1
          simp at hs1
        unfold oneHotMsbVal
        rw [if_pos hv0, Nat.testBit_two_pow]
        simp
      · intro hzero
        obtain ⟨t, htm, hte⟩ := ternAndList_eq_zero _ hzero
        subst hte
        rw [List.mem_map] at htm
        obtain ⟨s2, hsm, hse⟩ := htm
        have hs1 : s2 = TernaryValue.kKnownOne := ternNot_eq_zero _ hse
        obtain ⟨k, hk, hke⟩ := List.mem_iff_getElem.mp hsm
        have hsrck : src.getD k TernaryValue.kUnknown =
            TernaryValue.kKnownOne := by
          rw [List.getD_eq_getElem?_getD, List.getElem?_eq_getElem hk]
          simp only [Option.getD_some]
          rw [hke]
          exact hs1
        have hbitk : v.testBit k = true := (hb k hk).1 hsrck
        have hvne : v ≠ 0 := by
          intro h0
          rw [h0, Nat.zero_testBit] at hbitk
          simp at hbitk
        unfold oneHotMsbVal
        rw [if_neg hvne, Nat.testBit_two_pow]
        refine decide_eq_false ?_
        intro he
        have := (log2_spec v src.length hvne hv).2.2
        omega

theorem OneHot_covers (val : IntervalSet) (lsbOrMsb : LsbOrMsb) (m : Nat)
    (hn : val.IsNormalized = true) (hwf : val.WF) (vv : Nat)
    (hcv : val.Covers vv = true) :
    (OneHot val lsbOrMsb m).Covers
      (match lsbOrMsb with
       | LsbOrMsb.kLsb => oneHotLsbVal val.bitCount vv
       | LsbOrMsb.kMsb => oneHotMsbVal val.bitCount vv) = true := by
  have hcompat := ExtractTernaryVector_compat val vv hn hwf hcv
  cases lsbOrMsb
  · have h2 := OneHotLsbToMsb_compat _ vv hcompat
    rw [ExtractTernaryVector_length] at h2
    exact FromTernary_covers _ m _ h2
  · have h2 := OneHotMsbToLsb_compat _ vv hcompat
    rw [ExtractTernaryVector_length] at h2
    exact FromTernary_covers _ m _ h2

/-- C1: interval arithmetic soundness.  For every dataflow operator
implemented by the interval engine — Add, Sub, Neg, UMul, UDiv, Shrl,
Decode, SignExtend, ZeroExtend, Truncate, BitSlice, Concat, Not, And, Or,
Xor, AndReduce, OrReduce, XorReduce, Eq, Ne, ULt, UGt, SLt, SGt, Gate and
OneHot — and for all operand interval sets of the operator's operand
widths, every concrete result obtained by applying the operator's concrete
bit-vector semantics to any choice of concrete values drawn from the
operand interval sets lies within the interval set the engine returns:
the result never under-approximates. -/
theorem interval_ops_sound :
    (∀ a b : IntervalSet, a.WF → b.WF → b.bitCount = a.bitCount →
      ∀ va vb : Nat, a.Covers va = true → b.Covers vb = true →
        va < 2 ^ a.bitCount → vb < 2 ^ a.bitCount →
        (Add a b).Covers ((va + vb) % 2 ^ a.bitCount) = true) ∧
    (∀ a b : IntervalSet, a.WF → b.WF → b.bitCount = a.bitCount →
      ∀ va vb : Nat, a.Covers va = true → b.Covers vb = true →
        va < 2 ^ a.bitCount → vb < 2 ^ a.bitCount →
        (Sub a b).Covers
          ((va + 2 ^ a.bitCount - vb) % 2 ^ a.bitCount) = true) ∧
    (∀ a : IntervalSet, a.WF → ∀ va : Nat, a.Covers va = true →
      va < 2 ^ a.bitCount →
      (Neg a).Covers ((2 ^ a.bitCount - va) % 2 ^ a.bitCount) = true) ∧
    (∀ (a b : IntervalSet) (outW : Nat), a.WF → b.WF →
      ∀ va vb : Nat, a.Covers va = true → b.Covers vb = true →
        va < 2 ^ a.bitCount → vb < 2 ^ b.bitCount →
        (UMul a b outW).Covers ((va * vb) % 2 ^ outW) = true) ∧
    (∀ a b : IntervalSet, a.WF → b.WF → b.IsNormalized = true →
      b.bitCount = a.bitCount →
      ∀ va vb : Nat, a.Covers va = true → b.Covers vb = true →
        va < 2 ^ a.bitCount →
        (UDiv a b).Covers (udivFn a.bitCount va vb) = true) ∧
    (∀ a b : IntervalSet, a.WF → b.WF →
      ∀ va vb : Nat, a.Covers va = true → b.Covers vb = true →
        va < 2 ^ a.bitCount → vb < 2 ^ b.bitCount →
        (Shrl a b).Covers (va / 2 ^ vb) = true) ∧
    (∀ (a : IntervalSet) (width : Nat), a.IsNormalized = true →
      ∀ va : Nat, a.Covers va = true →
      (Decode a width).Covers (if va < width then 2 ^ va else 0) = true) ∧
    (∀ (a : IntervalSet) (width : Nat), a.WF → a.bitCount ≤ width →
      ∀ va : Nat, a.Covers va = true → va < 2 ^ a.bitCount →
      (SignExtend a width).Covers
        (signExtendVal a.bitCount width va) = true) ∧
    (∀ (a : IntervalSet) (width : Nat), a.WF → a.bitCount ≤ width →
      ∀ va : Nat, a.Covers va = true → va < 2 ^ a.bitCount →
      (ZeroExtend a width).Covers va = true) ∧
    (∀ (a : IntervalSet) (width : Nat), a.WF → width ≤ a.bitCount →
      ∀ va : Nat, a.Covers va = true → va < 2 ^ a.bitCount →
      (Truncate a width).Covers (va % 2 ^ width) = true) ∧
    (∀ (a : IntervalSet) (start width : Nat), a.WF → start < 2 ^ 64 →
      width ≤ a.bitCount →
      ∀ va : Nat, a.Covers va = true → va < 2 ^ a.bitCount →
      (BitSlice a start width).Covers
        (va / 2 ^ start % 2 ^ width) = true) ∧
    (∀ (sets : List IntervalSet) (vs : List Nat),
      (∀ s ∈ sets, s.WF) → vs.length = sets.length →
      (∀ i, i < sets.length →
        (sets.getD i ⟨0, []⟩).Covers (vs.getD i 0) = true ∧
        vs.getD i 0 < 2 ^ (sets.getD i ⟨0, []⟩).bitCount) →
      (Concat sets).Covers
        (concatValue ((sets.map IntervalSet.bitCount).zip vs)) = true) ∧
    (∀ a : IntervalSet, a.IsNormalized = true → a.WF →
      ∀ va : Nat, a.Covers va = true →
      (Not a).Covers ((2 ^ a.bitCount - 1) ^^^ va) = true) ∧
    (∀ a b : IntervalSet, a.IsNormalized = true → b.IsNormalized = true →
      a.WF → b.WF → b.bitCount = a.bitCount →
      ∀ va vb : Nat, a.Covers va = true → b.Covers vb = true →
      (And a b).Covers (va &&& vb) = true) ∧
    (∀ a b : IntervalSet, a.IsNormalized = true → b.IsNormalized = true →
      a.WF → b.WF → b.bitCount = a.bitCount →
      ∀ va vb : Nat, a.Covers va = true → b.Covers vb = true →
      (Or a b).Covers (va ||| vb) = true) ∧
    (∀ a b : IntervalSet, a.IsNormalized = true → b.IsNormalized = true →
      a.WF → b.WF → b.bitCount = a.bitCount →
      ∀ va vb : Nat, a.Covers va = true → b.Covers vb = true →
      (Xor a b).Covers (va ^^^ vb) = true) ∧
    (∀ (a : IntervalSet) (va : Nat), va < 2 ^ a.bitCount →
      a.Covers va = true →
      (AndReduce a).Covers
        (if va = 2 ^ a.bitCount - 1 then 1 else 0) = true) ∧
    (∀ (a : IntervalSet) (va : Nat), va < 2 ^ a.bitCount →
      a.Covers va = true →
      (OrReduce a).Covers (if va = 0 then 0 else 1) = true) ∧
    (∀ (a : IntervalSet) (va : Nat), a.Covers va = true →
      (XorReduce a).Covers (xorReduceVal a.bitCount va) = true) ∧
    (∀ (a b : IntervalSet) (va vb : Nat), va < 2 ^ a.bitCount →
      a.Covers va = true → b.Covers vb = true →
      (Eq a b).Covers (if va = vb then 1 else 0) = true) ∧
    (∀ (a b : IntervalSet) (va vb : Nat), va < 2 ^ a.bitCount →
      a.Covers va = true → b.Covers vb = true →
      (Ne a b).Covers (if va = vb then 0 else 1) = true) ∧
    (∀ a b : IntervalSet, a.IsNormalized = true → b.IsNormalized = true →
      ∀ va vb : Nat, a.Covers va = true → b.Covers vb = true →
      (ULt a b).Covers (if va < vb then 1 else 0) = true) ∧
    (∀ a b : IntervalSet, a.IsNormalized = true → b.IsNormalized = true →
      ∀ va vb : Nat, a.Covers va = true → b.Covers vb = true →
      (UGt a b).Covers (if vb < va then 1 else 0) = true) ∧
    (∀ a b : IntervalSet, a.IsNormalized = true → b.IsNormalized = true →
      a.WF → b.WF → b.bitCount = a.bitCount → 1 ≤ a.bitCount →
      ∀ va vb : Nat, a.Covers va = true → b.Covers vb = true →
      (SLt a b).Covers
        (if toSigned a.bitCount va < toSigned a.bitCount vb then 1 else 0) =
        true) ∧
    (∀ a b : IntervalSet, a.IsNormalized = true → b.IsNormalized = true →
      a.WF → b.WF → b.bitCount = a.bitCount → 1 ≤ a.bitCount →
      ∀ va vb : Nat, a.Covers va = true → b.Covers vb = true →
      (SGt a b).Covers
        (if toSigned a.bitCount vb < toSigned a.bitCount va then 1 else 0) =
        true) ∧
    (∀ cond val : IntervalSet, val.WF →
      ∀ vc vv : Nat, cond.Covers vc = true → val.Covers vv = true →
        vv < 2 ^ val.bitCount →
      (Gate cond val).Covers (if vc = 0 then 0 else vv) = true) ∧
    (∀ (val : IntervalSet) (lsbOrMsb : LsbOrMsb) (m : Nat),
      val.IsNormalized = true → val.WF →
      ∀ vv : Nat, val.Covers vv = true →
      (OneHot val lsbOrMsb m).Covers
        (match lsbOrMsb with
         | LsbOrMsb.kLsb => oneHotLsbVal val.bitCount vv
         | LsbOrMsb.kMsb => oneHotMsbVal val.bitCount vv) = true) := by
  refine ⟨?_, ?_, ?_, ?_, ?_, ?_, ?_, ?_, ?_, ?_, ?_, ?_, ?_, ?_, ?_, ?_,
    ?_, ?_, ?_, ?_, ?_, ?_, ?_, ?_, ?_, ?_, ?_⟩
  · intro a b hwa hwb hbc va vb hca hcb hva hvb
    exact Add_covers a b hwa hwb hbc va vb hca hcb hva hvb
  · intro a b hwa hwb hbc va vb hca hcb hva hvb
    exact Sub_covers a b hwa hwb hbc va vb hca hcb hva hvb
  · intro a hwa va hca hva
    exact Neg_covers a hwa va hca hva
  · intro a b outW hwa hwb va vb hca hcb hva hvb
    exact UMul_covers a b outW hwa hwb va vb hca hcb hva hvb
  · intro a b hwa hwb hnb hbc va vb hca hcb hva
    exact UDiv_covers a b hwa hwb hnb hbc va vb hca hcb hva
  · intro a b hwa hwb va vb hca hcb hva hvb
    exact Shrl_covers a b hwa hwb va vb hca hcb hva hvb
  · intro a width hn va hca
    exact Decode_covers a width hn va hca
  · intro a width hwa hw va hca hva
    exact SignExtend_covers a width hwa hw va hca hva
  · intro a width hwa hw va hca hva
    exact ZeroExtend_covers a width hwa hw va hca hva
  · intro a width hwa hw va hca hva
    exact Truncate_covers a width hwa hw va hca hva
  · intro a start width hwa hstart hw va hca hva
    exact BitSlice_covers a start width hwa hstart hw va hca hva
  · intro sets vs hwf hlen hcov
    exact Concat_covers sets vs hwf hlen hcov
  · intro a hn hwf va hca
    exact Not_covers a hn hwf va hca
  · intro a b hna hnb hwa hwb hbc va vb hca hcb
    exact And_covers a b hna hnb hwa hwb hbc va vb hca hcb
  · intro a b hna hnb hwa hwb hbc va vb hca hcb
    exact Or_covers a b hna hnb hwa hwb hbc va vb hca hcb
  · intro a b hna hnb hwa hwb hbc va vb hca hcb
    exact Xor_covers a b hna hnb hwa hwb hbc va vb hca hcb
  · intro a va hva hca
    exact AndReduce_covers a va hva hca
  · intro a va hva hca
    exact OrReduce_covers a va hva hca
  · intro a va hca
    exact XorReduce_covers a va hca
  · intro a b va vb hva hca hcb
    exact Eq_covers a b va vb hva hca hcb
  · intro a b va vb hva hca hcb
    exact Ne_covers a b va vb hva hca hcb
  · intro a b hna hnb va vb hca hcb
    exact ULt_covers a b hna hnb va vb hca hcb
  · intro a b hna hnb va vb hca hcb
    exact UGt_covers a b hna hnb va vb hca hcb
  · intro a b hna hnb hwa hwb hbc hw va vb hca hcb
    exact SLt_covers a b hna hnb hwa hwb hbc hw va vb hca hcb
  · intro a b hna hnb hwa hwb hbc hw va vb hca hcb
    exact SGt_covers a b hna hnb hwa hwb hbc hw va vb hca hcb
  · intro cond val hwv vc vv hcc hcv hvv
    exact Gate_covers cond val hwv vc vv hcc hcv hvv
  · intro val lsbOrMsb m hn hwf vv hcv
    exact OneHot_covers val lsbOrMsb m hn hwf vv hcv

/-- Witness for C1: every operator conjunct applied at small concrete
interval sets `[1,2]` and `[0,1]` over two bits, with concrete operand
values drawn from them. -/
theorem interval_ops_sound_witness :
    (Add ⟨2, [⟨1, 2⟩]⟩ ⟨2, [⟨0, 1⟩]⟩).Covers ((2 + 1) % 2 ^ 2) = true ∧
    (Sub ⟨2, [⟨1, 2⟩]⟩ ⟨2, [⟨0, 1⟩]⟩).Covers
      ((2 + 2 ^ 2 - 1) % 2 ^ 2) = true ∧
    (Neg ⟨2, [⟨1, 2⟩]⟩).Covers ((2 ^ 2 - 2) % 2 ^ 2) = true ∧
    (UMul ⟨2, [⟨1, 2⟩]⟩ ⟨2, [⟨0, 1⟩]⟩ 3).Covers ((2 * 1) % 2 ^ 3) = true ∧
    (UDiv ⟨2, [⟨1, 2⟩]⟩ ⟨2, [⟨1, 2⟩]⟩).Covers (udivFn 2 2 1) = true ∧
    (Shrl ⟨2, [⟨1, 2⟩]⟩ ⟨2, [⟨0, 1⟩]⟩).Covers (2 / 2 ^ 1) = true ∧
    (Decode ⟨2, [⟨1, 2⟩]⟩ 4).Covers (if 2 < 4 then 2 ^ 2 else 0) = true ∧
    (SignExtend ⟨2, [⟨1, 2⟩]⟩ 3).Covers (signExtendVal 2 3 2) = true ∧
    (ZeroExtend ⟨2, [⟨1, 2⟩]⟩ 3).Covers 2 = true ∧
    (Truncate ⟨2, [⟨1, 2⟩]⟩ 1).Covers (2 % 2 ^ 1) = true ∧
    (BitSlice ⟨2, [⟨1, 2⟩]⟩ 1 1).Covers (2 / 2 ^ 1 % 2 ^ 1) = true ∧
    (Concat [⟨2, [⟨1, 2⟩]⟩, ⟨2, [⟨0, 1⟩]⟩]).Covers
      (concatValue ((([⟨2, [⟨1, 2⟩]⟩, ⟨2, [⟨0, 1⟩]⟩] :
        List IntervalSet).map IntervalSet.bitCount).zip [2, 1])) = true ∧
    (Not ⟨2, [⟨1, 2⟩]⟩).Covers ((2 ^ 2 - 1) ^^^ 2) = true ∧
    (And ⟨2, [⟨1, 2⟩]⟩ ⟨2, [⟨0, 1⟩]⟩).Covers (2 &&& 1) = true ∧
    (Or ⟨2, [⟨1, 2⟩]⟩ ⟨2, [⟨0, 1⟩]⟩).Covers (2 ||| 1) = true ∧
    (Xor ⟨2, [⟨1, 2⟩]⟩ ⟨2, [⟨0, 1⟩]⟩).Covers (2 ^^^ 1) = true ∧
    (AndReduce ⟨2, [⟨1, 2⟩]⟩).Covers (if 2 = 2 ^ 2 - 1 then 1 else 0) =
      true ∧
    (OrReduce ⟨2, [⟨1, 2⟩]⟩).Covers (if 2 = 0 then 0 else 1) = true ∧
    (XorReduce ⟨2, [⟨1, 2⟩]⟩).Covers (xorReduceVal 2 2) = true ∧
    (Eq ⟨2, [⟨1, 2⟩]⟩ ⟨2, [⟨0, 1⟩]⟩).Covers (if 2 = 1 then 1 else 0) =
      true ∧
    (Ne ⟨2, [⟨1, 2⟩]⟩ ⟨2, [⟨0, 1⟩]⟩).Covers (if 2 = 1 then 0 else 1) =
      true ∧
    (ULt ⟨2, [⟨1, 2⟩]⟩ ⟨2, [⟨0, 1⟩]⟩).Covers (if 2 < 1 then 1 else 0) =
      true ∧
    (UGt ⟨2, [⟨1, 2⟩]⟩ ⟨2, [⟨0, 1⟩]⟩).Covers (if 1 < 2 then 1 else 0) =
      true ∧
    (SLt ⟨2, [⟨1, 2⟩]⟩ ⟨2, [⟨0, 1⟩]⟩).Covers
      (if toSigned 2 2 < toSigned 2 1 then 1 else 0) = true ∧
    (SGt ⟨2, [⟨1, 2⟩]⟩ ⟨2, [⟨0, 1⟩]⟩).Covers
      (if toSigned 2 1 < toSigned 2 2 then 1 else 0) = true ∧
    (Gate ⟨2, [⟨0, 1⟩]⟩ ⟨2, [⟨1, 2⟩]⟩).Covers (if 0 = 0 then 0 else 2) =
      true ∧
    (OneHot ⟨2, [⟨1, 2⟩]⟩ LsbOrMsb.kLsb 4).Covers (oneHotLsbVal 2 2) =
      true := by
  obtain ⟨h1, h2, h3, h4, h5, h6, h7, h8, h9, h10, h11, h12, h13, h14, h15,
    h16, h17, h18, h19, h20, h21, h22, h23, h24, h25, h26, h27⟩ :=
    interval_ops_sound
  refine ⟨?_, ?_, ?_, ?_, ?_, ?_, ?_, ?_, ?_, ?_, ?_, ?_, ?_, ?_, ?_, ?_,
    ?_, ?_, ?_, ?_, ?_, ?_, ?_, ?_, ?_, ?_, ?_⟩
  · exact h1 ⟨2, [⟨1, 2⟩]⟩ ⟨2, [⟨0, 1⟩]⟩
      (by unfold IntervalSet.WF; decide) (by unfold IntervalSet.WF; decide)
      rfl 2 1 (by decide) (by decide) (by decide) (by decide)
  · exact h2 ⟨2, [⟨1, 2⟩]⟩ ⟨2, [⟨0, 1⟩]⟩
      (by unfold IntervalSet.WF; decide) (by unfold IntervalSet.WF; decide)
      rfl 2 1 (by decide) (by decide) (by decide) (by decide)
  · exact h3 ⟨2, [⟨1, 2⟩]⟩ (by unfold IntervalSet.WF; decide) 2
      (by decide) (by decide)
  · exact h4 ⟨2, [⟨1, 2⟩]⟩ ⟨2, [⟨0, 1⟩]⟩ 3
      (by unfold IntervalSet.WF; decide) (by unfold IntervalSet.WF; decide)
      2 1 (by decide) (by decide) (by decide) (by decide)
  · exact h5 ⟨2, [⟨1, 2⟩]⟩ ⟨2, [⟨1, 2⟩]⟩
      (by unfold IntervalSet.WF; decide) (by unfold IntervalSet.WF; decide)
      (by decide) rfl 2 1 (by decide) (by decide) (by decide)
  · exact h6 ⟨2, [⟨1, 2⟩]⟩ ⟨2, [⟨0, 1⟩]⟩
      (by unfold IntervalSet.WF; decide) (by unfold IntervalSet.WF; decide)
      2 1 (by decide) (by decide) (by decide) (by decide)
  · exact h7 ⟨2, [⟨1, 2⟩]⟩ 4 (by decide) 2 (by decide)
  · exact h8 ⟨2, [⟨1, 2⟩]⟩ 3 (by unfold IntervalSet.WF; decide)
      (by decide) 2 (by decide) (by decide)
  · exact h9 ⟨2, [⟨1, 2⟩]⟩ 3 (by unfold IntervalSet.WF; decide)
      (by decide) 2 (by decide) (by decide)
  · exact h10 ⟨2, [⟨1, 2⟩]⟩ 1 (by unfold IntervalSet.WF; decide)
      (by decide) 2 (by decide) (by decide)
  · exact h11 ⟨2, [⟨1, 2⟩]⟩ 1 1 (by unfold IntervalSet.WF; decide)
      (by decide) (by decide) 2 (by decide) (by decide)
  · refine h12 [⟨2, [⟨1, 2⟩]⟩, ⟨2, [⟨0, 1⟩]⟩] [2, 1] ?_ rfl ?_
    · intro s hs
      fin_cases hs <;> (unfold IntervalSet.WF; decide)
    · intro i hi
      have h2i : i < 2 := by simpa using hi
      interval_cases i
      · exact ⟨by decide, by decide⟩
      · exact ⟨by decide, by decide⟩
  · exact h13 ⟨2, [⟨1, 2⟩]⟩ (by decide) (by unfold IntervalSet.WF; decide)
      2 (by decide)
  · exact h14 ⟨2, [⟨1, 2⟩]⟩ ⟨2, [⟨0, 1⟩]⟩ (by decide) (by decide)
      (by unfold IntervalSet.WF; decide) (by unfold IntervalSet.WF; decide)
      rfl 2 1 (by decide) (by decide)
  · exact h15 ⟨2, [⟨1, 2⟩]⟩ ⟨2, [⟨0, 1⟩]⟩ (by decide) (by decide)
      (by unfold IntervalSet.WF; decide) (by unfold IntervalSet.WF; decide)
      rfl 2 1 (by decide) (by decide)
  · exact h16 ⟨2, [⟨1, 2⟩]⟩ ⟨2, [⟨0, 1⟩]⟩ (by decide) (by decide)
      (by unfold IntervalSet.WF; decide) (by unfold IntervalSet.WF; decide)
      rfl 2 1 (by decide) (by decide)
  · exact h17 ⟨2, [⟨1, 2⟩]⟩ 2 (by decide) (by decide)
  · exact h18 ⟨2, [⟨1, 2⟩]⟩ 2 (by decide) (by decide)
  · exact h19 ⟨2, [⟨1, 2⟩]⟩ 2 (by decide)
  · exact h20 ⟨2, [⟨1, 2⟩]⟩ ⟨2, [⟨0, 1⟩]⟩ 2 1 (by decide) (by decide)
      (by decide)
  · exact h21 ⟨2, [⟨1, 2⟩]⟩ ⟨2, [⟨0, 1⟩]⟩ 2 1 (by decide) (by decide)
      (by decide)
  · exact h22 ⟨2, [⟨1, 2⟩]⟩ ⟨2, [⟨0, 1⟩]⟩ (by decide) (by decide) 2 1
      (by decide) (by decide)
  · exact h23 ⟨2, [⟨1, 2⟩]⟩ ⟨2, [⟨0, 1⟩]⟩ (by decide) (by decide) 2 1
      (by decide) (by decide)
  · exact h24 ⟨2, [⟨1, 2⟩]⟩ ⟨2, [⟨0, 1⟩]⟩ (by decide) (by decide)
      (by unfold IntervalSet.WF; decide) (by unfold IntervalSet.WF; decide)
      rfl (by decide) 2 1 (by decide) (by decide)
  · exact h25 ⟨2, [⟨1, 2⟩]⟩ ⟨2, [⟨0, 1⟩]⟩ (by decide) (by decide)
      (by unfold IntervalSet.WF; decide) (by unfold IntervalSet.WF; decide)
      rfl (by decide) 2 1 (by decide) (by decide)
  · exact h26 ⟨2, [⟨0, 1⟩]⟩ ⟨2, [⟨1, 2⟩]⟩
      (by unfold IntervalSet.WF; decide) 0 2 (by decide) (by decide)
      (by decide)
  · exact h27 ⟨2, [⟨1, 2⟩]⟩ LsbOrMsb.kLsb 4 (by decide)
      (by unfold IntervalSet.WF; decide) 2 (by decide)

end interval_ops

namespace bdd

/-- Modelled from the spec: a single-bit boolean function over the BDD
variables, represented extensionally by its truth table (entry `k` is the
value of the function on the assignment encoded by the bits of `k`).
A node denotes the function of its bit 0. -/
abbrev BddFn := List Bool

/-- Modelled from the spec: pointwise negation of a boolean function. -/
def bddNot (f : BddFn) : BddFn := f.map (fun b => !b)

/-- Modelled from the spec: pointwise conjunction of boolean functions. -/
def bddAnd (f g : BddFn) : BddFn := List.zipWith (fun a b => a && b) f g

/-- Modelled from the spec: pointwise disjunction of boolean functions. -/
def bddOr (f g : BddFn) : BddFn := List.zipWith (fun a b => a || b) f g

/-- Modelled from the spec: a function is the constant-False function when
every entry of its truth table is false. -/
def isConstFalse (f : BddFn) : Bool := f.all (fun b => !b)

/-- Modelled from the spec: `Implies(a, b)` holds iff `AND(a, NOT b)` is the
constant-False function. -/
def Implies (a b : BddFn) : Bool := isConstFalse (bddAnd a (bddNot b))

/-- Modelled from the spec: `AtMostOneNodeTrue` checks that the AND of every
pair of listed node functions is constant-False; the empty list is
vacuously true. -/
def AtMostOneNodeTrue : List BddFn → Bool
  | [] => true
  | f :: rest =>
      rest.all (fun g => isConstFalse (bddAnd f g)) && AtMostOneNodeTrue rest

/-- Modelled from the spec: the bit-0 function of an equality comparison of
an `n`-bit input against the constant `c`. -/
def eqConst (n c : Nat) : BddFn := (List.range (2 ^ n)).map (fun k => decide (k = c))

/-- Modelled from the spec: the bit-0 function of an unsigned less-than
comparison of an `n`-bit input against the constant `c`. -/
def ltConst (n c : Nat) : BddFn := (List.range (2 ^ n)).map (fun k => decide (k < c))

/-- Modelled from the spec: the bit-0 function of an unsigned
greater-or-equal comparison of an `n`-bit input against the constant `c`. -/
def geConst (n c : Nat) : BddFn := (List.range (2 ^ n)).map (fun k => decide (c ≤ k))

/-- Modelled from the spec: an `ImpliedNodeValue` target is either a purely
bit-addressable bit-vector (one boolean function per bit) or a non-bit
aggregate such as an array. -/
inductive Target where
  | bitVector (bits : List BddFn)
  | aggregate (elems : List Target)

/-- Modelled from the spec: the (possibly negated) function contributed by
one (bit position, assumed value) pair. -/
def bddLit (p : BddFn × Bool) : BddFn := if p.2 then p.1 else bddNot p.1

/-- Modelled from the spec: the conjunction of the assumptions' possibly
negated functions, over a non-empty assumption list. -/
def assumptionsConj (a : BddFn × Bool) (rest : List (BddFn × Bool)) : BddFn :=
  rest.foldl (fun acc p => bddAnd acc (bddLit p)) (bddLit a)

/-- Modelled from the spec: the forced value of one target bit, if any:
`assumptions => bit = 1` forces true, `assumptions => bit = 0` forces
false, otherwise the bit is ambiguous. -/
def forcedBit (conj f : BddFn) : Option Bool :=
  if Implies conj f then some true
  else if Implies conj (bddNot f) then some false
  else none

/-- Modelled from the spec: `ImpliedNodeValue` returns the forced bit
vector of the target when the non-empty, satisfiable assumption
conjunction forces every bit of a bit-vector target, and reports nothing
implied otherwise. -/
def ImpliedNodeValue : List (BddFn × Bool) → Target → Option (List Bool)
  | [], _ => none
  | _ :: _, .aggregate _ => none
  | a :: rest, .bitVector bits =>
      let conj := assumptionsConj a rest
      if isConstFalse conj = true then none
      else
        let forced := bits.map (forcedBit conj)
        if forced.all Option.isSome = true then
          some (forced.map (fun o => o.getD false))
        else none

/-- C5: `ImpliedNodeValue` reports nothing implied — an empty optional,
never a wrong forced value — whenever (a) the assumption set is empty,
(b) the target is not a purely bit-addressable bit-vector (for example an
aggregate such as a 2-element array), or (c) some bit of a bit-vector
target is ambiguous: neither `assumptions => bit = 0` nor
`assumptions => bit = 1` holds, in which case the whole call reports
nothing implied rather than a partial result. -/
theorem ImpliedNodeValue_none_cases :
    (∀ target, ImpliedNodeValue [] target = none) ∧
      (∀ (assumptions : List (BddFn × Bool)) (elems : List Target),
        ImpliedNodeValue assumptions (Target.aggregate elems) = none) ∧
      (∀ (a : BddFn × Bool) (rest : List (BddFn × Bool)) (bits : List BddFn)
        (f : BddFn), f ∈ bits →
        Implies (assumptionsConj a rest) f = false →
        Implies (assumptionsConj a rest) (bddNot f) = false →
        ImpliedNodeValue (a :: rest) (Target.bitVector bits) = none) := by
  refine ⟨fun target => rfl, fun assumptions elems => ?_, ?_⟩
  · cases assumptions <;> rfl
  · intro a rest bits f hf h0 h1
    simp only [ImpliedNodeValue]
    by_cases hc : isConstFalse (assumptionsConj a rest) = true
    · rw [if_pos hc]
    · rw [if_neg hc, if_neg]
      intro hall
      have hmem : forcedBit (assumptionsConj a rest) f ∈
          bits.map (forcedBit (assumptionsConj a rest)) :=
        List.mem_map.mpr ⟨f, hf, rfl⟩
      have := List.all_eq_true.mp hall _ hmem
      rw [forcedBit, if_neg (by simp [h0]), if_neg (by simp [h1])] at this
      simp at this

/-- Witness for C5: a two-variable instance of the ambiguous-bit case —
assuming `a OR b` is true forces neither value of `a AND b`, so nothing is
implied, exactly as in the engine's logical no-value test. -/
theorem ImpliedNodeValue_none_cases_witness :
    ImpliedNodeValue [] (Target.bitVector [[false, true]]) = none ∧
      ImpliedNodeValue [(([false, true, true, true] : BddFn), true)]
        (Target.bitVector [[false, false, false, true]]) = none := by
  obtain ⟨h1, _, h3⟩ := ImpliedNodeValue_none_cases
  exact ⟨h1 _, h3 ([false, true, true, true], true) [] _
    [false, false, false, true] (by decide) (by decide) (by decide)⟩

/-- C9: if the conjunction of the assumed bit values handed to
`ImpliedNodeValue` is unsatisfiable (the constant-False function), the
call reports nothing implied for every target, rather than reporting any
forced value. -/
theorem ImpliedNodeValue_unsat_assumptions (a : BddFn × Bool)
    (rest : List (BddFn × Bool)) (target : Target)
    (h : isConstFalse (assumptionsConj a rest) = true) :
    ImpliedNodeValue (a :: rest) target = none := by
  cases target with
  | aggregate elems => rfl
  | bitVector bits =>
      simp only [ImpliedNodeValue]
      rw [if_pos h]

/-- Witness for C9: the engine's always-false-predicate scenario — a 1-bit
input `a` with assumptions `a = 1` and `NOT(a) = 1`, whose conjunction is
unsatisfiable, implies nothing about `OR(a, NOT a)`. -/
theorem ImpliedNodeValue_unsat_assumptions_witness :
    isConstFalse (assumptionsConj (([false, true] : BddFn), true)
        [((bddNot [false, true] : BddFn), true)]) = true ∧
      ImpliedNodeValue
        [(([false, true] : BddFn), true), ((bddNot [false, true] : BddFn), true)]
        (Target.bitVector [bddOr [false, true] (bddNot [false, true])]) = none :=
  ⟨by decide, ImpliedNodeValue_unsat_assumptions ([false, true], true)
    [(bddNot [false, true], true)]
    (Target.bitVector [bddOr [false, true] (bddNot [false, true])]) (by decide)⟩

/-- C7: `AtMostOneNodeTrue(nodes)` is true iff the AND of the bit-0
functions of every pair of listed nodes is the constant-False function,
with the empty list vacuously true; in particular equality comparisons of
the same input against distinct constants satisfy it, while the
overlapping pair of comparisons x less-than 42 and x at-least 20 does
not. -/
theorem AtMostOneNodeTrue_spec :
    (∀ nodes : List BddFn, AtMostOneNodeTrue nodes = true ↔
        nodes.Pairwise (fun f g => isConstFalse (bddAnd f g) = true)) ∧
      AtMostOneNodeTrue [] = true ∧
      AtMostOneNodeTrue [eqConst 6 0, eqConst 6 7, eqConst 6 42] = true ∧
      AtMostOneNodeTrue [ltConst 6 42, geConst 6 20] = false := by
  refine ⟨?_, rfl, by decide, by decide⟩
  intro nodes
  induction nodes with
  | nil => simp [AtMostOneNodeTrue]
  | cons f rest ih =>
      simp [AtMostOneNodeTrue, List.pairwise_cons, ih, List.all_eq_true]

/-- Witness for C7 at a concrete pair of distinct-constant equality
comparisons. -/
theorem AtMostOneNodeTrue_spec_witness :
    AtMostOneNodeTrue [eqConst 6 0, eqConst 6 7] = true ↔
      List.Pairwise (fun f g => isConstFalse (bddAnd f g) = true)
        [eqConst 6 0, eqConst 6 7] :=
  (AtMostOneNodeTrue_spec).1 [eqConst 6 0, eqConst 6 7]

end bdd

/-- The `could_be_le` scan of `interval_ops::CoversTernary`, iterating from
the most significant bit `i - 1` downwards: where the bound has a one, a
bit of the ternary that is not known-one can be chosen zero, deciding the
comparison; where the bound has a zero, a known-one ternary bit forces the
value above the bound. -/
def couldBeLeAux (t : List TernaryValue) (U : Nat) : Nat → Bool
  | 0 => true
  | i + 1 =>
      if U.testBit i then
        if t.getD i TernaryValue.kUnknown = TernaryValue.kKnownOne then
          couldBeLeAux t U i
        else true
      else
        if t.getD i TernaryValue.kUnknown = TernaryValue.kKnownOne then false
        else couldBeLeAux t U i

/-- The `could_be_ge` scan of `interval_ops::CoversTernary`, iterating from
the most significant bit downwards. -/
def couldBeGeAux (t : List TernaryValue) (L : Nat) : Nat → Bool
  | 0 => true
  | i + 1 =>
      if L.testBit i then
        if t.getD i TernaryValue.kUnknown = TernaryValue.kKnownZero then false
        else couldBeGeAux t L i
      else
        if t.getD i TernaryValue.kUnknown = TernaryValue.kKnownZero then
          couldBeGeAux t L i
        else true

/-- `could_be_le(t, U)` over the whole span. -/
def couldBeLe (t : List TernaryValue) (U : Nat) : Bool := couldBeLeAux t U t.length

/-- `could_be_ge(t, L)` over the whole span. -/
def couldBeGe (t : List TernaryValue) (L : Nat) : Bool := couldBeGeAux t L t.length

/-- The divergence-bit case split of `interval_ops::CoversTernary`, after
the fully-known and precise fast paths: `k` is the length of the bounds'
longest common MSB prefix, the interval is proper iff the upper bound has
a one at the divergence bit `w - k - 1`, and the known/unknown divergence
bit of the ternary routes to the `could_be_le` / `could_be_ge` scans over
the remaining low bits. -/
def coversTernaryDivergence (w : Nat) (iv : Interval) (t : List TernaryValue)
    (k : Nat) : Bool :=
  if iv.upperBound.testBit (w - k - 1) &&
      ! ternaryIsCompatible (t.drop (w - k)) (iv.lowerBound / 2 ^ (w - k)) then
    false
  else if ! iv.upperBound.testBit (w - k - 1) &&
      ! (ternaryIsFullyKnown (t.drop (w - k)) &&
        decide (ternaryToKnownBitsValues (t.drop (w - k)) =
          iv.lowerBound / 2 ^ (w - k))) then
    true
  else if ternaryIsKnown (t.getD (w - k - 1) TernaryValue.kUnknown) then
    if decide (t.getD (w - k - 1) TernaryValue.kUnknown = TernaryValue.kKnownZero) =
        iv.upperBound.testBit (w - k - 1) then
      couldBeGe (t.take (w - k - 1)) (iv.lowerBound % 2 ^ (w - k - 1))
    else couldBeLe (t.take (w - k - 1)) (iv.upperBound % 2 ^ (w - k - 1))
  else
    couldBeLe (t.take (w - k - 1)) (iv.upperBound % 2 ^ (w - k - 1)) ||
      couldBeGe (t.take (w - k - 1)) (iv.lowerBound % 2 ^ (w - k - 1))

/-- `interval_ops::CoversTernary` on a single interval of ambient width
`w`: mismatched widths are rejected; a fully-known ternary reduces to
plain interval membership; a precise interval reduces to compatibility
with its single value; otherwise the divergence-bit case split decides the
query without enumeration. -/
def Interval.CoversTernary (w : Nat) (iv : Interval) (t : List TernaryValue) : Bool :=
  if w ≠ t.length then false
  else if ternaryIsFullyKnown t then iv.Covers (ternaryToKnownBitsValues t)
  else if iv.IsPrecise then ternaryIsCompatible t iv.lowerBound
  else coversTernaryDivergence w iv t (lcpLen w iv.lowerBound iv.upperBound)

/-- `interval_ops::CoversTernary` on an interval set: some member interval
covers the ternary. -/
def IntervalSet.CoversTernary (s : IntervalSet) (t : List TernaryValue) : Bool :=
  if s.bitCount ≠ t.length then false
  else s.intervals.any (fun iv => Interval.CoversTernary s.bitCount iv t)

theorem getD_take (t : List TernaryValue) (n j : Nat) (h : j < n) :
    (t.take n).getD j TernaryValue.kUnknown = t.getD j TernaryValue.kUnknown := by
  rw [List.getD_eq_getElem?_getD, List.getD_eq_getElem?_getD,
    List.getElem?_take, if_pos h]

theorem getD_drop (t : List TernaryValue) (n j : Nat) :
    (t.drop n).getD j TernaryValue.kUnknown = t.getD (n + j) TernaryValue.kUnknown := by
  rw [List.getD_eq_getElem?_getD, List.getD_eq_getElem?_getD, List.getElem?_drop]

theorem mod_pow_succ_testBit (U i : Nat) :
    U % 2 ^ (i + 1) = (if U.testBit i then 2 ^ i else 0) + U % 2 ^ i := by
  have hm : U % 2 ^ (i + 1) = U % 2 ^ i + 2 ^ i * (U / 2 ^ i % 2) := by
    rw [pow_succ, Nat.mod_mul]
  have h2 : U / 2 ^ i % 2 < 2 := Nat.mod_lt _ (by omega)
  rw [Nat.testBit_to_div_mod]
  by_cases h : U / 2 ^ i % 2 = 1
  · rw [h, Nat.mul_one] at hm
    rw [if_pos (by rw [h]; rfl)]
    omega
  · have h0 : U / 2 ^ i % 2 = 0 := by omega
    rw [h0, Nat.mul_zero] at hm
    rw [if_neg (by rw [h0]; simp)]
    omega

theorem val_decomp_testBit (v i : Nat) (hv : v < 2 ^ (i + 1)) :
    v = (if v.testBit i then 2 ^ i else 0) + v % 2 ^ i := by
  have := mod_pow_succ_testBit v i
  rwa [Nat.mod_eq_of_lt hv] at this

theorem compat_toKnownBitsValues (t : List TernaryValue) :
    ternaryIsCompatible t (ternaryToKnownBitsValues t) = true := by
  refine ternaryIsCompatible_of_testBit t _ (ternaryToKnownBitsValues_lt t) ?_
  intro idx _
  rw [ternaryToKnownBitsValues_testBit]
  constructor
  · intro h; rw [h]; simp
  · intro h; rw [h]; simp

theorem not_fullyKnown_exists (t : List TernaryValue)
    (h : ternaryIsFullyKnown t = false) :
    ∃ j, j < t.length ∧ t.getD j TernaryValue.kUnknown = TernaryValue.kUnknown := by
  unfold ternaryIsFullyKnown at h
  rw [← Bool.not_eq_true, List.all_eq_true] at h
  push_neg at h
  obtain ⟨tv, hmem, hk⟩ := h
  obtain ⟨j, hj, hget⟩ := List.mem_iff_getElem.mp hmem
  refine ⟨j, hj, ?_⟩
  rw [List.getD_eq_getElem?_getD, List.getElem?_eq_getElem hj]
  cases tv <;> simp [ternaryIsKnown] at hk ⊢ <;> simp [hget]

theorem compat_split (t : List TernaryValue) (d : Nat) (hd : d < t.length) (v : Nat) :
    ternaryIsCompatible t v = true ↔
      (v < 2 ^ t.length ∧
        ternaryIsCompatible (t.take d) (v % 2 ^ d) = true ∧
        (t.getD d TernaryValue.kUnknown = TernaryValue.kKnownOne →
          v.testBit d = true) ∧
        (t.getD d TernaryValue.kUnknown = TernaryValue.kKnownZero →
          v.testBit d = false) ∧
        ternaryIsCompatible (t.drop (d + 1)) (v / 2 ^ (d + 1)) = true) := by
  have hlen_take : (t.take d).length = d := by
    rw [List.length_take]; omega
  have hlen_drop : (t.drop (d + 1)).length = t.length - (d + 1) :=
    List.length_drop (d + 1) t
  constructor
  · intro h
    have hbit := ternaryIsCompatible_testBit t v h
    refine ⟨ternaryIsCompatible_lt t v h, ?_, (hbit d hd).1, (hbit d hd).2,
      ternaryIsCompatible_drop t (d + 1) v h⟩
    refine ternaryIsCompatible_of_testBit _ _ (by rw [hlen_take]; exact Nat.mod_lt _ (by positivity)) ?_
    intro idx hidx
    rw [hlen_take] at hidx
    rw [getD_take t d idx hidx]
    have := hbit idx (by omega)
    rw [Nat.testBit_mod_two_pow, decide_eq_true hidx, Bool.true_and]
    exact this
  · rintro ⟨hlt, htake, h1, h0, hdrop⟩
    refine ternaryIsCompatible_of_testBit t v hlt ?_
    intro idx hidx
    rcases Nat.lt_trichotomy idx d with hc | rfl | hc
    · have := ternaryIsCompatible_testBit _ _ htake idx (by rw [hlen_take]; omega)
      rw [getD_take t d idx hc, Nat.testBit_mod_two_pow,
        decide_eq_true hc, Bool.true_and] at this
      exact this
    · exact ⟨h1, h0⟩
    · have := ternaryIsCompatible_testBit _ _ hdrop (idx - (d + 1))
        (by rw [hlen_drop]; omega)
      rw [getD_drop t (d + 1) (idx - (d + 1)), testBit_div_pow,
        Nat.add_sub_cancel' (by omega : d + 1 ≤ idx)] at this
      exact this

theorem assemble_bits (d Qp : Nat) (b : Bool) (vl : Nat) (hvl : vl < 2 ^ d) :
    (Qp * 2 ^ (d + 1) + (if b then 2 ^ d else 0) + vl) / 2 ^ (d + 1) = Qp ∧
      (Qp * 2 ^ (d + 1) + (if b then 2 ^ d else 0) + vl) % 2 ^ d = vl ∧
      (Qp * 2 ^ (d + 1) + (if b then 2 ^ d else 0) + vl).testBit d = b := by
  set bb : Nat := if b then 2 ^ d else 0 with hbb
  have hp : (2 : Nat) ^ (d + 1) = 2 ^ d * 2 := pow_succ 2 d
  have hbb2 : bb = 2 ^ d ∨ bb = 0 := by
    rw [hbb]; split <;> simp
  have hd0 : (0 : Nat) < 2 ^ d := by positivity
  refine ⟨?_, ?_, ?_⟩
  · refine Nat.div_eq_of_lt_le (by omega) ?_
    have : (Qp + 1) * 2 ^ (d + 1) = Qp * 2 ^ (d + 1) + 2 ^ (d + 1) := by ring
    simp only [Nat.succ_eq_add_one, this]
    omega
  · have hform : Qp * 2 ^ (d + 1) + bb + vl =
        2 ^ d * (Qp * 2 + (if b then 1 else 0)) + vl := by
      rw [hbb]; split <;> ring
    rw [hform, Nat.mul_add_mod, Nat.mod_eq_of_lt hvl]
  · have hform : Qp * 2 ^ (d + 1) + bb + vl =
        (Qp * 2 + (if b then 1 else 0)) * 2 ^ d + vl := by
      rw [hbb]; split <;> ring
    rw [Nat.testBit_to_div_mod, hform]
    have hdiv : ((Qp * 2 + (if b then 1 else 0)) * 2 ^ d + vl) / 2 ^ d =
        Qp * 2 + (if b then 1 else 0) := by
      refine Nat.div_eq_of_lt_le (by omega) ?_
      have : (Qp * 2 + (if b then 1 else 0) + 1) * 2 ^ d =
          (Qp * 2 + (if b then 1 else 0)) * 2 ^ d + 2 ^ d := by ring
      simp only [Nat.succ_eq_add_one, this]
      omega
    rw [hdiv]
    cases b <;> simp <;> omega

theorem compat_take_lt (t : List TernaryValue) (i v : Nat) (hi : i ≤ t.length)
    (h : ternaryIsCompatible (t.take i) v = true) : v < 2 ^ i := by
  have := ternaryIsCompatible_lt _ _ h
  rwa [List.length_take, Nat.min_eq_left hi] at this

theorem compat_take_succ_iff (t : List TernaryValue) (i : Nat) (hi : i < t.length)
    (v : Nat) :
    ternaryIsCompatible (t.take (i + 1)) v = true ↔
      (v < 2 ^ (i + 1) ∧
        ternaryIsCompatible (t.take i) (v % 2 ^ i) = true ∧
        (t.getD i TernaryValue.kUnknown = TernaryValue.kKnownOne →
          v.testBit i = true) ∧
        (t.getD i TernaryValue.kUnknown = TernaryValue.kKnownZero →
          v.testBit i = false)) := by
  have hlen : (t.take (i + 1)).length = i + 1 := by
    rw [List.length_take]; omega
  have h := compat_split (t.take (i + 1)) i (by omega) v
  rw [hlen] at h
  have e1 : (t.take (i + 1)).take i = t.take i := by
    rw [List.take_take]; congr 1; omega
  have e2 : (t.take (i + 1)).drop (i + 1) = [] :=
    List.drop_eq_nil_of_le (by omega)
  rw [h, e1, e2, getD_take t (i + 1) i (by omega)]
  constructor
  · rintro ⟨h1, h2, h3, h4, _⟩; exact ⟨h1, h2, h3, h4⟩
  · rintro ⟨h1, h2, h3, h4⟩
    refine ⟨h1, h2, h3, h4, ?_⟩
    rw [Nat.div_eq_of_lt h1]
    simp [ternaryIsCompatible]

theorem couldBeLeAux_spec (t : List TernaryValue) (U : Nat) :
    ∀ i, i ≤ t.length →
      (couldBeLeAux t U i = true ↔
        ∃ v, ternaryIsCompatible (t.take i) v = true ∧ v ≤ U % 2 ^ i) := by
  intro i
  induction i with
  | zero =>
      intro _
      constructor
      · intro _
        exact ⟨0, by simp [ternaryIsCompatible], by omega⟩
      · intro _; rfl
  | succ i ih =>
      intro hi
      have hi' : i < t.length := by omega
      have hU1 := mod_pow_succ_testBit U i
      have hUlt : U % 2 ^ i < 2 ^ i := Nat.mod_lt _ (by positivity)
      have hp : (2 : Nat) ^ (i + 1) = 2 ^ i * 2 := pow_succ 2 i
      unfold couldBeLeAux
      by_cases hU : U.testBit i = true
      · rw [if_pos hU]
        by_cases hx : t.getD i TernaryValue.kUnknown = TernaryValue.kKnownOne
        · rw [if_pos hx, ih (by omega)]
          constructor
          · rintro ⟨v', hc', hle'⟩
            have hv'lt := compat_take_lt t i v' (by omega) hc'
            refine ⟨2 ^ i + v', ?_, ?_⟩
            · rw [compat_take_succ_iff t i hi']
              obtain ⟨hb1, hb2, hb3⟩ := assemble_bits i 0 true v' hv'lt
              have he : 0 * 2 ^ (i + 1) + (if true then 2 ^ i else 0) + v' =
                  2 ^ i + v' := by simp
              rw [he] at hb1 hb2 hb3
              refine ⟨by omega, by rw [hb2]; exact hc', fun _ => hb3,
                fun h0 => absurd h0 (by rw [hx]; simp)⟩
            · rw [hU1, if_pos hU]; omega
          · rintro ⟨v, hc, hle⟩
            rw [compat_take_succ_iff t i hi'] at hc
            obtain ⟨hvlt, hcl, hb1, _⟩ := hc
            have hbit := hb1 hx
            have hdec := val_decomp_testBit v i hvlt
            rw [hbit] at hdec
            simp at hdec
            rw [hU1, if_pos hU] at hle
            exact ⟨v % 2 ^ i, hcl, by omega⟩
        · rw [if_neg hx]
          constructor
          · intro _
            refine ⟨ternaryToKnownBitsValues (t.take (i + 1)),
              compat_toKnownBitsValues _, ?_⟩
            have hlt : ternaryToKnownBitsValues (t.take (i + 1)) < 2 ^ (i + 1) := by
              have := ternaryToKnownBitsValues_lt (t.take (i + 1))
              rwa [List.length_take, Nat.min_eq_left (by omega)] at this
            have hbit : (ternaryToKnownBitsValues (t.take (i + 1))).testBit i = false := by
              rw [ternaryToKnownBitsValues_testBit, getD_take t (i + 1) i (by omega)]
              exact decide_eq_false hx
            have hdec := val_decomp_testBit _ i hlt
            rw [hbit] at hdec
            simp at hdec
            have hm : ternaryToKnownBitsValues (t.take (i + 1)) % 2 ^ i < 2 ^ i :=
              Nat.mod_lt _ (by positivity)
            rw [hU1, if_pos hU]
            omega
          · intro _; rfl
      · rw [if_neg hU]
        by_cases hx : t.getD i TernaryValue.kUnknown = TernaryValue.kKnownOne
        · rw [if_pos hx]
          constructor
          · intro h; simp at h
          · rintro ⟨v, hc, hle⟩
            rw [compat_take_succ_iff t i hi'] at hc
            obtain ⟨hvlt, _, hb1, _⟩ := hc
            have hbit := hb1 hx
            have hdec := val_decomp_testBit v i hvlt
            rw [hbit] at hdec
            simp at hdec
            rw [hU1, if_neg hU] at hle
            exfalso; omega
        · rw [if_neg hx, ih (by omega)]
          constructor
          · rintro ⟨v', hc', hle'⟩
            have hv'lt := compat_take_lt t i v' (by omega) hc'
            refine ⟨v', ?_, ?_⟩
            · rw [compat_take_succ_iff t i hi']
              refine ⟨by omega, by rw [Nat.mod_eq_of_lt hv'lt]; exact hc',
                fun h1 => absurd h1 hx, fun _ => Nat.testBit_lt_two_pow hv'lt⟩
            · rw [hU1, if_neg hU]; omega
          · rintro ⟨v, hc, hle⟩
            rw [compat_take_succ_iff t i hi'] at hc
            obtain ⟨hvlt, hcl, _, _⟩ := hc
            rw [hU1, if_neg hU] at hle
            have hvi : v < 2 ^ i := by omega
            refine ⟨v, ?_, by omega⟩
            rwa [Nat.mod_eq_of_lt hvi] at hcl

theorem couldBeGeAux_spec (t : List TernaryValue) (L : Nat) :
    ∀ i, i ≤ t.length →
      (couldBeGeAux t L i = true ↔
        ∃ v, ternaryIsCompatible (t.take i) v = true ∧ L % 2 ^ i ≤ v) := by
  intro i
  induction i with
  | zero =>
      intro _
      constructor
      · intro _
        exact ⟨0, by simp [ternaryIsCompatible], by omega⟩
      · intro _; rfl
  | succ i ih =>
      intro hi
      have hi' : i < t.length := by omega
      have hL1 := mod_pow_succ_testBit L i
      have hLlt : L % 2 ^ i < 2 ^ i := Nat.mod_lt _ (by positivity)
      have hp : (2 : Nat) ^ (i + 1) = 2 ^ i * 2 := pow_succ 2 i
      unfold couldBeGeAux
      by_cases hL : L.testBit i = true
      · rw [if_pos hL]
        by_cases hx : t.getD i TernaryValue.kUnknown = TernaryValue.kKnownZero
        · rw [if_pos hx]
          constructor
          · intro h; simp at h
          · rintro ⟨v, hc, hge⟩
            rw [compat_take_succ_iff t i hi'] at hc
            obtain ⟨hvlt, _, _, hb0⟩ := hc
            have hbit := hb0 hx
            have hdec := val_decomp_testBit v i hvlt
            rw [hbit] at hdec
            simp at hdec
            have hvm : v % 2 ^ i < 2 ^ i := Nat.mod_lt _ (by positivity)
            rw [hL1, if_pos hL] at hge
            exfalso; omega
        · rw [if_neg hx, ih (by omega)]
          constructor
          · rintro ⟨v', hc', hge'⟩
            have hv'lt := compat_take_lt t i v' (by omega) hc'
            refine ⟨2 ^ i + v', ?_, ?_⟩
            · rw [compat_take_succ_iff t i hi']
              obtain ⟨hb1, hb2, hb3⟩ := assemble_bits i 0 true v' hv'lt
              have he : 0 * 2 ^ (i + 1) + (if true then 2 ^ i else 0) + v' =
                  2 ^ i + v' := by simp
              rw [he] at hb1 hb2 hb3
              refine ⟨by omega, by rw [hb2]; exact hc', fun _ => hb3,
                fun h0 => absurd h0 hx⟩
            · rw [hL1, if_pos hL]; omega
          · rintro ⟨v, hc, hge⟩
            rw [compat_take_succ_iff t i hi'] at hc
            obtain ⟨hvlt, hcl, _, _⟩ := hc
            rw [hL1, if_pos hL] at hge
            have hbit : v.testBit i = true := by
              by_cases hbb : v.testBit i = true
              · exact hbb
              · have hbb' : v.testBit i = false := by
                  simpa using hbb
                have hdec := val_decomp_testBit v i hvlt
                rw [hbb'] at hdec
                simp at hdec
                have hvm : v % 2 ^ i < 2 ^ i := Nat.mod_lt _ (by positivity)
                exfalso; omega
            have hdec := val_decomp_testBit v i hvlt
            rw [hbit] at hdec
            simp at hdec
            exact ⟨v % 2 ^ i, hcl, by omega⟩
      · rw [if_neg hL]
        by_cases hx : t.getD i TernaryValue.kUnknown = TernaryValue.kKnownZero
        · rw [if_pos hx, ih (by omega)]
          constructor
          · rintro ⟨v', hc', hge'⟩
            have hv'lt := compat_take_lt t i v' (by omega) hc'
            refine ⟨v', ?_, ?_⟩
            · rw [compat_take_succ_iff t i hi']
              refine ⟨by omega, by rw [Nat.mod_eq_of_lt hv'lt]; exact hc',
                fun h1 => absurd h1 (by rw [hx]; simp),
                fun _ => Nat.testBit_lt_two_pow hv'lt⟩
            · rw [hL1, if_neg hL]; omega
          · rintro ⟨v, hc, hge⟩
            rw [compat_take_succ_iff t i hi'] at hc
            obtain ⟨hvlt, hcl, _, hb0⟩ := hc
            have hbit := hb0 hx
            have hdec := val_decomp_testBit v i hvlt
            rw [hbit] at hdec
            simp at hdec
            rw [hL1, if_neg hL] at hge
            exact ⟨v % 2 ^ i, hcl, by omega⟩
        · rw [if_neg hx]
          constructor
          · intro _
            refine ⟨2 ^ i + ternaryToKnownBitsValues (t.take i), ?_, ?_⟩
            · rw [compat_take_succ_iff t i hi']
              have hklt : ternaryToKnownBitsValues (t.take i) < 2 ^ i := by
                have := ternaryToKnownBitsValues_lt (t.take i)
                rwa [List.length_take, Nat.min_eq_left (by omega)] at this
              obtain ⟨hb1, hb2, hb3⟩ := assemble_bits i 0 true
                (ternaryToKnownBitsValues (t.take i)) hklt
              have he : 0 * 2 ^ (i + 1) + (if true then 2 ^ i else 0) +
                  ternaryToKnownBitsValues (t.take i) =
                  2 ^ i + ternaryToKnownBitsValues (t.take i) := by simp
              rw [he] at hb1 hb2 hb3
              refine ⟨by omega, by rw [hb2]; exact compat_toKnownBitsValues _,
                fun _ => hb3, fun h0 => absurd h0 hx⟩
            · rw [hL1, if_neg hL]; omega
          · intro _; rfl

theorem couldBeLe_spec (t : List TernaryValue) (U : Nat) (hU : U < 2 ^ t.length) :
    couldBeLe t U = true ↔
      ∃ v, ternaryIsCompatible t v = true ∧ v ≤ U := by
  unfold couldBeLe
  rw [couldBeLeAux_spec t U t.length (le_refl _), List.take_length,
    Nat.mod_eq_of_lt hU]

theorem couldBeGe_spec (t : List TernaryValue) (L : Nat) (hL : L < 2 ^ t.length) :
    couldBeGe t L = true ↔
      ∃ v, ternaryIsCompatible t v = true ∧ L ≤ v := by
  unfold couldBeGe
  rw [couldBeGeAux_spec t L t.length (le_refl _), List.take_length,
    Nat.mod_eq_of_lt hL]

theorem lcpLen_diverge (w a b : Nat) (h : lcpLen w a b < w) :
    a.testBit (w - lcpLen w a b - 1) ≠ b.testBit (w - lcpLen w a b - 1) := by
  induction w with
  | zero => omega
  | succ k ih =>
      unfold lcpLen at h ⊢
      by_cases heq : a.testBit k = b.testBit k
      · rw [if_pos heq] at h ⊢
        have h' : lcpLen k a b < k := by omega
        have harith : k + 1 - (lcpLen k a b + 1) - 1 = k - lcpLen k a b - 1 := by
          omega
        rw [harith]
        exact ih h'
      · rw [if_neg heq]
        have harith : k + 1 - 0 - 1 = k := by omega
        rw [harith]
        exact heq

theorem exists_incompatible_prefix (p : List TernaryValue) (P : Nat)
    (hP : P < 2 ^ p.length)
    (h : (ternaryIsFullyKnown p &&
      decide (ternaryToKnownBitsValues p = P)) = false) :
    ∃ Q, ternaryIsCompatible p Q = true ∧ Q ≠ P := by
  by_cases hcp : ternaryIsCompatible p P = true
  · have hnf : ternaryIsFullyKnown p = false := by
      by_contra h'
      have h'' : ternaryIsFullyKnown p = true := by simpa using h'
      have heq := compat_fullyKnown_eq p P h'' hcp
      rw [h'', heq] at h
      simp at h
    obtain ⟨j, hj, hju⟩ := not_fullyKnown_exists p hnf
    refine ⟨P ^^^ 2 ^ j, ?_, ?_⟩
    · refine ternaryIsCompatible_of_testBit _ _ ?_ ?_
      · exact Nat.xor_lt_two_pow hP (Nat.pow_lt_pow_right (by omega) hj)
      · intro idx hidx
        by_cases hij : idx = j
        · subst hij
          rw [hju]
          exact ⟨fun hh => by simp at hh, fun hh => by simp at hh⟩
        · have hbit : (P ^^^ 2 ^ j).testBit idx = P.testBit idx := by
            rw [Nat.testBit_xor, Nat.testBit_two_pow]
            have : decide (j = idx) = false := by
              simp [Ne.symm hij]
            rw [this, Bool.xor_false]
          rw [hbit]
          exact ternaryIsCompatible_testBit p P hcp idx hidx
    · intro h'
      have hb := congrArg (fun n => n.testBit j) h'
      simp only [Nat.testBit_xor, Nat.testBit_two_pow] at hb
      simp at hb
  · refine ⟨ternaryToKnownBitsValues p, compat_toKnownBitsValues p, ?_⟩
    intro h'
    rw [← h'] at hcp
    exact hcp (compat_toKnownBitsValues p)

theorem decomp_bits (n e : Nat) :
    n = 2 ^ (e + 1) * (n / 2 ^ (e + 1)) +
      ((if n.testBit e then 2 ^ e else 0) + n % 2 ^ e) := by
  have h1 := Nat.div_add_mod n (2 ^ (e + 1))
  have h2 := mod_pow_succ_testBit n e
  omega

theorem coversTernaryDivergence_iff (iv : Interval) (t : List TernaryValue)
    (hlo : iv.lowerBound < 2 ^ t.length) (hhi : iv.upperBound < 2 ^ t.length)
    (hne : iv.lowerBound ≠ iv.upperBound) :
    coversTernaryDivergence t.length iv t
        (lcpLen t.length iv.lowerBound iv.upperBound) = true ↔
      ∃ v, ternaryIsCompatible t v = true ∧ iv.Covers v = true := by
  set lo := iv.lowerBound with hlo_def
  set hi := iv.upperBound with hhi_def
  set k := lcpLen t.length lo hi with hk_def
  have hkle : k ≤ t.length := lcpLen_le t.length lo hi
  have hkw : k < t.length := by
    rcases Nat.lt_or_ge k t.length with h | h
    · exact h
    · exfalso
      have hdiv := div_pow_eq_of_testBit lo hi t.length 0 hlo hhi
        (fun j h1 h2 => lcpLen_testBit_eq t.length lo hi j (by omega) h2)
      simp at hdiv
      exact hne hdiv
  set d := t.length - k - 1 with hd_def
  have hdk1 : t.length - k - 1 = d := rfl
  have hdk : t.length - k = d + 1 := by omega
  have hdw : d < t.length := by omega
  have hdiff : lo.testBit d ≠ hi.testBit d := by
    have h := lcpLen_diverge t.length lo hi hkw
    rwa [← hk_def, hdk1] at h
  have hPeq : hi / 2 ^ (d + 1) = lo / 2 ^ (d + 1) := by
    refine div_pow_eq_of_testBit hi lo t.length (d + 1) hhi hlo ?_
    intro j h1 h2
    exact (lcpLen_testBit_eq t.length lo hi j (by omega) h2).symm
  set P := lo / 2 ^ (d + 1) with hP_def
  have hPlt : P < 2 ^ k := by
    rw [hP_def]
    refine (Nat.div_lt_iff_lt_mul (by positivity)).mpr ?_
    calc lo < 2 ^ t.length := hlo
      _ = 2 ^ k * 2 ^ (d + 1) := by rw [← pow_add]; congr 1; omega
  have hLlt : lo % 2 ^ d < 2 ^ d := Nat.mod_lt _ (by positivity)
  have hUlt : hi % 2 ^ d < 2 ^ d := Nat.mod_lt _ (by positivity)
  have hp2 : (2 : Nat) ^ (d + 1) = 2 ^ d * 2 := pow_succ 2 d
  have hw2 : (2 : Nat) ^ t.length = 2 ^ (d + 1) * 2 ^ k := by
    rw [← pow_add]; congr 1; omega
  have hco : 2 ^ (d + 1) * P = P * 2 ^ (d + 1) := Nat.mul_comm _ _
  have hsplit : ∀ v, ternaryIsCompatible t v = true ↔
      (v < 2 ^ t.length ∧
        ternaryIsCompatible (t.take d) (v % 2 ^ d) = true ∧
        (t.getD d TernaryValue.kUnknown = TernaryValue.kKnownOne →
          v.testBit d = true) ∧
        (t.getD d TernaryValue.kUnknown = TernaryValue.kKnownZero →
          v.testBit d = false) ∧
        ternaryIsCompatible (t.drop (d + 1)) (v / 2 ^ (d + 1)) = true) :=
    fun v => compat_split t d (by omega) v
  unfold coversTernaryDivergence
  rw [hdk1, hdk]
  set pre := t.drop (d + 1) with hpre_def
  set tl := t.take d with htl_def
  have hple : pre.length = k := by
    rw [hpre_def, List.length_drop]; omega
  have htll : tl.length = d := by
    rw [htl_def, List.length_take]; omega
  have hLeS : couldBeLe tl (hi % 2 ^ d) = true ↔
      ∃ vl, ternaryIsCompatible tl vl = true ∧ vl ≤ hi % 2 ^ d := by
    refine couldBeLe_spec tl (hi % 2 ^ d) ?_
    rw [htll]; exact hUlt
  have hGeS : couldBeGe tl (lo % 2 ^ d) = true ↔
      ∃ vl, ternaryIsCompatible tl vl = true ∧ lo % 2 ^ d ≤ vl := by
    refine couldBeGe_spec tl (lo % 2 ^ d) ?_
    rw [htll]; exact hLlt
  have hwlt : ∀ Q vl, Q < 2 ^ k → vl < 2 ^ (d + 1) →
      2 ^ (d + 1) * Q + vl < 2 ^ t.length := by
    intro Q vl hQ hvl
    have hmul : 2 ^ (d + 1) * (Q + 1) ≤ 2 ^ (d + 1) * 2 ^ k :=
      Nat.mul_le_mul_left _ hQ
    have hring : 2 ^ (d + 1) * (Q + 1) = 2 ^ (d + 1) * Q + 2 ^ (d + 1) := by ring
    omega
  by_cases hproper : hi.testBit d = true
  · -- proper interval: the upper bound has a one at the divergence bit
    have hlobit : lo.testBit d = false := by
      cases hbo : lo.testBit d
      · rfl
      · rw [hbo, hproper] at hdiff
        exact absurd rfl hdiff
    have hLoD : lo = 2 ^ (d + 1) * P + lo % 2 ^ d := by
      have h := decomp_bits lo d
      rw [← hP_def, hlobit] at h
      simpa using h
    have hHiD : hi = 2 ^ (d + 1) * P + (2 ^ d + hi % 2 ^ d) := by
      have h := decomp_bits hi d
      rw [hPeq, hproper] at h
      simpa using h
    have hlohi : lo ≤ hi := by omega
    have hCov : ∀ v, iv.Covers v = true ↔ (lo ≤ v ∧ v ≤ hi) := by
      intro v
      unfold Interval.Covers
      rw [← hlo_def, ← hhi_def, if_pos hlohi]
      simp only [Bool.and_eq_true, decide_eq_true_eq]
    have hforce : ∀ v, lo ≤ v → v ≤ hi → v / 2 ^ (d + 1) = P := by
      intro v h1 h2
      refine Nat.div_eq_of_lt_le (by omega) ?_
      have hsucc : (P + 1) * 2 ^ (d + 1) = 2 ^ (d + 1) * P + 2 ^ (d + 1) := by ring
      simp only [Nat.succ_eq_add_one, hsucc]
      omega
    by_cases hcp : ternaryIsCompatible pre P = true
    · -- shared prefix is compatible: proceed to the divergence bit
      rw [if_neg (by rw [hproper, hcp]; simp)]
      rw [if_neg (by rw [hproper]; simp)]
      have hmaster : (∃ v, ternaryIsCompatible t v = true ∧ iv.Covers v = true) ↔
          (∃ vl, ternaryIsCompatible tl vl = true ∧
            ((t.getD d TernaryValue.kUnknown ≠ TernaryValue.kKnownOne ∧
                lo % 2 ^ d ≤ vl) ∨
              (t.getD d TernaryValue.kUnknown ≠ TernaryValue.kKnownZero ∧
                vl ≤ hi % 2 ^ d))) := by
        constructor
        · rintro ⟨v, hc, hcov⟩
          rw [hCov v] at hcov
          have hQ := hforce v hcov.1 hcov.2
          rw [hsplit v] at hc
          obtain ⟨hvw, hcl, hx1, hx0, _⟩ := hc
          have hvd := decomp_bits v d
          rw [hQ] at hvd
          refine ⟨v % 2 ^ d, hcl, ?_⟩
          by_cases hb : v.testBit d = true
          · right
            refine ⟨?_, ?_⟩
            · intro hxz
              have hf := hx0 hxz
              rw [hb] at hf
              simp at hf
            · rw [hb] at hvd
              simp at hvd
              omega
          · left
            have hbf : v.testBit d = false := by simpa using hb
            refine ⟨?_, ?_⟩
            · intro hxo
              have hf := hx1 hxo
              rw [hbf] at hf
              simp at hf
            · rw [hbf] at hvd
              simp at hvd
              omega
        · rintro ⟨vl, hcl, hcase⟩
          have hvl_lt : vl < 2 ^ d := by
            have := ternaryIsCompatible_lt tl vl hcl
            rwa [htll] at this
          rcases hcase with ⟨hxne, hge⟩ | ⟨hxne, hle⟩
          · refine ⟨2 ^ (d + 1) * P + vl, ?_, ?_⟩
            · rw [hsplit]
              obtain ⟨ha1, ha2, ha3⟩ := assemble_bits d P false vl hvl_lt
              have he : P * 2 ^ (d + 1) + (if false then 2 ^ d else 0) + vl =
                  2 ^ (d + 1) * P + vl := by simp; ring
              rw [he] at ha1 ha2 ha3
              exact ⟨hwlt P vl hPlt (by omega), by rw [ha2]; exact hcl,
                fun h1 => absurd h1 hxne, fun _ => ha3, by rw [ha1]; exact hcp⟩
            · rw [hCov]
              constructor
              · omega
              · omega
          · refine ⟨2 ^ (d + 1) * P + (2 ^ d + vl), ?_, ?_⟩
            · rw [hsplit]
              obtain ⟨ha1, ha2, ha3⟩ := assemble_bits d P true vl hvl_lt
              have he : P * 2 ^ (d + 1) + (if true then 2 ^ d else 0) + vl =
                  2 ^ (d + 1) * P + (2 ^ d + vl) := by simp; ring
              rw [he] at ha1 ha2 ha3
              exact ⟨hwlt P (2 ^ d + vl) hPlt (by omega), by rw [ha2]; exact hcl,
                fun _ => ha3, fun h0 => absurd h0 hxne, by rw [ha1]; exact hcp⟩
            · rw [hCov]
              constructor
              · omega
              · omega
      rw [hmaster]
      cases hgd : t.getD d TernaryValue.kUnknown with
      | kKnownZero =>
          rw [if_pos (by rfl), hproper, if_pos (by decide), hGeS]
          constructor
          · rintro ⟨vl, h1, h2⟩
            exact ⟨vl, h1, Or.inl ⟨by simp, h2⟩⟩
          · rintro ⟨vl, h1, h2 | h2⟩
            · exact ⟨vl, h1, h2.2⟩
            · exact absurd rfl h2.1
      | kKnownOne =>
          rw [if_pos (by rfl), hproper, if_neg (by decide), hLeS]
          constructor
          · rintro ⟨vl, h1, h2⟩
            exact ⟨vl, h1, Or.inr ⟨by simp, h2⟩⟩
          · rintro ⟨vl, h1, h2 | h2⟩
            · exact absurd rfl h2.1
            · exact ⟨vl, h1, h2.2⟩
      | kUnknown =>
          rw [if_neg (by simp [ternaryIsKnown]), Bool.or_eq_true, hLeS, hGeS]
          constructor
          · rintro (⟨vl, h1, h2⟩ | ⟨vl, h1, h2⟩)
            · exact ⟨vl, h1, Or.inr ⟨by simp, h2⟩⟩
            · exact ⟨vl, h1, Or.inl ⟨by simp, h2⟩⟩
          · rintro ⟨vl, h1, h2 | h2⟩
            · exact Or.inr ⟨vl, h1, h2.2⟩
            · exact Or.inl ⟨vl, h1, h2.2⟩
    · -- shared prefix incompatible with a proper interval: nothing is covered
      have hf : ternaryIsCompatible pre P = false := by simpa using hcp
      rw [if_pos (by rw [hproper, hf]; rfl)]
      constructor
      · intro h; simp at h
      · rintro ⟨v, hc, hcov⟩
        exfalso
        rw [hCov v] at hcov
        have hQ := hforce v hcov.1 hcov.2
        rw [hsplit v] at hc
        obtain ⟨_, _, _, _, hdrop⟩ := hc
        rw [hQ] at hdrop
        exact hcp hdrop
  · -- improper interval: the upper bound has a zero at the divergence bit
    have hproperf : hi.testBit d = false := by simpa using hproper
    have hlobit : lo.testBit d = true := by
      cases hbo : lo.testBit d
      · rw [hbo, hproperf] at hdiff
        exact absurd rfl hdiff
      · rfl
    have hLoD : lo = 2 ^ (d + 1) * P + (2 ^ d + lo % 2 ^ d) := by
      have h := decomp_bits lo d
      rw [← hP_def, hlobit] at h
      simpa using h
    have hHiD : hi = 2 ^ (d + 1) * P + hi % 2 ^ d := by
      have h := decomp_bits hi d
      rw [hPeq, hproperf] at h
      simpa using h
    have hlohi : ¬ (lo ≤ hi) := by omega
    have hCov : ∀ v, iv.Covers v = true ↔ (lo ≤ v ∨ v ≤ hi) := by
      intro v
      unfold Interval.Covers
      rw [← hlo_def, ← hhi_def, if_neg hlohi]
      simp only [Bool.or_eq_true, decide_eq_true_eq]
    rw [if_neg (by rw [hproperf]; simp)]
    by_cases hpe : (ternaryIsFullyKnown pre &&
        decide (ternaryToKnownBitsValues pre = P)) = true
    · -- the prefix of the ternary is fully known and equals the shared prefix
      have hparts := hpe
      simp only [Bool.and_eq_true, decide_eq_true_eq] at hparts
      obtain ⟨hfkp, hknp⟩ := hparts
      rw [if_neg (by rw [hpe]; simp)]
      have hcpP : ternaryIsCompatible pre P = true := by
        rw [← hknp]
        exact compat_toKnownBitsValues pre
      have hforce : ∀ v, ternaryIsCompatible t v = true → v / 2 ^ (d + 1) = P := by
        intro v hc
        rw [hsplit v] at hc
        obtain ⟨_, _, _, _, hdrop⟩ := hc
        have h := compat_fullyKnown_eq pre _ hfkp hdrop
        rw [h, hknp]
      have hmaster : (∃ v, ternaryIsCompatible t v = true ∧ iv.Covers v = true) ↔
          (∃ vl, ternaryIsCompatible tl vl = true ∧
            ((t.getD d TernaryValue.kUnknown ≠ TernaryValue.kKnownZero ∧
                lo % 2 ^ d ≤ vl) ∨
              (t.getD d TernaryValue.kUnknown ≠ TernaryValue.kKnownOne ∧
                vl ≤ hi % 2 ^ d))) := by
        constructor
        · rintro ⟨v, hc, hcov⟩
          have hQ := hforce v hc
          rw [hsplit v] at hc
          obtain ⟨hvw, hcl, hx1, hx0, _⟩ := hc
          have hvd := decomp_bits v d
          rw [hQ] at hvd
          rw [hCov v] at hcov
          refine ⟨v % 2 ^ d, hcl, ?_⟩
          by_cases hb : v.testBit d = true
          · left
            refine ⟨?_, ?_⟩
            · intro hxz
              have hf := hx0 hxz
              rw [hb] at hf
              simp at hf
            · rw [hb] at hvd
              simp at hvd
              rcases hcov with hcov | hcov
              · omega
              · exfalso; omega
          · right
            have hbf : v.testBit d = false := by simpa using hb
            refine ⟨?_, ?_⟩
            · intro hxo
              have hf := hx1 hxo
              rw [hbf] at hf
              simp at hf
            · rw [hbf] at hvd
              simp at hvd
              rcases hcov with hcov | hcov
              · exfalso; omega
              · omega
        · rintro ⟨vl, hcl, hcase⟩
          have hvl_lt : vl < 2 ^ d := by
            have := ternaryIsCompatible_lt tl vl hcl
            rwa [htll] at this
          rcases hcase with ⟨hxne, hge⟩ | ⟨hxne, hle⟩
          · refine ⟨2 ^ (d + 1) * P + (2 ^ d + vl), ?_, ?_⟩
            · rw [hsplit]
              obtain ⟨ha1, ha2, ha3⟩ := assemble_bits d P true vl hvl_lt
              have he : P * 2 ^ (d + 1) + (if true then 2 ^ d else 0) + vl =
                  2 ^ (d + 1) * P + (2 ^ d + vl) := by simp; ring
              rw [he] at ha1 ha2 ha3
              exact ⟨hwlt P (2 ^ d + vl) hPlt (by omega), by rw [ha2]; exact hcl,
                fun _ => ha3, fun h0 => absurd h0 hxne, by rw [ha1]; exact hcpP⟩
            · rw [hCov]
              left
              omega
          · refine ⟨2 ^ (d + 1) * P + vl, ?_, ?_⟩
            · rw [hsplit]
              obtain ⟨ha1, ha2, ha3⟩ := assemble_bits d P false vl hvl_lt
              have he : P * 2 ^ (d + 1) + (if false then 2 ^ d else 0) + vl =
                  2 ^ (d + 1) * P + vl := by simp; ring
              rw [he] at ha1 ha2 ha3
              exact ⟨hwlt P vl hPlt (by omega), by rw [ha2]; exact hcl,
                fun h1 => absurd h1 hxne, fun _ => ha3, by rw [ha1]; exact hcpP⟩
            · rw [hCov]
              right
              omega
      rw [hmaster]
      cases hgd : t.getD d TernaryValue.kUnknown with
      | kKnownZero =>
          rw [if_pos (by rfl), hproperf, if_neg (by decide), hLeS]
          constructor
          · rintro ⟨vl, h1, h2⟩
            exact ⟨vl, h1, Or.inr ⟨by simp, h2⟩⟩
          · rintro ⟨vl, h1, h2 | h2⟩
            · exact absurd rfl h2.1
            · exact ⟨vl, h1, h2.2⟩
      | kKnownOne =>
          rw [if_pos (by rfl), hproperf, if_pos (by decide), hGeS]
          constructor
          · rintro ⟨vl, h1, h2⟩
            exact ⟨vl, h1, Or.inl ⟨by simp, h2⟩⟩
          · rintro ⟨vl, h1, h2 | h2⟩
            · exact ⟨vl, h1, h2.2⟩
            · exact absurd rfl h2.1
      | kUnknown =>
          rw [if_neg (by simp [ternaryIsKnown]), Bool.or_eq_true, hLeS, hGeS]
          constructor
          · rintro (⟨vl, h1, h2⟩ | ⟨vl, h1, h2⟩)
            · exact ⟨vl, h1, Or.inr ⟨by simp, h2⟩⟩
            · exact ⟨vl, h1, Or.inl ⟨by simp, h2⟩⟩
          · rintro ⟨vl, h1, h2 | h2⟩
            · exact Or.inr ⟨vl, h1, h2.2⟩
            · exact Or.inl ⟨vl, h1, h2.2⟩
    · -- the ternary can denote a value outside the excluded prefix: covered
      have hpef : (ternaryIsFullyKnown pre &&
          decide (ternaryToKnownBitsValues pre = P)) = false := by
        simpa using hpe
      rw [if_pos (by rw [hproperf, hpef]; rfl)]
      constructor
      · intro _
        have hplen : P < 2 ^ pre.length := by rw [hple]; exact hPlt
        obtain ⟨Q, hQc, hQne⟩ := exists_incompatible_prefix pre P hplen hpef
        have hQlt : Q < 2 ^ k := by
          have := ternaryIsCompatible_lt pre Q hQc
          rwa [hple] at this
        have hlowc : ternaryIsCompatible (t.take (d + 1))
            (ternaryToKnownBitsValues (t.take (d + 1))) = true :=
          compat_toKnownBitsValues _
        have hlowlt : ternaryToKnownBitsValues (t.take (d + 1)) < 2 ^ (d + 1) := by
          have := ternaryToKnownBitsValues_lt (t.take (d + 1))
          rwa [List.length_take, Nat.min_eq_left (by omega)] at this
        obtain ⟨_, hcl, hx1, hx0⟩ :=
          (compat_take_succ_iff t d (by omega) _).mp hlowc
        have hdecV := val_decomp_testBit (ternaryToKnownBitsValues (t.take (d + 1)))
          d hlowlt
        have hvlm : ternaryToKnownBitsValues (t.take (d + 1)) % 2 ^ d < 2 ^ d :=
          Nat.mod_lt _ (by positivity)
        refine ⟨2 ^ (d + 1) * Q + ternaryToKnownBitsValues (t.take (d + 1)), ?_, ?_⟩
        · rw [hsplit]
          obtain ⟨ha1, ha2, ha3⟩ := assemble_bits d Q
            ((ternaryToKnownBitsValues (t.take (d + 1))).testBit d)
            (ternaryToKnownBitsValues (t.take (d + 1)) % 2 ^ d) hvlm
          have he : Q * 2 ^ (d + 1) +
              (if (ternaryToKnownBitsValues (t.take (d + 1))).testBit d then
                2 ^ d else 0) +
              ternaryToKnownBitsValues (t.take (d + 1)) % 2 ^ d =
              2 ^ (d + 1) * Q + ternaryToKnownBitsValues (t.take (d + 1)) := by
            conv_rhs => rw [hdecV]
            ring
          rw [he] at ha1 ha2 ha3
          refine ⟨hwlt Q _ hQlt hlowlt, by rw [ha2]; exact hcl,
            fun h1 => by rw [ha3]; exact hx1 h1,
            fun h0 => by rw [ha3]; exact hx0 h0, by rw [ha1]; exact hQc⟩
        · rw [hCov]
          rcases Nat.lt_or_ge Q P with hQP | hQP
          · right
            have hmul : 2 ^ (d + 1) * (Q + 1) ≤ 2 ^ (d + 1) * P :=
              Nat.mul_le_mul_left _ hQP
            have hring : 2 ^ (d + 1) * (Q + 1) = 2 ^ (d + 1) * Q + 2 ^ (d + 1) := by
              ring
            omega
          · left
            have hQP' : P + 1 ≤ Q := by omega
            have hmul : 2 ^ (d + 1) * (P + 1) ≤ 2 ^ (d + 1) * Q :=
              Nat.mul_le_mul_left _ hQP'
            have hring : 2 ^ (d + 1) * (P + 1) = 2 ^ (d + 1) * P + 2 ^ (d + 1) := by
              ring
            omega
      · intro _; rfl

theorem coversTernary_interval_iff (iv : Interval) (t : List TernaryValue)
    (hlo : iv.lowerBound < 2 ^ t.length) (hhi : iv.upperBound < 2 ^ t.length) :
    Interval.CoversTernary t.length iv t = true ↔
      ∃ v, ternaryIsCompatible t v = true ∧ iv.Covers v = true := by
  unfold Interval.CoversTernary
  rw [if_neg (by simp)]
  by_cases hfk : ternaryIsFullyKnown t = true
  · rw [if_pos hfk]
    constructor
    · intro h
      exact ⟨ternaryToKnownBitsValues t, compat_toKnownBitsValues t, h⟩
    · rintro ⟨v, hc, hcov⟩
      rwa [compat_fullyKnown_eq t v hfk hc] at hcov
  · rw [if_neg hfk]
    by_cases hpr : iv.IsPrecise = true
    · rw [if_pos hpr]
      have heq : iv.lowerBound = iv.upperBound := by
        unfold Interval.IsPrecise at hpr
        simpa using hpr
      constructor
      · intro h
        refine ⟨iv.lowerBound, h, ?_⟩
        unfold Interval.Covers
        rw [if_pos (by omega)]
        simp only [Bool.and_eq_true, decide_eq_true_eq]
        omega
      · rintro ⟨v, hc, hcov⟩
        unfold Interval.Covers at hcov
        rw [if_pos (by omega)] at hcov
        simp only [Bool.and_eq_true, decide_eq_true_eq] at hcov
        have hv : v = iv.lowerBound := by omega
        rwa [hv] at hc
    · rw [if_neg hpr]
      refine coversTernaryDivergence_iff iv t hlo hhi ?_
      unfold Interval.IsPrecise at hpr
      simpa using hpr

theorem coversTernary_set_iff (s : IntervalSet) (t : List TernaryValue)
    (hbc : s.bitCount = t.length) :
    IntervalSet.CoversTernary s t = true ↔
      ∃ iv ∈ s.intervals, Interval.CoversTernary s.bitCount iv t = true := by
  unfold IntervalSet.CoversTernary
  rw [if_neg (by omega), List.any_eq_true]

/-- C6: for every interval whose bounds fit the ambient width and every
ternary vector of that same bit-width, `CoversTernary(interval, ternary)`
returns true if and only if there exists a concrete value compatible with
the ternary pattern (agreeing with it on every known bit) that lies within
the interval — computed by the proper/improper and known/unknown
divergence-bit case split rather than by enumerating values; and for an
interval set of matching width, the set-level `CoversTernary` is true iff
some member interval covers the ternary. -/
theorem CoversTernary_iff :
    (∀ (iv : Interval) (t : List TernaryValue),
      iv.lowerBound < 2 ^ t.length → iv.upperBound < 2 ^ t.length →
      (Interval.CoversTernary t.length iv t = true ↔
        ∃ v, ternaryIsCompatible t v = true ∧ iv.Covers v = true)) ∧
      (∀ (s : IntervalSet) (t : List TernaryValue), s.bitCount = t.length →
        (IntervalSet.CoversTernary s t = true ↔
          ∃ iv ∈ s.intervals, Interval.CoversTernary s.bitCount iv t = true)) :=
  ⟨fun iv t h1 h2 => coversTernary_interval_iff iv t h1 h2,
    fun s t h => coversTernary_set_iff s t h⟩

/-- Witness for C6 at a width-4 interval `[2, 3]` and the ternary pattern
`0b00_1X` (LSB first: unknown, one, zero, zero). -/
theorem CoversTernary_iff_witness :
    ((Interval.CoversTernary 4 ⟨2, 3⟩
        [TernaryValue.kUnknown, TernaryValue.kKnownOne,
          TernaryValue.kKnownZero, TernaryValue.kKnownZero] = true) ↔
      ∃ v, ternaryIsCompatible
          [TernaryValue.kUnknown, TernaryValue.kKnownOne,
            TernaryValue.kKnownZero, TernaryValue.kKnownZero] v = true ∧
        Interval.Covers ⟨2, 3⟩ v = true) ∧
      ((IntervalSet.CoversTernary ⟨4, [⟨2, 3⟩]⟩
          [TernaryValue.kUnknown, TernaryValue.kKnownOne,
            TernaryValue.kKnownZero, TernaryValue.kKnownZero] = true) ↔
        ∃ iv ∈ [(⟨2, 3⟩ : Interval)], Interval.CoversTernary 4 iv
            [TernaryValue.kUnknown, TernaryValue.kKnownOne,
              TernaryValue.kKnownZero, TernaryValue.kKnownZero] = true) :=
  ⟨CoversTernary_iff.1 ⟨2, 3⟩
      [TernaryValue.kUnknown, TernaryValue.kKnownOne,
        TernaryValue.kKnownZero, TernaryValue.kKnownZero] (by decide) (by decide),
    CoversTernary_iff.2 ⟨4, [⟨2, 3⟩]⟩
      [TernaryValue.kUnknown, TernaryValue.kKnownOne,
        TernaryValue.kKnownZero, TernaryValue.kKnownZero] (by decide)⟩

end xls
